import Mathlib

/-!
The message / streaming translation engine of claude-copilot-proxy.

A shallow embedding of `conversion.go` and `models.go` (package `claudecodeproxy`):

* `ConvertOAIStreamToClaudeStream`, the stream transcoder;
* `ParseClaudeStreamToResponse`, the stream reducer;
* `ConvertClaudeToOAI`, the request rewriter.

Go strings are Lean strings, Go `int` values are `Int` (no arithmetic is done on them),
a `*string` is an `Option String`.  The functions of `encoding/json` are a library, not part
of the package: where the code calls them on data that the package does not build itself,
the embedding takes their result as an argument.
-/

namespace ClaudeProxy

/-! ## Upstream (Chat Completions) stream chunks -/

/-- Go struct `OAIToolCallFunction`. -/
structure OAIToolCallFunction where
  Arguments : String
  Name : String
deriving DecidableEq, Repr

/-- Go struct `OAIToolCall`. -/
structure OAIToolCall where
  Function : OAIToolCallFunction
  Id : String
  Index : Int
  Type_ : String
deriving DecidableEq, Repr

/-- The anonymous struct `Delta` of a choice of `OAIStreamChunk`. -/
structure OAIDelta where
  Content : String
  ToolCalls : List OAIToolCall
deriving DecidableEq, Repr

/-- The anonymous struct of one element of `OAIStreamChunk.Choices`. -/
structure OAIChoice where
  Delta : OAIDelta
  FinishReason : Option String
deriving DecidableEq, Repr

/-- Go struct `OAIUsage`, also the anonymous struct behind `OAIStreamChunk.Usage`. -/
structure OAIUsage where
  PromptTokens : Int
  CompletionTokens : Int
  TotalTokens : Int
deriving DecidableEq, Repr

/-- Go struct `OAIStreamChunk`. -/
structure OAIStreamChunk where
  ID : String
  Object : String
  Created : Int
  Model : String
  Choices : List OAIChoice
  Usage : Option OAIUsage
deriving DecidableEq, Repr

/-- What the read loop of `ConvertOAIStreamToClaudeStream` makes of one line of the upstream
(conversion.go 618-647), after `strings.TrimSpace`:
`skip` is a blank line or a line without the `data: ` marker in front; `done` is the line
`data: [DONE]`; `invalid err` is a data line whose payload `json.Unmarshal` rejects, `err`
being the text of the error; `chunk c` is a data line whose payload unmarshals to `c`.
The end of the list is the end of the upstream (`io.EOF`). -/
inductive UpLine where
  | skip
  | done
  | invalid (err : String)
  | chunk (c : OAIStreamChunk)
deriving DecidableEq, Repr

/-! ## Messages stream events, as the transcoder writes them -/

/-- Go struct `ClaudeUsage`. -/
structure ClaudeUsage where
  InputTokens : Int
  OutputTokens : Int
  CacheCreationInputTokens : Int
  CacheReadInputTokens : Int
deriving DecidableEq, Repr

/-- The `message` map of the `message_start` event (conversion.go 578-592).  The `content`
entry is the empty `[]any` literal, kept as the number of its elements. -/
structure MessageStartBody where
  id : String
  type_ : String
  role : String
  model : String
  contentLen : Nat
  stop_reason : Option String
  stop_sequence : Option String
  usage : ClaudeUsage
deriving DecidableEq, Repr

/-- The `content_block` map of a `content_block_start` event: `{type:"text", text}` or
`{type:"tool_use", id, name, input:{}}`. -/
inductive BlockStart where
  | text (text : String)
  | toolUse (id : String) (name : String)
deriving DecidableEq, Repr

/-- The `delta` map of a `content_block_delta` event: `{type:"text_delta", text}` or
`{type:"input_json_delta", partial_json, index}`. -/
inductive BlockDelta where
  | textDelta (text : String)
  | inputJsonDelta (PartialJSON : String) (index : Int)
deriving DecidableEq, Repr

/-- One `{event, data}` map handed to `encoder.Encode` by the transcoder. -/
inductive StreamEvent where
  | messageStart (message : MessageStartBody)
  | contentBlockStart (index : Int) (block : BlockStart)
  | ping
  | contentBlockDelta (index : Int) (delta : BlockDelta)
  | contentBlockStop (index : Int)
  | messageDelta (stop_reason : String) (stop_sequence : Option String) (output_tokens : Int)
  | messageStop
deriving DecidableEq, Repr

/-- One write to the downstream writer `w`: an event through `encoder.Encode`, the inline
error notice of conversion.go 642, or the terminal marker of conversion.go 777 and 812. -/
inductive Written where
  | event (e : StreamEvent)
  | errorNotice (err : String)
  | done
deriving DecidableEq, Repr

/-- The bytes of the terminal marker, `fmt.Fprint(w, "data: [DONE]\n\n")`. -/
def doneMarker : String := "data: [DONE]\n\n"

/-- The bytes of the inline error notice,
`fmt.Fprintf(w, "data: {\"error\": \"invalid chunk: %s\"}\n\n", err.Error())`. -/
def errorNoticeText (err : String) : String :=
  "data: \x7b\"error\": \"invalid chunk: " ++ err ++ "\"\x7d\n\n"

/-- The literal bytes of a write that does not go through the JSON encoder. -/
def Written.rawBytes : Written → Option String
  | .event _ => none
  | .errorNotice err => some (errorNoticeText err)
  | .done => some doneMarker

/-! ## The stream transcoder -/

/-- The local variables of `ConvertOAIStreamToClaudeStream` (conversion.go 609-616). -/
structure TranscoderState where
  accumulatedText : String
  textBlockClosed : Bool
  outputTokens : Int
  lastToolIndex : Int
deriving DecidableEq, Repr

/-- The variables as declared before the read loop: `lastToolIndex := -1`, the rest zero. -/
def TranscoderState.init : TranscoderState :=
  { accumulatedText := "", textBlockClosed := false, outputTokens := 0, lastToolIndex := -1 }

/-- `fmt.Sprintf("msg_%024x", n)` for a natural number: lower-case hexadecimal, padded with
zeros on the left to 24 digits. -/
def sprintfMsgID (n : Nat) : String :=
  let digits := Nat.toDigits 16 n
  "msg_" ++ String.mk (List.replicate (24 - digits.length) '0' ++ digits)

/-- The three events written before any upstream line is read (conversion.go 574-607). -/
def initialEvents (model : String) : List Written :=
  [ .event (.messageStart
      { id := sprintfMsgID 0, type_ := "message", role := "assistant", model := model,
        contentLen := 0, stop_reason := none, stop_sequence := none,
        usage := { InputTokens := 0, OutputTokens := 0,
                   CacheCreationInputTokens := 0, CacheReadInputTokens := 0 } }),
    .event (.contentBlockStart 0 (.text "")),
    .event .ping ]

/-- The body of `for _, toolCall := range choice.Delta.ToolCalls` (conversion.go 663-705):
the new value of `lastToolIndex` and the events written. -/
def processToolCall (lastToolIndex : Int) (toolCall : OAIToolCall) : Int × List Written :=
  let stop : List Written :=
    if lastToolIndex ≠ toolCall.Index ∧ lastToolIndex = -1 then
      [.event (.contentBlockStop lastToolIndex)]
    else []
  let start : List Written :=
    if lastToolIndex ≠ toolCall.Index then
      [.event (.contentBlockStart toolCall.Index
        (.toolUse toolCall.Id toolCall.Function.Name))]
    else []
  let last : Int := if lastToolIndex ≠ toolCall.Index then toolCall.Index else lastToolIndex
  (last, stop ++ start ++
    [.event (.contentBlockDelta toolCall.Index
      (.inputJsonDelta toolCall.Function.Arguments toolCall.Index))])

/-- The whole `for _, toolCall := range` loop, threading `lastToolIndex`. -/
def processToolCalls : Int → List OAIToolCall → Int × List Written
  | last, [] => (last, [])
  | last, tc :: tcs =>
    let r := processToolCall last tc
    let rest := processToolCalls r.1 tcs
    (rest.1, r.2 ++ rest.2)

/-- The `switch *choice.FinishReason` of conversion.go 747-755. -/
def stopReasonOf (finishReason : String) : String :=
  if finishReason = "length" then "max_tokens"
  else if finishReason = "tool_calls" then "tool_use"
  else if finishReason = "stop" then "end_turn"
  else "end_turn"

/-- The body of `for _, choice := range chunk.Choices` (conversion.go 649-780): the state
after the choice, the events written, and whether the function returned (`return nil` at
conversion.go 778). -/
def processChoice (st : TranscoderState) (choice : OAIChoice) :
    TranscoderState × List Written × Bool :=
  -- Handle tool calls
  let hasTools : Bool := decide (choice.Delta.ToolCalls.length > 0)
  let out1 : List Written :=
    if hasTools ∧ st.textBlockClosed = false then [.event (.contentBlockStop 0)] else []
  let tools := if hasTools then processToolCalls st.lastToolIndex choice.Delta.ToolCalls
               else (st.lastToolIndex, [])
  let st1 : TranscoderState :=
    { st with textBlockClosed := st.textBlockClosed || hasTools, lastToolIndex := tools.1 }
  -- Handle text deltas
  let hasText : Bool := decide (choice.Delta.Content ≠ "") && !st1.textBlockClosed
  let out2 : List Written :=
    if hasText then [.event (.contentBlockDelta 0 (.textDelta choice.Delta.Content))] else []
  let st2 : TranscoderState :=
    if hasText then { st1 with accumulatedText := st1.accumulatedText ++ choice.Delta.Content }
    else st1
  -- Handle finish_reason
  match choice.FinishReason with
  | none => (st2, out1 ++ tools.2 ++ out2, false)
  | some finishReason =>
    let stopTool : List Written :=
      if st2.lastToolIndex ≠ -1 then [.event (.contentBlockStop st2.lastToolIndex)] else []
    let stopText : List Written :=
      if st2.textBlockClosed = false then [.event (.contentBlockStop 0)] else []
    ({ st2 with textBlockClosed := true },
      out1 ++ tools.2 ++ out2 ++ stopTool ++ stopText ++
        [.event (.messageDelta (stopReasonOf finishReason) none st2.outputTokens),
         .event .messageStop,
         .done],
      true)

/-- The `for _, choice := range chunk.Choices` loop: it ends with the list, or at the first
choice on which the function returns. -/
def processChoices : TranscoderState → List OAIChoice → TranscoderState × List Written × Bool
  | st, [] => (st, [], false)
  | st, c :: cs =>
    let r := processChoice st c
    if r.2.2 then r
    else
      let rest := processChoices r.1 cs
      (rest.1, r.2.1 ++ rest.2.1, rest.2.2)

/-- The code after the read loop (conversion.go 786-815), reached when no choice carried a
finish_reason. -/
def endOfStream (st : TranscoderState) : List Written :=
  if st.textBlockClosed = false then
    [.event (.contentBlockStop 0),
     .event (.messageDelta "end_turn" none st.outputTokens),
     .event .messageStop,
     .done]
  else []

/-- The read loop (conversion.go 617-784) followed by the code after it. -/
def readLoop : TranscoderState → List UpLine → List Written
  | st, [] => endOfStream st
  | st, .skip :: rest => readLoop st rest
  | st, .done :: _ => endOfStream st
  | st, .invalid err :: rest => .errorNotice err :: readLoop st rest
  | st, .chunk c :: rest =>
    let r := processChoices st c.Choices
    if r.2.2 then r.2.1 else r.2.1 ++ readLoop r.1 rest

/-- `ConvertOAIStreamToClaudeStream(r, w, model)`: everything written to `w`, in order, for
the upstream whose lines are `lines`.  The results of `encoder.Encode` are discarded by the
code, and reading a stream that is delivered in full gives no error but `io.EOF`, so the
function returns `nil`. -/
def ConvertOAIStreamToClaudeStream (lines : List UpLine) (model : String) : List Written :=
  initialEvents model ++ readLoop TranscoderState.init lines

/-! ## Dynamically typed values -/

/-- Go struct `ClaudeContentBlockText`. -/
structure ClaudeContentBlockText where
  Type_ : String
  Text : String
deriving DecidableEq, Repr

/-- A value of Go type `any`, as far as the type switches and type assertions of the package
tell values apart: the values `encoding/json` decodes into an `any` (`nil`, `bool`, a number,
`string`, `[]any`, `map[string]any`), the typed values the package tests for
(`ClaudeContentBlockText`, `[]ClaudeContentBlockText`, `ClaudeContentBlockToolResult`), a
`*string` (what `ConvertClaudeToOAI` stores as a tool description), and `other` for a value
of any other dynamic type.  A `map[string]any` is the list of its entries, read by
`GoAny.lookup`. -/
inductive GoAny where
  | nil
  | bool (b : Bool)
  | num (v : Int)
  | str (s : String)
  | strPtr (p : Option String)
  | list (xs : List GoAny)
  | map (kvs : List (String × GoAny))
  | textBlock (b : ClaudeContentBlockText)
  | textBlocks (bs : List ClaudeContentBlockText)
  | toolResult (Type_ : String) (ToolUseID : String) (Content : GoAny)
  | other (tag : String)
deriving Repr

/-- The index expression `m[key]` on a `map[string]any`: the value stored, `nil` if absent. -/
def GoAny.lookup : List (String × GoAny) → String → GoAny
  | [], _ => .nil
  | (k, v) :: rest, key => if k = key then v else GoAny.lookup rest key

/-- The type assertion `v.(string)`. -/
def GoAny.asString : GoAny → Option String
  | .str s => some s
  | _ => none

/-- The comparison `v == "lit"` of an `any` with a string constant. -/
def GoAny.isStr (v : GoAny) (lit : String) : Bool :=
  match v with
  | .str s => decide (s = lit)
  | _ => false

/-! ## The stream reducer -/

/-- Go struct `ClaudeContentBlockToolUse`; `Input` is a `map[string]any`. -/
structure ClaudeContentBlockToolUse where
  Type_ : String
  ID : String
  Name : String
  Input : List (String × GoAny)
deriving Repr

/-- An element of `ClaudeMessagesResponse.Content`: the reducer puts only
`*ClaudeContentBlockText` and `*ClaudeContentBlockToolUse` values there. -/
inductive ContentBlock where
  | text (b : ClaudeContentBlockText)
  | toolUse (b : ClaudeContentBlockToolUse)
deriving Repr

/-- Go struct `ClaudeMessagesResponse`. -/
structure ClaudeMessagesResponse where
  ID : String
  Model : String
  Role : String
  Content : List ContentBlock
  Type_ : String
  StopReason : Option String
  StopSequence : Option String
  Usage : ClaudeUsage
deriving Repr

/-- The struct `msg.Message` that `message_start` data is unmarshalled into. -/
structure MessageStartData where
  ID : String
  Model : String
  Usage : ClaudeUsage
deriving DecidableEq, Repr

/-- The struct `cb.ContentBlock` that `content_block_start` data is unmarshalled into. -/
structure ContentBlockStartData where
  Type_ : String
  ID : String
  Name : String
deriving DecidableEq, Repr

/-- The struct `d.Delta` that `content_block_delta` data is unmarshalled into. -/
structure ContentBlockDeltaData where
  Type_ : String
  Text : String
  PartialJSON : String
deriving DecidableEq, Repr

/-- The struct that `message_delta` data is unmarshalled into: `d.Delta.StopReason`,
`d.Delta.StopSequence` and `d.Usage.OutputTokens`. -/
structure MessageDeltaData where
  StopReason : Option String
  StopSequence : Option String
  OutputTokens : Int
deriving DecidableEq, Repr

/-- One record `{event, data}` delivered by `dec.Decode(&event)`, named by its `event` field,
together with the result of the `json.Unmarshal(event.Data, ...)` of its case of the switch
(conversion.go 65-171): `none` when that call returns an error.  `other` is a record whose
event name matches no case (`ping`, a missing name, ...). -/
inductive EventRecord where
  | messageStart (msg : Option MessageStartData)
  | contentBlockStart (cb : Option ContentBlockStartData)
  | contentBlockDelta (d : Option ContentBlockDeltaData)
  | contentBlockStop
  | messageDelta (d : Option MessageDeltaData)
  | messageStop
  | other (event : String)
deriving DecidableEq, Repr

/-- The local variables of `ParseClaudeStreamToResponse` (conversion.go 42-53).
`contentBlocks` only ever receives text blocks; the pointer `currentTextBlock` is the
position in `contentBlocks` of the block it points to. -/
structure ReducerState where
  contentBlocks : List ClaudeContentBlockText
  stopReason : Option String
  stopSequence : Option String
  usage : ClaudeUsage
  id : String
  model : String
  toolUseBlocks : List ClaudeContentBlockToolUse
  currentToolUseBlock : Option ClaudeContentBlockToolUse
  currentToolInputBuilder : String
  currentTextBlock : Option Nat

/-- The variables as declared: all zero values. -/
def ReducerState.init : ReducerState :=
  { contentBlocks := [], stopReason := none, stopSequence := none,
    usage := { InputTokens := 0, OutputTokens := 0,
               CacheCreationInputTokens := 0, CacheReadInputTokens := 0 },
    id := "", model := "", toolUseBlocks := [], currentToolUseBlock := none,
    currentToolInputBuilder := "", currentTextBlock := none }

/-- The assignment `currentTextBlock.Text += text` through the pointer at position `i`. -/
def appendTextAt : List ClaudeContentBlockText → Nat → String → List ClaudeContentBlockText
  | [], _, _ => []
  | b :: bs, 0, text => { b with Text := b.Text ++ text } :: bs
  | b :: bs, i + 1, text => b :: appendTextAt bs i text

/-- The input of a tool-use block at its `content_block_stop` (conversion.go 137-146).
`unmarshalInput s` is the result of `json.Unmarshal([]byte(s), &input)` for
`input map[string]any`: the map on success, `none` on error. -/
def finishInput (unmarshalInput : String → Option (List (String × GoAny)))
    (inputStr : String) : List (String × GoAny) :=
  if inputStr ≠ "" then
    match unmarshalInput inputStr with
    | some input => input
    | none => [("raw", .str inputStr)]
  else []

/-- The `switch event.Event` of the reducer (conversion.go 65-171) on one record. -/
def reduceEvent (unmarshalInput : String → Option (List (String × GoAny)))
    (st : ReducerState) : EventRecord → ReducerState
  | .messageStart (some msg) => { st with id := msg.ID, model := msg.Model, usage := msg.Usage }
  | .messageStart none => st
  | .contentBlockStart (some cb) =>
    if cb.Type_ = "text" then
      { st with contentBlocks := st.contentBlocks ++ [{ Type_ := "text", Text := "" }],
                currentTextBlock := some st.contentBlocks.length,
                currentToolUseBlock := none,
                currentToolInputBuilder := "" }
    else if cb.Type_ = "tool_use" then
      if cb.ID ≠ "" ∧ cb.Name ≠ "" then
        { st with currentToolUseBlock :=
                    some { Type_ := "tool_use", ID := cb.ID, Name := cb.Name, Input := [] },
                  currentToolInputBuilder := "",
                  currentTextBlock := none }
      else
        { st with currentToolUseBlock := none,
                  currentToolInputBuilder := "",
                  currentTextBlock := none }
    else st
  | .contentBlockStart none => st
  | .contentBlockDelta (some d) =>
    if d.Type_ = "text_delta" then
      match st.currentTextBlock with
      | some i => { st with contentBlocks := appendTextAt st.contentBlocks i d.Text }
      | none =>
        { st with contentBlocks := st.contentBlocks ++ [{ Type_ := "text", Text := d.Text }],
                  currentTextBlock := some st.contentBlocks.length }
    else if d.Type_ = "input_json_delta" then
      match st.currentToolUseBlock with
      | some _ =>
        { st with currentToolInputBuilder := st.currentToolInputBuilder ++ d.PartialJSON }
      | none => st
    else st
  | .contentBlockDelta none => st
  | .contentBlockStop =>
    match st.currentToolUseBlock with
    | some tub =>
      { st with toolUseBlocks := st.toolUseBlocks ++
                  [{ tub with Input := finishInput unmarshalInput st.currentToolInputBuilder }],
                currentToolUseBlock := none,
                currentToolInputBuilder := "",
                currentTextBlock := none }
    | none => { st with currentTextBlock := none }
  | .messageDelta (some d) =>
    { st with stopReason := d.StopReason,
              stopSequence := d.StopSequence,
              usage := if d.OutputTokens > 0 then { st.usage with OutputTokens := d.OutputTokens }
                       else st.usage }
  | .messageDelta none => st
  | .messageStop => st
  | .other _ => st

/-- The `for` loop of the reducer (conversion.go 57-172) over the successive results of
`dec.Decode(&event)`: `some r` is a decoded record, `none` a call that returns an error, at
which the loop breaks; the end of the list is the end of the input, where `Decode` returns
`io.EOF`. -/
def reduceLoop (unmarshalInput : String → Option (List (String × GoAny))) :
    ReducerState → List (Option EventRecord) → ReducerState
  | st, [] => st
  | st, none :: _ => st
  | st, some r :: rest => reduceLoop unmarshalInput (reduceEvent unmarshalInput st r) rest

/-- The two loops that build `filteredContentBlocks` (conversion.go 174-185). -/
def filteredContentBlocks (st : ReducerState) : List ContentBlock :=
  (st.contentBlocks.filter (fun b => decide (b.Text ≠ ""))).map ContentBlock.text ++
    st.toolUseBlocks.map ContentBlock.toolUse

/-- `ParseClaudeStreamToResponse(r)`, on the successive results of the JSON decoder that
reads `r` through `eventStreamStripper`. -/
def ParseClaudeStreamToResponse (unmarshalInput : String → Option (List (String × GoAny)))
    (decoded : List (Option EventRecord)) : Except String ClaudeMessagesResponse :=
  let st := reduceLoop unmarshalInput ReducerState.init decoded
  .ok { ID := st.id, Model := st.model, Role := "assistant",
        Content := filteredContentBlocks st, Type_ := "message",
        StopReason := st.stopReason, StopSequence := st.stopSequence, Usage := st.usage }

/-! ## From the transcoder to the reducer -/

/-- The record the reducer decodes from an event the transcoder encoded: the JSON text of
the map, read back into the structs of the reducer.  A `ping` has no case in the switch. -/
def recordOf : StreamEvent → EventRecord
  | .messageStart m => .messageStart (some { ID := m.id, Model := m.model, Usage := m.usage })
  | .contentBlockStart _ (.text _) =>
    .contentBlockStart (some { Type_ := "text", ID := "", Name := "" })
  | .contentBlockStart _ (.toolUse id name) =>
    .contentBlockStart (some { Type_ := "tool_use", ID := id, Name := name })
  | .ping => .other "ping"
  | .contentBlockDelta _ (.textDelta text) =>
    .contentBlockDelta (some { Type_ := "text_delta", Text := text, PartialJSON := "" })
  | .contentBlockDelta _ (.inputJsonDelta pj _) =>
    .contentBlockDelta (some { Type_ := "input_json_delta", Text := "", PartialJSON := pj })
  | .contentBlockStop _ => .contentBlockStop
  | .messageDelta sr ss ot =>
    .messageDelta (some { StopReason := some sr, StopSequence := ss, OutputTokens := ot })
  | .messageStop => .messageStop

/-- What the reducer's decoder makes of one write of the transcoder when the bytes of the
write reach it unaltered, which is so when no read of `eventStreamStripper` cuts its line
next to white space or `data: `, in particular for every write of an output of at most 4096
bytes.  An encoded event is then read back as `recordOf` says.  The terminal marker reaches
the decoder as `[DONE]`, which is no JSON value: the call returns an error.  An error notice
reaches it as `{"error": "invalid chunk: <err>"}` with `<err>` pasted in unescaped;
`decodeNotice` is the decoder's result on the bytes of the notice, `none` when they are not
JSON text. -/
def decodeWritten (decodeNotice : String → Option EventRecord) : Written → Option EventRecord
  | .event e => some (recordOf e)
  | .errorNotice err => decodeNotice (errorNoticeText err)
  | .done => none

/-- The non-streaming path of the proxy: the transcoder writes into a buffer and the reducer
parses the buffer (cmd/proxy/main.go 99-106, and the tests of conversion_test.go), for a run
in which every write reaches the decoder unaltered: `eventStreamStripper` takes the buffer
in reads of 4096 bytes and is left out here, so this is the pipeline for an output of at
most 4096 bytes, and for a longer one as long as no read cuts a line next to white space or
`data: `.  What the stripper delivers in general is `eventStreamStripper`, and `deliveredAs`
bounds what the decoder can read then. -/
def streamToResponse (decodeNotice : String → Option EventRecord)
    (unmarshalInput : String → Option (List (String × GoAny)))
    (lines : List UpLine) (model : String) : Except String ClaudeMessagesResponse :=
  ParseClaudeStreamToResponse unmarshalInput
    ((ConvertOAIStreamToClaudeStream lines model).map (decodeWritten decodeNotice))

/-! ## The request rewriter -/

/-- A Go `float64`, kept as its IEEE-754 bit pattern: the package only copies such values. -/
structure Float64 where
  bits : Nat
deriving DecidableEq, Repr

/-- Go struct `ClaudeMessage`; `Content` is an `any`. -/
structure ClaudeMessage where
  Role : String
  Content : GoAny

/-- Go struct `ClaudeTool`. -/
structure ClaudeTool where
  Name : String
  Description : Option String
  InputSchema : List (String × GoAny)

/-- Go struct `ClaudeThinkingConfig`. -/
structure ClaudeThinkingConfig where
  Enabled : Bool
deriving DecidableEq, Repr

/-- Go struct `ClaudeMessagesRequest`. -/
structure ClaudeMessagesRequest where
  Model : String
  MaxTokens : Int
  Messages : List ClaudeMessage
  System : GoAny
  StopSequences : Option (List String)
  Stream : Option Bool
  Temperature : Option Float64
  TopP : Option Float64
  TopK : Option Int
  Metadata : Option (List (String × GoAny))
  Tools : Option (List ClaudeTool)
  ToolChoice : Option (List (String × GoAny))
  Thinking : Option ClaudeThinkingConfig
  OriginalModel : Option String

/-- Go struct `OAIMessageContent`. -/
structure OAIMessageContent where
  Type_ : String
  Text : String
deriving DecidableEq, Repr

/-- Go struct `OAIMessage`. -/
structure OAIMessage where
  Role : String
  Content : List OAIMessageContent
deriving DecidableEq, Repr

/-- Go struct `OAIFunctionTool`; `Function` is a `map[string]any`. -/
structure OAIFunctionTool where
  Type_ : String
  Function : List (String × GoAny)

/-- Go struct `OAIRequest`. -/
structure OAIRequest where
  Model : String
  Messages : List OAIMessage
  MaxTokens : Int
  Temperature : Option Float64
  TopP : Option Float64
  TopK : Option Int
  Stop : Option (List String)
  Tools : Option (List OAIFunctionTool)
  ToolChoice : GoAny
  Stream : Bool
  APIKey : Option String

/-- `unicode.IsSpace`: the white space of Latin-1 and the other code points of the Unicode
property White_Space. -/
def isSpace (c : Char) : Bool :=
  let n := c.toNat
  (decide (9 ≤ n) && decide (n ≤ 13)) || n == 0x20 || n == 0x85 || n == 0xA0 || n == 0x1680 ||
    (decide (0x2000 ≤ n) && decide (n ≤ 0x200a)) || n == 0x2028 || n == 0x2029 ||
    n == 0x202f || n == 0x205f || n == 0x3000

/-- `strings.TrimSpace`. -/
def TrimSpace (s : String) : String :=
  String.mk ((s.data.dropWhile isSpace).rdropWhile isSpace)

/-- Whether `substr` starts at some position of `s`, scanning from the left. -/
def containsFrom (substr : List Char) : List Char → Bool
  | [] => substr.isPrefixOf []
  | c :: cs => substr.isPrefixOf (c :: cs) || containsFrom substr cs

/-- `strings.Contains(s, substr)`. -/
def Contains (s substr : String) : Bool :=
  containsFrom substr.data s.data

/-- `ConvertToolChoiceClaudeToOAI(toolChoice)` (conversion.go 12-37). -/
def ConvertToolChoiceClaudeToOAI (toolChoice : GoAny) : GoAny :=
  match toolChoice with
  | .nil => .nil
  | .map tc =>
    let choiceType : String := ((GoAny.lookup tc "type").asString).getD ""
    if choiceType = "auto" then .str "auto"
    else if choiceType = "any" then .str "any"
    else if choiceType = "tool" then
      match (GoAny.lookup tc "name").asString with
      | some name => .map [("type", .str "function"), ("function", .map [("name", .str name)])]
      | none => .str "auto"
    else .str "auto"
  | notAMap => notAMap

/-- The text written for the `Content` of a typed `ClaudeContentBlockToolResult`
(conversion.go 274-284).  `marshal v` is `string(b)` for `b, _ := json.Marshal(v)`. -/
def typedResultText (marshal : GoAny → String) : GoAny → String
  | .textBlocks rc => rc.foldl (fun written item => written ++ (item.Text ++ "\n")) ""
  | .str rc => rc ++ "\n"
  | rc => marshal rc ++ "\n"

/-- The text written for one item of a `[]any` tool-result content of a block in map form
(conversion.go 301-317). -/
def mapResultItemText (marshal : GoAny → String) : GoAny → String
  | .map itemMap =>
    if (GoAny.lookup itemMap "type").isStr "text" then
      match (GoAny.lookup itemMap "text").asString with
      | some s => s ++ "\n"
      | none => ""
    else
      match (GoAny.lookup itemMap "text").asString with
      | some s => s ++ "\n"
      | none => marshal (.map itemMap) ++ "\n"
  | .str s => s ++ "\n"
  | item => marshal item ++ "\n"

/-- The text written for the `content` of a tool_result block in map form
(conversion.go 297-333). -/
def mapResultText (marshal : GoAny → String) : GoAny → String
  | .list rc => rc.foldl (fun written item => written ++ mapResultItemText marshal item) ""
  | .map rc =>
    if (GoAny.lookup rc "type").isStr "text" then
      match (GoAny.lookup rc "text").asString with
      | some s => s ++ "\n"
      | none => ""
    else marshal (.map rc) ++ "\n"
  | .str rc => rc ++ "\n"
  | rc => marshal rc ++ "\n"

/-- The body of the first `for _, block := range content` of the user branch
(conversion.go 268-341), on the pair of `hasToolResult` and the text written to
`textContent` so far. -/
def userBlockStep (marshal : GoAny → String) (acc : Bool × String) (block : GoAny) :
    Bool × String :=
  match block with
  | .toolResult _ toolID content =>
    (true, acc.2 ++ ("Tool Result for " ++ toolID ++ ":\n") ++ typedResultText marshal content)
  | .textBlock b => (acc.1, acc.2 ++ (b.Text ++ "\n"))
  | .map blockMap =>
    if (GoAny.lookup blockMap "type").isStr "tool_result" then
      let toolID : String := ((GoAny.lookup blockMap "tool_use_id").asString).getD ""
      (true, acc.2 ++ ("Tool Result for " ++ toolID ++ ":\n") ++
        mapResultText marshal (GoAny.lookup blockMap "content"))
    else if (GoAny.lookup blockMap "type").isStr "text" then
      match (GoAny.lookup blockMap "text").asString with
      | some s => (acc.1, acc.2 ++ (s ++ "\n"))
      | none => acc
    else acc
  | _ => acc

/-- The text entries of a `[]any` content under the normal handling (conversion.go 349-365
for a user message without tool result, 396-412 for the other roles). -/
def textEntries (content : List GoAny) : List OAIMessageContent :=
  content.foldl (fun oaiContents block =>
    match block with
    | .textBlock b => oaiContents ++ [{ Type_ := "text", Text := b.Text }]
    | .map blockMap =>
      if (GoAny.lookup blockMap "type").isStr "text" then
        match (GoAny.lookup blockMap "text").asString with
        | some s => oaiContents ++ [{ Type_ := "text", Text := s }]
        | none => oaiContents
      else oaiContents
    | _ => oaiContents) []

/-- The text entries of a `[]ClaudeContentBlockText` content (conversion.go 258-263 and
389-394). -/
def typedTextEntries (content : List ClaudeContentBlockText) : List OAIMessageContent :=
  content.foldl (fun oaiContents block =>
    oaiContents ++ [{ Type_ := "text", Text := block.Text }]) []

/-- The value of `oaiContents` at the end of the body of `for _, cm := range req.Messages`
(conversion.go 252-420). -/
def flattenContent (marshal : GoAny → String) (cm : ClaudeMessage) : List OAIMessageContent :=
  if cm.Role = "user" then
    match cm.Content with
    | .textBlocks content => typedTextEntries content
    | .list content =>
      let r := content.foldl (userBlockStep marshal) (false, "")
      if r.1 then [{ Type_ := "text", Text := TrimSpace r.2 }]
      else textEntries content
    | .str content => [{ Type_ := "text", Text := content }]
    | content => [{ Type_ := "text", Text := marshal content }]
  else
    match cm.Content with
    | .str content => [{ Type_ := "text", Text := content }]
    | .textBlocks content => typedTextEntries content
    | .list content => textEntries content
    | content => [{ Type_ := "text", Text := marshal content }]

/-- The loop `for _, cm := range req.Messages` (conversion.go 251-431): a message whose
`oaiContents` is empty is passed over, any other is appended. -/
def convertMessages (marshal : GoAny → String) (messages : List ClaudeMessage) :
    List OAIMessage :=
  messages.foldl (fun oaiMessages cm =>
    let oaiContents := flattenContent marshal cm
    if oaiContents.length = 0 then oaiMessages
    else oaiMessages ++ [{ Role := cm.Role, Content := oaiContents }]) []

/-- The loop `for _, t := range *req.Tools` (conversion.go 436-445). -/
def convertTools (tools : List ClaudeTool) : List OAIFunctionTool :=
  tools.foldl (fun oaiTools t =>
    oaiTools ++ [{ Type_ := "function",
                   Function := [("name", .str t.Name),
                                ("description", .strPtr t.Description),
                                ("parameters", .map t.InputSchema)] }]) []

/-- `ConvertClaudeToOAI(req)` (conversion.go 233-455).  `marshal v` is `string(b)` for
`b, _ := json.Marshal(v)`. -/
def ConvertClaudeToOAI (marshal : GoAny → String) (req : ClaudeMessagesRequest) :
    Except String OAIRequest :=
  .ok { Model := if Contains req.Model "haiku" then "gpt-4o-mini" else "gpt-4.1",
        Messages := convertMessages marshal req.Messages,
        MaxTokens := req.MaxTokens,
        Temperature := req.Temperature,
        TopP := req.TopP,
        TopK := req.TopK,
        Stop := req.StopSequences,
        Tools := req.Tools.map convertTools,
        ToolChoice := match req.ToolChoice with
                      | some tc => ConvertToolChoiceClaudeToOAI (.map tc)
                      | none => .nil,
        Stream := true,
        APIKey := none }

/-! ## Notions used to state the properties -/

/-- Whether a write is a `message_delta` event. -/
def isMessageDelta : Written → Bool
  | .event (.messageDelta _ _ _) => true
  | _ => false

/-- The choices of the upstream in the order the read loop meets them: those of the chunk
lines in front of the first `data: [DONE]` line. -/
def choicesRead : List UpLine → List OAIChoice
  | [] => []
  | .skip :: rest => choicesRead rest
  | .done :: _ => []
  | .invalid _ :: rest => choicesRead rest
  | .chunk c :: rest => c.Choices ++ choicesRead rest

/-- The finish reason of the first choice that carries one. -/
def firstFinishReason : List OAIChoice → Option String
  | [] => none
  | c :: cs =>
    match c.FinishReason with
    | some f => some f
    | none => firstFinishReason cs

/-- An upstream chunk line with one choice. -/
def chunkLine (content : String) (toolCalls : List OAIToolCall) (finish : Option String) :
    UpLine :=
  .chunk { ID := "cmpl-abc", Object := "chat.completion.chunk", Created := 123,
           Model := "gpt-4o",
           Choices := [{ Delta := { Content := content, ToolCalls := toolCalls },
                         FinishReason := finish }],
           Usage := none }

/-- A tool-call entry of a delta. -/
def toolCallEntry (index : Int) (id name arguments : String) : OAIToolCall :=
  { Function := { Arguments := arguments, Name := name }, Id := id, Index := index,
    Type_ := "function" }

/-- Two tool calls with the indices 0 and 1, one chunk each, then `finish_reason`
`"tool_calls"` and `data: [DONE]`. -/
def twoToolCallStream : List UpLine :=
  [ chunkLine "" [toolCallEntry 0 "call_1" "get_weather" "\x7b\"city\":\"Paris\"\x7d"] none,
    chunkLine "" [toolCallEntry 1 "call_2" "get_time" "\x7b\x7d"] none,
    chunkLine "" [] (some "tool_calls"),
    .done ]

/-- One tool call and then `data: [DONE]`, no chunk carrying a `finish_reason`. -/
def toolCallNoFinishStream : List UpLine :=
  [ chunkLine "" [toolCallEntry 0 "call_1" "calculator" "\x7b\"expression\": \"2+2\"\x7d"] none,
    .done ]

/-- The upstream of `TestConvertOAIStreamToClaudeStream_ToolCall` (conversion_test.go
266-270): one tool call, whose entry has no `index` and so decodes to index 0, then
`finish_reason` `"tool_calls"` and `data: [DONE]`. -/
def singleToolCallStream : List UpLine :=
  [ .skip,
    chunkLine ""
      [{ Function := { Arguments := "\x7b\"expression\": \"2+2\"\x7d", Name := "calculator" },
         Id := "call_1", Index := 0, Type_ := "" }] none,
    chunkLine "" [] (some "tool_calls"),
    .done ]

/-- Two tool-call entries with the indices 0 and 1 in the `tool_calls` of one delta, then
`finish_reason` `"tool_calls"`. -/
def parallelToolCallStream : List UpLine :=
  [ chunkLine ""
      [ toolCallEntry 0 "call_a" "read_file" "\x7b\"path\":\"a.txt\"\x7d",
        toolCallEntry 1 "call_b" "read_file" "\x7b\"path\":\"b.txt\"\x7d" ] none,
    chunkLine "" [] (some "tool_calls"),
    .done ]

/-- The upstream of `TestConvertOAIStreamToClaudeStream_FinishReason` (conversion_test.go
227-230): one chunk with content `Test` and `finish_reason` `"length"`, then `data: [DONE]`. -/
def lengthStream : List UpLine :=
  [ .skip, chunkLine "Test" [] (some "length"), .done ]

/-- Whether a write is a `content_block_start` event with the given index. -/
def isBlockStartAt (i : Int) : Written → Bool
  | .event (.contentBlockStart j _) => decide (j = i)
  | _ => false

/-- The records of an empty text block that is opened and closed, followed by one streamed
tool-use block: its start, one `input_json_delta` per fragment, its stop
(conversion_test.go 103-107). -/
def emptyTextThenToolUse (id name : String) (fragments : List String) : List EventRecord :=
  [ EventRecord.contentBlockStart (some { Type_ := "text", ID := "", Name := "" }),
    EventRecord.contentBlockStop,
    EventRecord.contentBlockStart (some { Type_ := "tool_use", ID := id, Name := name }) ] ++
  fragments.map (fun f => EventRecord.contentBlockDelta
    (some { Type_ := "input_json_delta", Text := "", PartialJSON := f })) ++
  [ EventRecord.contentBlockStop ]

/-- The text of the error that `json.Unmarshal` returns for the payload `{"a""}`: the
scanner meets a double quote where it expects the colon after the object key. -/
def quoteAfterKeyError : String := "invalid character '\"' after object key"

/-- A text-only upstream with a malformed line between its two chunks:
`data: {..."delta":{"content":"Hi"}...}`, `data: {"a""}`,
`data: {..."delta":{"content":"!"},"finish_reason":"stop"...}`, `data: [DONE]`. -/
def textWithMalformedLineStream : List UpLine :=
  [ chunkLine "Hi" [] none,
    .invalid quoteAfterKeyError,
    chunkLine "!" [] (some "stop"),
    .done ]

/-- One tool call with index 0, id `call_1` and name `Bash`, streamed in two fragments that
concatenate to `{"command":"ls"}`, with the malformed line `data: {"a""}` between the two,
then `finish_reason` `"tool_calls"` and `data: [DONE]`. -/
def toolCallWithMalformedLineStream : List UpLine :=
  [ chunkLine "" [toolCallEntry 0 "call_1" "Bash" "\x7b\"command\":"] none,
    .invalid quoteAfterKeyError,
    chunkLine "" [toolCallEntry 0 "" "" "\"ls\"\x7d"] none,
    chunkLine "" [] (some "tool_calls"),
    .done ]

/-- The result of `json.Unmarshal` into a `map[string]any` on the one text used in the
examples, `{"command":"ls"}`; an error on every other text. -/
def unmarshalCommandLs (s : String) : Option (List (String × GoAny)) :=
  if s = "\x7b\"command\":\"ls\"\x7d" then some [("command", .str "ls")] else none

/-- The strings of a list, one after the other. -/
def concatAll (l : List String) : String :=
  l.foldr (fun s r => s ++ r) ""

/-- The content of a tool_result block, in the three shapes of the data model: a string, a
sequence of text blocks (their texts), or any other structure. -/
inductive ResultContent where
  | text (s : String)
  | textBlocks (texts : List String)
  | other (v : GoAny)

/-- A content block of a user message, as the flattening tells blocks apart: a tool_result
with its `tool_use_id` and content, a text block with its text, or any other block. -/
inductive UserBlock where
  | toolResult (toolUseID : String) (content : ResultContent)
  | text (text : String)
  | other

/-- The text of a block that is a text block in map form: `type` is `"text"` and `text` is
a string. -/
def textOfMap (m : List (String × GoAny)) : Option String :=
  if (GoAny.lookup m "type").isStr "text" then (GoAny.lookup m "text").asString else none

/-- The texts of the items of a `[]any`, when every item is a text block in map form. -/
def textsOfItems : List GoAny → Option (List String)
  | [] => some []
  | .map m :: rest =>
    match textOfMap m, textsOfItems rest with
    | some t, some ts => some (t :: ts)
    | _, _ => none
  | _ :: _ => none

/-- The shape of the `Content` of a typed `ClaudeContentBlockToolResult`: a `string`, a
`[]ClaudeContentBlockText`, anything else. -/
def typedResultContent : GoAny → ResultContent
  | .str s => .text s
  | .textBlocks bs => .textBlocks (bs.map (fun b => b.Text))
  | v => .other v

/-- The shape of the `content` of a tool_result block in map form: a string, a list whose
items are all text blocks in map form, or another structure.  A list with other items and a
map of type `"text"` are outside the three shapes: the code renders them item by item. -/
def mapResultContent : GoAny → Option ResultContent
  | .str s => some (.text s)
  | .list items => (textsOfItems items).map ResultContent.textBlocks
  | .map m => if (GoAny.lookup m "type").isStr "text" then none else some (.other (.map m))
  | v => some (.other v)

/-- The block that a Go value in a `[]any` message content stands for: a typed
`ClaudeContentBlockToolResult` or `ClaudeContentBlockText`, or a map as `encoding/json`
decodes a block (`type` `"tool_result"` with a string `tool_use_id`, or `type` `"text"` with
a string `text`); every other value is another block.  `none` for a map of type
`"tool_result"` or `"text"` that lacks these fields or whose content has none of the three
shapes. -/
def userBlockOf : GoAny → Option UserBlock
  | .toolResult _ toolUseID content =>
    some (.toolResult toolUseID (typedResultContent content))
  | .textBlock b => some (.text b.Text)
  | .map m =>
    if (GoAny.lookup m "type").isStr "tool_result" then
      match (GoAny.lookup m "tool_use_id").asString,
            mapResultContent (GoAny.lookup m "content") with
      | some toolUseID, some content => some (.toolResult toolUseID content)
      | _, _ => none
    else if (GoAny.lookup m "type").isStr "text" then
      ((GoAny.lookup m "text").asString).map UserBlock.text
    else some .other
  | _ => some .other

/-- The blocks that the elements of a `[]any` message content stand for. -/
def userBlocksOf : List GoAny → Option (List UserBlock)
  | [] => some []
  | v :: rest =>
    match userBlockOf v, userBlocksOf rest with
    | some b, some bs => some (b :: bs)
    | _, _ => none

/-- Whether a Go value in a `[]any` message content is a tool_result block, typed or in map
form. -/
def isToolResult : GoAny → Bool
  | .toolResult _ _ _ => true
  | .map m => (GoAny.lookup m "type").isStr "tool_result"
  | _ => false

/-- The rendering of a tool-result content in the words of claim C9: a string verbatim, a
sequence of text blocks as each text followed by a newline, any other structure
JSON-serialised. -/
def ResultContent.claimed (marshal : GoAny → String) : ResultContent → String
  | .text s => s
  | .textBlocks texts => concatAll (texts.map (fun t => t ++ "\n"))
  | .other v => marshal v

/-- The contribution of a block in the words of claim C9: for a tool_result the line
`Tool Result for <tool_use_id>:`, its content rendered as text, and a newline; for a text
block its text and a newline; nothing for any other block. -/
def UserBlock.claimed (marshal : GoAny → String) : UserBlock → String
  | .toolResult toolUseID content =>
    "Tool Result for " ++ toolUseID ++ ":\n" ++ content.claimed marshal ++ "\n"
  | .text t => t ++ "\n"
  | .other => ""

/-- The text of the single entry in the words of claim C9. -/
def claimedText (marshal : GoAny → String) (blocks : List UserBlock) : String :=
  TrimSpace (concatAll (blocks.map (UserBlock.claimed marshal)))

/-- The rendering of a tool-result content as amended: a string and a newline, a sequence
of text blocks as each text followed by a newline and nothing after the sequence, and any
other structure JSON-serialised and a newline. -/
def ResultContent.rendered (marshal : GoAny → String) : ResultContent → String
  | .text s => s ++ "\n"
  | .textBlocks texts => concatAll (texts.map (fun t => t ++ "\n"))
  | .other v => marshal v ++ "\n"

/-- The contribution of a block as amended. -/
def UserBlock.rendered (marshal : GoAny → String) : UserBlock → String
  | .toolResult toolUseID content =>
    "Tool Result for " ++ toolUseID ++ ":\n" ++ content.rendered marshal
  | .text t => t ++ "\n"
  | .other => ""

/-- The text of the single entry as amended. -/
def renderedText (marshal : GoAny → String) (blocks : List UserBlock) : String :=
  TrimSpace (concatAll (blocks.map (UserBlock.rendered marshal)))

/-- A request with the given model and messages, `max_tokens` 256 and nothing else. -/
def requestOf (model : String) (messages : List ClaudeMessage) : ClaudeMessagesRequest :=
  { Model := model, MaxTokens := 256, Messages := messages, System := .nil,
    StopSequences := none, Stream := none, Temperature := none, TopP := none, TopK := none,
    Metadata := none, Tools := none, ToolChoice := none, Thinking := none,
    OriginalModel := none }

/-- The content `[tool_result(T1, [text("a")]), text("hi")]` as `encoding/json` decodes it. -/
def toolResultWithTextBlocks : List GoAny :=
  [ .map [ ("type", .str "tool_result"), ("tool_use_id", .str "T1"),
           ("content", .list [ .map [("type", .str "text"), ("text", .str "a")] ]) ],
    .map [ ("type", .str "text"), ("text", .str "hi") ] ]

/-- The content `[tool_result(T1, "R1"), text("hi")]` of scenario S6 as `encoding/json`
decodes it. -/
def toolResultWithString : List GoAny :=
  [ .map [ ("type", .str "tool_result"), ("tool_use_id", .str "T1"),
           ("content", .str "R1") ],
    .map [ ("type", .str "text"), ("text", .str "hi") ] ]

/-- The text the first loop of the user branch writes for one block. -/
def writtenFor (marshal : GoAny → String) (block : GoAny) : String :=
  (userBlockStep marshal (false, "") block).2

/-- The choices up to and including the first one that carries a `finish_reason`; all of
them when none does. -/
def choicesUpToFinish : List OAIChoice → List OAIChoice
  | [] => []
  | c :: cs =>
    match c.FinishReason with
    | some _ => [c]
    | none => c :: choicesUpToFinish cs

/-- The concatenation, in upstream order, of `delta.content` over the choices the transcoder
processes. -/
def streamText (lines : List UpLine) : String :=
  concatAll ((choicesUpToFinish (choicesRead lines)).map (fun c => c.Delta.Content))

/-- The state of the reducer while the only block of the stream is the text block that the
transcoder opens first: its text so far, the pointer to it, and the stop reason recorded. -/
def textOnlyState (model text : String) (current : Option Nat) (stop : Option String) :
    ReducerState :=
  { contentBlocks := [{ Type_ := "text", Text := text }],
    stopReason := stop, stopSequence := none,
    usage := { InputTokens := 0, OutputTokens := 0,
               CacheCreationInputTokens := 0, CacheReadInputTokens := 0 },
    id := sprintfMsgID 0, model := model, toolUseBlocks := [],
    currentToolUseBlock := none, currentToolInputBuilder := "", currentTextBlock := current }

/-- Everything the transcoder writes after the initial events for an upstream whose choices,
in reading order, are `cs`: the writes of the choices, and the end-of-stream code when no
choice made the function return. -/
def runChoices (st : TranscoderState) (cs : List OAIChoice) : List Written :=
  let r := processChoices st cs
  if r.2.2 then r.2.1 else r.2.1 ++ endOfStream r.1

/-- The tool-call entries of a list of choices, in order. -/
def toolCallsOf (cs : List OAIChoice) : List OAIToolCall :=
  cs.foldr (fun c r => c.Delta.ToolCalls ++ r) []

/-- The tool-call entries the transcoder processes: those of the choices up to and including
the first one that carries a `finish_reason`. -/
def toolCallsRead (lines : List UpLine) : List OAIToolCall :=
  toolCallsOf (choicesUpToFinish (choicesRead lines))

/-- The concatenation, in order, of the `function.arguments` fragments of tool-call
entries. -/
def argumentsOf (tcs : List OAIToolCall) : String :=
  concatAll (tcs.map (fun tc => tc.Function.Arguments))

/-- The tool-use blocks of a response content, in order. -/
def toolUseBlocksOf (content : List ContentBlock) : List ClaudeContentBlockToolUse :=
  content.filterMap (fun b =>
    match b with
    | .toolUse t => some t
    | .text _ => none)

/-- The state of the reducer while a tool-use block is open after the closed text block:
the text of the text block, the id and the name of the tool-use block and the fragments
received so far. -/
def toolOpenState (model text id name builder : String) : ReducerState :=
  { contentBlocks := [{ Type_ := "text", Text := text }],
    stopReason := none, stopSequence := none,
    usage := { InputTokens := 0, OutputTokens := 0,
               CacheCreationInputTokens := 0, CacheReadInputTokens := 0 },
    id := sprintfMsgID 0, model := model, toolUseBlocks := [],
    currentToolUseBlock := some { Type_ := "tool_use", ID := id, Name := name, Input := [] },
    currentToolInputBuilder := builder, currentTextBlock := none }

/-- The state of the reducer after the tool-use block is stopped and the `message_delta`
is read. -/
def toolDoneState (model text id name : String) (input : List (String × GoAny))
    (stop : Option String) : ReducerState :=
  { contentBlocks := [{ Type_ := "text", Text := text }],
    stopReason := stop, stopSequence := none,
    usage := { InputTokens := 0, OutputTokens := 0,
               CacheCreationInputTokens := 0, CacheReadInputTokens := 0 },
    id := sprintfMsgID 0, model := model,
    toolUseBlocks := [{ Type_ := "tool_use", ID := id, Name := name, Input := input }],
    currentToolUseBlock := none, currentToolInputBuilder := "", currentTextBlock := none }

/-- The `input_json_delta` event the transcoder writes for a tool-call entry. -/
def deltaOf (tc : OAIToolCall) : Written :=
  .event (.contentBlockDelta tc.Index (.inputJsonDelta tc.Function.Arguments tc.Index))

/-- The upstream of `TestConvertOAIStreamToClaudeStream_TextOnly` (conversion_test.go
201-205), scenario S1: the contents `Hello, ` and `world!`, the second with `finish_reason`
`"stop"`, then `data: [DONE]`. -/
def helloWorldStream : List UpLine :=
  [ .skip, chunkLine "Hello, " [] none, chunkLine "world!" [] (some "stop"), .done ]

/-- Scenario S4 in short: one tool call with index 0, id `call_1` and name `Bash`, whose
arguments arrive in three fragments after an entry with empty arguments, then
`finish_reason` `"tool_calls"` and `data: [DONE]`. -/
def bashToolCallStream : List UpLine :=
  [ .skip,
    chunkLine "" [toolCallEntry 0 "call_1" "Bash" ""] none,
    chunkLine "" [toolCallEntry 0 "" "" "\x7b\"command\":"] none,
    chunkLine "" [toolCallEntry 0 "" "" "\"ls"] none,
    chunkLine "" [toolCallEntry 0 "" "" "\"\x7d"] none,
    chunkLine "" [] (some "tool_calls"),
    .done ]

/-- The text of a Go value in a `[]any` message content that is a text block: a typed
`ClaudeContentBlockText`, or a map as `encoding/json` decodes a text block (`type` is
`"text"` and `text` is a string); `none` for every other value. -/
def textOfBlock : GoAny → Option String
  | .textBlock b => some b.Text
  | .map m => textOfMap m
  | _ => none

/-- The entry of type `text` with the given text. -/
def textEntry (t : String) : OAIMessageContent :=
  { Type_ := "text", Text := t }

/-- The output message for an input message: its role and its flattened content. -/
def messageOf (marshal : GoAny → String) (cm : ClaudeMessage) : OAIMessage :=
  { Role := cm.Role, Content := flattenContent marshal cm }

/-- The request of `TestConvertClaudeToOAIAndBack` (conversion_test.go 13-22). -/
def helloClaudeRequest : ClaudeMessagesRequest :=
  requestOf "claude-3-sonnet-20240229" [{ Role := "user", Content := .str "Hello, Claude!" }]

/-- The content of an assistant message as `encoding/json` decodes it: a text block, a
tool_use block, a tool_result block and a second text block. -/
def mixedAssistantBlocks : List GoAny :=
  [ .map [ ("type", .str "text"), ("text", .str "Let me check.") ],
    .map [ ("type", .str "tool_use"), ("id", .str "T1"), ("name", .str "Bash"),
           ("input", .map [("command", .str "ls")]) ],
    .map [ ("type", .str "tool_result"), ("tool_use_id", .str "T1"),
           ("content", .str "R1") ],
    .map [ ("type", .str "text"), ("text", .str "Done.") ] ]

/-- The function tool written for a tool of the request (conversion.go 437-444). -/
def functionToolOf (t : ClaudeTool) : OAIFunctionTool :=
  { Type_ := "function",
    Function := [("name", .str t.Name),
                 ("description", .strPtr t.Description),
                 ("parameters", .map t.InputSchema)] }

/-- A request with one tool, `calculator`, and the tool choice
`\x7b"type":"tool","name":"calculator"\x7d`. -/
def calculatorRequest : ClaudeMessagesRequest :=
  { requestOf "claude-3-sonnet-20240229" [{ Role := "user", Content := .str "2+2?" }] with
    Stream := some false,
    Tools := some [{ Name := "calculator", Description := some "Evaluates an expression",
                     InputSchema := [("type", .str "object")] }],
    ToolChoice := some [("type", .str "tool"), ("name", .str "calculator")] }

/-- The type assertion `v.(map[string]any)`. -/
def GoAny.asMap : GoAny → Option (List (String × GoAny))
  | .map kvs => some kvs
  | _ => none

/-- The loop `for _, c := range om.Content` of `ConvertOAIToClaude` (conversion.go 478-487):
the value of `blocks` after it. -/
def textBlocksOf (content : List OAIMessageContent) : List ClaudeContentBlockText :=
  content.foldl (fun blocks c =>
    if c.Type_ = "text" then blocks ++ [{ Type_ := "text", Text := c.Text }] else blocks) []

/-- The loop `for _, om := range req.Messages` of `ConvertOAIToClaude` (conversion.go
473-490): the content of every message is a `[]ClaudeContentBlockText`. -/
def convertMessagesBack (messages : List OAIMessage) : List ClaudeMessage :=
  messages.foldl (fun claudeMessages om =>
    claudeMessages ++ [{ Role := om.Role, Content := .textBlocks (textBlocksOf om.Content) }]) []

/-- The loop `for _, t := range *req.Tools` of `ConvertOAIToClaude` (conversion.go 495-507):
a tool whose `name` is not a string is passed over; `desc` and `params` are the zero values
when the type assertions fail. -/
def convertToolsBack (tools : List OAIFunctionTool) : List ClaudeTool :=
  tools.foldl (fun claudeTools t =>
    match (GoAny.lookup t.Function "name").asString with
    | none => claudeTools
    | some fn =>
      let desc : String := ((GoAny.lookup t.Function "description").asString).getD ""
      let params : List (String × GoAny) := ((GoAny.lookup t.Function "parameters").asMap).getD []
      claudeTools ++ [{ Name := fn, Description := some desc, InputSchema := params }]) []

/-- `ConvertOAIToClaude(req)` (conversion.go 458-521). -/
def ConvertOAIToClaude (req : OAIRequest) : Except String ClaudeMessagesRequest :=
  .ok { Model := req.Model,
        MaxTokens := req.MaxTokens,
        Messages := convertMessagesBack req.Messages,
        System := .nil,
        StopSequences := req.Stop,
        Stream := some req.Stream,
        Temperature := req.Temperature,
        TopP := req.TopP,
        TopK := req.TopK,
        Metadata := none,
        Tools := req.Tools.map convertToolsBack,
        ToolChoice := match req.ToolChoice with
                      | .map tc => some tc
                      | _ => none,
        Thinking := none,
        OriginalModel := none }

/-- Whether a write is a `message_start` event. -/
def isMessageStart : Written → Bool
  | .event (.messageStart _) => true
  | _ => false

/-- Whether a write is a `content_block_start` event. -/
def isBlockStart : Written → Bool
  | .event (.contentBlockStart _ _) => true
  | _ => false

/-- Whether a write is a `content_block_start` event of a text block. -/
def isTextBlockStart : Written → Bool
  | .event (.contentBlockStart _ (.text _)) => true
  | _ => false

/-- The `content_block_start` event the transcoder writes when a tool-call entry opens a
block (conversion.go 676-689): the index, the id and the name of the entry. -/
def toolUseStartOf (tc : OAIToolCall) : Written :=
  .event (.contentBlockStart tc.Index (.toolUse tc.Id tc.Function.Name))

/-- One tool call whose entry has the index 1, then `finish_reason` `"tool_calls"` and
`data: [DONE]`. -/
def toolCallIndexOneStream : List UpLine :=
  [ chunkLine "" [toolCallEntry 1 "call_1" "calculator" "\x7b\"expression\": \"2+2\"\x7d"] none,
    chunkLine "" [] (some "tool_calls"),
    .done ]

/-- Whether a write is a `content_block_stop` event with the given index. -/
def isBlockStopAt (i : Int) : Written → Bool
  | .event (.contentBlockStop j) => decide (j = i)
  | _ => false

/-- Whether a write is a `message_stop` event. -/
def isMessageStop : Written → Bool
  | .event .messageStop => true
  | _ => false

/-- Whether a write belongs to the end of a response: a `message_delta` event, a
`message_stop` event or the `data: [DONE]` marker. -/
def isClosingWrite : Written → Bool
  | .event (.messageDelta _ _ _) => true
  | .event .messageStop => true
  | .done => true
  | _ => false

/-- The tool index on record after a write: the index of a `content_block_start` of a
tool-use block, the index on record before any other write. -/
def recordStep (last : Int) : Written → Int
  | .event (.contentBlockStart i (.toolUse _ _)) => i
  | _ => last

/-- The tool index on record after the writes `written`, as the output shows it: the index
of the last tool-use block opened, `-1` when none was opened. -/
def recordedToolIndex (written : List Written) : Int :=
  written.foldl recordStep (-1)

/-- Whether the text block is closed after the writes `written`, as the output shows it:
a `content_block_stop` for index 0 is among them. -/
def textBlockStopped (written : List Written) : Bool :=
  written.any (isBlockStopAt 0)

/-- The closing sequence in the words of claim C20: `content_block_stop` for the tool index
on record if there is one (`-1` stands for none), `content_block_stop` for index 0 if the
text block is still open, one `message_delta` with the stop reason mapped from the finish
reason, one `message_stop` and the `data: [DONE]` marker. -/
def closingWrites (recorded : Int) (textStopped : Bool) (finishReason : String) :
    List Written :=
  (if recorded ≠ -1 then [.event (.contentBlockStop recorded)] else []) ++
  (if textStopped = false then [.event (.contentBlockStop 0)] else []) ++
  [ .event (.messageDelta (stopReasonOf finishReason) none 0),
    .event .messageStop,
    .done ]

/-- The records the reducer reads: the results of `dec.Decode` in front of the first call
that returns an error, at which the loop breaks. -/
def recordsRead : List (Option EventRecord) → List EventRecord
  | [] => []
  | none :: _ => []
  | some r :: rest => r :: recordsRead rest

/-- Whether `later` is the text block `earlier` as it is later in the stream: the same
type, and a text that starts with the text it had. -/
def extendsBlock (earlier later : ClaudeContentBlockText) : Bool :=
  decide (later.Type_ = earlier.Type_) && earlier.Text.data.isPrefixOf later.Text.data

/-- Whether the list `later` keeps the blocks of `earlier` in their order and positions,
each with the text it had or a longer one, in front of the blocks created since. -/
def extendsBlocks : List ClaudeContentBlockText → List ClaudeContentBlockText → Bool
  | [], _ => true
  | _ :: _, [] => false
  | a :: earlier, b :: later => extendsBlock a b && extendsBlocks earlier later

/-- The records of one streamed tool-use block: its `content_block_start`, one
`input_json_delta` per fragment, its `content_block_stop`. -/
def toolUseRecords (id name : String) (fragments : List String) : List EventRecord :=
  [ EventRecord.contentBlockStart (some { Type_ := "tool_use", ID := id, Name := name }) ] ++
  fragments.map (fun f => EventRecord.contentBlockDelta
    (some { Type_ := "input_json_delta", Text := "", PartialJSON := f })) ++
  [ EventRecord.contentBlockStop ]

/-- Whether a record is a `message_delta` whose data decodes. -/
def isMessageDeltaRecord : EventRecord → Bool
  | .messageDelta (some _) => true
  | _ => false

/-- Whether a record is a `message_start` whose data decodes. -/
def isMessageStartRecord : EventRecord → Bool
  | .messageStart (some _) => true
  | _ => false

/-- Whether a record is a `message_delta` whose `usage.output_tokens` is greater than 0. -/
def carriesOutputTokens : EventRecord → Bool
  | .messageDelta (some d) => decide (d.OutputTokens > 0)
  | _ => false

/-- A text block, a streamed tool-use block and then a text delta: text after a tool-use
block. -/
def textAfterToolUse : List EventRecord :=
  [ EventRecord.contentBlockStart (some { Type_ := "text", ID := "", Name := "" }),
    EventRecord.contentBlockDelta (some { Type_ := "text_delta", Text := "a", PartialJSON := "" }),
    EventRecord.contentBlockStop ] ++
  toolUseRecords "call_1" "Bash" ["\x7b\x7d"] ++
  [ EventRecord.contentBlockDelta (some { Type_ := "text_delta", Text := "b", PartialJSON := "" }) ]

/-- A `message_delta` with `output_tokens` 5 followed by a `message_start` whose usage has
`output_tokens` 0. -/
def messageStartAfterDelta : List EventRecord :=
  [ EventRecord.messageDelta
      (some { StopReason := some "end_turn", StopSequence := none, OutputTokens := 5 }),
    EventRecord.messageStart
      (some { ID := "msg_1", Model := "m",
              Usage := { InputTokens := 0, OutputTokens := 0,
                         CacheCreationInputTokens := 0, CacheReadInputTokens := 0 } }) ]

/-- A `message_start` with usage, a `message_delta` with `output_tokens` 7 and a last
`message_delta` with `output_tokens` 0 and no stop sequence. -/
def twoMessageDeltas : List EventRecord :=
  [ EventRecord.messageStart
      (some { ID := "msg_1", Model := "m",
              Usage := { InputTokens := 3, OutputTokens := 1,
                         CacheCreationInputTokens := 0, CacheReadInputTokens := 0 } }),
    EventRecord.messageDelta
      (some { StopReason := some "tool_use", StopSequence := some "x", OutputTokens := 7 }),
    EventRecord.messageDelta
      (some { StopReason := some "end_turn", StopSequence := none, OutputTokens := 0 }) ]

/-- Whether a write is a `content_block_start` event of a tool-use block. -/
def isToolUseStart : Written → Bool
  | .event (.contentBlockStart _ (.toolUse _ _)) => true
  | _ => false

/-- Whether a write is a `content_block_delta` event of type `input_json_delta`. -/
def isInputJsonDelta : Written → Bool
  | .event (.contentBlockDelta _ (.inputJsonDelta _ _)) => true
  | _ => false

/-- Whether a write is a `content_block_delta` event of type `text_delta`. -/
def isTextDelta : Written → Bool
  | .event (.contentBlockDelta _ (.textDelta _)) => true
  | _ => false

/-- Whether a write is an inline error notice. -/
def isErrorNotice : Written → Bool
  | .errorNotice _ => true
  | _ => false

/-- Whether a write belongs to a tool-use block as it is opened and filled: its
`content_block_start` or an `input_json_delta`. -/
def isToolUseWrite (w : Written) : Bool :=
  isToolUseStart w || isInputJsonDelta w

/-- One tool call with the index 0 in front of a choice with `finish_reason`, and a second
tool-call entry with the same index after that choice. -/
def toolCallAfterFinishStream : List UpLine :=
  [ chunkLine "" [toolCallEntry 0 "call_1" "calculator" "\x7b\"expression\":"] none,
    chunkLine "" [] (some "tool_calls"),
    chunkLine "" [toolCallEntry 0 "" "" " \"2+2\"\x7d"] none,
    .done ]

/-- Whether a choice has a non-empty `delta.content`. -/
def hasContent (c : OAIChoice) : Bool :=
  decide (c.Delta.Content ≠ "")

/-- Whether a choice has a non-empty `delta.tool_calls` (`len(choice.Delta.ToolCalls) > 0`). -/
def hasToolCalls (c : OAIChoice) : Bool :=
  decide (c.Delta.ToolCalls.length > 0)

/-- The `text_delta` event for the content of a choice. -/
def textDeltaOf (c : OAIChoice) : Written :=
  .event (.contentBlockDelta 0 (.textDelta c.Delta.Content))

/-- One `text_delta` event for each choice with a non-empty content, in order. -/
def textDeltasOf (cs : List OAIChoice) : List Written :=
  (cs.filter hasContent).map textDeltaOf

/-- The choices in front of the first choice with a non-empty `delta.tool_calls`; all of
them when there is none. -/
def choicesBeforeToolCall (cs : List OAIChoice) : List OAIChoice :=
  cs.takeWhile (fun c => !hasToolCalls c)

/-- The text `Let me check.`, a chunk with a tool call and the content `dropped`, a chunk
with the content `dropped too`, then `finish_reason` `"tool_calls"` and `data: [DONE]`. -/
def textThenToolCallStream : List UpLine :=
  [ chunkLine "Let me check." [] none,
    chunkLine "dropped" [toolCallEntry 1 "call_1" "calculator" "\x7b\x7d"] none,
    chunkLine "dropped too" [] none,
    chunkLine "" [] (some "tool_calls"),
    .done ]

/-- The read loop when reading the upstream may fail.  `readError` is the error other than
`io.EOF` that `lineReader.ReadString` returns once the lines `lines` are read, `none` when
it returns `io.EOF` there.  The result is what is written and the value that the function
returns: the read error when the loop comes to it (conversion.go 619-621), `nil` on every
other path (conversion.go 778 and 815). -/
def readLoopReturn : TranscoderState → List UpLine → Option String →
    List Written × Option String
  | st, [], none => (endOfStream st, none)
  | _, [], some err => ([], some err)
  | st, .skip :: rest, e => readLoopReturn st rest e
  | st, .done :: _, _ => (endOfStream st, none)
  | st, .invalid err :: rest, e =>
    let r := readLoopReturn st rest e
    (.errorNotice err :: r.1, r.2)
  | st, .chunk c :: rest, e =>
    let r := processChoices st c.Choices
    if r.2.2 then (r.2.1, none)
    else
      let t := readLoopReturn r.1 rest e
      (r.2.1 ++ t.1, t.2)

/-- One run of `ConvertOAIStreamToClaudeStream`: the calls of `Write` that the writer `w`
receives, in order, each with the error that the call returned (`none` for success), and
the error that the function returned (`none` for `nil`). -/
structure TranscoderRun where
  writes : List (Written × Option String)
  returned : Option String
deriving DecidableEq, Repr

/-- The calls of `w.Write` for the successive calls of `encoder.Encode`, `fmt.Fprintf` and
`fmt.Fprint` of the function.  `writeError i` is the error that call number `i` of `w.Write`
returns, `i` the number of calls made so far.  `Encode` hands the bytes of an event to the
writer in one call, unless an earlier call through the encoder has failed: a `json.Encoder`
keeps the first error that its writer returns, and every later `Encode` returns that error
without calling the writer (`failed` tells whether the encoder holds an error).
`fmt.Fprintf` and `fmt.Fprint`, which write the error notices and the terminal marker, call
`w.Write` whatever happened before. -/
def writerCalls (writeError : Nat → Option String) :
    Bool → Nat → List Written → List (Written × Option String)
  | _, _, [] => []
  | failed, i, .event e :: rest =>
    if failed then writerCalls writeError true i rest
    else (.event e, writeError i) :: writerCalls writeError (writeError i).isSome (i + 1) rest
  | failed, i, .errorNotice err :: rest =>
    (.errorNotice err, writeError i) :: writerCalls writeError failed (i + 1) rest
  | failed, i, .done :: rest =>
    (.done, writeError i) :: writerCalls writeError failed (i + 1) rest

/-- `ConvertOAIStreamToClaudeStream(r, w, model)` with a reader and a writer that may fail.
`writeError i` is the error that call number `i` of `w.Write` returns, `readError` the error
with which reading the upstream fails after `lines`.  The function discards the result of
every call of `encoder.Encode`, `fmt.Fprintf` and `fmt.Fprint` (conversion.go 594-812), so
the result of a write decides neither what the function reads or calls next nor what it
returns; what reaches the writer is what `writerCalls` says. -/
def ConvertOAIStreamToClaudeStreamRun (writeError : Nat → Option String)
    (lines : List UpLine) (readError : Option String) (model : String) : TranscoderRun :=
  let r := readLoopReturn TranscoderState.init lines readError
  { writes := writerCalls writeError false 0 (initialEvents model ++ r.1),
    returned := r.2 }

/-- Whether an upstream line carries nothing: a blank line or a line without the `data: `
marker, a line whose payload does not decode, a chunk without choices, or a chunk whose
choices have no `delta.content`, no `delta.tool_calls` and no `finish_reason`. -/
def carriesNothing : UpLine → Bool
  | .skip => true
  | .invalid _ => true
  | .chunk c =>
    c.Choices.all (fun ch => !hasContent ch && !hasToolCalls ch && ch.FinishReason.isNone)
  | .done => false

/-- The upstream of `helloWorldStream` with a blank line, a malformed line, a chunk without
choices and a chunk with an empty choice put in. -/
def helloWorldWithEmptyFrames : List UpLine :=
  [ .skip, chunkLine "Hello, " [] none, .skip, .invalid quoteAfterKeyError,
    .chunk { ID := "cmpl-abc", Object := "chat.completion.chunk", Created := 123,
             Model := "gpt-4o", Choices := [], Usage := none },
    chunkLine "" [] none,
    chunkLine "world!" [] (some "stop"), .done ]

/-- `strings.Split(s, "\n")` on the characters of `s`, `current` being the characters of
the piece under way, last first. -/
def splitLinesFrom (current : List Char) : List Char → List (List Char)
  | [] => [current.reverse]
  | c :: cs =>
    if c = '\n' then current.reverse :: splitLinesFrom [] cs
    else splitLinesFrom (c :: current) cs

/-- What the body of `for _, line := range lines` of `eventStreamStripper.Read` appends to
`out` for one piece (conversion.go 215-224): nothing for a piece that is blank once trimmed,
else the trimmed piece without a leading `data: `. -/
def strippedLine (line : String) : String :=
  let trimmed := TrimSpace line
  if trimmed = "" then ""
  else if "data: ".data.isPrefixOf trimmed.data then String.mk (trimmed.data.drop 6)
  else trimmed

/-- What `eventStreamStripper.Read` puts into `e.buf` when the underlying reader returns
the bytes `read` (conversion.go 208-226): the read is split at the newlines and every piece
is stripped, also the pieces in front of the first and after the last newline, which are
parts of lines when the read does not begin and end at line ends. -/
def strippedRead (read : String) : String :=
  concatAll ((splitLinesFrom [] read.data).map (fun piece => strippedLine (String.mk piece)))

/-- The bytes that the JSON decoder of `ParseClaudeStreamToResponse` receives through
`eventStreamStripper` when the underlying reader returns `reads`, one element for each call
of `e.r.Read` (at most 4096 bytes each), and then the end of the input: `Read` hands out
`e.buf` until it is empty and then reads again. -/
def eventStreamStripper (reads : List String) : String :=
  concatAll (reads.map strippedRead)

/-- The delivery in the words of claim C29: the non-blank lines of the whole input, each
trimmed and without a leading `data: `, concatenated. -/
def strippedInput (input : String) : String :=
  strippedRead input

/-- One `content_block_delta` line with the text `Hello, world!`, as the transcoder encodes
it. -/
def helloWorldDeltaLine : String :=
  "\x7b\"data\":\x7b\"delta\":\x7b\"text\":\"Hello, world!\",\"type\":\"text_delta\"\x7d," ++
  "\"index\":0,\"type\":\"content_block_delta\"\x7d,\"event\":\"content_block_delta\"\x7d\n"

/-- The line of `helloWorldDeltaLine` as two reads, the first ending after `Hello, `. -/
def helloWorldDeltaReads : List String :=
  [ "\x7b\"data\":\x7b\"delta\":\x7b\"text\":\"Hello, ",
    "world!\",\"type\":\"text_delta\"\x7d," ++
    "\"index\":0,\"type\":\"content_block_delta\"\x7d,\"event\":\"content_block_delta\"\x7d\n" ]

/-- The request of `helloClaudeRequest` with a system prompt, `stream`, a metadata mapping,
a thinking configuration and an original model put in. -/
def systemPromptRequest : ClaudeMessagesRequest :=
  { helloClaudeRequest with
    System := .str "You are a pirate.",
    Stream := some false,
    Metadata := some [("user_id", .str "u1")],
    Thinking := some { Enabled := true },
    OriginalModel := some "claude-3-opus" }

/-- A tool of the request as it is after `ConvertClaudeToOAI` and `ConvertOAIToClaude`: the
name and the input schema are those of the tool, the description points to the empty
string. -/
def toolWithEmptyDescription (t : ClaudeTool) : ClaudeTool :=
  { Name := t.Name, Description := some "", InputSchema := t.InputSchema }

/-- A request with two tools: `calculator` with a description, `Bash` without one. -/
def twoToolsRequest : ClaudeMessagesRequest :=
  { requestOf "claude-3-sonnet-20240229" [{ Role := "user", Content := .str "2+2?" }] with
    Tools := some [{ Name := "calculator", Description := some "Evaluates an expression",
                     InputSchema := [("type", .str "object")] },
                   { Name := "Bash", Description := none,
                     InputSchema := [("type", .str "object"),
                                     ("required", .list [.str "command"])] }] }

/-- The state of the reducer with the three pointers of the block under way cleared: no
current tool-use block, an empty input builder and no current text block. -/
def clearedCurrent (st : ReducerState) : ReducerState :=
  { st with currentToolUseBlock := none,
            currentToolInputBuilder := "",
            currentTextBlock := none }

/-- The `input_json_delta` record with the given fragment. -/
def inputJsonDeltaRecord (fragment : String) : EventRecord :=
  .contentBlockDelta (some { Type_ := "input_json_delta", Text := "", PartialJSON := fragment })

/-- The `content_block_start` record of a tool-use block with the given id and name. -/
def toolUseStartRecord (id name : String) : EventRecord :=
  .contentBlockStart (some { Type_ := "tool_use", ID := id, Name := name })

/-- A text block with the text `Let me check.` whose `content_block_stop` has not been read
yet. -/
def openTextBlockRecords : List EventRecord :=
  [ EventRecord.contentBlockStart (some { Type_ := "text", ID := "", Name := "" }),
    EventRecord.contentBlockDelta
      (some { Type_ := "text_delta", Text := "Let me check.", PartialJSON := "" }) ]

/-- Whether a tool-call entry carries a non-empty id and a non-empty function name. -/
def hasIdentity (tc : OAIToolCall) : Bool :=
  decide (tc.Id ≠ "" ∧ tc.Function.Name ≠ "")

/-- The entries of the tool-use block under way after one more tool-call entry: an entry
with the index of the block continues it, an entry with another index opens a new block
(conversion.go 664-690). -/
def runAfter (run : List OAIToolCall) (tc : OAIToolCall) : List OAIToolCall :=
  match run with
  | [] => [tc]
  | first :: _ => if first.Index = tc.Index then run ++ [tc] else [tc]

/-- The entries of the tool-use block that the transcoder opens last: the entry that opens
it and the entries that continue it. -/
def lastRun (entries : List OAIToolCall) : List OAIToolCall :=
  entries.foldl runAfter []

/-- The index of the block under way, `-1` when no block has been opened. -/
def lastIndexOf (run : List OAIToolCall) : Int :=
  match run with
  | [] => -1
  | first :: _ => first.Index

/-- The current tool-use block of the reducer while the entries `run` of one block have been
written: the block of the entry that opened it when that entry has an id and a name, none
otherwise. -/
def openedBlock (run : List OAIToolCall) : Option ClaudeContentBlockToolUse :=
  match run with
  | [] => none
  | first :: _ =>
    if hasIdentity first then
      some { Type_ := "tool_use", ID := first.Id, Name := first.Function.Name, Input := [] }
    else none

/-- The input builder of the reducer while the entries `run` of one block have been
written: their fragments when the block has been created, nothing otherwise. -/
def openedBuilder (run : List OAIToolCall) : String :=
  match run with
  | [] => ""
  | first :: _ => if hasIdentity first then argumentsOf run else ""

/-- The tool-use blocks of the response when the block with the entries `run` is the one
stopped by the closing sequence: the block with the id and the name of the entry that opened
it and the input assembled from the fragments of its entries, when that entry has an id and
a name; none otherwise. -/
def survivingBlocks (u : String → Option (List (String × GoAny)))
    (run : List OAIToolCall) : List ClaudeContentBlockToolUse :=
  match run with
  | [] => []
  | first :: _ =>
    if hasIdentity first then
      [{ Type_ := "tool_use", ID := first.Id, Name := first.Function.Name,
         Input := finishInput u (argumentsOf run) }]
    else []

/-- The reducer at one write of the transcoder: the state, and whether the loop has ended
at a write that does not decode. -/
def pipeStep (dn : String → Option EventRecord)
    (u : String → Option (List (String × GoAny)))
    (s : ReducerState × Bool) (w : Written) : ReducerState × Bool :=
  if s.2 then s
  else
    match decodeWritten dn w with
    | none => (s.1, true)
    | some r => (reduceEvent u s.1 r, false)

/-- The end of a response for the state `st` of the transcoder and the finish reason `f`
(conversion.go 725-778): `content_block_stop` for the tool index on record, for the text
block when it is open, `message_delta`, `message_stop` and the terminal marker. -/
def closingOf (st : TranscoderState) (f : String) : List Written :=
  (if st.lastToolIndex ≠ -1 then [.event (.contentBlockStop st.lastToolIndex)] else []) ++
  (if st.textBlockClosed = false then [.event (.contentBlockStop 0)] else []) ++
  [ .event (.messageDelta (stopReasonOf f) none st.outputTokens),
    .event .messageStop,
    .done ]

/-- Two tool calls with the indices 0 and 1 whose entries are interleaved: each is opened by
an entry with its id and name, then the fragments of their arguments alternate; then
`finish_reason` `"tool_calls"` and `data: [DONE]`. -/
def interleavedToolCallStream : List UpLine :=
  [ chunkLine "" [toolCallEntry 0 "call_a" "read_file" ""] none,
    chunkLine "" [toolCallEntry 1 "call_b" "read_file" ""] none,
    chunkLine "" [toolCallEntry 0 "" "" "\x7b\"path\":\"a.txt\"\x7d"] none,
    chunkLine "" [toolCallEntry 1 "" "" "\x7b\"path\":\"b.txt\"\x7d"] none,
    chunkLine "" [] (some "tool_calls"),
    .done ]

/-- Two tool calls one after the other, with the indices 0 and 1: the first in one entry,
then a malformed line, then the second in two entries; then `finish_reason` `"tool_calls"`
and `data: [DONE]`. -/
def twoBashToolCallsStream : List UpLine :=
  [ chunkLine "" [toolCallEntry 0 "call_1" "Bash" "\x7b\"command\":\"pwd\"\x7d"] none,
    .invalid "unexpected end of JSON input",
    chunkLine "" [toolCallEntry 1 "call_2" "Bash" "\x7b\"command\":"] none,
    chunkLine "" [toolCallEntry 1 "" "" "\"ls\"\x7d"] none,
    chunkLine "" [] (some "tool_calls"),
    .done ]

/-- Whether a write goes through the JSON encoder: an event, not an error notice and not the
terminal marker. -/
def isEncoded : Written → Bool
  | .event _ => true
  | _ => false

/-- One tool call whose entry has the name `Bash` and no id, then `finish_reason`
`"tool_calls"` and `data: [DONE]`. -/
def toolCallWithoutIdStream : List UpLine :=
  [ chunkLine "" [toolCallEntry 0 "" "Bash" "\x7b\"command\":\"ls\"\x7d"] none,
    chunkLine "" [] (some "tool_calls"),
    .done ]

/-- The bytes of the `message_start` line in front of the model name (conversion.go
574-594): `encoding/json` writes the keys of a map in sorted order and no white space. -/
def messageStartHead : String :=
  "\x7b\"data\":\x7b\"message\":\x7b\"content\":[]," ++
  "\"id\":\"msg_000000000000000000000000\",\"model\":\""

/-- The bytes of the `message_start` line after the model name, without the newline that
`Encode` puts at the end. -/
def messageStartTail : String :=
  "\",\"role\":\"assistant\",\"stop_reason\":null," ++
  "\"stop_sequence\":null,\"type\":\"message\"," ++
  "\"usage\":\x7b\"cache_creation_input_tokens\":0," ++
  "\"cache_read_input_tokens\":0,\"input_tokens\":0," ++
  "\"output_tokens\":0\x7d\x7d,\"type\":\"message_start\"\x7d," ++
  "\"event\":\"message_start\"\x7d"

/-- The line that `encoder.Encode` writes for the `message_start` event when the model name
is made of characters that the JSON encoder writes as they are (letters, digits, blanks). -/
def messageStartLine (model : String) : String :=
  messageStartHead ++ model ++ messageStartTail ++ "\n"

/-- The bytes that `ConvertOAIStreamToClaudeStream` writes after the `message_start` line
for an upstream without lines: the lines of the `content_block_start` of the text block and
of `ping` (conversion.go 596-607), then those of `content_block_stop`, `message_delta` and
`message_stop` and the terminal marker (conversion.go 787-813). -/
def emptyUpstreamRest : String :=
  ("\x7b\"data\":\x7b\"content_block\":\x7b\"text\":\"\",\"type\":\"text\"\x7d," ++
    "\"index\":0,\"type\":\"content_block_start\"\x7d," ++
    "\"event\":\"content_block_start\"\x7d\n") ++
  ("\x7b\"data\":\x7b\"type\":\"ping\"\x7d,\"event\":\"ping\"\x7d\n") ++
  ("\x7b\"data\":\x7b\"index\":0,\"type\":\"content_block_stop\"\x7d," ++
    "\"event\":\"content_block_stop\"\x7d\n") ++
  ("\x7b\"data\":\x7b\"delta\":\x7b\"stop_reason\":\"end_turn\"," ++
    "\"stop_sequence\":null\x7d,\"type\":\"message_delta\"," ++
    "\"usage\":\x7b\"output_tokens\":0\x7d\x7d," ++
    "\"event\":\"message_delta\"\x7d\n") ++
  ("\x7b\"data\":\x7b\"type\":\"message_stop\"\x7d," ++
    "\"event\":\"message_stop\"\x7d\n") ++
  doneMarker

/-- The bytes that `ConvertOAIStreamToClaudeStream` writes for an upstream without lines
and a model name that the JSON encoder writes as it is. -/
def emptyUpstreamOutput (model : String) : String :=
  messageStartLine model ++ emptyUpstreamRest

/-- The successive pieces of `size` characters of a text, the last one shorter when the
length is no multiple of `size`; `fuel` bounds the number of pieces. -/
def chunksOf (size : Nat) : Nat → List Char → List (List Char)
  | 0, _ => []
  | _ + 1, [] => []
  | fuel + 1, c :: cs => (c :: cs).take size :: chunksOf size fuel ((c :: cs).drop size)

/-- The reads of `eventStreamStripper.Read` from a `bytes.Buffer` that holds `input`
(cmd/proxy/main.go 99-106): each call of `e.r.Read(lineBuf[:])` returns the next 4096 bytes,
the last call the rest (conversion.go 209-210). -/
def bufferReads (input : String) : List String :=
  (chunksOf 4096 input.length input.data).map String.mk

/-- A model name of 4019 characters: 4017 times `a`, a blank and `b`. -/
def longModelName : String :=
  String.mk (List.replicate 4017 'a') ++ " b"

/-- The model name `longModelName` without its blank. -/
def longModelNameWithoutBlank : String :=
  String.mk (List.replicate 4017 'a') ++ "b"

/-- Whether the record `read` can be what the decoder reads for an event whose record as
written is `written`, when the bytes pass through `eventStreamStripper` in reads of 4096
bytes and the line still is JSON text.  The stripper removes white space next to the place
where a read cuts a line, and a `data: ` right after it (conversion.go 215-224).  In a line
of the JSON encoder such bytes occur only inside a string value, so the event name, the
`type` fields and the numbers are read as written, while the strings `model`, `id`, `name`,
`text` and `partial_json` may be read with bytes missing. -/
def sameShape (written read : EventRecord) : Bool :=
  match written, read with
  | .messageStart (some a), .messageStart (some b) => decide (b.ID = a.ID ∧ b.Usage = a.Usage)
  | .contentBlockStart (some a), .contentBlockStart (some b) => decide (b.Type_ = a.Type_)
  | .contentBlockDelta (some a), .contentBlockDelta (some b) => decide (b.Type_ = a.Type_)
  | .contentBlockStop, .contentBlockStop => true
  | .messageDelta (some a), .messageDelta (some b) => decide (b = a)
  | .messageStop, .messageStop => true
  | .other a, .other b => decide (b = a)
  | _, _ => false

/-- Whether `delivered` can be the result of `dec.Decode` for the write `w`, however the
reads of `eventStreamStripper` cut the output: an event is read as a record of the same
shape, or the call returns an error when the bytes that are missing leave no JSON text (a
`data: ` taken out of the middle of an escape sequence); an error notice is read as a record
without an event name, or is no JSON text; the terminal marker is no JSON text. -/
def deliveredAs (w : Written) (delivered : Option EventRecord) : Bool :=
  match w, delivered with
  | .event e, some r => sameShape (recordOf e) r
  | .event _, none => true
  | .errorNotice _, none => true
  | .errorNotice _, some (.other _) => true
  | .done, none => true
  | _, _ => false

/-- The reducer at one result of `dec.Decode`: the state, and whether the loop has ended at
a call that returned an error. -/
def readStep (u : String → Option (List (String × GoAny)))
    (s : ReducerState × Bool) (d : Option EventRecord) : ReducerState × Bool :=
  if s.2 then s
  else
    match d with
    | none => (s.1, true)
    | some r => (reduceEvent u s.1 r, false)

/-- What the writes tell about the tool-use blocks of the reducer, whatever the strings it
reads: whether a tool-use block may be under way (a `content_block_start` of a tool-use
block has been written and no `content_block_stop` and no start of a text block since), and
how many `content_block_stop` events have been written while one may be under way, each of
which may finalise one tool-use block. -/
def stopStep (a : Bool × Nat) : Written → Bool × Nat
  | .event (.contentBlockStart _ (.toolUse _ _)) => (true, a.2)
  | .event (.contentBlockStart _ (.text _)) => (false, a.2)
  | .event (.contentBlockStop _) => (false, if a.1 then a.2 + 1 else a.2)
  | _ => a

/-! ## The transcoder: auxiliary facts -/

theorem filter_isMessageDelta_processToolCalls (last : Int) (tcs : List OAIToolCall) :
    (processToolCalls last tcs).2.filter isMessageDelta = [] := by
  induction tcs generalizing last with
  | nil => rfl
  | cons tc tcs ih =>
    simp only [processToolCalls, List.filter_append, ih, List.append_nil]
    unfold processToolCall
    split_ifs <;> simp [isMessageDelta]

theorem processChoice_outputTokens (st : TranscoderState) (c : OAIChoice) :
    (processChoice st c).1.outputTokens = st.outputTokens := by
  unfold processChoice
  cases c.FinishReason <;> simp only <;> split_ifs <;> rfl

theorem processChoice_of_none (st : TranscoderState) (c : OAIChoice)
    (h : c.FinishReason = none) :
    (processChoice st c).2.2 = false ∧
      (processChoice st c).2.1.filter isMessageDelta = [] := by
  unfold processChoice
  rw [h]
  refine ⟨rfl, ?_⟩
  simp only [List.filter_append]
  have ht := filter_isMessageDelta_processToolCalls st.lastToolIndex c.Delta.ToolCalls
  split_ifs <;> simp [isMessageDelta, ht]

theorem processChoice_of_some (st : TranscoderState) (c : OAIChoice) (f : String)
    (h : c.FinishReason = some f) :
    (processChoice st c).2.2 = true ∧
      (processChoice st c).2.1.filter isMessageDelta =
        [.event (.messageDelta (stopReasonOf f) none st.outputTokens)] := by
  unfold processChoice
  rw [h]
  refine ⟨rfl, ?_⟩
  simp only [List.filter_append]
  have ht := filter_isMessageDelta_processToolCalls st.lastToolIndex c.Delta.ToolCalls
  split_ifs <;> simp [isMessageDelta, ht]

theorem processChoices_of_none (st : TranscoderState) (cs : List OAIChoice)
    (h : firstFinishReason cs = none) :
    (processChoices st cs).2.2 = false ∧
      (processChoices st cs).2.1.filter isMessageDelta = [] ∧
      (processChoices st cs).1.outputTokens = st.outputTokens := by
  induction cs generalizing st with
  | nil => exact ⟨rfl, rfl, rfl⟩
  | cons c cs ih =>
    have hc : c.FinishReason = none := by
      cases hf : c.FinishReason with
      | none => rfl
      | some f => simp [firstFinishReason, hf] at h
    have hcs : firstFinishReason cs = none := by
      simpa [firstFinishReason, hc] using h
    obtain ⟨h1, h2⟩ := processChoice_of_none st c hc
    obtain ⟨i1, i2, i3⟩ := ih (processChoice st c).1 hcs
    simp only [processChoices, h1, Bool.false_eq_true, if_false, List.filter_append, h2,
      List.nil_append]
    exact ⟨i1, i2, by rw [i3, processChoice_outputTokens]⟩

theorem processChoices_of_some (st : TranscoderState) (cs : List OAIChoice) (f : String)
    (h : firstFinishReason cs = some f) :
    (processChoices st cs).2.2 = true ∧
      (processChoices st cs).2.1.filter isMessageDelta =
        [.event (.messageDelta (stopReasonOf f) none st.outputTokens)] := by
  induction cs generalizing st with
  | nil => simp [firstFinishReason] at h
  | cons c cs ih =>
    cases hc : c.FinishReason with
    | some g =>
      have hg : g = f := by simpa [firstFinishReason, hc] using h
      subst hg
      obtain ⟨h1, h2⟩ := processChoice_of_some st c g hc
      simp only [processChoices, h1, if_true]
      exact ⟨trivial, h2⟩
    | none =>
      have hcs : firstFinishReason cs = some f := by
        simpa [firstFinishReason, hc] using h
      obtain ⟨h1, h2⟩ := processChoice_of_none st c hc
      obtain ⟨i1, i2⟩ := ih (processChoice st c).1 hcs
      simp only [processChoices, h1, Bool.false_eq_true, if_false, List.filter_append, h2,
        List.nil_append]
      exact ⟨i1, by rw [i2, processChoice_outputTokens]⟩

theorem firstFinishReason_append (xs ys : List OAIChoice) :
    firstFinishReason (xs ++ ys) =
      match firstFinishReason xs with
      | some f => some f
      | none => firstFinishReason ys := by
  induction xs with
  | nil => cases h : firstFinishReason ys <;> simp [firstFinishReason, h]
  | cons c cs ih =>
    cases hc : c.FinishReason with
    | some g => simp [firstFinishReason, hc]
    | none => simpa [firstFinishReason, hc] using ih

theorem filter_isMessageDelta_readLoop (st : TranscoderState) (lines : List UpLine)
    (f : String) (h : firstFinishReason (choicesRead lines) = some f) :
    (readLoop st lines).filter isMessageDelta =
      [.event (.messageDelta (stopReasonOf f) none st.outputTokens)] := by
  induction lines generalizing st with
  | nil => simp [choicesRead, firstFinishReason] at h
  | cons l rest ih =>
    cases l with
    | skip => exact ih st (by simpa [choicesRead] using h)
    | done => simp [choicesRead, firstFinishReason] at h
    | invalid err =>
      have := ih st (by simpa [choicesRead] using h)
      simpa [readLoop, List.filter_cons, isMessageDelta] using this
    | chunk c =>
      rw [choicesRead, firstFinishReason_append] at h
      cases hc : firstFinishReason c.Choices with
      | some g =>
        rw [hc] at h
        have hg : g = f := by simpa using h
        subst hg
        obtain ⟨h1, h2⟩ := processChoices_of_some st c.Choices g hc
        simp only [readLoop, h1, if_true]
        exact h2
      | none =>
        rw [hc] at h
        obtain ⟨h1, h2, h3⟩ := processChoices_of_none st c.Choices hc
        have := ih (processChoices st c.Choices).1 h
        simp only [readLoop, h1, Bool.false_eq_true, if_false, List.filter_append, h2,
          List.nil_append]
        rw [this, h3]

/-! ## The transcoder: the claims -/

/-- C1 (defect in the code): a `content_block_start` is to be followed by the
`content_block_stop` of the same index before `message_delta`.  On an upstream with two tool
calls of indices 0 and 1 the transcoder opens the tool-use block 0 (sixth write) and never
stops it: after it there is a stop for index 1 only, then `message_delta`, `message_stop` and
the terminal marker. -/
theorem C1_first_tool_block_never_stopped :
    ConvertOAIStreamToClaudeStream twoToolCallStream "claude-3-sonnet-20240229" =
      initialEvents "claude-3-sonnet-20240229" ++
        [ .event (.contentBlockStop 0),
          .event (.contentBlockStop (-1)),
          .event (.contentBlockStart 0 (.toolUse "call_1" "get_weather")),
          .event (.contentBlockDelta 0 (.inputJsonDelta "\x7b\"city\":\"Paris\"\x7d" 0)),
          .event (.contentBlockStart 1 (.toolUse "call_2" "get_time")),
          .event (.contentBlockDelta 1 (.inputJsonDelta "\x7b\x7d" 1)),
          .event (.contentBlockStop 1),
          .event (.messageDelta "tool_use" none 0),
          .event .messageStop,
          .done ] ∧
    (ConvertOAIStreamToClaudeStream twoToolCallStream "claude-3-sonnet-20240229")[5]? =
      some (.event (.contentBlockStart 0 (.toolUse "call_1" "get_weather"))) ∧
    Written.event (.contentBlockStop 0) ∉
      (ConvertOAIStreamToClaudeStream twoToolCallStream "claude-3-sonnet-20240229").drop 6 := by
  decide

/-- C2 (defect in the code): an upstream that ends without a `finish_reason` is to be closed
with `message_delta` (`end_turn`), `message_stop` and the terminal marker.  When a tool call
was seen the transcoder writes none of the three, whether the upstream ends at
`data: [DONE]` or at its end of file: its last write is the `input_json_delta`. -/
theorem C2_no_closing_sequence_after_tool_call :
    ConvertOAIStreamToClaudeStream toolCallNoFinishStream "claude-3-sonnet-20240229" =
      initialEvents "claude-3-sonnet-20240229" ++
        [ .event (.contentBlockStop 0),
          .event (.contentBlockStop (-1)),
          .event (.contentBlockStart 0 (.toolUse "call_1" "calculator")),
          .event (.contentBlockDelta 0
            (.inputJsonDelta "\x7b\"expression\": \"2+2\"\x7d" 0)) ] ∧
    ConvertOAIStreamToClaudeStream toolCallNoFinishStream.dropLast "claude-3-sonnet-20240229" =
      ConvertOAIStreamToClaudeStream toolCallNoFinishStream "claude-3-sonnet-20240229" ∧
    (ConvertOAIStreamToClaudeStream toolCallNoFinishStream
      "claude-3-sonnet-20240229").filter isMessageDelta = [] ∧
    Written.event .messageStop ∉
      ConvertOAIStreamToClaudeStream toolCallNoFinishStream "claude-3-sonnet-20240229" ∧
    Written.done ∉
      ConvertOAIStreamToClaudeStream toolCallNoFinishStream "claude-3-sonnet-20240229" := by
  decide

/-- C3 (defect in the code): no block is to be stopped that was never opened.  On the
upstream of the package's own tool-call test the transcoder writes, between the stop of text
block 0 and the start of the tool-use block, a `content_block_stop` with index -1, and no
`content_block_start` with index -1 occurs anywhere in its output. -/
theorem C3_stop_of_unopened_block :
    ConvertOAIStreamToClaudeStream singleToolCallStream "claude-3-sonnet-20240229" =
      initialEvents "claude-3-sonnet-20240229" ++
        [ .event (.contentBlockStop 0),
          .event (.contentBlockStop (-1)),
          .event (.contentBlockStart 0 (.toolUse "call_1" "calculator")),
          .event (.contentBlockDelta 0
            (.inputJsonDelta "\x7b\"expression\": \"2+2\"\x7d" 0)),
          .event (.contentBlockStop 0),
          .event (.messageDelta "tool_use" none 0),
          .event .messageStop,
          .done ] ∧
    (ConvertOAIStreamToClaudeStream singleToolCallStream
      "claude-3-sonnet-20240229").filter (isBlockStartAt (-1)) = [] := by
  decide

/-- C4 (defect in the code): when a tool-call entry with index 1 arrives while tool block 0
is open, `content_block_stop` for index 0 is to be written before the `content_block_start`
for index 1.  The loop body writes the start and the delta only, and in the output for two
entries in one delta the start of block 1 follows the delta of block 0 directly. -/
theorem C4_no_stop_between_tool_blocks :
    processToolCall 0 (toolCallEntry 1 "call_b" "read_file" "\x7b\"path\":\"b.txt\"\x7d") =
      (1, [ .event (.contentBlockStart 1 (.toolUse "call_b" "read_file")),
            .event (.contentBlockDelta 1 (.inputJsonDelta "\x7b\"path\":\"b.txt\"\x7d" 1)) ]) ∧
    ConvertOAIStreamToClaudeStream parallelToolCallStream "claude-3-sonnet-20240229" =
      initialEvents "claude-3-sonnet-20240229" ++
        [ .event (.contentBlockStop 0),
          .event (.contentBlockStop (-1)),
          .event (.contentBlockStart 0 (.toolUse "call_a" "read_file")),
          .event (.contentBlockDelta 0 (.inputJsonDelta "\x7b\"path\":\"a.txt\"\x7d" 0)),
          .event (.contentBlockStart 1 (.toolUse "call_b" "read_file")),
          .event (.contentBlockDelta 1 (.inputJsonDelta "\x7b\"path\":\"b.txt\"\x7d" 1)),
          .event (.contentBlockStop 1),
          .event (.messageDelta "tool_use" none 0),
          .event .messageStop,
          .done ] := by
  decide

/-- C7: when the first choice that carries a `finish_reason` (among the choices in front of
the first `data: [DONE]` line) has finish reason `f`, the transcoder writes exactly one
`message_delta`; its `stop_reason` is `max_tokens` for `length`, `tool_use` for
`tool_calls`, and `end_turn` for `stop` and for every other string; its `stop_sequence` is
null (and its `output_tokens` is 0). -/
theorem C7_finish_reason_mapping (lines : List UpLine) (model f : String)
    (h : firstFinishReason (choicesRead lines) = some f) :
    (ConvertOAIStreamToClaudeStream lines model).filter isMessageDelta =
      [ .event (.messageDelta
          (if f = "length" then "max_tokens"
           else if f = "tool_calls" then "tool_use"
           else "end_turn") none 0) ] := by
  have hl := filter_isMessageDelta_readLoop TranscoderState.init lines f h
  have hm : stopReasonOf f =
      (if f = "length" then "max_tokens"
       else if f = "tool_calls" then "tool_use" else "end_turn") := by
    unfold stopReasonOf
    split_ifs <;> rfl
  rw [ConvertOAIStreamToClaudeStream, List.filter_append, hl, hm]
  rfl

/-- C7 at the upstream of `TestConvertOAIStreamToClaudeStream_FinishReason`. -/
theorem C7_finish_reason_mapping_witness :
    firstFinishReason (choicesRead lengthStream) = some "length" ∧
    (ConvertOAIStreamToClaudeStream lengthStream "claude-3-sonnet-20240229").filter
        isMessageDelta =
      [ .event (.messageDelta "max_tokens" none 0) ] :=
  ⟨by decide, C7_finish_reason_mapping lengthStream "claude-3-sonnet-20240229" "length"
    (by decide)⟩

/-! ## The reducer: auxiliary facts -/

theorem reduceLoop_map_some_append (u : String → Option (List (String × GoAny)))
    (st : ReducerState) (xs : List EventRecord) (rest : List (Option EventRecord)) :
    reduceLoop u st (xs.map some ++ rest) = reduceLoop u (xs.foldl (reduceEvent u) st) rest := by
  induction xs generalizing st with
  | nil => rfl
  | cons x xs ih => simpa [reduceLoop] using ih (reduceEvent u st x)

theorem reduceEvent_toolUseBlocks (u : String → Option (List (String × GoAny)))
    (st : ReducerState) (e : EventRecord) :
    ∃ extra, (reduceEvent u st e).toolUseBlocks = st.toolUseBlocks ++ extra := by
  cases e with
  | messageStart msg => cases msg <;> exact ⟨[], by simp [reduceEvent]⟩
  | contentBlockStart cb =>
    cases cb with
    | none => exact ⟨[], by simp [reduceEvent]⟩
    | some cb =>
      simp only [reduceEvent]
      split_ifs <;> exact ⟨[], by simp⟩
  | contentBlockDelta d =>
    cases d with
    | none => exact ⟨[], by simp [reduceEvent]⟩
    | some d =>
      simp only [reduceEvent]
      split_ifs
      · cases st.currentTextBlock <;> exact ⟨[], by simp⟩
      · cases st.currentToolUseBlock <;> exact ⟨[], by simp⟩
      · exact ⟨[], by simp⟩
  | contentBlockStop =>
    simp only [reduceEvent]
    cases h : st.currentToolUseBlock with
    | none => exact ⟨[], by simp⟩
    | some tub => exact ⟨_, rfl⟩
  | messageDelta d => cases d <;> exact ⟨[], by simp [reduceEvent]⟩
  | messageStop => exact ⟨[], by simp [reduceEvent]⟩
  | other ev => exact ⟨[], by simp [reduceEvent]⟩

theorem reduceLoop_toolUseBlocks (u : String → Option (List (String × GoAny)))
    (st : ReducerState) (l : List (Option EventRecord)) :
    ∃ extra, (reduceLoop u st l).toolUseBlocks = st.toolUseBlocks ++ extra := by
  induction l generalizing st with
  | nil => exact ⟨[], by simp [reduceLoop]⟩
  | cons x xs ih =>
    cases x with
    | none => exact ⟨[], by simp [reduceLoop]⟩
    | some r =>
      obtain ⟨e1, h1⟩ := reduceEvent_toolUseBlocks u st r
      obtain ⟨e2, h2⟩ := ih (reduceEvent u st r)
      exact ⟨e1 ++ e2, by simp [reduceLoop, h2, h1]⟩

theorem foldl_inputJsonDelta (u : String → Option (List (String × GoAny)))
    (st : ReducerState) (tub : ClaudeContentBlockToolUse) (fs : List String)
    (h : st.currentToolUseBlock = some tub) :
    ((fs.map (fun f => EventRecord.contentBlockDelta
        (some { Type_ := "input_json_delta", Text := "", PartialJSON := f }))).foldl
      (reduceEvent u) st) =
    { st with currentToolInputBuilder := fs.foldl (fun r s => r ++ s) st.currentToolInputBuilder } := by
  induction fs generalizing st with
  | nil => rfl
  | cons f fs ih =>
    simp only [List.map_cons, List.foldl_cons]
    rw [ih]
    · simp [reduceEvent, h]
    · simp [reduceEvent, h]

theorem text_mem_filteredContentBlocks (st : ReducerState) (b : ClaudeContentBlockText)
    (h : ContentBlock.text b ∈ filteredContentBlocks st) : b.Text ≠ "" := by
  simp only [filteredContentBlocks, List.mem_append, List.mem_map, List.mem_filter] at h
  rcases h with ⟨a, ⟨_, ha⟩, hab⟩ | ⟨a, _, hab⟩
  · cases hab
    simpa using ha
  · cases hab

theorem toolUseBlocks_emptyTextThenToolUse (u : String → Option (List (String × GoAny)))
    (st : ReducerState) (id name : String) (fs : List String)
    (hid : id ≠ "") (hname : name ≠ "") :
    ((emptyTextThenToolUse id name fs).foldl (reduceEvent u) st).toolUseBlocks =
      st.toolUseBlocks ++
        [{ Type_ := "tool_use", ID := id, Name := name,
           Input := finishInput u (String.join fs) }] := by
  simp only [emptyTextThenToolUse, List.foldl_append, List.foldl_cons, List.foldl_nil]
  rw [foldl_inputJsonDelta u _ { Type_ := "tool_use", ID := id, Name := name, Input := [] } fs
    (by simp [reduceEvent, hid, hname])]
  simp [reduceEvent, hid, hname, String.join]

theorem toolUse_mem_after_block (u : String → Option (List (String × GoAny)))
    (pre : List EventRecord) (post : List (Option EventRecord))
    (id name : String) (fs : List String) (hid : id ≠ "") (hname : name ≠ "") :
    ContentBlock.toolUse
        { Type_ := "tool_use", ID := id, Name := name,
          Input := finishInput u (String.join fs) } ∈
      filteredContentBlocks (reduceLoop u ReducerState.init
        ((pre ++ emptyTextThenToolUse id name fs).map some ++ post)) := by
  rw [reduceLoop_map_some_append, List.foldl_append]
  obtain ⟨extra, he⟩ := reduceLoop_toolUseBlocks u
    ((emptyTextThenToolUse id name fs).foldl (reduceEvent u)
      (pre.foldl (reduceEvent u) ReducerState.init)) post
  rw [toolUseBlocks_emptyTextThenToolUse u _ id name fs hid hname] at he
  simp only [filteredContentBlocks, he, List.mem_append, List.mem_map]
  right
  exact ⟨_, Or.inl (Or.inr (List.mem_singleton.mpr rfl)), rfl⟩

/-! ## The reducer and the pipeline: the claims -/

/-- C5 (defect in the code): a single streamed tool call that ends with `finish_reason`
`"tool_calls"` is to come out of the pipeline as one tool_use block with
`stop_reason` `"tool_use"`.  The upstream here is such a stream: its two tool-call entries
share index 0, the first carries id and name, the fragments concatenate to
`{"command":"ls"}`.  With a malformed line in the upstream the transcoder pastes the
unescaped error text, which holds a double quote, into its output; the notice is no JSON
text, the reducer stops at it, and the response has no content and no stop reason.  Were the
notice decodable, the response would be the one the claim describes. -/
theorem C5_tool_call_lost_after_error_notice :
    toolCallsRead toolCallWithMalformedLineStream =
      [ toolCallEntry 0 "call_1" "Bash" "\x7b\"command\":",
        toolCallEntry 0 "" "" "\"ls\"\x7d" ] ∧
    argumentsOf (toolCallsRead toolCallWithMalformedLineStream) =
      "\x7b\"command\":\"ls\"\x7d" ∧
    firstFinishReason (choicesRead toolCallWithMalformedLineStream) = some "tool_calls" ∧
    ConvertOAIStreamToClaudeStream toolCallWithMalformedLineStream "claude-3-sonnet-20240229" =
      initialEvents "claude-3-sonnet-20240229" ++
        [ .event (.contentBlockStop 0),
          .event (.contentBlockStop (-1)),
          .event (.contentBlockStart 0 (.toolUse "call_1" "Bash")),
          .event (.contentBlockDelta 0 (.inputJsonDelta "\x7b\"command\":" 0)),
          .errorNotice quoteAfterKeyError,
          .event (.contentBlockDelta 0 (.inputJsonDelta "\"ls\"\x7d" 0)),
          .event (.contentBlockStop 0),
          .event (.messageDelta "tool_use" none 0),
          .event .messageStop,
          .done ] ∧
    (Written.errorNotice quoteAfterKeyError).rawBytes =
      some ("data: \x7b\"error\": \"invalid chunk: invalid character '\"' " ++
        "after object key\"\x7d\n\n") ∧
    streamToResponse (fun _ => none) unmarshalCommandLs
        toolCallWithMalformedLineStream "claude-3-sonnet-20240229" =
      .ok { ID := "msg_000000000000000000000000", Model := "claude-3-sonnet-20240229",
            Role := "assistant", Content := [], Type_ := "message",
            StopReason := none, StopSequence := none,
            Usage := { InputTokens := 0, OutputTokens := 0,
                       CacheCreationInputTokens := 0, CacheReadInputTokens := 0 } } ∧
    streamToResponse (fun _ => some (.other "")) unmarshalCommandLs
        toolCallWithMalformedLineStream "claude-3-sonnet-20240229" =
      .ok { ID := "msg_000000000000000000000000", Model := "claude-3-sonnet-20240229",
            Role := "assistant",
            Content := [ .toolUse { Type_ := "tool_use", ID := "call_1", Name := "Bash",
                                    Input := [("command", .str "ls")] } ],
            Type_ := "message",
            StopReason := some "tool_use", StopSequence := none,
            Usage := { InputTokens := 0, OutputTokens := 0,
                       CacheCreationInputTokens := 0, CacheReadInputTokens := 0 } } := by
  refine ⟨by decide, by decide, by decide, by decide, by decide, ?_, ?_⟩ <;> rfl

/-- C6 (defect in the code): a text-only upstream with the contents `Hi` and `!` and
`finish_reason` `"stop"`, so with T = `Hi!`, is to come out of the pipeline as one text
block `Hi!` with `stop_reason` `"end_turn"`.  With a malformed line between the two chunks
the transcoder writes an error notice that is no JSON text, the reducer stops at it, and
the response is the text block `Hi` with no stop reason.  Were the notice decodable, the
response would be the one the claim describes. -/
theorem C6_text_lost_after_error_notice :
    toolCallsRead textWithMalformedLineStream = [] ∧
    streamText textWithMalformedLineStream = "Hi!" ∧
    firstFinishReason (choicesRead textWithMalformedLineStream) = some "stop" ∧
    ConvertOAIStreamToClaudeStream textWithMalformedLineStream "claude-3-sonnet-20240229" =
      initialEvents "claude-3-sonnet-20240229" ++
        [ .event (.contentBlockDelta 0 (.textDelta "Hi")),
          .errorNotice quoteAfterKeyError,
          .event (.contentBlockDelta 0 (.textDelta "!")),
          .event (.contentBlockStop 0),
          .event (.messageDelta "end_turn" none 0),
          .event .messageStop,
          .done ] ∧
    streamToResponse (fun _ => none) (fun _ => none)
        textWithMalformedLineStream "claude-3-sonnet-20240229" =
      .ok { ID := "msg_000000000000000000000000", Model := "claude-3-sonnet-20240229",
            Role := "assistant",
            Content := [ .text { Type_ := "text", Text := "Hi" } ],
            Type_ := "message",
            StopReason := none, StopSequence := none,
            Usage := { InputTokens := 0, OutputTokens := 0,
                       CacheCreationInputTokens := 0, CacheReadInputTokens := 0 } } ∧
    streamToResponse (fun _ => some (.other "")) (fun _ => none)
        textWithMalformedLineStream "claude-3-sonnet-20240229" =
      .ok { ID := "msg_000000000000000000000000", Model := "claude-3-sonnet-20240229",
            Role := "assistant",
            Content := [ .text { Type_ := "text", Text := "Hi!" } ],
            Type_ := "message",
            StopReason := some "end_turn", StopSequence := none,
            Usage := { InputTokens := 0, OutputTokens := 0,
                       CacheCreationInputTokens := 0, CacheReadInputTokens := 0 } } := by
  refine ⟨by decide, by decide, by decide, by decide, ?_, ?_⟩ <;> rfl

/-- C8 (as amended): the content of the response of `ParseClaudeStreamToResponse` holds no
text block with empty text, for every sequence of decoder results, hence for every output of
the transcoder; and when the stream opens and closes an empty text block and then streams a
tool_use block whose start carries a non-empty id and a non-empty name, whatever comes
before and after, the response contains that tool_use block. -/
theorem C8_no_empty_text_block :
    (∀ (u : String → Option (List (String × GoAny))) (decoded : List (Option EventRecord)),
      ∃ resp, ParseClaudeStreamToResponse u decoded = .ok resp ∧
        ∀ b, ContentBlock.text b ∈ resp.Content → b.Text ≠ "") ∧
    (∀ (dn : String → Option EventRecord) (u : String → Option (List (String × GoAny)))
        (lines : List UpLine) (model : String),
      ∃ resp, streamToResponse dn u lines model = .ok resp ∧
        ∀ b, ContentBlock.text b ∈ resp.Content → b.Text ≠ "") ∧
    (∀ (u : String → Option (List (String × GoAny))) (pre : List EventRecord)
        (post : List (Option EventRecord)) (id name : String) (fragments : List String),
      id ≠ "" → name ≠ "" →
      ∃ resp, ParseClaudeStreamToResponse u
          ((pre ++ emptyTextThenToolUse id name fragments).map some ++ post) = .ok resp ∧
        ContentBlock.toolUse
          { Type_ := "tool_use", ID := id, Name := name,
            Input := finishInput u (String.join fragments) } ∈ resp.Content ∧
        ∀ b, ContentBlock.text b ∈ resp.Content → b.Text ≠ "") := by
  refine ⟨?_, ?_, ?_⟩
  · intro u decoded
    exact ⟨_, rfl, fun b hb => text_mem_filteredContentBlocks _ b hb⟩
  · intro dn u lines model
    exact ⟨_, rfl, fun b hb => text_mem_filteredContentBlocks _ b hb⟩
  · intro u pre post id name fragments hid hname
    exact ⟨_, rfl, toolUse_mem_after_block u pre post id name fragments hid hname,
      fun b hb => text_mem_filteredContentBlocks _ b hb⟩

/-- C8 (as amended) at the events that the text of `TestNoBlankTextBlockInClaudeResponse`
spells out (conversion_test.go 102-109), taken as records: `message_start`, the empty text
block, the tool_use block `Bash`, `message_delta` and `message_stop`. -/
theorem C8_no_empty_text_block_witness :
    "call_aNta7TNMC8U07NRUaIe7GLNl" ≠ "" ∧ "Bash" ≠ "" ∧
    ∃ resp, ParseClaudeStreamToResponse (fun _ => none)
        (([ EventRecord.messageStart (some
              { ID := "msg_000000000000000000000000", Model := "claude-3-7-sonnet-20250219",
                Usage := { InputTokens := 0, OutputTokens := 0,
                           CacheCreationInputTokens := 0, CacheReadInputTokens := 0 } }) ] ++
          emptyTextThenToolUse "call_aNta7TNMC8U07NRUaIe7GLNl" "Bash"
            [ "\x7b\"command\":\"echo hello world\",\"description\":" ++
              "\"Echoes 'hello world' to the terminal\"\x7d" ]).map some ++
          [ some (EventRecord.messageDelta (some
              { StopReason := some "tool_use", StopSequence := none, OutputTokens := 0 })),
            some EventRecord.messageStop ]) = .ok resp ∧
      ContentBlock.toolUse
        { Type_ := "tool_use", ID := "call_aNta7TNMC8U07NRUaIe7GLNl", Name := "Bash",
          Input := finishInput (fun _ => none)
            (String.join [ "\x7b\"command\":\"echo hello world\",\"description\":" ++
              "\"Echoes 'hello world' to the terminal\"\x7d" ]) } ∈ resp.Content ∧
      ∀ b, ContentBlock.text b ∈ resp.Content → b.Text ≠ "" :=
  ⟨by decide, by decide,
    C8_no_empty_text_block.2.2 (fun _ => none) _ _ _ _ _ (by decide) (by decide)⟩

/-- C8, counterexample: a stream that opens and closes an empty text block and then streams
a tool_use block whose start has a name and no id.  The reducer creates a block only for a
start with a non-empty id and a non-empty name (conversion.go 95-108), so the content of the
response is empty: it does not contain the tool_use block.  The same holds for the output of
the transcoder for an upstream whose tool-call entry has no id. -/
theorem C8_counterexample_tool_use_without_id :
    (∃ resp, ParseClaudeStreamToResponse unmarshalCommandLs
        ((emptyTextThenToolUse "" "Bash" ["\x7b\"command\":\"ls\"\x7d"]).map some) =
          .ok resp ∧
      resp.Content = []) ∧
    (∃ resp, streamToResponse (fun _ => none) unmarshalCommandLs toolCallWithoutIdStream
        "claude-3-sonnet-20240229" = .ok resp ∧
      resp.Content = []) :=
  ⟨⟨_, rfl, rfl⟩, ⟨_, rfl, rfl⟩⟩

/-! ## The request rewriter: auxiliary facts -/

theorem containsFrom_iff (sub l : List Char) :
    containsFrom sub l = true ↔ ∃ a b : List Char, l = a ++ sub ++ b := by
  induction l with
  | nil =>
    simp only [containsFrom, List.isPrefixOf_iff_prefix]
    constructor
    · intro h
      have : sub = [] := List.prefix_nil.mp h
      exact ⟨[], [], by simp [this]⟩
    · rintro ⟨a, b, h⟩
      have h' := congrArg List.length h
      simp at h'
      have : sub = [] := List.eq_nil_of_length_eq_zero (by omega)
      simp [this]
  | cons c cs ih =>
    simp only [containsFrom, Bool.or_eq_true, List.isPrefixOf_iff_prefix, ih]
    constructor
    · rintro (⟨b, hb⟩ | ⟨a, b, h⟩)
      · exact ⟨[], b, by simp [hb]⟩
      · exact ⟨c :: a, b, by simp [h]⟩
    · rintro ⟨a, b, h⟩
      cases a with
      | nil => exact Or.inl ⟨b, by simpa using h.symm⟩
      | cons x a =>
        simp only [List.cons_append, List.cons.injEq] at h
        exact Or.inr ⟨a, b, h.2⟩

theorem Contains_iff (s sub : String) :
    Contains s sub = true ↔ ∃ a b : String, s = a ++ sub ++ b := by
  rw [Contains, containsFrom_iff]
  constructor
  · rintro ⟨a, b, h⟩
    exact ⟨⟨a⟩, ⟨b⟩, String.ext (by simpa using h)⟩
  · rintro ⟨a, b, h⟩
    exact ⟨a.data, b.data, by simp [h]⟩


theorem foldl_append_string {α : Type} (f : α → String) (l : List α) (acc : String) :
    l.foldl (fun w x => w ++ f x) acc = acc ++ concatAll (l.map f) := by
  induction l generalizing acc with
  | nil => simp [concatAll]
  | cons x xs ih =>
    simp only [List.foldl_cons, List.map_cons, ih]
    simp [concatAll, String.append_assoc]

theorem userBlockStep_eq (marshal : GoAny → String) (acc : Bool × String) (b : GoAny) :
    userBlockStep marshal acc b = (acc.1 || isToolResult b, acc.2 ++ writtenFor marshal b) := by
  cases b with
  | map kvs =>
    simp only [userBlockStep, writtenFor, isToolResult]
    by_cases h1 : (GoAny.lookup kvs "type").isStr "tool_result" = true
    · simp [h1, String.append_assoc]
    · by_cases h2 : (GoAny.lookup kvs "type").isStr "text" = true
      · cases h3 : (GoAny.lookup kvs "text").asString <;> simp [h1, h2, h3]
      · simp [h1, h2]
  | _ => simp [userBlockStep, writtenFor, isToolResult, String.append_assoc]

theorem foldl_userBlockStep (marshal : GoAny → String) (content : List GoAny)
    (acc : Bool × String) :
    content.foldl (userBlockStep marshal) acc =
      (acc.1 || content.any isToolResult,
        acc.2 ++ concatAll (content.map (writtenFor marshal))) := by
  induction content generalizing acc with
  | nil => simp [concatAll]
  | cons b bs ih =>
    rw [List.foldl_cons, ih, userBlockStep_eq]
    simp [concatAll, String.append_assoc, Bool.or_assoc]

theorem mapResultItems_of_texts (marshal : GoAny → String) (items : List GoAny)
    (texts : List String) (h : textsOfItems items = some texts) :
    items.map (mapResultItemText marshal) = texts.map (fun t => t ++ "\n") := by
  induction items generalizing texts with
  | nil =>
    simp [textsOfItems] at h
    subst h
    rfl
  | cons v rest ih =>
    cases v with
    | map m =>
      simp only [textsOfItems] at h
      cases ht : textOfMap m with
      | none => simp [ht] at h
      | some t =>
        cases hr : textsOfItems rest with
        | none => simp [ht, hr] at h
        | some ts =>
          simp [ht, hr] at h
          subst h
          have hm : mapResultItemText marshal (.map m) = t ++ "\n" := by
            unfold textOfMap at ht
            by_cases h1 : (GoAny.lookup m "type").isStr "text" = true
            · simp [h1] at ht
              simp [mapResultItemText, h1, ht]
            · simp [h1] at ht
          simp [hm, ih ts hr]
    | _ => simp [textsOfItems] at h

theorem mapResultText_of_shape (marshal : GoAny → String) (v : GoAny) (c : ResultContent)
    (h : mapResultContent v = some c) : mapResultText marshal v = c.rendered marshal := by
  cases v with
  | list items =>
    simp only [mapResultContent, Option.map_eq_some'] at h
    obtain ⟨texts, ht, rfl⟩ := h
    simp only [mapResultText, ResultContent.rendered, foldl_append_string,
      mapResultItems_of_texts marshal items texts ht]
    simp
  | map m =>
    simp only [mapResultContent] at h
    by_cases h1 : (GoAny.lookup m "type").isStr "text" = true
    · simp [h1] at h
    · simp [h1] at h
      subst h
      simp [mapResultText, h1, ResultContent.rendered]
  | _ =>
    simp only [mapResultContent, Option.some.injEq] at h
    subst h
    simp [mapResultText, ResultContent.rendered]

theorem typedResultText_eq (marshal : GoAny → String) (v : GoAny) :
    typedResultText marshal v = (typedResultContent v).rendered marshal := by
  cases v with
  | textBlocks bs =>
    simp only [typedResultText, typedResultContent, ResultContent.rendered,
      foldl_append_string, List.map_map]
    simp [Function.comp_def]
  | _ => simp [typedResultText, typedResultContent, ResultContent.rendered]

theorem writtenFor_of_block (marshal : GoAny → String) (v : GoAny) (b : UserBlock)
    (h : userBlockOf v = some b) : writtenFor marshal v = b.rendered marshal := by
  cases v with
  | toolResult ty id c =>
    simp only [userBlockOf, Option.some.injEq] at h
    subst h
    simp [writtenFor, userBlockStep, UserBlock.rendered, typedResultText_eq,
      String.append_assoc]
  | textBlock tb =>
    simp only [userBlockOf, Option.some.injEq] at h
    subst h
    simp [writtenFor, userBlockStep, UserBlock.rendered]
  | map m =>
    simp only [userBlockOf] at h
    by_cases h1 : (GoAny.lookup m "type").isStr "tool_result" = true
    · simp only [h1, if_true] at h
      cases hid : (GoAny.lookup m "tool_use_id").asString with
      | none => simp [hid] at h
      | some id =>
        cases hc : mapResultContent (GoAny.lookup m "content") with
        | none => simp [hid, hc] at h
        | some c =>
          simp [hid, hc] at h
          subst h
          simp [writtenFor, userBlockStep, h1, hid, UserBlock.rendered,
            mapResultText_of_shape marshal _ c hc, String.append_assoc]
    · by_cases h2 : (GoAny.lookup m "type").isStr "text" = true
      · simp only [h1, h2, if_true, Bool.false_eq_true, if_false] at h
        cases ht : (GoAny.lookup m "text").asString with
        | none => simp [ht] at h
        | some t =>
          simp [ht] at h
          subst h
          simp [writtenFor, userBlockStep, h1, h2, ht, UserBlock.rendered]
      · simp [h1, h2] at h
        subst h
        simp [writtenFor, userBlockStep, h1, h2, UserBlock.rendered]
  | _ =>
    simp only [userBlockOf, Option.some.injEq] at h
    subst h
    simp [writtenFor, userBlockStep, UserBlock.rendered]

theorem writtenFor_of_blocks (marshal : GoAny → String) (content : List GoAny)
    (blocks : List UserBlock) (h : userBlocksOf content = some blocks) :
    content.map (writtenFor marshal) = blocks.map (UserBlock.rendered marshal) := by
  induction content generalizing blocks with
  | nil =>
    simp [userBlocksOf] at h
    subst h
    rfl
  | cons v rest ih =>
    simp only [userBlocksOf] at h
    cases hv : userBlockOf v with
    | none => simp [hv] at h
    | some b =>
      cases hr : userBlocksOf rest with
      | none => simp [hv, hr] at h
      | some bs =>
        simp [hv, hr] at h
        subst h
        simp [writtenFor_of_block marshal v b hv, ih bs hr]

theorem convertMessages_foldl (marshal : GoAny → String) (l : List ClaudeMessage)
    (init : List OAIMessage) :
    l.foldl (fun oaiMessages cm =>
        if (flattenContent marshal cm).length = 0 then oaiMessages
        else oaiMessages ++ [{ Role := cm.Role, Content := flattenContent marshal cm }]) init =
      init ++ convertMessages marshal l := by
  induction l generalizing init with
  | nil => simp [convertMessages]
  | cons cm rest ih =>
    have hc : convertMessages marshal (cm :: rest) =
        (if (flattenContent marshal cm).length = 0 then []
         else [{ Role := cm.Role, Content := flattenContent marshal cm }]) ++
          convertMessages marshal rest := by
      show List.foldl _ _ rest = _
      rw [ih]
      simp only []
      split_ifs <;> simp
    rw [List.foldl_cons, ih, hc]
    split_ifs <;> simp

theorem convertMessages_append (marshal : GoAny → String) (a b : List ClaudeMessage) :
    convertMessages marshal (a ++ b) = convertMessages marshal a ++ convertMessages marshal b := by
  rw [convertMessages, List.foldl_append, convertMessages_foldl]
  rfl

theorem convertMessages_user_toolResult (marshal : GoAny → String) (content : List GoAny)
    (h : content.any isToolResult = true) :
    convertMessages marshal [{ Role := "user", Content := .list content }] =
      [{ Role := "user",
         Content := [{ Type_ := "text",
                       Text := TrimSpace (concatAll (content.map (writtenFor marshal))) }] }] := by
  have hany : ∃ x ∈ content, isToolResult x = true := by simpa using h
  simp [convertMessages, flattenContent, foldl_userBlockStep, hany]

/-! ## The request rewriter: the claims -/

/-- C9 (as amended): a user message whose content is a block sequence with at least one
tool_result block gives exactly one output message, with role `user` and exactly one text
entry.  When every block is a text block, a tool_result block whose content is a string, a
sequence of text blocks or another structure, or any other block, the text of the entry is
the whitespace-trimmed concatenation over the blocks in order of: for a tool_result the line
`Tool Result for <tool_use_id>:` and its content, a string followed by a newline, a sequence
of text blocks as each text followed by a newline with nothing after the sequence, and any
other structure JSON-serialised and followed by a newline; for a text block its text and a
newline; nothing for any other block. -/
theorem C9_user_tool_result_flattening (marshal : GoAny → String)
    (req : ClaudeMessagesRequest) (before after : List ClaudeMessage) (content : List GoAny)
    (hreq : req.Messages = before ++ [{ Role := "user", Content := .list content }] ++ after)
    (hres : content.any isToolResult = true) :
    ∃ out text, ConvertClaudeToOAI marshal req = .ok out ∧
      out.Messages =
        convertMessages marshal before ++
          [{ Role := "user", Content := [{ Type_ := "text", Text := text }] }] ++
          convertMessages marshal after ∧
      ∀ blocks, userBlocksOf content = some blocks → text = renderedText marshal blocks := by
  refine ⟨_, TrimSpace (concatAll (content.map (writtenFor marshal))), rfl, ?_, ?_⟩
  · show convertMessages marshal req.Messages = _
    rw [hreq, convertMessages_append, convertMessages_append,
      convertMessages_user_toolResult marshal content hres]
  · intro blocks hb
    rw [renderedText, writtenFor_of_blocks marshal content blocks hb]

/-- C9 as amended at scenario S6, the content `[tool_result(T1, "R1"), text("hi")]`: the
single entry has the text `Tool Result for T1:`, newline, `R1`, newline, `hi`. -/
theorem C9_user_tool_result_flattening_witness :
    (requestOf "claude-3-sonnet-20240229"
        [{ Role := "user", Content := .list toolResultWithString }]).Messages =
      [] ++ [{ Role := "user", Content := .list toolResultWithString }] ++ [] ∧
    toolResultWithString.any isToolResult = true ∧
    userBlocksOf toolResultWithString =
      some [.toolResult "T1" (.text "R1"), .text "hi"] ∧
    renderedText (fun _ => "null") [.toolResult "T1" (.text "R1"), .text "hi"] =
      "Tool Result for T1:\nR1\nhi" ∧
    ∃ out text, ConvertClaudeToOAI (fun _ => "null")
        (requestOf "claude-3-sonnet-20240229"
          [{ Role := "user", Content := .list toolResultWithString }]) = .ok out ∧
      out.Messages =
        convertMessages (fun _ => "null") [] ++
          [{ Role := "user", Content := [{ Type_ := "text", Text := text }] }] ++
          convertMessages (fun _ => "null") [] ∧
      ∀ blocks, userBlocksOf toolResultWithString = some blocks →
        text = renderedText (fun _ => "null") blocks :=
  ⟨rfl, by decide, rfl, by decide,
    C9_user_tool_result_flattening (fun _ => "null") _ [] [] toolResultWithString rfl
      (by decide)⟩

/-- C9 as stated fails on the content `[tool_result(T1, [text("a")]), text("hi")]`: the
claim puts a newline after the rendered content of a tool_result, hence a blank line after
a sequence of text blocks, and gives `Tool Result for T1:`, newline, `a`, newline, newline,
`hi`; the code writes nothing after the sequence and gives `Tool Result for T1:`, newline,
`a`, newline, `hi`. -/
theorem C9_counterexample_text_block_sequence :
    toolResultWithTextBlocks.any isToolResult = true ∧
    userBlocksOf toolResultWithTextBlocks =
      some [.toolResult "T1" (.textBlocks ["a"]), .text "hi"] ∧
    claimedText (fun _ => "null") [.toolResult "T1" (.textBlocks ["a"]), .text "hi"] =
      "Tool Result for T1:\na\n\nhi" ∧
    ∃ out, ConvertClaudeToOAI (fun _ => "null")
        (requestOf "claude-3-sonnet-20240229"
          [{ Role := "user", Content := .list toolResultWithTextBlocks }]) = .ok out ∧
      out.Messages =
        [{ Role := "user",
           Content := [{ Type_ := "text", Text := "Tool Result for T1:\na\nhi" }] }] ∧
      out.Messages ≠
        [{ Role := "user",
           Content := [{ Type_ := "text",
                         Text := claimedText (fun _ => "null")
                           [.toolResult "T1" (.textBlocks ["a"]), .text "hi"] }] }] :=
  ⟨by decide, rfl, by decide, _, rfl, by decide, by decide⟩

/-- C10: the model of the output of `ConvertClaudeToOAI` is `gpt-4o-mini` exactly when the
model name of the request contains the substring `haiku`, and `gpt-4.1` exactly when it
does not; so no other output model occurs. -/
theorem C10_model_name_policy (marshal : GoAny → String) (req : ClaudeMessagesRequest) :
    ∃ out, ConvertClaudeToOAI marshal req = .ok out ∧
      (out.Model = "gpt-4o-mini" ↔ ∃ a b : String, req.Model = a ++ "haiku" ++ b) ∧
      (out.Model = "gpt-4.1" ↔ ¬ ∃ a b : String, req.Model = a ++ "haiku" ++ b) ∧
      (out.Model = "gpt-4o-mini" ∨ out.Model = "gpt-4.1") := by
  refine ⟨_, rfl, ?_, ?_, ?_⟩
  · rw [← Contains_iff]
    by_cases h : Contains req.Model "haiku" = true
    · simp [h]
    · simp [h]
  · rw [← Contains_iff]
    by_cases h : Contains req.Model "haiku" = true
    · simp [h]
    · simp [h]
  · show (if Contains req.Model "haiku" = true then "gpt-4o-mini" else "gpt-4.1") = _ ∨ _
    by_cases h : Contains req.Model "haiku" = true
    · exact Or.inl (by simp [h])
    · exact Or.inr (by simp [h])

/-! ## The pipeline on upstreams whose error notices decode: auxiliary facts -/

theorem processChoice_textOnly (dn : String → Option EventRecord)
    (u : String → Option (List (String × GoAny))) (model : String)
    (st : TranscoderState) (c : OAIChoice) (rest : List (Option EventRecord))
    (hopen : st.textBlockClosed = false) (hlast : st.lastToolIndex = -1)
    (htok : st.outputTokens = 0) (hc : c.Delta.ToolCalls = []) :
    (processChoice st c).1.lastToolIndex = -1 ∧ (processChoice st c).1.outputTokens = 0 ∧
    (processChoice st c).1.accumulatedText = st.accumulatedText ++ c.Delta.Content ∧
    (c.FinishReason = none →
      (processChoice st c).2.2 = false ∧ (processChoice st c).1.textBlockClosed = false ∧
      reduceLoop u (textOnlyState model st.accumulatedText (some 0) none)
          ((processChoice st c).2.1.map (decodeWritten dn) ++ rest) =
        reduceLoop u
          (textOnlyState model (st.accumulatedText ++ c.Delta.Content) (some 0) none) rest) ∧
    (∀ f, c.FinishReason = some f →
      (processChoice st c).2.2 = true ∧
      reduceLoop u (textOnlyState model st.accumulatedText (some 0) none)
          ((processChoice st c).2.1.map (decodeWritten dn) ++ rest) =
        textOnlyState model (st.accumulatedText ++ c.Delta.Content) none
          (some (stopReasonOf f))) := by
  by_cases hcontent : c.Delta.Content = ""
  · refine ⟨?_, ?_, ?_, ?_, ?_⟩
    · unfold processChoice
      cases c.FinishReason <;> simp [hc, hopen, hlast, hcontent]
    · unfold processChoice
      cases c.FinishReason <;> simp [hc, hopen, htok, hcontent]
    · unfold processChoice
      cases c.FinishReason <;> simp [hc, hopen, hcontent]
    · intro hf
      unfold processChoice
      simp [hf, hc, hopen, hcontent]
    · intro f hf
      unfold processChoice
      simp [hf, hc, hopen, hlast, htok, hcontent, decodeWritten, recordOf, reduceLoop,
        reduceEvent, textOnlyState]
  · refine ⟨?_, ?_, ?_, ?_, ?_⟩
    · unfold processChoice
      cases c.FinishReason <;> simp [hc, hopen, hlast, hcontent]
    · unfold processChoice
      cases c.FinishReason <;> simp [hc, hopen, htok, hcontent]
    · unfold processChoice
      cases c.FinishReason <;> simp [hc, hopen, hcontent]
    · intro hf
      unfold processChoice
      simp [hf, hc, hopen, hcontent, decodeWritten, recordOf, reduceLoop,
        reduceEvent, textOnlyState, appendTextAt]
    · intro f hf
      unfold processChoice
      simp [hf, hc, hopen, hlast, htok, hcontent, decodeWritten, recordOf, reduceLoop,
        reduceEvent, textOnlyState, appendTextAt]

theorem concatAll_cons (s : String) (l : List String) :
    concatAll (s :: l) = s ++ concatAll l := rfl

theorem processChoices_textOnly (dn : String → Option EventRecord)
    (u : String → Option (List (String × GoAny))) (model : String)
    (cs : List OAIChoice) (st : TranscoderState) (rest : List (Option EventRecord))
    (hopen : st.textBlockClosed = false) (hlast : st.lastToolIndex = -1)
    (htok : st.outputTokens = 0) (hc : ∀ c ∈ cs, c.Delta.ToolCalls = []) :
    (firstFinishReason cs = none →
      (processChoices st cs).2.2 = false ∧
      (processChoices st cs).1.textBlockClosed = false ∧
      (processChoices st cs).1.lastToolIndex = -1 ∧
      (processChoices st cs).1.outputTokens = 0 ∧
      (processChoices st cs).1.accumulatedText =
        st.accumulatedText ++ concatAll (cs.map (fun c => c.Delta.Content)) ∧
      reduceLoop u (textOnlyState model st.accumulatedText (some 0) none)
          ((processChoices st cs).2.1.map (decodeWritten dn) ++ rest) =
        reduceLoop u (textOnlyState model
          (st.accumulatedText ++ concatAll (cs.map (fun c => c.Delta.Content)))
          (some 0) none) rest) ∧
    (∀ f, firstFinishReason cs = some f →
      (processChoices st cs).2.2 = true ∧
      reduceLoop u (textOnlyState model st.accumulatedText (some 0) none)
          ((processChoices st cs).2.1.map (decodeWritten dn) ++ rest) =
        textOnlyState model
          (st.accumulatedText ++
            concatAll ((choicesUpToFinish cs).map (fun c => c.Delta.Content)))
          none (some (stopReasonOf f))) := by
  induction cs generalizing st with
  | nil =>
    refine ⟨fun _ => ⟨rfl, hopen, hlast, htok, ?_, ?_⟩, fun f hf => ?_⟩
    · simp [processChoices, concatAll]
    · simp [processChoices, concatAll]
    · simp [firstFinishReason] at hf
  | cons c cs ih =>
    have hc0 : c.Delta.ToolCalls = [] := hc c (List.mem_cons_self _ _)
    have hcs : ∀ c' ∈ cs, c'.Delta.ToolCalls = [] :=
      fun c' h' => hc c' (List.mem_cons_of_mem _ h')
    cases hfin : c.FinishReason with
    | some g =>
      obtain ⟨_, _, _, _, h5⟩ := processChoice_textOnly dn u model st c rest hopen hlast htok hc0
      obtain ⟨h5a, h5b⟩ := h5 g hfin
      refine ⟨fun hf => ?_, fun f hf => ?_⟩
      · simp [firstFinishReason, hfin] at hf
      · have hg : g = f := by simpa [firstFinishReason, hfin] using hf
        subst hg
        simp only [processChoices, h5a, if_true, choicesUpToFinish, hfin, List.map_cons,
          List.map_nil, concatAll_cons]
        refine ⟨trivial, ?_⟩
        rw [h5b]
        simp [concatAll]
    | none =>
      obtain ⟨h1, h2, h3, h4, _⟩ := processChoice_textOnly dn u model st c
        ((processChoices (processChoice st c).1 cs).2.1.map (decodeWritten dn) ++ rest)
        hopen hlast htok hc0
      obtain ⟨h4a, h4b, h4c⟩ := h4 hfin
      obtain ⟨i1, i2⟩ := ih (processChoice st c).1 h4b h1 h2 hcs
      refine ⟨fun hf => ?_, fun f hf => ?_⟩
      · have hf' : firstFinishReason cs = none := by
          simpa [firstFinishReason, hfin] using hf
        obtain ⟨j1, j2, j3, j4, j5, j6⟩ := i1 hf'
        simp only [processChoices, h4a, Bool.false_eq_true, if_false, List.map_append,
          List.append_assoc, List.map_cons, concatAll_cons]
        refine ⟨j1, j2, j3, j4, ?_, ?_⟩
        · rw [j5, h3, String.append_assoc]
        · rw [h4c, ← h3, j6, h3, String.append_assoc]
      · have hf' : firstFinishReason cs = some f := by
          simpa [firstFinishReason, hfin] using hf
        obtain ⟨j1, j2⟩ := i2 f hf'
        simp only [processChoices, h4a, Bool.false_eq_true, if_false, List.map_append,
          List.append_assoc, choicesUpToFinish, hfin, List.map_cons, concatAll_cons]
        refine ⟨j1, ?_⟩
        rw [h4c, ← h3, j2, h3, String.append_assoc]

theorem choicesUpToFinish_append_of_some (xs ys : List OAIChoice) (f : String)
    (h : firstFinishReason xs = some f) :
    choicesUpToFinish (xs ++ ys) = choicesUpToFinish xs := by
  induction xs with
  | nil => simp [firstFinishReason] at h
  | cons c cs ih =>
    cases hc : c.FinishReason with
    | some g => simp [choicesUpToFinish, hc]
    | none =>
      have := ih (by simpa [firstFinishReason, hc] using h)
      simp [choicesUpToFinish, hc, this]

theorem choicesUpToFinish_append_of_none (xs ys : List OAIChoice)
    (h : firstFinishReason xs = none) :
    choicesUpToFinish (xs ++ ys) = xs ++ choicesUpToFinish ys := by
  induction xs with
  | nil => rfl
  | cons c cs ih =>
    cases hc : c.FinishReason with
    | some g => simp [firstFinishReason, hc] at h
    | none =>
      have := ih (by simpa [firstFinishReason, hc] using h)
      simp [choicesUpToFinish, hc, this]

theorem concatAll_append (a b : List String) :
    concatAll (a ++ b) = concatAll a ++ concatAll b := by
  induction a with
  | nil => simp [concatAll]
  | cons s l ih => simp [concatAll_cons, ih, String.append_assoc]

theorem reduceLoop_endOfStream (dn : String → Option EventRecord)
    (u : String → Option (List (String × GoAny))) (model : String)
    (st : TranscoderState) (hopen : st.textBlockClosed = false) (htok : st.outputTokens = 0) :
    reduceLoop u (textOnlyState model st.accumulatedText (some 0) none)
        ((endOfStream st).map (decodeWritten dn)) =
      textOnlyState model st.accumulatedText none (some "end_turn") := by
  simp [endOfStream, hopen, htok, decodeWritten, recordOf, reduceLoop, reduceEvent,
    textOnlyState]

theorem readLoop_textOnly (dn : String → Option EventRecord)
    (u : String → Option (List (String × GoAny))) (model : String)
    (lines : List UpLine) (st : TranscoderState)
    (hopen : st.textBlockClosed = false) (hlast : st.lastToolIndex = -1)
    (htok : st.outputTokens = 0)
    (hno : ∀ c ∈ choicesRead lines, c.Delta.ToolCalls = [])
    (hdn : ∀ err, UpLine.invalid err ∈ lines →
      ∃ ev, dn (errorNoticeText err) = some (.other ev)) :
    reduceLoop u (textOnlyState model st.accumulatedText (some 0) none)
        ((readLoop st lines).map (decodeWritten dn)) =
      textOnlyState model
        (st.accumulatedText ++
          concatAll ((choicesUpToFinish (choicesRead lines)).map (fun c => c.Delta.Content)))
        none
        (some (match firstFinishReason (choicesRead lines) with
               | some f => stopReasonOf f
               | none => "end_turn")) := by
  induction lines generalizing st with
  | nil =>
    simpa [readLoop, choicesRead, choicesUpToFinish, concatAll, firstFinishReason] using
      reduceLoop_endOfStream dn u model st hopen htok
  | cons l rest ih =>
    cases l with
    | skip =>
      exact ih st hopen hlast htok (by simpa [choicesRead] using hno)
        (fun err h => hdn err (List.mem_cons_of_mem _ h))
    | done =>
      simpa [readLoop, choicesRead, choicesUpToFinish, concatAll, firstFinishReason] using
        reduceLoop_endOfStream dn u model st hopen htok
    | invalid err =>
      obtain ⟨ev, hev⟩ := hdn err (List.mem_cons_self _ _)
      have := ih st hopen hlast htok (by simpa [choicesRead] using hno)
        (fun err h => hdn err (List.mem_cons_of_mem _ h))
      simpa [readLoop, decodeWritten, hev, reduceLoop, reduceEvent, choicesRead] using this
    | chunk c =>
      have hc : ∀ c' ∈ c.Choices, c'.Delta.ToolCalls = [] := fun c' h' =>
        hno c' (by simp [choicesRead, h'])
      have hr : ∀ c' ∈ choicesRead rest, c'.Delta.ToolCalls = [] := fun c' h' =>
        hno c' (by simp [choicesRead, h'])
      cases hfin : firstFinishReason c.Choices with
      | some f =>
        obtain ⟨_, h2⟩ := processChoices_textOnly dn u model c.Choices st [] hopen hlast htok hc
        obtain ⟨h2a, h2b⟩ := h2 f hfin
        simp only [List.append_nil] at h2b
        simp only [readLoop, h2a, if_true, choicesRead, firstFinishReason_append, hfin,
          choicesUpToFinish_append_of_some _ _ f hfin]
        exact h2b
      | none =>
        obtain ⟨h1, _⟩ := processChoices_textOnly dn u model c.Choices st
          ((readLoop (processChoices st c.Choices).1 rest).map (decodeWritten dn))
          hopen hlast htok hc
        obtain ⟨j1, j2, j3, j4, j5, j6⟩ := h1 hfin
        have := ih (processChoices st c.Choices).1 j2 j3 j4 hr
          (fun err h => hdn err (List.mem_cons_of_mem _ h))
        simp only [readLoop, j1, Bool.false_eq_true, if_false, List.map_append, choicesRead,
          firstFinishReason_append, hfin, choicesUpToFinish_append_of_none _ _ hfin,
          concatAll_append]
        rw [j6, ← j5, this, j5, String.append_assoc]

theorem streamToResponse_textOnly (dn : String → Option EventRecord)
    (u : String → Option (List (String × GoAny))) (lines : List UpLine) (model : String)
    (hno : ∀ c ∈ choicesRead lines, c.Delta.ToolCalls = [])
    (hdn : ∀ err, UpLine.invalid err ∈ lines →
      ∃ ev, dn (errorNoticeText err) = some (.other ev)) :
    streamToResponse dn u lines model =
      .ok { ID := "msg_000000000000000000000000", Model := model, Role := "assistant",
            Content := if streamText lines = "" then []
                       else [.text { Type_ := "text", Text := streamText lines }],
            Type_ := "message",
            StopReason := some (match firstFinishReason (choicesRead lines) with
                                | some f => stopReasonOf f
                                | none => "end_turn"),
            StopSequence := none,
            Usage := { InputTokens := 0, OutputTokens := 0,
                       CacheCreationInputTokens := 0, CacheReadInputTokens := 0 } } := by
  have hinit : reduceLoop u ReducerState.init
      ((ConvertOAIStreamToClaudeStream lines model).map (decodeWritten dn)) =
      reduceLoop u (textOnlyState model TranscoderState.init.accumulatedText (some 0) none)
        ((readLoop TranscoderState.init lines).map (decodeWritten dn)) := by
    simp [ConvertOAIStreamToClaudeStream, initialEvents, decodeWritten, recordOf, reduceLoop,
      reduceEvent, textOnlyState, ReducerState.init, TranscoderState.init]
  have hloop := readLoop_textOnly dn u model lines TranscoderState.init rfl rfl rfl hno hdn
  have hacc : TranscoderState.init.accumulatedText = "" := rfl
  rw [hacc] at hinit hloop
  simp only [String.empty_append] at hloop
  unfold streamToResponse ParseClaudeStreamToResponse
  simp only [hinit, hloop]
  by_cases hT : streamText lines = ""
  · simp [textOnlyState, filteredContentBlocks, streamText] at hT ⊢
    simp [hT]
    rfl
  · simp [textOnlyState, filteredContentBlocks, streamText] at hT ⊢
    simp [hT]
    rfl

theorem reduceLoop_append_congr (u : String → Option (List (String × GoAny)))
    (P X Y : List (Option EventRecord))
    (h : ∀ R, reduceLoop u R X = reduceLoop u R Y) (R : ReducerState) :
    reduceLoop u R (P ++ X) = reduceLoop u R (P ++ Y) := by
  induction P generalizing R with
  | nil => exact h R
  | cons p ps ih =>
    cases p with
    | none => rfl
    | some r => exact ih _

theorem processChoices_append (st : TranscoderState) (xs ys : List OAIChoice) :
    processChoices st (xs ++ ys) =
      if (processChoices st xs).2.2 then processChoices st xs
      else ((processChoices (processChoices st xs).1 ys).1,
            (processChoices st xs).2.1 ++ (processChoices (processChoices st xs).1 ys).2.1,
            (processChoices (processChoices st xs).1 ys).2.2) := by
  induction xs generalizing st with
  | nil => simp [processChoices]
  | cons c cs ih =>
    simp only [List.cons_append, processChoices]
    by_cases hfin : (processChoice st c).2.2 = true
    · simp [hfin]
    · simp only [hfin, Bool.false_eq_true, if_false, List.append_eq]
      rw [ih (processChoice st c).1]
      by_cases h2 : (processChoices (processChoice st c).1 cs).2.2 = true
      · simp [h2]
      · simp [h2]

theorem runChoices_append (st : TranscoderState) (xs ys : List OAIChoice) :
    runChoices st (xs ++ ys) =
      if (processChoices st xs).2.2 then (processChoices st xs).2.1
      else (processChoices st xs).2.1 ++ runChoices (processChoices st xs).1 ys := by
  simp only [runChoices, processChoices_append]
  by_cases h1 : (processChoices st xs).2.2 = true
  · simp [h1]
  · simp only [h1, Bool.false_eq_true, if_false]
    split_ifs <;> simp

theorem readLoop_flat (dn : String → Option EventRecord)
    (u : String → Option (List (String × GoAny))) (lines : List UpLine)
    (hdn : ∀ err, UpLine.invalid err ∈ lines →
      ∃ ev, dn (errorNoticeText err) = some (.other ev))
    (st : TranscoderState) (R : ReducerState) :
    reduceLoop u R ((readLoop st lines).map (decodeWritten dn)) =
      reduceLoop u R ((runChoices st (choicesRead lines)).map (decodeWritten dn)) := by
  induction lines generalizing st R with
  | nil => simp [readLoop, runChoices, choicesRead, processChoices]
  | cons l rest ih =>
    have hrest : ∀ err, UpLine.invalid err ∈ rest →
        ∃ ev, dn (errorNoticeText err) = some (.other ev) :=
      fun err h => hdn err (List.mem_cons_of_mem _ h)
    cases l with
    | skip => simpa [readLoop, choicesRead] using ih hrest st R
    | done => simp [readLoop, runChoices, choicesRead, processChoices]
    | invalid err =>
      obtain ⟨ev, hev⟩ := hdn err (List.mem_cons_self _ _)
      simpa [readLoop, choicesRead, decodeWritten, hev, reduceLoop, reduceEvent] using
        ih hrest st R
    | chunk c =>
      simp only [readLoop, choicesRead, runChoices_append]
      by_cases hfin : (processChoices st c.Choices).2.2 = true
      · simp [hfin]
      · simp only [hfin, Bool.false_eq_true, if_false, List.map_append]
        exact reduceLoop_append_congr u _ _ _ (fun R' => ih hrest _ R') R


theorem processToolCalls_same_index (k : Int) (tcs : List OAIToolCall)
    (h : ∀ tc ∈ tcs, tc.Index = k) :
    processToolCalls k tcs = (k, tcs.map deltaOf) := by
  induction tcs with
  | nil => rfl
  | cons tc rest ih =>
    have h0 : tc.Index = k := h tc (List.mem_cons_self _ _)
    have hr := ih (fun t ht => h t (List.mem_cons_of_mem _ ht))
    simp [processToolCalls, processToolCall, h0, hr, deltaOf]

theorem processToolCalls_first (k : Int) (tc0 : OAIToolCall) (rest : List OAIToolCall)
    (h : ∀ tc ∈ tc0 :: rest, tc.Index = k) (hk : k ≠ -1) :
    processToolCalls (-1) (tc0 :: rest) =
      (k, [ Written.event (.contentBlockStop (-1)),
            Written.event (.contentBlockStart k (.toolUse tc0.Id tc0.Function.Name)),
            deltaOf tc0 ] ++ rest.map deltaOf) := by
  have h0 : tc0.Index = k := h tc0 (List.mem_cons_self _ _)
  have hr := processToolCalls_same_index k rest (fun t ht => h t (List.mem_cons_of_mem _ ht))
  have hk' : ¬ (-1 : Int) = k := fun e => hk e.symm
  simp [processToolCalls, processToolCall, h0, hr, deltaOf, hk']

theorem argumentsOf_cons (tc : OAIToolCall) (tcs : List OAIToolCall) :
    argumentsOf (tc :: tcs) = tc.Function.Arguments ++ argumentsOf tcs := rfl

theorem reduceLoop_deltas (dn : String → Option EventRecord)
    (u : String → Option (List (String × GoAny))) (model text id name : String)
    (tcs : List OAIToolCall) (b : String) (rest : List (Option EventRecord)) :
    reduceLoop u (toolOpenState model text id name b)
        ((tcs.map deltaOf).map (decodeWritten dn) ++ rest) =
      reduceLoop u (toolOpenState model text id name (b ++ argumentsOf tcs)) rest := by
  induction tcs generalizing b with
  | nil => simp [argumentsOf, concatAll]
  | cons tc tcs ih =>
    have := ih (b ++ tc.Function.Arguments)
    simp only [argumentsOf_cons, ← String.append_assoc]
    rw [← this]
    simp [deltaOf, decodeWritten, recordOf, reduceLoop, reduceEvent, toolOpenState]

theorem processChoice_toolOpen (dn : String → Option EventRecord)
    (u : String → Option (List (String × GoAny))) (model text id name : String)
    (st : TranscoderState) (c : OAIChoice) (k : Int) (b : String)
    (rest : List (Option EventRecord))
    (hclosed : st.textBlockClosed = true) (hlast : st.lastToolIndex = k) (hk : k ≠ -1)
    (htok : st.outputTokens = 0) (hidx : ∀ tc ∈ c.Delta.ToolCalls, tc.Index = k) :
    (processChoice st c).1.textBlockClosed = true ∧
    (processChoice st c).1.lastToolIndex = k ∧
    (processChoice st c).1.outputTokens = 0 ∧
    (c.FinishReason = none →
      (processChoice st c).2.2 = false ∧
      reduceLoop u (toolOpenState model text id name b)
          ((processChoice st c).2.1.map (decodeWritten dn) ++ rest) =
        reduceLoop u
          (toolOpenState model text id name (b ++ argumentsOf c.Delta.ToolCalls)) rest) ∧
    (∀ f, c.FinishReason = some f →
      (processChoice st c).2.2 = true ∧
      reduceLoop u (toolOpenState model text id name b)
          ((processChoice st c).2.1.map (decodeWritten dn) ++ rest) =
        toolDoneState model text id name
          (finishInput u (b ++ argumentsOf c.Delta.ToolCalls)) (some (stopReasonOf f))) := by
  have htools : (if decide (c.Delta.ToolCalls.length > 0) = true
        then processToolCalls st.lastToolIndex c.Delta.ToolCalls
        else (st.lastToolIndex, [])) = (k, c.Delta.ToolCalls.map deltaOf) := by
    rw [hlast]
    by_cases hl : c.Delta.ToolCalls.length > 0
    · simp only [hl, decide_True, if_true]
      exact processToolCalls_same_index k _ hidx
    · have : c.Delta.ToolCalls = [] := by
        cases hc : c.Delta.ToolCalls with
        | nil => rfl
        | cons a l => simp [hc] at hl
      simp [this]
  have hdeltas := reduceLoop_deltas dn u model text id name c.Delta.ToolCalls b
  simp only [List.map_map] at hdeltas
  refine ⟨?_, ?_, ?_, ?_, ?_⟩
  · unfold processChoice
    cases c.FinishReason <;> simp [hclosed]
  · unfold processChoice
    simp only [htools]
    cases c.FinishReason <;> simp [hclosed]
  · unfold processChoice
    cases c.FinishReason <;> simp [hclosed, htok]
  · intro hf
    unfold processChoice
    simp only [htools]
    simp only [hf, hclosed, Bool.true_or, Bool.not_true, Bool.and_false, Bool.false_eq_true,
      if_false, and_false, List.append_nil, List.map_append, List.append_assoc, List.map_map,
      List.map_nil, List.nil_append, true_and, Bool.true_eq_false]
    rw [hdeltas]
  · intro f hf
    unfold processChoice
    simp only [htools]
    simp only [hf, hclosed, Bool.true_or, Bool.not_true, Bool.and_false, Bool.false_eq_true,
      if_false, and_false, List.append_nil, List.map_append, List.append_assoc, List.map_map,
      List.map_nil, List.nil_append, true_and, Bool.true_eq_false]
    rw [hdeltas]
    simp [hk, htok, decodeWritten, recordOf, reduceLoop, reduceEvent, toolOpenState,
      toolDoneState]

theorem runChoices_cons (st : TranscoderState) (c : OAIChoice) (cs : List OAIChoice) :
    runChoices st (c :: cs) =
      if (processChoice st c).2.2 then (processChoice st c).2.1
      else (processChoice st c).2.1 ++ runChoices (processChoice st c).1 cs := by
  simp only [runChoices, processChoices]
  by_cases h1 : (processChoice st c).2.2 = true
  · simp [h1]
  · simp only [h1, Bool.false_eq_true, if_false]
    split_ifs <;> simp

theorem toolCallsOf_cons (c : OAIChoice) (cs : List OAIChoice) :
    toolCallsOf (c :: cs) = c.Delta.ToolCalls ++ toolCallsOf cs := rfl

theorem argumentsOf_append (a b : List OAIToolCall) :
    argumentsOf (a ++ b) = argumentsOf a ++ argumentsOf b := by
  simp [argumentsOf, concatAll_append]

theorem runChoices_toolOpen (dn : String → Option EventRecord)
    (u : String → Option (List (String × GoAny))) (model text id name : String)
    (k : Int) (hk : k ≠ -1) (f : String)
    (cs : List OAIChoice) (st : TranscoderState) (b : String)
    (hclosed : st.textBlockClosed = true) (hlast : st.lastToolIndex = k)
    (htok : st.outputTokens = 0)
    (hidx : ∀ tc ∈ toolCallsOf (choicesUpToFinish cs), tc.Index = k)
    (hfin : firstFinishReason cs = some f) :
    reduceLoop u (toolOpenState model text id name b)
        ((runChoices st cs).map (decodeWritten dn)) =
      toolDoneState model text id name
        (finishInput u (b ++ argumentsOf (toolCallsOf (choicesUpToFinish cs))))
        (some (stopReasonOf f)) := by
  induction cs generalizing st b with
  | nil => simp [firstFinishReason] at hfin
  | cons c cs ih =>
    cases hc : c.FinishReason with
    | some g =>
      have hg : g = f := by simpa [firstFinishReason, hc] using hfin
      subst hg
      have hidx0 : ∀ tc ∈ c.Delta.ToolCalls, tc.Index = k := fun tc htc =>
        hidx tc (by simp [choicesUpToFinish, hc, toolCallsOf, htc])
      obtain ⟨_, _, _, _, h5⟩ := processChoice_toolOpen dn u model text id name st c k b []
        hclosed hlast hk htok hidx0
      obtain ⟨h5a, h5b⟩ := h5 g hc
      simp only [List.append_nil] at h5b
      simp only [runChoices_cons, h5a, if_true, h5b, choicesUpToFinish, hc, toolCallsOf,
        List.foldr_cons, List.foldr_nil, List.append_nil]
    | none =>
      have hidx0 : ∀ tc ∈ c.Delta.ToolCalls, tc.Index = k := fun tc htc =>
        hidx tc (by simp [choicesUpToFinish, hc, toolCallsOf_cons, htc])
      have hidx1 : ∀ tc ∈ toolCallsOf (choicesUpToFinish cs), tc.Index = k := fun tc htc =>
        hidx tc (by simp [choicesUpToFinish, hc, toolCallsOf_cons, htc])
      have hfin1 : firstFinishReason cs = some f := by
        simpa [firstFinishReason, hc] using hfin
      obtain ⟨h1, h2, h3, h4, _⟩ := processChoice_toolOpen dn u model text id name st c k b
        ((runChoices (processChoice st c).1 cs).map (decodeWritten dn))
        hclosed hlast hk htok hidx0
      obtain ⟨h4a, h4b⟩ := h4 hc
      have := ih (processChoice st c).1 (b ++ argumentsOf c.Delta.ToolCalls) h1 h2 h3 hidx1 hfin1
      simp only [runChoices_cons, h4a, Bool.false_eq_true, if_false, List.map_append, h4b,
        this, choicesUpToFinish, hc, toolCallsOf_cons, argumentsOf_append, String.append_assoc]

theorem processChoice_firstTool (dn : String → Option EventRecord)
    (u : String → Option (List (String × GoAny))) (model : String)
    (st : TranscoderState) (c : OAIChoice) (k : Int) (tc0 : OAIToolCall)
    (tcs : List OAIToolCall) (rest : List (Option EventRecord))
    (hopen : st.textBlockClosed = false) (hlast : st.lastToolIndex = -1)
    (htok : st.outputTokens = 0) (hk : k ≠ -1)
    (hc : c.Delta.ToolCalls = tc0 :: tcs) (hidx : ∀ tc ∈ tc0 :: tcs, tc.Index = k)
    (hid : tc0.Id ≠ "") (hname : tc0.Function.Name ≠ "") :
    (processChoice st c).1.textBlockClosed = true ∧
    (processChoice st c).1.lastToolIndex = k ∧
    (processChoice st c).1.outputTokens = 0 ∧
    (c.FinishReason = none →
      (processChoice st c).2.2 = false ∧
      reduceLoop u (textOnlyState model st.accumulatedText (some 0) none)
          ((processChoice st c).2.1.map (decodeWritten dn) ++ rest) =
        reduceLoop u
          (toolOpenState model st.accumulatedText tc0.Id tc0.Function.Name
            (argumentsOf (tc0 :: tcs))) rest) ∧
    (∀ f, c.FinishReason = some f →
      (processChoice st c).2.2 = true ∧
      reduceLoop u (textOnlyState model st.accumulatedText (some 0) none)
          ((processChoice st c).2.1.map (decodeWritten dn) ++ rest) =
        toolDoneState model st.accumulatedText tc0.Id tc0.Function.Name
          (finishInput u (argumentsOf (tc0 :: tcs))) (some (stopReasonOf f))) := by
  have htools := processToolCalls_first k tc0 tcs hidx hk
  have hd := reduceLoop_deltas dn u model st.accumulatedText tc0.Id tc0.Function.Name tcs
    tc0.Function.Arguments
  simp only [List.map_map] at hd
  refine ⟨?_, ?_, ?_, ?_, ?_⟩
  · unfold processChoice
    cases c.FinishReason <;> simp [hc]
  · unfold processChoice
    simp only [hc, hlast, htools]
    cases c.FinishReason <;> simp
  · rw [processChoice_outputTokens, htok]
  · intro hf
    unfold processChoice
    simp only [hc, hlast, htools, hf, hopen]
    simp only [List.length_cons, gt_iff_lt, Nat.zero_lt_succ, decide_True, and_self, if_true,
      Bool.or_true, Bool.not_true, Bool.and_false, Bool.false_eq_true, if_false,
      List.append_nil, List.map_append, List.map_cons, List.map_nil, List.cons_append,
      List.nil_append, List.append_assoc, List.map_map, true_and]
    simp only [decodeWritten, recordOf, reduceLoop, reduceEvent, textOnlyState, deltaOf]
    simp only [hid, hname, ne_eq, not_false_eq_true, and_self, if_true]
    simpa [toolOpenState, argumentsOf_cons, deltaOf, decodeWritten, recordOf,
      reduceEvent] using hd rest
  · intro f hf
    unfold processChoice
    simp only [hc, hlast, htools, hf, hopen]
    simp only [List.length_cons, gt_iff_lt, Nat.zero_lt_succ, decide_True, and_self, if_true,
      Bool.or_true, Bool.not_true, Bool.and_false, Bool.false_eq_true, if_false,
      List.append_nil, List.map_append, List.map_cons, List.map_nil, List.cons_append,
      List.nil_append, List.append_assoc, List.map_map, true_and, Bool.true_eq_false]
    simp only [decodeWritten, recordOf, reduceLoop, reduceEvent, textOnlyState, deltaOf]
    simp only [hid, hname, ne_eq, not_false_eq_true, and_self, if_true]
    have hd2 := hd (List.map (decodeWritten dn)
      [ Written.event (.contentBlockStop k),
        Written.event (.messageDelta (stopReasonOf f) none 0),
        Written.event .messageStop, Written.done ] ++ rest)
    simp [toolOpenState, argumentsOf_cons, deltaOf, decodeWritten, recordOf, reduceEvent,
      reduceLoop, toolDoneState, hk, htok] at hd2 ⊢
    exact hd2

theorem runChoices_firstTool (dn : String → Option EventRecord)
    (u : String → Option (List (String × GoAny))) (model : String)
    (k : Int) (hk : k ≠ -1) (f : String) (tc0 : OAIToolCall) (tcs : List OAIToolCall)
    (hid : tc0.Id ≠ "") (hname : tc0.Function.Name ≠ "")
    (hidx : ∀ tc ∈ tc0 :: tcs, tc.Index = k)
    (cs : List OAIChoice) (st : TranscoderState)
    (hopen : st.textBlockClosed = false) (hlast : st.lastToolIndex = -1)
    (htok : st.outputTokens = 0)
    (htc : toolCallsOf (choicesUpToFinish cs) = tc0 :: tcs)
    (hfin : firstFinishReason cs = some f) :
    ∃ text, reduceLoop u (textOnlyState model st.accumulatedText (some 0) none)
        ((runChoices st cs).map (decodeWritten dn)) =
      toolDoneState model text tc0.Id tc0.Function.Name
        (finishInput u (argumentsOf (tc0 :: tcs))) (some (stopReasonOf f)) := by
  induction cs generalizing st with
  | nil => simp [firstFinishReason] at hfin
  | cons c cs ih =>
    cases hcalls : c.Delta.ToolCalls with
    | nil =>
      cases hc : c.FinishReason with
      | some g => simp [choicesUpToFinish, hc, toolCallsOf, hcalls] at htc
      | none =>
        obtain ⟨h1, h2, h3, h4, _⟩ := processChoice_textOnly dn u model st c
          ((runChoices (processChoice st c).1 cs).map (decodeWritten dn))
          hopen hlast htok hcalls
        obtain ⟨h4a, h4b, h4c⟩ := h4 hc
        have htc1 : toolCallsOf (choicesUpToFinish cs) = tc0 :: tcs := by
          simpa [choicesUpToFinish, hc, toolCallsOf_cons, hcalls] using htc
        have hfin1 : firstFinishReason cs = some f := by
          simpa [firstFinishReason, hc] using hfin
        obtain ⟨text, ht⟩ := ih (processChoice st c).1 h4b h1 h2 htc1 hfin1
        refine ⟨text, ?_⟩
        simp only [runChoices_cons, h4a, Bool.false_eq_true, if_false, List.map_append]
        rw [h4c, ← h3, ht]
    | cons t0 ts =>
      cases hc : c.FinishReason with
      | some g =>
        have hg : g = f := by simpa [firstFinishReason, hc] using hfin
        subst hg
        have htc1 : t0 = tc0 ∧ ts = tcs := by
          simpa [choicesUpToFinish, hc, toolCallsOf, hcalls] using htc
        obtain ⟨rfl, rfl⟩ := htc1
        obtain ⟨_, _, _, _, h5⟩ := processChoice_firstTool dn u model st c k t0 ts []
          hopen hlast htok hk hcalls hidx hid hname
        obtain ⟨h5a, h5b⟩ := h5 g hc
        simp only [List.append_nil] at h5b
        refine ⟨st.accumulatedText, ?_⟩
        simp only [runChoices_cons, h5a, if_true, h5b]
      | none =>
        have htc1 : t0 = tc0 ∧ ts ++ toolCallsOf (choicesUpToFinish cs) = tcs := by
          simpa [choicesUpToFinish, hc, toolCallsOf_cons, hcalls] using htc
        obtain ⟨rfl, htcs⟩ := htc1
        have hidx0 : ∀ tc ∈ t0 :: ts, tc.Index = k := fun tc htc' =>
          hidx tc (by
            rw [← htcs]
            rcases List.mem_cons.mp htc' with h | h
            · exact List.mem_cons.mpr (Or.inl h)
            · exact List.mem_cons_of_mem _ (List.mem_append_left _ h))
        have hidx1 : ∀ tc ∈ toolCallsOf (choicesUpToFinish cs), tc.Index = k := fun tc htc' =>
          hidx tc (by
            rw [← htcs]
            exact List.mem_cons_of_mem _ (List.mem_append_right _ htc'))
        have hfin1 : firstFinishReason cs = some f := by
          simpa [firstFinishReason, hc] using hfin
        obtain ⟨h1, h2, h3, h4, _⟩ := processChoice_firstTool dn u model st c k t0 ts
          ((runChoices (processChoice st c).1 cs).map (decodeWritten dn))
          hopen hlast htok hk hcalls hidx0 hid hname
        obtain ⟨h4a, h4b⟩ := h4 hc
        have := runChoices_toolOpen dn u model st.accumulatedText t0.Id t0.Function.Name
          k hk f cs (processChoice st c).1 (argumentsOf (t0 :: ts)) h1 h2 h3 hidx1 hfin1
        refine ⟨st.accumulatedText, ?_⟩
        simp only [runChoices_cons, h4a, Bool.false_eq_true, if_false, List.map_append]
        rw [h4b, this, ← argumentsOf_append, ← htcs]
        rfl

theorem streamToResponse_singleToolCall (dn : String → Option EventRecord)
    (u : String → Option (List (String × GoAny))) (lines : List UpLine) (model : String)
    (k : Int) (tc0 : OAIToolCall) (tcs : List OAIToolCall) (J : List (String × GoAny))
    (hdn : ∀ err, UpLine.invalid err ∈ lines →
      ∃ ev, dn (errorNoticeText err) = some (.other ev))
    (htc : toolCallsRead lines = tc0 :: tcs)
    (hidx : ∀ tc ∈ toolCallsRead lines, tc.Index = k) (hk : 0 ≤ k)
    (hid : tc0.Id ≠ "") (hname : tc0.Function.Name ≠ "")
    (hargs : argumentsOf (toolCallsRead lines) ≠ "")
    (hJ : u (argumentsOf (toolCallsRead lines)) = some J)
    (hfin : firstFinishReason (choicesRead lines) = some "tool_calls") :
    ∃ resp, streamToResponse dn u lines model = .ok resp ∧
      toolUseBlocksOf resp.Content =
        [{ Type_ := "tool_use", ID := tc0.Id, Name := tc0.Function.Name, Input := J }] ∧
      resp.StopReason = some "tool_use" := by
  have hk' : k ≠ -1 := by omega
  have hinit : reduceLoop u ReducerState.init
      ((ConvertOAIStreamToClaudeStream lines model).map (decodeWritten dn)) =
      reduceLoop u (textOnlyState model TranscoderState.init.accumulatedText (some 0) none)
        ((readLoop TranscoderState.init lines).map (decodeWritten dn)) := by
    simp [ConvertOAIStreamToClaudeStream, initialEvents, decodeWritten, recordOf, reduceLoop,
      reduceEvent, textOnlyState, ReducerState.init, TranscoderState.init]
  rw [readLoop_flat dn u lines hdn] at hinit
  rw [htc] at hidx hargs hJ
  obtain ⟨text, ht⟩ := runChoices_firstTool dn u model k hk' "tool_calls" tc0 tcs hid hname
    hidx (choicesRead lines) TranscoderState.init rfl rfl rfl htc hfin
  rw [ht] at hinit
  refine ⟨_, rfl, ?_, ?_⟩
  · simp only [hinit]
    simp [toolDoneState, filteredContentBlocks, toolUseBlocksOf, finishInput, hargs, hJ,
      List.filterMap_append]
  · simp only [hinit]
    simp [toolDoneState, stopReasonOf]

/-- The text-only pipeline at scenario S1: the response is the text block `Hello, world!`
with `stop_reason` `"end_turn"`. -/
theorem streamToResponse_textOnly_helloWorld :
    streamText helloWorldStream = "Hello, world!" ∧
    streamToResponse (fun _ => none) (fun _ => none) helloWorldStream
        "claude-3-sonnet-20240229" =
      .ok { ID := "msg_000000000000000000000000", Model := "claude-3-sonnet-20240229",
            Role := "assistant",
            Content := [ .text { Type_ := "text", Text := "Hello, world!" } ],
            Type_ := "message",
            StopReason := some "end_turn", StopSequence := none,
            Usage := { InputTokens := 0, OutputTokens := 0,
                       CacheCreationInputTokens := 0, CacheReadInputTokens := 0 } } :=
  ⟨by decide,
    streamToResponse_textOnly (fun _ => none) (fun _ => none) helloWorldStream
      "claude-3-sonnet-20240229" (by decide)
      (by intro err h; simp [helloWorldStream, chunkLine] at h)⟩

/-- The single-tool pipeline at scenario S4 in short: the response holds the one tool_use
block `call_1` / `Bash` with the parsed input, and `stop_reason` `"tool_use"`. -/
theorem streamToResponse_singleToolCall_bash :
    argumentsOf (toolCallsRead bashToolCallStream) = "\x7b\"command\":\"ls\"\x7d" ∧
    ∃ resp, streamToResponse (fun _ => none) unmarshalCommandLs bashToolCallStream
        "claude-3-sonnet-20240229" = .ok resp ∧
      toolUseBlocksOf resp.Content =
        [{ Type_ := "tool_use", ID := "call_1", Name := "Bash",
           Input := [("command", .str "ls")] }] ∧
      resp.StopReason = some "tool_use" :=
  ⟨by decide,
    streamToResponse_singleToolCall (fun _ => none) unmarshalCommandLs bashToolCallStream
      "claude-3-sonnet-20240229" 0 (toolCallEntry 0 "call_1" "Bash" "")
      [ toolCallEntry 0 "" "" "\x7b\"command\":", toolCallEntry 0 "" "" "\"ls",
        toolCallEntry 0 "" "" "\"\x7d" ] [("command", .str "ls")]
      (by intro err h; simp [bashToolCallStream, chunkLine] at h)
      (by decide) (by decide) (by decide) (by decide) (by decide) (by decide) rfl
      (by decide)⟩

/-! ## The request rewriter: the message list, the tools and the parameters -/

theorem convertMessages_cons (marshal : GoAny → String) (cm : ClaudeMessage)
    (rest : List ClaudeMessage) :
    convertMessages marshal (cm :: rest) =
      (if (flattenContent marshal cm).length = 0 then [] else [messageOf marshal cm]) ++
        convertMessages marshal rest := by
  have h := convertMessages_append marshal [cm] rest
  rw [List.singleton_append] at h
  rw [h]
  rfl

theorem convertMessages_eq_filter_map (marshal : GoAny → String) (l : List ClaudeMessage) :
    convertMessages marshal l =
      (l.filter (fun cm => decide ((flattenContent marshal cm).length ≠ 0))).map
        (messageOf marshal) := by
  induction l with
  | nil => rfl
  | cons cm rest ih =>
    rw [convertMessages_cons, ih]
    by_cases h : flattenContent marshal cm = []
    · simp [h, List.filter_cons]
    · simp [h, List.filter_cons]

/-- C11: the message list of the output of `ConvertClaudeToOAI` is the input message list
in its order, keeping exactly the messages whose flattened content list is not empty; each
message kept has the role of the input message and its flattened content list; so the output
has at most as many messages as the input. -/
theorem C11_message_list_shape (marshal : GoAny → String) (req : ClaudeMessagesRequest) :
    ∃ out, ConvertClaudeToOAI marshal req = .ok out ∧
      out.Messages =
        (req.Messages.filter (fun cm => decide ((flattenContent marshal cm).length ≠ 0))).map
          (fun cm => { Role := cm.Role, Content := flattenContent marshal cm }) ∧
      out.Messages.length ≤ req.Messages.length := by
  have h : convertMessages marshal req.Messages =
      (req.Messages.filter (fun cm => decide ((flattenContent marshal cm).length ≠ 0))).map
        (fun cm => { Role := cm.Role, Content := flattenContent marshal cm }) :=
    convertMessages_eq_filter_map marshal req.Messages
  refine ⟨_, rfl, h, ?_⟩
  show (convertMessages marshal req.Messages).length ≤ _
  rw [h, List.length_map]
  exact List.length_filter_le _ _

theorem textEntries_foldl (content : List GoAny) (init : List OAIMessageContent) :
    content.foldl (fun oaiContents block =>
      match block with
      | .textBlock b => oaiContents ++ [{ Type_ := "text", Text := b.Text }]
      | .map blockMap =>
        if (GoAny.lookup blockMap "type").isStr "text" then
          match (GoAny.lookup blockMap "text").asString with
          | some s => oaiContents ++ [{ Type_ := "text", Text := s }]
          | none => oaiContents
        else oaiContents
      | _ => oaiContents) init =
      init ++ (content.filterMap textOfBlock).map textEntry := by
  induction content generalizing init with
  | nil => simp
  | cons b bs ih =>
    rw [List.foldl_cons, ih]
    cases b with
    | map kvs =>
      simp only [textOfBlock, textOfMap, textEntry]
      by_cases h1 : (GoAny.lookup kvs "type").isStr "text" = true
      · cases h2 : (GoAny.lookup kvs "text").asString <;>
          simp [h1, h2, List.filterMap_cons, textOfBlock, textOfMap, textEntry]
      · simp [h1, List.filterMap_cons, textOfBlock, textOfMap]
    | _ => simp [List.filterMap_cons, textOfBlock, textEntry]

theorem textEntries_eq (content : List GoAny) :
    textEntries content = (content.filterMap textOfBlock).map textEntry := by
  rw [textEntries, textEntries_foldl]
  rfl

theorem typedTextEntries_foldl (content : List ClaudeContentBlockText)
    (init : List OAIMessageContent) :
    content.foldl (fun oaiContents block =>
      oaiContents ++ [{ Type_ := "text", Text := block.Text }]) init =
      init ++ content.map (fun b => textEntry b.Text) := by
  induction content generalizing init with
  | nil => simp
  | cons b bs ih =>
    rw [List.foldl_cons, ih]
    simp [textEntry]

theorem typedTextEntries_eq (content : List ClaudeContentBlockText) :
    typedTextEntries content = content.map (fun b => textEntry b.Text) := by
  rw [typedTextEntries, typedTextEntries_foldl]
  rfl

theorem flattenContent_list (marshal : GoAny → String) (role : String) (content : List GoAny)
    (h : role ≠ "user" ∨ content.any isToolResult = false) :
    flattenContent marshal { Role := role, Content := .list content } =
      (content.filterMap textOfBlock).map textEntry := by
  by_cases hr : role = "user"
  · have hno : content.any isToolResult = false := by
      rcases h with h | h
      · exact absurd hr h
      · exact h
    simp only [flattenContent, hr, if_true, foldl_userBlockStep, hno]
    simp [textEntries_eq]
  · simp only [flattenContent, hr, if_false]
    exact textEntries_eq content

/-- C12: for a message whose content is a block sequence and which is not a user message,
or is a user message with no tool_result block, the flattened content list is one entry of
type `text` per text block, in order, with the text of the block unchanged; every other
block (an image, a tool_use and, for the other roles, a tool_result) contributes nothing,
so a message of another role with a tool_result is not collapsed into one entry.  A text
block is a typed `ClaudeContentBlockText` or a map of type `text` with a string `text`; the
same holds for a content of Go type `[]ClaudeContentBlockText`, whatever the role and the
`type` field of its blocks. -/
theorem C12_text_block_flattening (marshal : GoAny → String) (role : String) :
    (∀ content : List GoAny, role ≠ "user" ∨ content.any isToolResult = false →
      flattenContent marshal { Role := role, Content := .list content } =
        (content.filterMap textOfBlock).map (fun t => { Type_ := "text", Text := t })) ∧
    (∀ blocks : List ClaudeContentBlockText,
      flattenContent marshal { Role := role, Content := .textBlocks blocks } =
        blocks.map (fun b => { Type_ := "text", Text := b.Text })) := by
  refine ⟨fun content h => flattenContent_list marshal role content h, fun blocks => ?_⟩
  by_cases hr : role = "user"
  · simp only [flattenContent, hr, if_true]
    exact typedTextEntries_eq blocks
  · simp only [flattenContent, hr, if_false]
    exact typedTextEntries_eq blocks

/-- C12 at an assistant message with a text block, a tool_use block, a tool_result block
and a second text block, in map form: two entries, the texts of the two text blocks. -/
theorem C12_text_block_flattening_witness :
    ("assistant" ≠ "user" ∨ mixedAssistantBlocks.any isToolResult = false) ∧
    mixedAssistantBlocks.any isToolResult = true ∧
    flattenContent (fun _ => "null") { Role := "assistant", Content := .list mixedAssistantBlocks } =
      [{ Type_ := "text", Text := "Let me check." }, { Type_ := "text", Text := "Done." }] :=
  ⟨Or.inl (by decide), by decide,
    (C12_text_block_flattening (fun _ => "null") "assistant").1 mixedAssistantBlocks
      (Or.inl (by decide))⟩

/-- C13: a message of any role whose content is a plain string `s`, the empty string
included, gives one output message of that role whose content is exactly one entry of type
`text` with the text `s`; the messages before and after it are converted as they are
without it. -/
theorem C13_plain_string_content (marshal : GoAny → String) (req : ClaudeMessagesRequest)
    (before after : List ClaudeMessage) (role s : String)
    (hreq : req.Messages = before ++ [{ Role := role, Content := .str s }] ++ after) :
    flattenContent marshal { Role := role, Content := .str s } =
      [{ Type_ := "text", Text := s }] ∧
    ∃ out, ConvertClaudeToOAI marshal req = .ok out ∧
      out.Messages =
        convertMessages marshal before ++
          [{ Role := role, Content := [{ Type_ := "text", Text := s }] }] ++
          convertMessages marshal after := by
  have hf : flattenContent marshal { Role := role, Content := .str s } =
      [{ Type_ := "text", Text := s }] := by
    by_cases hr : role = "user" <;> simp [flattenContent, hr]
  refine ⟨hf, _, rfl, ?_⟩
  show convertMessages marshal req.Messages = _
  rw [hreq, convertMessages_append, convertMessages_append, convertMessages_cons, hf]
  simp [convertMessages, messageOf, hf]

/-- C13 at the request of `TestConvertClaudeToOAIAndBack`: one user message with the
content `Hello, Claude!` gives one message with one text entry `Hello, Claude!`. -/
theorem C13_plain_string_content_witness :
    helloClaudeRequest.Messages =
      [] ++ [{ Role := "user", Content := .str "Hello, Claude!" }] ++ [] ∧
    flattenContent (fun _ => "null") { Role := "user", Content := .str "Hello, Claude!" } =
      [{ Type_ := "text", Text := "Hello, Claude!" }] ∧
    ∃ out, ConvertClaudeToOAI (fun _ => "null") helloClaudeRequest = .ok out ∧
      out.Messages =
        convertMessages (fun _ => "null") [] ++
          [{ Role := "user", Content := [{ Type_ := "text", Text := "Hello, Claude!" }] }] ++
          convertMessages (fun _ => "null") [] :=
  ⟨rfl, C13_plain_string_content (fun _ => "null") helloClaudeRequest [] [] "user"
    "Hello, Claude!" rfl⟩

theorem convertTools_foldl (tools : List ClaudeTool) (init : List OAIFunctionTool) :
    tools.foldl (fun oaiTools t =>
      oaiTools ++ [{ Type_ := "function",
                     Function := [("name", .str t.Name),
                                  ("description", .strPtr t.Description),
                                  ("parameters", .map t.InputSchema)] }]) init =
      init ++ tools.map functionToolOf := by
  induction tools generalizing init with
  | nil => simp
  | cons t ts ih =>
    rw [List.foldl_cons, ih]
    simp [functionToolOf]

theorem convertTools_eq_map (tools : List ClaudeTool) :
    convertTools tools = tools.map functionToolOf := by
  rw [convertTools, convertTools_foldl]
  rfl

theorem ConvertToolChoiceClaudeToOAI_map_ne_nil (tc : List (String × GoAny)) :
    ConvertToolChoiceClaudeToOAI (.map tc) ≠ .nil := by
  simp only [ConvertToolChoiceClaudeToOAI]
  split_ifs
  · simp
  · simp
  · cases (GoAny.lookup tc "name").asString <;> simp
  · simp

/-- C14: `ConvertToolChoiceClaudeToOAI` maps nil to nil, a mapping of type `auto` to the
string `auto`, of type `any` to the string `any`, of type `tool` with a string `name` N to
the mapping with `type` `function` and `function` the mapping with `name` N, and every other
mapping (a type that is none of the three, no type, or type `tool` without a string name) to
the string `auto`. -/
theorem C14_tool_choice_table :
    ConvertToolChoiceClaudeToOAI .nil = .nil ∧
    ∀ tc : List (String × GoAny),
      (GoAny.lookup tc "type" = .str "auto" →
        ConvertToolChoiceClaudeToOAI (.map tc) = .str "auto") ∧
      (GoAny.lookup tc "type" = .str "any" →
        ConvertToolChoiceClaudeToOAI (.map tc) = .str "any") ∧
      (∀ name : String, GoAny.lookup tc "type" = .str "tool" →
        GoAny.lookup tc "name" = .str name →
        ConvertToolChoiceClaudeToOAI (.map tc) =
          .map [("type", .str "function"), ("function", .map [("name", .str name)])]) ∧
      (GoAny.lookup tc "type" ≠ .str "auto" → GoAny.lookup tc "type" ≠ .str "any" →
        (GoAny.lookup tc "type" ≠ .str "tool" ∨
          ∀ name : String, GoAny.lookup tc "name" ≠ .str name) →
        ConvertToolChoiceClaudeToOAI (.map tc) = .str "auto") := by
  refine ⟨rfl, fun tc => ⟨?_, ?_, ?_, ?_⟩⟩
  · intro h
    simp [ConvertToolChoiceClaudeToOAI, h, GoAny.asString]
  · intro h
    simp [ConvertToolChoiceClaudeToOAI, h, GoAny.asString]
  · intro name h hn
    simp [ConvertToolChoiceClaudeToOAI, h, hn, GoAny.asString]
  · intro h1 h2 h3
    simp only [ConvertToolChoiceClaudeToOAI]
    cases ht : GoAny.lookup tc "type" with
    | str s =>
      rw [ht] at h1 h2 h3
      have h1 : s ≠ "auto" := fun e => h1 (by rw [e])
      have h2 : s ≠ "any" := fun e => h2 (by rw [e])
      by_cases h4 : s = "tool"
      · subst h4
        have h3 : ∀ name : String, GoAny.lookup tc "name" ≠ .str name := by
          rcases h3 with h3 | h3
          · exact absurd rfl h3
          · exact h3
        cases hn : GoAny.lookup tc "name" with
        | str n => exact absurd hn (h3 n)
        | _ => simp [GoAny.asString]
      · simp [GoAny.asString, h1, h2, h4]
    | _ => simp [GoAny.asString]

/-- C14 at the inputs of `TestConvertToolChoiceClaudeToOAI` (conversion_test.go 60-84). -/
theorem C14_tool_choice_table_witness :
    ConvertToolChoiceClaudeToOAI (.map [("type", .str "auto")]) = .str "auto" ∧
    ConvertToolChoiceClaudeToOAI (.map [("type", .str "any")]) = .str "any" ∧
    ConvertToolChoiceClaudeToOAI (.map [("type", .str "tool"), ("name", .str "calculator")]) =
      .map [("type", .str "function"), ("function", .map [("name", .str "calculator")])] ∧
    ConvertToolChoiceClaudeToOAI (.map [("type", .str "unknown")]) = .str "auto" :=
  ⟨(C14_tool_choice_table.2 _).1 rfl,
   (C14_tool_choice_table.2 _).2.1 rfl,
   (C14_tool_choice_table.2 _).2.2.1 "calculator" rfl rfl,
   (C14_tool_choice_table.2 _).2.2.2 (by simp [GoAny.lookup]) (by simp [GoAny.lookup])
     (Or.inl (by simp [GoAny.lookup]))⟩

/-- C15: when the request has a tools list, the output has a tools list of the same length
whose i-th entry has the type `function` and a function mapping whose `name`, `description`
and `parameters` are the name, the description and the input schema of the i-th tool of the
request; without a tools list the output has none.  The tool choice of the output is absent
exactly when that of the request is, and is otherwise `ConvertToolChoiceClaudeToOAI` of
it. -/
theorem C15_tool_translation (marshal : GoAny → String) (req : ClaudeMessagesRequest) :
    ∃ out, ConvertClaudeToOAI marshal req = .ok out ∧
      out.Tools = req.Tools.map (fun tools => tools.map (fun t =>
        { Type_ := "function",
          Function := [("name", .str t.Name),
                       ("description", .strPtr t.Description),
                       ("parameters", .map t.InputSchema)] })) ∧
      (out.ToolChoice = .nil ↔ req.ToolChoice = none) ∧
      ∀ tc, req.ToolChoice = some tc →
        out.ToolChoice = ConvertToolChoiceClaudeToOAI (.map tc) := by
  refine ⟨_, rfl, ?_, ?_, ?_⟩
  · show req.Tools.map convertTools = _
    cases req.Tools with
    | none => rfl
    | some tools => exact congrArg some (convertTools_eq_map tools)
  · show (match req.ToolChoice with
          | some tc => ConvertToolChoiceClaudeToOAI (.map tc)
          | none => GoAny.nil) = .nil ↔ _
    cases req.ToolChoice with
    | none => simp
    | some tc => simp [ConvertToolChoiceClaudeToOAI_map_ne_nil]
  · intro tc h
    show (match req.ToolChoice with
          | some tc => ConvertToolChoiceClaudeToOAI (.map tc)
          | none => GoAny.nil) = _
    rw [h]

/-- C15 at a request with the tool `calculator` and the tool choice of type `tool` naming
it. -/
theorem C15_tool_translation_witness :
    calculatorRequest.ToolChoice = some [("type", .str "tool"), ("name", .str "calculator")] ∧
    ∃ out, ConvertClaudeToOAI (fun _ => "null") calculatorRequest = .ok out ∧
      out.Tools = some [{ Type_ := "function",
                          Function := [("name", .str "calculator"),
                                       ("description", .strPtr (some "Evaluates an expression")),
                                       ("parameters", .map [("type", .str "object")])] }] ∧
      out.ToolChoice =
        .map [("type", .str "function"), ("function", .map [("name", .str "calculator")])] :=
  ⟨rfl,
    match C15_tool_translation (fun _ => "null") calculatorRequest with
    | ⟨out, h, htools, _, hchoice⟩ => ⟨out, h, htools, hchoice _ rfl⟩⟩

/-- C16: `ConvertClaudeToOAI` returns no error; `max_tokens`, `temperature`, `top_p` and
`top_k` of the output are those of the request, `stop` is the `stop_sequences` of the
request (absent when they are absent), and `stream` is true whatever the `stream` of the
request. -/
theorem C16_parameter_passthrough (marshal : GoAny → String) (req : ClaudeMessagesRequest) :
    ∃ out, ConvertClaudeToOAI marshal req = .ok out ∧
      out.MaxTokens = req.MaxTokens ∧
      out.Temperature = req.Temperature ∧
      out.TopP = req.TopP ∧
      out.TopK = req.TopK ∧
      out.Stop = req.StopSequences ∧
      out.Stream = true :=
  ⟨_, rfl, rfl, rfl, rfl, rfl, rfl, rfl⟩

/-- C17: for a request with exactly one message, whose content is a plain string `s`,
`ConvertOAIToClaude` after `ConvertClaudeToOAI` succeeds and returns a request with the
model of the Chat-Completions request (`gpt-4.1` when the model name of the request does
not contain `haiku`) and exactly one message, with the role of the original and a content of
exactly one text block whose text is `s`. -/
theorem C17_round_trip (marshal : GoAny → String) (req : ClaudeMessagesRequest)
    (role s : String) (hreq : req.Messages = [{ Role := role, Content := .str s }]) :
    ∃ oai back, ConvertClaudeToOAI marshal req = .ok oai ∧ ConvertOAIToClaude oai = .ok back ∧
      back.Model = oai.Model ∧
      (Contains req.Model "haiku" = false → back.Model = "gpt-4.1") ∧
      back.Messages =
        [{ Role := role, Content := .textBlocks [{ Type_ := "text", Text := s }] }] := by
  have hf : flattenContent marshal { Role := role, Content := .str s } =
      [{ Type_ := "text", Text := s }] := by
    by_cases hr : role = "user" <;> simp [flattenContent, hr]
  refine ⟨_, _, rfl, rfl, rfl, ?_, ?_⟩
  · intro h
    show (if Contains req.Model "haiku" = true then "gpt-4o-mini" else "gpt-4.1") = _
    simp [h]
  · show convertMessagesBack (convertMessages marshal req.Messages) = _
    rw [hreq, convertMessages_cons, hf]
    simp [convertMessages, messageOf, hf, convertMessagesBack, textBlocksOf]

/-- C17 at the request of `TestConvertClaudeToOAIAndBack` (conversion_test.go 13-52). -/
theorem C17_round_trip_witness :
    helloClaudeRequest.Messages = [{ Role := "user", Content := .str "Hello, Claude!" }] ∧
    Contains helloClaudeRequest.Model "haiku" = false ∧
    ∃ oai back, ConvertClaudeToOAI (fun _ => "null") helloClaudeRequest = .ok oai ∧
      ConvertOAIToClaude oai = .ok back ∧
      back.Model = "gpt-4.1" ∧
      back.Messages =
        [{ Role := "user",
           Content := .textBlocks [{ Type_ := "text", Text := "Hello, Claude!" }] }] :=
  ⟨rfl, by decide,
    match C17_round_trip (fun _ => "null") helloClaudeRequest "user" "Hello, Claude!" rfl with
    | ⟨oai, back, h1, h2, _, hmodel, hmsgs⟩ => ⟨oai, back, h1, h2, hmodel (by decide), hmsgs⟩⟩

/-! ## The transcoder: what the read loop can write -/

theorem processToolCalls_all (Q : Written → Bool)
    (hstop : ∀ i, Q (.event (.contentBlockStop i)) = true)
    (hstart : ∀ tc, Q (toolUseStartOf tc) = true)
    (hdelta : ∀ i d, Q (.event (.contentBlockDelta i d)) = true)
    (last : Int) (tcs : List OAIToolCall) :
    ∀ w ∈ (processToolCalls last tcs).2, Q w = true := by
  induction tcs generalizing last with
  | nil => simp [processToolCalls]
  | cons tc tcs ih =>
    intro w hw
    simp only [processToolCalls, List.mem_append] at hw
    rcases hw with hw | hw
    · unfold processToolCall at hw
      simp only [List.mem_append, List.mem_singleton] at hw
      rcases hw with (hw | hw) | hw
      · split_ifs at hw
        · rw [List.mem_singleton.mp hw]; exact hstop _
        · simp at hw
      · split_ifs at hw
        · rw [List.mem_singleton.mp hw]; exact hstart tc
        · simp at hw
      · rw [hw]; exact hdelta _ _
    · exact ih _ w hw

theorem processChoice_all (Q : Written → Bool)
    (hstop : ∀ i, Q (.event (.contentBlockStop i)) = true)
    (hstart : ∀ tc, Q (toolUseStartOf tc) = true)
    (hdelta : ∀ i d, Q (.event (.contentBlockDelta i d)) = true)
    (hmd : ∀ r s t, Q (.event (.messageDelta r s t)) = true)
    (hms : Q (.event .messageStop) = true) (hdone : Q .done = true)
    (st : TranscoderState) (c : OAIChoice) :
    ∀ w ∈ (processChoice st c).2.1, Q w = true := by
  intro w hw
  have ht := processToolCalls_all Q hstop hstart hdelta st.lastToolIndex c.Delta.ToolCalls
  unfold processChoice at hw
  cases hf : c.FinishReason with
  | none =>
    rw [hf] at hw
    simp only [List.mem_append] at hw
    rcases hw with (hw | hw) | hw <;> split_ifs at hw <;>
      first
      | exact absurd hw (List.not_mem_nil _)
      | exact ht w hw
      | (rw [List.mem_singleton.mp hw]; first | exact hstop _ | exact hdelta _ _)
  | some f =>
    rw [hf] at hw
    simp only [List.mem_append, List.mem_cons, List.mem_singleton, List.not_mem_nil,
      or_false] at hw
    rcases hw with ((((hw | hw) | hw) | hw) | hw) | (hw | hw | hw)
    iterate 5
      split_ifs at hw <;>
        first
        | exact absurd hw (List.not_mem_nil _)
        | exact ht w hw
        | (rw [List.mem_singleton.mp hw]; first | exact hstop _ | exact hdelta _ _)
    · rw [hw]; exact hmd _ _ _
    · rw [hw]; exact hms
    · rw [hw]; exact hdone

theorem processChoices_all (Q : Written → Bool)
    (hstop : ∀ i, Q (.event (.contentBlockStop i)) = true)
    (hstart : ∀ tc, Q (toolUseStartOf tc) = true)
    (hdelta : ∀ i d, Q (.event (.contentBlockDelta i d)) = true)
    (hmd : ∀ r s t, Q (.event (.messageDelta r s t)) = true)
    (hms : Q (.event .messageStop) = true) (hdone : Q .done = true)
    (st : TranscoderState) (cs : List OAIChoice) :
    ∀ w ∈ (processChoices st cs).2.1, Q w = true := by
  induction cs generalizing st with
  | nil => simp [processChoices]
  | cons c cs ih =>
    intro w hw
    have hc := processChoice_all Q hstop hstart hdelta hmd hms hdone st c
    simp only [processChoices] at hw
    split_ifs at hw
    · exact hc w hw
    · rcases List.mem_append.mp hw with hw | hw
      · exact hc w hw
      · exact ih _ w hw

theorem readLoop_all (Q : Written → Bool)
    (hstop : ∀ i, Q (.event (.contentBlockStop i)) = true)
    (hstart : ∀ tc, Q (toolUseStartOf tc) = true)
    (hdelta : ∀ i d, Q (.event (.contentBlockDelta i d)) = true)
    (hmd : ∀ r s t, Q (.event (.messageDelta r s t)) = true)
    (hms : Q (.event .messageStop) = true) (hdone : Q .done = true)
    (herr : ∀ err, Q (.errorNotice err) = true)
    (st : TranscoderState) (lines : List UpLine) :
    ∀ w ∈ readLoop st lines, Q w = true := by
  have hend : ∀ st : TranscoderState, ∀ w ∈ endOfStream st, Q w = true := by
    intro st w hw
    unfold endOfStream at hw
    split_ifs at hw
    · simp only [List.mem_cons, List.mem_singleton, List.not_mem_nil, or_false] at hw
      rcases hw with hw | hw | hw | hw
      · rw [hw]; exact hstop _
      · rw [hw]; exact hmd _ _ _
      · rw [hw]; exact hms
      · rw [hw]; exact hdone
    · simp at hw
  induction lines generalizing st with
  | nil => exact hend st
  | cons l rest ih =>
    intro w hw
    cases l with
    | skip => exact ih st w hw
    | done => exact hend st w hw
    | invalid err =>
      simp only [readLoop, List.mem_cons] at hw
      rcases hw with hw | hw
      · rw [hw]; exact herr err
      · exact ih st w hw
    | chunk c =>
      have hc := processChoices_all Q hstop hstart hdelta hmd hms hdone st c.Choices
      simp only [readLoop] at hw
      split_ifs at hw
      · exact hc w hw
      · rcases List.mem_append.mp hw with hw | hw
        · exact hc w hw
        · exact ih _ w hw

/-- C19: for every upstream, the empty one included, and every model name `m`, the output of
`ConvertOAIStreamToClaudeStream` begins with `message_start` (id `msg_` and 24 zero digits,
type `message`, role `assistant`, model `m`, empty content, null `stop_reason` and
`stop_sequence`, the four usage counters 0), `content_block_start` for index 0 with an empty
text block, and `ping`; no other `message_start` and no other `content_block_start` of a text
block is written after them. -/
theorem C19_initial_emission (lines : List UpLine) (m : String) :
    ∃ rest, ConvertOAIStreamToClaudeStream lines m =
      [ .event (.messageStart
          { id := "msg_000000000000000000000000", type_ := "message", role := "assistant",
            model := m, contentLen := 0, stop_reason := none, stop_sequence := none,
            usage := { InputTokens := 0, OutputTokens := 0,
                       CacheCreationInputTokens := 0, CacheReadInputTokens := 0 } }),
        .event (.contentBlockStart 0 (.text "")),
        .event .ping ] ++ rest ∧
      ∀ w ∈ rest, isMessageStart w = false ∧ isTextBlockStart w = false := by
  have hid : sprintfMsgID 0 = "msg_000000000000000000000000" := by decide
  refine ⟨readLoop TranscoderState.init lines, ?_, ?_⟩
  · simp only [ConvertOAIStreamToClaudeStream, initialEvents, hid]
  · intro w hw
    have h := readLoop_all (fun w => !isMessageStart w && !isTextBlockStart w)
      (fun _ => rfl) (fun _ => rfl) (fun _ _ => rfl) (fun _ _ _ => rfl) rfl rfl (fun _ => rfl)
      TranscoderState.init lines w hw
    simpa using h

/-! ## The transcoder: the blocks it opens -/

theorem isBlockStart_toolUseStartOf (tc : OAIToolCall) : isBlockStart (toolUseStartOf tc) = true :=
  rfl

theorem processToolCalls_blockStart (last : Int) (tcs : List OAIToolCall) :
    ∀ w ∈ (processToolCalls last tcs).2, isBlockStart w = true →
      ∃ tc ∈ tcs, w = toolUseStartOf tc := by
  induction tcs generalizing last with
  | nil => simp [processToolCalls]
  | cons tc tcs ih =>
    intro w hw hs
    simp only [processToolCalls, List.mem_append] at hw
    rcases hw with hw | hw
    · refine ⟨tc, List.mem_cons_self _ _, ?_⟩
      unfold processToolCall at hw
      simp only [List.mem_append, List.mem_singleton] at hw
      rcases hw with (hw | hw) | hw
      · split_ifs at hw
        · rw [List.mem_singleton.mp hw] at hs; simp [isBlockStart] at hs
        · simp at hw
      · split_ifs at hw
        · exact List.mem_singleton.mp hw
        · simp at hw
      · rw [hw] at hs; simp [isBlockStart] at hs
    · obtain ⟨tc2, h1, h2⟩ := ih _ w hw hs
      exact ⟨tc2, List.mem_cons_of_mem _ h1, h2⟩

theorem processChoice_blockStart (st : TranscoderState) (c : OAIChoice) :
    ∀ w ∈ (processChoice st c).2.1, isBlockStart w = true →
      ∃ tc ∈ c.Delta.ToolCalls, w = toolUseStartOf tc := by
  intro w hw hs
  have ht := processToolCalls_blockStart st.lastToolIndex c.Delta.ToolCalls
  unfold processChoice at hw
  cases hf : c.FinishReason with
  | none =>
    rw [hf] at hw
    simp only [List.mem_append] at hw
    rcases hw with (hw | hw) | hw <;> split_ifs at hw <;>
      first
      | exact absurd hw (List.not_mem_nil _)
      | exact ht w hw hs
      | (rw [List.mem_singleton.mp hw] at hs; simp [isBlockStart] at hs)
  | some f =>
    rw [hf] at hw
    simp only [List.mem_append, List.mem_cons, List.mem_singleton, List.not_mem_nil,
      or_false] at hw
    rcases hw with ((((hw | hw) | hw) | hw) | hw) | (hw | hw | hw)
    iterate 5
      split_ifs at hw <;>
        first
        | exact absurd hw (List.not_mem_nil _)
        | exact ht w hw hs
        | (rw [List.mem_singleton.mp hw] at hs; simp [isBlockStart] at hs)
    all_goals (rw [hw] at hs; simp [isBlockStart] at hs)

theorem toolCallsOf_append (a b : List OAIChoice) :
    toolCallsOf (a ++ b) = toolCallsOf a ++ toolCallsOf b := by
  induction a with
  | nil => rfl
  | cons c cs ih => simp [toolCallsOf_cons, ih]

theorem processChoices_blockStart (st : TranscoderState) (cs : List OAIChoice) :
    ∀ w ∈ (processChoices st cs).2.1, isBlockStart w = true →
      ∃ tc ∈ toolCallsOf (choicesUpToFinish cs), w = toolUseStartOf tc := by
  induction cs generalizing st with
  | nil => simp [processChoices]
  | cons c cs ih =>
    intro w hw hs
    cases hc : c.FinishReason with
    | some g =>
      have hflag := (processChoice_of_some st c g hc).1
      simp only [processChoices, hflag, if_true] at hw
      obtain ⟨tc, h1, h2⟩ := processChoice_blockStart st c w hw hs
      refine ⟨tc, ?_, h2⟩
      simp [choicesUpToFinish, hc, toolCallsOf_cons, toolCallsOf, h1]
    | none =>
      have hflag := (processChoice_of_none st c hc).1
      simp only [processChoices, hflag, Bool.false_eq_true, if_false, List.mem_append] at hw
      have hup : choicesUpToFinish (c :: cs) = c :: choicesUpToFinish cs := by
        simp [choicesUpToFinish, hc]
      rw [hup, toolCallsOf_cons]
      rcases hw with hw | hw
      · obtain ⟨tc, h1, h2⟩ := processChoice_blockStart st c w hw hs
        exact ⟨tc, List.mem_append_left _ h1, h2⟩
      · obtain ⟨tc, h1, h2⟩ := ih _ w hw hs
        exact ⟨tc, List.mem_append_right _ h1, h2⟩

theorem endOfStream_blockStart (st : TranscoderState) :
    ∀ w ∈ endOfStream st, isBlockStart w = false := by
  intro w hw
  unfold endOfStream at hw
  split_ifs at hw
  · simp only [List.mem_cons, List.mem_singleton, List.not_mem_nil, or_false] at hw
    rcases hw with hw | hw | hw | hw <;> rw [hw] <;> rfl
  · simp at hw

theorem readLoop_blockStart (st : TranscoderState) (lines : List UpLine) :
    ∀ w ∈ readLoop st lines, isBlockStart w = true →
      ∃ tc ∈ toolCallsRead lines, w = toolUseStartOf tc := by
  induction lines generalizing st with
  | nil =>
    intro w hw hs
    rw [endOfStream_blockStart st w hw] at hs
    exact absurd hs (by decide)
  | cons l rest ih =>
    intro w hw hs
    cases l with
    | skip => exact ih st w hw hs
    | done =>
      rw [endOfStream_blockStart st w hw] at hs
      exact absurd hs (by decide)
    | invalid err =>
      simp only [readLoop, List.mem_cons] at hw
      rcases hw with hw | hw
      · rw [hw] at hs; simp [isBlockStart] at hs
      · exact ih st w hw hs
    | chunk c =>
      simp only [toolCallsRead, choicesRead]
      cases hfin : firstFinishReason c.Choices with
      | some g =>
        have hflag := (processChoices_of_some st c.Choices g hfin).1
        simp only [readLoop, hflag, if_true] at hw
        rw [choicesUpToFinish_append_of_some _ _ g hfin]
        exact processChoices_blockStart st c.Choices w hw hs
      | none =>
        have hflag := (processChoices_of_none st c.Choices hfin).1
        simp only [readLoop, hflag, Bool.false_eq_true, if_false, List.mem_append] at hw
        rw [choicesUpToFinish_append_of_none _ _ hfin, toolCallsOf_append]
        rcases hw with hw | hw
        · obtain ⟨tc, h1, h2⟩ := processChoices_blockStart st c.Choices w hw hs
          have hself := choicesUpToFinish_append_of_none c.Choices [] hfin
          simp only [List.append_nil, choicesUpToFinish] at hself
          rw [hself] at h1
          exact ⟨tc, List.mem_append_left _ h1, h2⟩
        · obtain ⟨tc, h1, h2⟩ := ih _ w hw hs
          exact ⟨tc, List.mem_append_right _ h1, h2⟩

/-- C18 (as amended): a tool-use block carries the index of the upstream tool call as it
is.  Every `content_block_start` of the output is that of the initial text block, with index
0, or carries the index, the id and the name of a tool-call entry that the transcoder
processed; so the only `content_block_start` with index 0 is that of the initial text block
when no tool-call entry processed has the index 0. -/
theorem C18_tool_block_index_verbatim (lines : List UpLine) (model : String) :
    (∀ w ∈ ConvertOAIStreamToClaudeStream lines model, isBlockStart w = true →
      w = .event (.contentBlockStart 0 (.text "")) ∨
        ∃ tc ∈ toolCallsRead lines, w = toolUseStartOf tc) ∧
    ((∀ tc ∈ toolCallsRead lines, tc.Index ≠ 0) →
      (ConvertOAIStreamToClaudeStream lines model).filter (isBlockStartAt 0) =
        [.event (.contentBlockStart 0 (.text ""))]) := by
  constructor
  · intro w hw hs
    simp only [ConvertOAIStreamToClaudeStream, initialEvents, List.mem_append, List.mem_cons,
      List.mem_singleton, List.not_mem_nil, or_false] at hw
    rcases hw with (hw | hw | hw) | hw
    · rw [hw] at hs; simp [isBlockStart] at hs
    · exact Or.inl hw
    · rw [hw] at hs; simp [isBlockStart] at hs
    · exact Or.inr (readLoop_blockStart _ lines w hw hs)
  · intro hno
    have hrest : (readLoop TranscoderState.init lines).filter (isBlockStartAt 0) = [] := by
      rw [List.filter_eq_nil_iff]
      intro w hw hz
      have hs : isBlockStart w = true := by
        cases w with
        | event e => cases e <;> simp [isBlockStartAt, isBlockStart] at hz ⊢
        | _ => simp [isBlockStartAt] at hz
      obtain ⟨tc, h1, h2⟩ := readLoop_blockStart _ lines w hw hs
      rw [h2] at hz
      simp only [toolUseStartOf, isBlockStartAt, decide_eq_true_eq] at hz
      exact hno tc h1 hz
    simp only [ConvertOAIStreamToClaudeStream, initialEvents, List.filter_append, hrest,
      List.append_nil]
    rfl

/-- C18 as amended at an upstream whose only tool call has the index 1: the only
`content_block_start` with index 0 is that of the initial text block. -/
theorem C18_tool_block_index_verbatim_witness :
    (∀ tc ∈ toolCallsRead toolCallIndexOneStream, tc.Index ≠ 0) ∧
    (ConvertOAIStreamToClaudeStream toolCallIndexOneStream "claude-3-sonnet-20240229").filter
        (isBlockStartAt 0) =
      [.event (.contentBlockStart 0 (.text ""))] :=
  ⟨by decide,
    (C18_tool_block_index_verbatim toolCallIndexOneStream "claude-3-sonnet-20240229").2
      (by decide)⟩

/-- C18 as stated fails on the upstream of `TestConvertOAIStreamToClaudeStream_ToolCall`,
whose tool call has the index 0 (upstream tool calls are numbered from 0): the output has
two `content_block_start` events with index 0, that of the initial text block and that of
the tool-use block `call_1`. -/
theorem C18_counterexample_tool_call_index_zero :
    (ConvertOAIStreamToClaudeStream singleToolCallStream "claude-3-sonnet-20240229").filter
        (isBlockStartAt 0) =
      [ .event (.contentBlockStart 0 (.text "")),
        .event (.contentBlockStart 0 (.toolUse "call_1" "calculator")) ] := by
  decide

/-! ## The transcoder: the closing sequence -/

theorem processToolCalls_record (last : Int) (tcs : List OAIToolCall) :
    (processToolCalls last tcs).2.foldl recordStep last = (processToolCalls last tcs).1 ∧
      (processToolCalls last tcs).2.any (isBlockStopAt 0) = false ∧
      (processToolCalls last tcs).2.any isClosingWrite = false := by
  induction tcs generalizing last with
  | nil => exact ⟨rfl, rfl, rfl⟩
  | cons tc tcs ih =>
    obtain ⟨i1, i2, i3⟩ := ih (processToolCall last tc).1
    have h1 : (processToolCall last tc).2.foldl recordStep last = (processToolCall last tc).1 := by
      unfold processToolCall
      by_cases h : last = tc.Index
      · simp [h, recordStep]
      · by_cases h2 : last = -1
        · subst h2; simp [h, recordStep]
        · simp [h, h2, recordStep]
    have h2 : (processToolCall last tc).2.any (isBlockStopAt 0) = false := by
      unfold processToolCall
      by_cases h : last = tc.Index
      · simp [h, isBlockStopAt]
      · by_cases h2 : last = -1
        · subst h2; simp [h, isBlockStopAt]
        · simp [h, h2, isBlockStopAt]
    have h3 : (processToolCall last tc).2.any isClosingWrite = false := by
      unfold processToolCall
      by_cases h : last = tc.Index
      · simp [h, isClosingWrite]
      · by_cases h2 : last = -1
        · subst h2; simp [h, isClosingWrite]
        · simp [h, h2, isClosingWrite]
    refine ⟨?_, ?_, ?_⟩
    · simp only [processToolCalls, List.foldl_append, h1, i1]
    · simp only [processToolCalls, List.any_append, h2, i2, Bool.or_false]
    · simp only [processToolCalls, List.any_append, h3, i3, Bool.or_false]

theorem processChoice_record (st : TranscoderState) (c : OAIChoice)
    (h : c.FinishReason = none) :
    (processChoice st c).2.1.foldl recordStep st.lastToolIndex =
        (processChoice st c).1.lastToolIndex ∧
      (processChoice st c).1.textBlockClosed =
        (st.textBlockClosed || (processChoice st c).2.1.any (isBlockStopAt 0)) ∧
      (processChoice st c).2.1.any isClosingWrite = false := by
  obtain ⟨a1, a2, a3⟩ := processToolCalls_record st.lastToolIndex c.Delta.ToolCalls
  unfold processChoice
  rw [h]
  by_cases ht : c.Delta.ToolCalls.length > 0
  · cases hcl : st.textBlockClosed <;>
      simp [ht, hcl, List.foldl_append, List.any_append, a1, a2, a3, recordStep,
        isBlockStopAt, isClosingWrite]
  · by_cases hx : c.Delta.Content = "" <;> cases hcl : st.textBlockClosed <;>
      simp [ht, hcl, hx, recordStep, isBlockStopAt, isClosingWrite]

theorem processChoice_finish (st : TranscoderState) (c : OAIChoice) (f : String)
    (h : c.FinishReason = some f) (htok : st.outputTokens = 0) :
    (processChoice st c).2.1 =
      (processChoice st { c with FinishReason := none }).2.1 ++
        closingWrites (processChoice st { c with FinishReason := none }).1.lastToolIndex
          (processChoice st { c with FinishReason := none }).1.textBlockClosed f := by
  unfold processChoice closingWrites
  rw [h]
  simp only [htok, List.append_assoc]
  split_ifs <;> simp_all

theorem processChoice_closing (st : TranscoderState) (c : OAIChoice) (f : String)
    (h : c.FinishReason = some f) (htok : st.outputTokens = 0) :
    ∃ pre, (processChoice st c).2.1 =
        pre ++ closingWrites (pre.foldl recordStep st.lastToolIndex)
          (st.textBlockClosed || pre.any (isBlockStopAt 0)) f ∧
      pre.any isClosingWrite = false := by
  obtain ⟨b1, b2, b3⟩ := processChoice_record st { c with FinishReason := none } rfl
  refine ⟨(processChoice st { c with FinishReason := none }).2.1, ?_, b3⟩
  rw [processChoice_finish st c f h htok, b1, b2]

theorem processChoices_record (st : TranscoderState) (cs : List OAIChoice)
    (h : firstFinishReason cs = none) :
    (processChoices st cs).2.1.foldl recordStep st.lastToolIndex =
        (processChoices st cs).1.lastToolIndex ∧
      (processChoices st cs).1.textBlockClosed =
        (st.textBlockClosed || (processChoices st cs).2.1.any (isBlockStopAt 0)) ∧
      (processChoices st cs).2.1.any isClosingWrite = false := by
  induction cs generalizing st with
  | nil => simp [processChoices]
  | cons c cs ih =>
    have hc : c.FinishReason = none := by
      cases hf : c.FinishReason with
      | none => rfl
      | some f => simp [firstFinishReason, hf] at h
    have hcs : firstFinishReason cs = none := by
      simpa [firstFinishReason, hc] using h
    have hflag := (processChoice_of_none st c hc).1
    obtain ⟨b1, b2, b3⟩ := processChoice_record st c hc
    obtain ⟨i1, i2, i3⟩ := ih (processChoice st c).1 hcs
    simp only [processChoices, hflag, Bool.false_eq_true, if_false, List.foldl_append,
      List.any_append, b1, i1, i2, b2, b3, i3, Bool.or_assoc, Bool.or_false, and_self]

theorem processChoices_closing (st : TranscoderState) (cs : List OAIChoice) (f : String)
    (h : firstFinishReason cs = some f) (htok : st.outputTokens = 0) :
    ∃ pre, (processChoices st cs).2.1 =
        pre ++ closingWrites (pre.foldl recordStep st.lastToolIndex)
          (st.textBlockClosed || pre.any (isBlockStopAt 0)) f ∧
      pre.any isClosingWrite = false := by
  induction cs generalizing st with
  | nil => simp [firstFinishReason] at h
  | cons c cs ih =>
    cases hc : c.FinishReason with
    | some g =>
      have hg : g = f := by simpa [firstFinishReason, hc] using h
      subst hg
      have hflag := (processChoice_of_some st c g hc).1
      simp only [processChoices, hflag, if_true]
      exact processChoice_closing st c g hc htok
    | none =>
      have hcs : firstFinishReason cs = some f := by
        simpa [firstFinishReason, hc] using h
      have hflag := (processChoice_of_none st c hc).1
      obtain ⟨b1, b2, b3⟩ := processChoice_record st c hc
      have htok2 : (processChoice st c).1.outputTokens = 0 := by
        rw [processChoice_outputTokens, htok]
      obtain ⟨pre, i1, i2⟩ := ih (processChoice st c).1 hcs htok2
      refine ⟨(processChoice st c).2.1 ++ pre, ?_, ?_⟩
      · simp only [processChoices, hflag, Bool.false_eq_true, if_false, i1, List.foldl_append,
          List.any_append, b1, b2, Bool.or_assoc, List.append_assoc]
      · simp only [List.any_append, b3, i2, Bool.or_false]

theorem readLoop_closing (st : TranscoderState) (lines : List UpLine) (f : String)
    (h : firstFinishReason (choicesRead lines) = some f) (htok : st.outputTokens = 0) :
    ∃ pre, readLoop st lines =
        pre ++ closingWrites (pre.foldl recordStep st.lastToolIndex)
          (st.textBlockClosed || pre.any (isBlockStopAt 0)) f ∧
      pre.any isClosingWrite = false := by
  induction lines generalizing st with
  | nil => simp [choicesRead, firstFinishReason] at h
  | cons l rest ih =>
    cases l with
    | skip => exact ih st (by simpa [choicesRead] using h) htok
    | done => simp [choicesRead, firstFinishReason] at h
    | invalid err =>
      obtain ⟨pre, i1, i2⟩ := ih st (by simpa [choicesRead] using h) htok
      refine ⟨.errorNotice err :: pre, ?_, ?_⟩
      · simp only [readLoop, i1, List.foldl_cons, recordStep, List.any_cons, isBlockStopAt,
          Bool.false_or, List.cons_append]
      · simp only [List.any_cons, isClosingWrite, i2, Bool.or_false]
    | chunk c =>
      rw [choicesRead, firstFinishReason_append] at h
      cases hc : firstFinishReason c.Choices with
      | some g =>
        rw [hc] at h
        have hg : g = f := by simpa using h
        subst hg
        have hflag := (processChoices_of_some st c.Choices g hc).1
        simp only [readLoop, hflag, if_true]
        exact processChoices_closing st c.Choices g hc htok
      | none =>
        rw [hc] at h
        obtain ⟨hflag, _, htok2⟩ := processChoices_of_none st c.Choices hc
        obtain ⟨b1, b2, b3⟩ := processChoices_record st c.Choices hc
        obtain ⟨pre, i1, i2⟩ := ih (processChoices st c.Choices).1 h (by rw [htok2, htok])
        refine ⟨(processChoices st c.Choices).2.1 ++ pre, ?_, ?_⟩
        · simp only [readLoop, hflag, Bool.false_eq_true, if_false, i1, List.foldl_append,
            List.any_append, b1, b2, Bool.or_assoc, List.append_assoc]
        · simp only [List.any_append, b3, i2, Bool.or_false]

theorem processChoices_cut (st : TranscoderState) (cs1 cs2 : List OAIChoice) (ch : OAIChoice)
    (g : String) (h : ch.FinishReason = some g) :
    processChoices st (cs1 ++ ch :: cs2) = processChoices st (cs1 ++ [ch]) ∧
      (processChoices st (cs1 ++ [ch])).2.2 = true := by
  induction cs1 generalizing st with
  | nil =>
    have hflag := (processChoice_of_some st ch g h).1
    simp [processChoices, hflag]
  | cons c cs ih =>
    obtain ⟨i1, i2⟩ := ih (processChoice st c).1
    by_cases hfin : (processChoice st c).2.2 = true
    · simp [processChoices, hfin]
    · simp only [List.cons_append, processChoices, hfin, Bool.false_eq_true, if_false,
        List.append_eq]
      rw [i1]
      exact ⟨rfl, i2⟩

theorem readLoop_cut (st : TranscoderState) (before after : List UpLine) (c : OAIStreamChunk)
    (cs1 cs2 : List OAIChoice) (ch : OAIChoice) (g : String) (h : ch.FinishReason = some g) :
    readLoop st (before ++ .chunk { c with Choices := cs1 ++ ch :: cs2 } :: after) =
      readLoop st (before ++ [.chunk { c with Choices := cs1 ++ [ch] }]) := by
  induction before generalizing st with
  | nil =>
    obtain ⟨h1, h2⟩ := processChoices_cut st cs1 cs2 ch g h
    simp only [List.nil_append, readLoop, h1, h2, if_true]
  | cons l rest ih =>
    cases l with
    | skip => exact ih st
    | done => rfl
    | invalid err => simp only [List.cons_append, readLoop, List.append_eq, ih st]
    | chunk c2 => simp only [List.cons_append, readLoop, List.append_eq, ih]

/-- C20: when a choice read by `ConvertOAIStreamToClaudeStream` carries a `finish_reason`,
the output ends with the closing sequence of the first such choice: `content_block_stop` for
the tool index on record if one is on record, `content_block_stop` for index 0 if the text
block is still open, one `message_delta`, one `message_stop` and the bytes of
`data: [DONE]`; no `message_delta`, `message_stop` or `data: [DONE]` is written before it and
nothing after it, so the output has exactly one `message_stop`; and every choice and line
of the upstream after a choice with a `finish_reason` is ignored: the output is that of the
upstream cut after this choice.  The function then returns `nil` (conversion.go 778). -/
theorem C20_closing_sequence_on_finish (lines : List UpLine) (model f : String)
    (h : firstFinishReason (choicesRead lines) = some f) :
    (∃ pre, ConvertOAIStreamToClaudeStream lines model =
        pre ++ closingWrites (recordedToolIndex pre) (textBlockStopped pre) f ∧
      pre.any isClosingWrite = false) ∧
    (ConvertOAIStreamToClaudeStream lines model).filter isMessageStop =
      [.event .messageStop] ∧
    (∀ (before after : List UpLine) (c : OAIStreamChunk) (cs1 cs2 : List OAIChoice)
        (ch : OAIChoice) (g : String),
      ch.FinishReason = some g →
      lines = before ++ .chunk { c with Choices := cs1 ++ ch :: cs2 } :: after →
      ConvertOAIStreamToClaudeStream lines model =
        ConvertOAIStreamToClaudeStream
          (before ++ [.chunk { c with Choices := cs1 ++ [ch] }]) model) := by
  obtain ⟨pre, h1, h2⟩ := readLoop_closing TranscoderState.init lines f h rfl
  have hpre : (initialEvents model ++ pre).any isClosingWrite = false := by
    simp only [List.any_append, h2, Bool.or_false]
    rfl
  have hout : ConvertOAIStreamToClaudeStream lines model =
      (initialEvents model ++ pre) ++
        closingWrites (recordedToolIndex (initialEvents model ++ pre))
          (textBlockStopped (initialEvents model ++ pre)) f := by
    have e1 : recordedToolIndex (initialEvents model ++ pre) =
        pre.foldl recordStep TranscoderState.init.lastToolIndex := by
      simp only [recordedToolIndex, List.foldl_append]
      rfl
    have e2 : textBlockStopped (initialEvents model ++ pre) =
        (TranscoderState.init.textBlockClosed || pre.any (isBlockStopAt 0)) := by
      simp only [textBlockStopped, List.any_append]
      rfl
    rw [ConvertOAIStreamToClaudeStream, h1, e1, e2, List.append_assoc]
  refine ⟨⟨_, hout, hpre⟩, ?_, ?_⟩
  · have hnone : (initialEvents model ++ pre).filter isMessageStop = [] := by
      rw [List.filter_eq_nil_iff]
      intro w hw hs
      have hc : isClosingWrite w = true := by
        cases w with
        | event e => cases e <;> simp [isMessageStop, isClosingWrite] at hs ⊢
        | _ => simp [isMessageStop] at hs
      have := List.any_eq_true.mpr ⟨w, hw, hc⟩
      rw [hpre] at this
      exact absurd this (by decide)
    rw [hout, List.filter_append, hnone, closingWrites]
    simp only [List.filter_append, List.nil_append]
    split_ifs <;> simp [List.filter_cons, isMessageStop]
  · intro before after c cs1 cs2 ch g hg hl
    rw [hl, ConvertOAIStreamToClaudeStream, ConvertOAIStreamToClaudeStream,
      readLoop_cut _ before after c cs1 cs2 ch g hg]

/-- C20 at the upstream of `TestConvertOAIStreamToClaudeStream_TextOnly`: after the two text
deltas the output ends with `content_block_stop` for index 0, `message_delta` with
`end_turn`, `message_stop` and `data: [DONE]`, and it has one `message_stop`; at the
upstream of `TestConvertOAIStreamToClaudeStream_ToolCall` the closing sequence starts with
the stop for the tool index on record, 0, and has no stop for the text block, which the
tool call closed. -/
theorem C20_closing_sequence_on_finish_witness :
    firstFinishReason (choicesRead helloWorldStream) = some "stop" ∧
    ConvertOAIStreamToClaudeStream helloWorldStream "claude-3-sonnet-20240229" =
      initialEvents "claude-3-sonnet-20240229" ++
        [ .event (.contentBlockDelta 0 (.textDelta "Hello, ")),
          .event (.contentBlockDelta 0 (.textDelta "world!")) ] ++
        [ .event (.contentBlockStop 0),
          .event (.messageDelta "end_turn" none 0),
          .event .messageStop,
          .done ] ∧
    ConvertOAIStreamToClaudeStream singleToolCallStream "claude-3-sonnet-20240229" =
      initialEvents "claude-3-sonnet-20240229" ++
        [ .event (.contentBlockStop 0),
          .event (.contentBlockStop (-1)),
          .event (.contentBlockStart 0 (.toolUse "call_1" "calculator")),
          .event (.contentBlockDelta 0
            (.inputJsonDelta "\x7b\"expression\": \"2+2\"\x7d" 0)) ] ++
        [ .event (.contentBlockStop 0),
          .event (.messageDelta "tool_use" none 0),
          .event .messageStop,
          .done ] ∧
    (ConvertOAIStreamToClaudeStream helloWorldStream "claude-3-sonnet-20240229").filter
        isMessageStop = [.event .messageStop] :=
  ⟨by decide, by decide, by decide,
    (C20_closing_sequence_on_finish helloWorldStream "claude-3-sonnet-20240229" "stop"
      (by decide)).2.1⟩

/-! ## The reducer: the order of the content, tool inputs, `message_delta`, errors -/

theorem reduceLoop_eq_foldl (u : String → Option (List (String × GoAny)))
    (st : ReducerState) (decoded : List (Option EventRecord)) :
    reduceLoop u st decoded = (recordsRead decoded).foldl (reduceEvent u) st := by
  induction decoded generalizing st with
  | nil => rfl
  | cons x xs ih =>
    cases x with
    | none => rfl
    | some r => simpa [reduceLoop, recordsRead] using ih (reduceEvent u st r)

theorem recordsRead_map_some_append (E : List EventRecord) (rest : List (Option EventRecord)) :
    recordsRead (E.map some ++ rest) = E ++ recordsRead rest := by
  induction E with
  | nil => rfl
  | cons x xs ih => simp [recordsRead, ih]

/-- C28: `ParseClaudeStreamToResponse` returns a response and no error for every input;
when the input is a sequence `E` of decodable records, then an undecodable record, then
anything, the response is that for `E` alone. -/
theorem C28_reducer_never_fails (u : String → Option (List (String × GoAny))) :
    (∀ decoded : List (Option EventRecord),
      ∃ resp, ParseClaudeStreamToResponse u decoded = .ok resp) ∧
    (∀ (E : List EventRecord) (rest : List (Option EventRecord)),
      ParseClaudeStreamToResponse u (E.map some ++ none :: rest) =
        ParseClaudeStreamToResponse u (E.map some)) := by
  refine ⟨fun decoded => ⟨_, rfl⟩, fun E rest => ?_⟩
  have h : reduceLoop u ReducerState.init (E.map some ++ none :: rest) =
      reduceLoop u ReducerState.init (E.map some) := by
    rw [reduceLoop_eq_foldl, reduceLoop_eq_foldl, recordsRead_map_some_append]
    have := recordsRead_map_some_append E []
    simp only [List.append_nil] at this
    rw [this]
    simp [recordsRead]
  simp only [ParseClaudeStreamToResponse, h]

theorem extendsBlock_refl (b : ClaudeContentBlockText) : extendsBlock b b = true := by
  simp [extendsBlock]

theorem extendsBlock_trans (a b c : ClaudeContentBlockText)
    (h1 : extendsBlock a b = true) (h2 : extendsBlock b c = true) : extendsBlock a c = true := by
  simp only [extendsBlock, Bool.and_eq_true, decide_eq_true_eq, List.isPrefixOf_iff_prefix]
    at h1 h2 ⊢
  exact ⟨h2.1.trans h1.1, h1.2.trans h2.2⟩

theorem extendsBlocks_append (l extra : List ClaudeContentBlockText) :
    extendsBlocks l (l ++ extra) = true := by
  induction l with
  | nil => rfl
  | cons a l ih => simp [extendsBlocks, extendsBlock_refl, ih]

theorem extendsBlocks_trans (a b c : List ClaudeContentBlockText)
    (h1 : extendsBlocks a b = true) (h2 : extendsBlocks b c = true) :
    extendsBlocks a c = true := by
  induction a generalizing b c with
  | nil => rfl
  | cons x a ih =>
    cases b with
    | nil => simp [extendsBlocks] at h1
    | cons y b =>
      cases c with
      | nil => simp [extendsBlocks] at h2
      | cons z c =>
        simp only [extendsBlocks, Bool.and_eq_true] at h1 h2 ⊢
        exact ⟨extendsBlock_trans x y z h1.1 h2.1, ih b c h1.2 h2.2⟩

theorem extendsBlocks_appendTextAt (l : List ClaudeContentBlockText) (i : Nat) (text : String) :
    extendsBlocks l (appendTextAt l i text) = true := by
  induction l generalizing i with
  | nil => rfl
  | cons a l ih =>
    cases i with
    | zero =>
      have h := extendsBlocks_append l []
      simp only [List.append_nil] at h
      simp [appendTextAt, extendsBlocks, extendsBlock, h, List.isPrefixOf_iff_prefix]
    | succ i => simp [appendTextAt, extendsBlocks, extendsBlock_refl, ih]

theorem reduceEvent_contentBlocks (u : String → Option (List (String × GoAny)))
    (st : ReducerState) (e : EventRecord) :
    extendsBlocks st.contentBlocks (reduceEvent u st e).contentBlocks = true := by
  have hrefl : extendsBlocks st.contentBlocks st.contentBlocks = true := by
    have h := extendsBlocks_append st.contentBlocks []
    simpa using h
  cases e with
  | messageStart msg => cases msg <;> simpa [reduceEvent] using hrefl
  | contentBlockStart cb =>
    cases cb with
    | none => simpa [reduceEvent] using hrefl
    | some cb =>
      simp only [reduceEvent]
      split_ifs
      · exact extendsBlocks_append _ _
      · exact hrefl
      · exact hrefl
      · exact hrefl
  | contentBlockDelta d =>
    cases d with
    | none => simpa [reduceEvent] using hrefl
    | some d =>
      simp only [reduceEvent]
      split_ifs
      · cases st.currentTextBlock with
        | none => exact extendsBlocks_append _ _
        | some i => exact extendsBlocks_appendTextAt _ _ _
      · cases st.currentToolUseBlock <;> exact hrefl
      · exact hrefl
  | contentBlockStop =>
    simp only [reduceEvent]
    cases st.currentToolUseBlock <;> exact hrefl
  | messageDelta d => cases d <;> simpa [reduceEvent] using hrefl
  | messageStop => simpa [reduceEvent] using hrefl
  | other ev => simpa [reduceEvent] using hrefl

theorem foldl_reduceEvent_contentBlocks (u : String → Option (List (String × GoAny)))
    (st : ReducerState) (es : List EventRecord) :
    extendsBlocks st.contentBlocks (es.foldl (reduceEvent u) st).contentBlocks = true := by
  induction es generalizing st with
  | nil =>
    have h := extendsBlocks_append st.contentBlocks []
    simpa using h
  | cons e es ih =>
    exact extendsBlocks_trans _ _ _ (reduceEvent_contentBlocks u st e) (ih (reduceEvent u st e))

theorem foldl_reduceEvent_toolUseBlocks (u : String → Option (List (String × GoAny)))
    (st : ReducerState) (es : List EventRecord) :
    ∃ extra, (es.foldl (reduceEvent u) st).toolUseBlocks = st.toolUseBlocks ++ extra := by
  induction es generalizing st with
  | nil => exact ⟨[], by simp⟩
  | cons e es ih =>
    obtain ⟨e1, h1⟩ := reduceEvent_toolUseBlocks u st e
    obtain ⟨e2, h2⟩ := ih (reduceEvent u st e)
    exact ⟨e1 ++ e2, by simp [h2, h1]⟩

/-- C25: the content of the response of `ParseClaudeStreamToResponse` is the text blocks
with non-empty text followed by the finalised tool-use blocks, so no text block follows a
tool-use block.  The text blocks are in the order of their creation and the tool-use blocks
in the order of their `content_block_stop`: as the stream goes on, the text blocks already
created keep their positions in front of the blocks created later, their texts only growing,
and the tool-use blocks already finalised stay in front of those finalised later. -/
theorem C25_reducer_content_order (u : String → Option (List (String × GoAny))) :
    (∀ decoded : List (Option EventRecord),
      ∃ resp, ParseClaudeStreamToResponse u decoded = .ok resp ∧
        resp.Content =
          ((reduceLoop u ReducerState.init decoded).contentBlocks.filter
              (fun b => decide (b.Text ≠ ""))).map ContentBlock.text ++
            (reduceLoop u ReducerState.init decoded).toolUseBlocks.map ContentBlock.toolUse) ∧
    (∀ (E : List EventRecord) (rest : List (Option EventRecord)),
      extendsBlocks (reduceLoop u ReducerState.init (E.map some)).contentBlocks
          (reduceLoop u ReducerState.init (E.map some ++ rest)).contentBlocks = true ∧
      ∃ later, (reduceLoop u ReducerState.init (E.map some ++ rest)).toolUseBlocks =
        (reduceLoop u ReducerState.init (E.map some)).toolUseBlocks ++ later) ∧
    (∀ (st : ReducerState) (e : EventRecord),
      (reduceEvent u st e).toolUseBlocks = st.toolUseBlocks ∨
        ∃ tub, e = .contentBlockStop ∧ st.currentToolUseBlock = some tub ∧
          (reduceEvent u st e).toolUseBlocks =
            st.toolUseBlocks ++
              [{ tub with Input := finishInput u st.currentToolInputBuilder }]) := by
  refine ⟨fun decoded => ⟨_, rfl, rfl⟩, fun E rest => ?_, fun st e => ?_⟩
  · have h1 : reduceLoop u ReducerState.init (E.map some) =
        E.foldl (reduceEvent u) ReducerState.init := by
      have := reduceLoop_map_some_append u ReducerState.init E []
      simpa [reduceLoop] using this
    rw [reduceLoop_map_some_append, h1, reduceLoop_eq_foldl]
    exact ⟨foldl_reduceEvent_contentBlocks u _ _, foldl_reduceEvent_toolUseBlocks u _ _⟩
  · cases e with
    | messageStart msg => cases msg <;> exact Or.inl (by simp [reduceEvent])
    | contentBlockStart cb =>
      cases cb with
      | none => exact Or.inl (by simp [reduceEvent])
      | some cb =>
        left
        simp only [reduceEvent]
        split_ifs <;> rfl
    | contentBlockDelta d =>
      cases d with
      | none => exact Or.inl (by simp [reduceEvent])
      | some d =>
        left
        simp only [reduceEvent]
        split_ifs
        · cases st.currentTextBlock <;> rfl
        · cases st.currentToolUseBlock <;> rfl
        · rfl
    | contentBlockStop =>
      cases h : st.currentToolUseBlock with
      | none => exact Or.inl (by simp [reduceEvent, h])
      | some tub => exact Or.inr ⟨tub, rfl, rfl, by simp [reduceEvent, h]⟩
    | messageDelta d => cases d <;> exact Or.inl (by simp [reduceEvent])
    | messageStop => exact Or.inl (by simp [reduceEvent])
    | other ev => exact Or.inl (by simp [reduceEvent])

/-- C25 at a stream with the text `a`, a tool-use block and then the text `b`: the response
has the two text blocks first and the tool-use block last. -/
theorem C25_reducer_content_order_witness :
    ∃ resp, ParseClaudeStreamToResponse (fun _ => some []) (textAfterToolUse.map some) =
        .ok resp ∧
      resp.Content =
        [ .text { Type_ := "text", Text := "a" },
          .text { Type_ := "text", Text := "b" },
          .toolUse { Type_ := "tool_use", ID := "call_1", Name := "Bash", Input := [] } ] :=
  match (C25_reducer_content_order (fun _ => some [])).1 (textAfterToolUse.map some) with
  | ⟨resp, h1, h2⟩ => ⟨resp, h1, h2.trans rfl⟩

theorem foldl_append_eq_concatAll (fs : List String) (acc : String) :
    fs.foldl (fun r s => r ++ s) acc = acc ++ concatAll fs := by
  have h := foldl_append_string (fun s : String => s) fs acc
  simpa using h

theorem toolUseBlocks_toolUseRecords (u : String → Option (List (String × GoAny)))
    (st : ReducerState) (id name : String) (fs : List String)
    (hid : id ≠ "") (hname : name ≠ "") :
    ((toolUseRecords id name fs).foldl (reduceEvent u) st).toolUseBlocks =
      st.toolUseBlocks ++
        [{ Type_ := "tool_use", ID := id, Name := name,
           Input := finishInput u (concatAll fs) }] := by
  simp only [toolUseRecords, List.foldl_append, List.foldl_cons, List.foldl_nil]
  rw [foldl_inputJsonDelta u _ { Type_ := "tool_use", ID := id, Name := name, Input := [] } fs
    (by simp [reduceEvent, hid, hname])]
  simp [reduceEvent, hid, hname, foldl_append_eq_concatAll]

theorem toolUseBlocksOf_texts_tools (texts : List ClaudeContentBlockText)
    (tools : List ClaudeContentBlockToolUse) :
    toolUseBlocksOf (texts.map ContentBlock.text ++ tools.map ContentBlock.toolUse) = tools := by
  induction texts with
  | nil =>
    induction tools with
    | nil => rfl
    | cons t ts ih =>
      simp only [List.map_nil, List.nil_append, List.map_cons, toolUseBlocksOf,
        List.filterMap_cons] at ih ⊢
      rw [ih]
  | cons x xs ih =>
    simp only [List.map_cons, List.cons_append, toolUseBlocksOf, List.filterMap_cons] at ih ⊢
    exact ih

theorem toolUseBlocksOf_filteredContentBlocks (st : ReducerState) :
    toolUseBlocksOf (filteredContentBlocks st) = st.toolUseBlocks :=
  toolUseBlocksOf_texts_tools _ _

/-- C26: when the stream holds, after any decodable records, a `content_block_start` of a
tool-use block with a non-empty id and a non-empty name, then `input_json_delta` fragments
and then a `content_block_stop`, whatever follows, the tool-use blocks of the response are
those finalised before, then one block with that id and that name, then those finalised
later.  The input of the block is the empty mapping when the concatenation of the fragments
in stream order is empty, the mapping `json.Unmarshal` gives when it parses, and the mapping
of `raw` to the concatenation when it does not parse. -/
theorem C26_tool_input_reassembly (u : String → Option (List (String × GoAny)))
    (pre : List EventRecord) (post : List (Option EventRecord))
    (id name : String) (fragments : List String) (hid : id ≠ "") (hname : name ≠ "") :
    ∃ resp input later,
      ParseClaudeStreamToResponse u
          ((pre ++ toolUseRecords id name fragments).map some ++ post) = .ok resp ∧
      toolUseBlocksOf resp.Content =
        (reduceLoop u ReducerState.init (pre.map some)).toolUseBlocks ++
          [{ Type_ := "tool_use", ID := id, Name := name, Input := input }] ++ later ∧
      (concatAll fragments = "" → input = []) ∧
      (∀ parsed, concatAll fragments ≠ "" → u (concatAll fragments) = some parsed →
        input = parsed) ∧
      (concatAll fragments ≠ "" → u (concatAll fragments) = none →
        input = [("raw", .str (concatAll fragments))]) := by
  have h1 : reduceLoop u ReducerState.init (pre.map some) =
      pre.foldl (reduceEvent u) ReducerState.init := by
    have := reduceLoop_map_some_append u ReducerState.init pre []
    simpa [reduceLoop] using this
  obtain ⟨later, hl⟩ := reduceLoop_toolUseBlocks u
    ((toolUseRecords id name fragments).foldl (reduceEvent u)
      (pre.foldl (reduceEvent u) ReducerState.init)) post
  rw [toolUseBlocks_toolUseRecords u _ id name fragments hid hname] at hl
  refine ⟨_, finishInput u (concatAll fragments), later, rfl, ?_, ?_, ?_, ?_⟩
  · show toolUseBlocksOf (filteredContentBlocks _) = _
    rw [toolUseBlocksOf_filteredContentBlocks, reduceLoop_map_some_append, List.foldl_append,
      hl, h1]
  · intro h
    simp [finishInput, h]
  · intro parsed h hp
    simp [finishInput, h, hp]
  · intro h hp
    simp [finishInput, h, hp]

/-- C26 at a tool-use block with the id and the name spelled out in
`TestNoBlankTextBlockInClaudeResponse` (conversion_test.go 105-107), taken as records after
an empty text block: one tool-use block `Bash`, whose input is the mapping parsed from the
one fragment. -/
theorem C26_tool_input_reassembly_witness :
    "call_aNta7TNMC8U07NRUaIe7GLNl" ≠ "" ∧ "Bash" ≠ "" ∧
    concatAll ["\x7b\"command\":\"echo hello world\"\x7d"] ≠ "" ∧
    ∃ resp, ParseClaudeStreamToResponse (fun _ => some [("command", .str "echo hello world")])
        (([ EventRecord.contentBlockStart (some { Type_ := "text", ID := "", Name := "" }),
            EventRecord.contentBlockStop ] ++
          toolUseRecords "call_aNta7TNMC8U07NRUaIe7GLNl" "Bash"
            ["\x7b\"command\":\"echo hello world\"\x7d"]).map some ++ []) = .ok resp ∧
      ∃ later, toolUseBlocksOf resp.Content =
        [] ++ [{ Type_ := "tool_use", ID := "call_aNta7TNMC8U07NRUaIe7GLNl", Name := "Bash",
                 Input := [("command", .str "echo hello world")] }] ++ later :=
  ⟨by decide, by decide, by decide,
    match C26_tool_input_reassembly (fun _ => some [("command", .str "echo hello world")])
      [ EventRecord.contentBlockStart (some { Type_ := "text", ID := "", Name := "" }),
        EventRecord.contentBlockStop ] []
      "call_aNta7TNMC8U07NRUaIe7GLNl" "Bash" ["\x7b\"command\":\"echo hello world\"\x7d"]
      (by decide) (by decide) with
    | ⟨resp, input, later, h1, h2, _, h4, _⟩ =>
      ⟨resp, h1, later, by rw [h2, h4 _ (by decide) rfl]; rfl⟩⟩

theorem reduceEvent_stop_unchanged (u : String → Option (List (String × GoAny)))
    (st : ReducerState) (e : EventRecord) (h : isMessageDeltaRecord e = false) :
    (reduceEvent u st e).stopReason = st.stopReason ∧
      (reduceEvent u st e).stopSequence = st.stopSequence := by
  cases e with
  | messageStart msg => cases msg <;> exact ⟨rfl, rfl⟩
  | contentBlockStart cb =>
    cases cb with
    | none => exact ⟨rfl, rfl⟩
    | some cb =>
      simp only [reduceEvent]
      split_ifs <;> exact ⟨rfl, rfl⟩
  | contentBlockDelta d =>
    cases d with
    | none => exact ⟨rfl, rfl⟩
    | some d =>
      simp only [reduceEvent]
      split_ifs
      · cases st.currentTextBlock <;> exact ⟨rfl, rfl⟩
      · cases st.currentToolUseBlock <;> exact ⟨rfl, rfl⟩
      · exact ⟨rfl, rfl⟩
  | contentBlockStop =>
    simp only [reduceEvent]
    cases st.currentToolUseBlock <;> exact ⟨rfl, rfl⟩
  | messageDelta d =>
    cases d with
    | none => exact ⟨rfl, rfl⟩
    | some d => simp [isMessageDeltaRecord] at h
  | messageStop => exact ⟨rfl, rfl⟩
  | other ev => exact ⟨rfl, rfl⟩

theorem reduceEvent_usage_unchanged (u : String → Option (List (String × GoAny)))
    (st : ReducerState) (e : EventRecord)
    (h : (!carriesOutputTokens e && !isMessageStartRecord e) = true) :
    (reduceEvent u st e).usage = st.usage := by
  cases e with
  | messageStart msg =>
    cases msg with
    | none => rfl
    | some m => simp [isMessageStartRecord] at h
  | contentBlockStart cb =>
    cases cb with
    | none => rfl
    | some cb =>
      simp only [reduceEvent]
      split_ifs <;> rfl
  | contentBlockDelta d =>
    cases d with
    | none => rfl
    | some d =>
      simp only [reduceEvent]
      split_ifs
      · cases st.currentTextBlock <;> rfl
      · cases st.currentToolUseBlock <;> rfl
      · rfl
  | contentBlockStop =>
    simp only [reduceEvent]
    cases st.currentToolUseBlock <;> rfl
  | messageDelta d =>
    cases d with
    | none => rfl
    | some d =>
      have hd : ¬ d.OutputTokens > 0 := by
        simpa [carriesOutputTokens, isMessageStartRecord] using h
      simp [reduceEvent, hd]
  | messageStop => rfl
  | other ev => rfl

theorem foldl_stop_unchanged (u : String → Option (List (String × GoAny)))
    (st : ReducerState) (es : List EventRecord)
    (h : es.all (fun e => !isMessageDeltaRecord e) = true) :
    (es.foldl (reduceEvent u) st).stopReason = st.stopReason ∧
      (es.foldl (reduceEvent u) st).stopSequence = st.stopSequence := by
  induction es generalizing st with
  | nil => exact ⟨rfl, rfl⟩
  | cons e es ih =>
    simp only [List.all_cons, Bool.and_eq_true, Bool.not_eq_true'] at h
    obtain ⟨h1, h2⟩ := reduceEvent_stop_unchanged u st e h.1
    obtain ⟨i1, i2⟩ := ih (reduceEvent u st e) h.2
    exact ⟨by rw [List.foldl_cons, i1, h1], by rw [List.foldl_cons, i2, h2]⟩

theorem foldl_usage_unchanged (u : String → Option (List (String × GoAny)))
    (st : ReducerState) (es : List EventRecord)
    (h : es.all (fun e => !carriesOutputTokens e && !isMessageStartRecord e) = true) :
    (es.foldl (reduceEvent u) st).usage = st.usage := by
  induction es generalizing st with
  | nil => rfl
  | cons e es ih =>
    simp only [List.all_cons, Bool.and_eq_true] at h
    rw [List.foldl_cons, ih (reduceEvent u st e) h.2,
      reduceEvent_usage_unchanged u st e (by simpa using h.1)]

/-- C27 (as amended): the `stop_reason` and the `stop_sequence` of the response are those
of the last `message_delta` read whose data decodes, null when there is none or when it has
none.  The `output_tokens` of the usage is that of the last `message_delta` with
`output_tokens` greater than 0 when no `message_start` follows it; the usage is the one
recorded from the last `message_start` when no such `message_delta` follows it, and is all
zero when the stream has neither; a `message_delta` whose `output_tokens` is not greater
than 0 leaves the usage as it is. -/
theorem C27_message_delta_handling (u : String → Option (List (String × GoAny)))
    (decoded : List (Option EventRecord)) :
    ∃ resp, ParseClaudeStreamToResponse u decoded = .ok resp ∧
      ((recordsRead decoded).all (fun e => !isMessageDeltaRecord e) = true →
        resp.StopReason = none ∧ resp.StopSequence = none) ∧
      (∀ a d b, recordsRead decoded = a ++ EventRecord.messageDelta (some d) :: b →
        b.all (fun e => !isMessageDeltaRecord e) = true →
        resp.StopReason = d.StopReason ∧ resp.StopSequence = d.StopSequence) ∧
      (∀ a d b, recordsRead decoded = a ++ EventRecord.messageDelta (some d) :: b →
        d.OutputTokens > 0 →
        b.all (fun e => !carriesOutputTokens e && !isMessageStartRecord e) = true →
        resp.Usage.OutputTokens = d.OutputTokens) ∧
      (∀ a m b, recordsRead decoded = a ++ EventRecord.messageStart (some m) :: b →
        b.all (fun e => !carriesOutputTokens e && !isMessageStartRecord e) = true →
        resp.Usage = m.Usage) ∧
      ((recordsRead decoded).all
          (fun e => !carriesOutputTokens e && !isMessageStartRecord e) = true →
        resp.Usage = { InputTokens := 0, OutputTokens := 0,
                       CacheCreationInputTokens := 0, CacheReadInputTokens := 0 }) ∧
      (∀ (st : ReducerState) (d : MessageDeltaData), ¬ d.OutputTokens > 0 →
        (reduceEvent u st (.messageDelta (some d))).usage = st.usage) := by
  refine ⟨_, rfl, ?_, ?_, ?_, ?_, ?_, ?_⟩
  · intro h
    show (reduceLoop u ReducerState.init decoded).stopReason = none ∧
      (reduceLoop u ReducerState.init decoded).stopSequence = none
    rw [reduceLoop_eq_foldl]
    exact foldl_stop_unchanged u ReducerState.init _ h
  · intro a d b hsplit hb
    show (reduceLoop u ReducerState.init decoded).stopReason = _ ∧
      (reduceLoop u ReducerState.init decoded).stopSequence = _
    rw [reduceLoop_eq_foldl, hsplit, List.foldl_append, List.foldl_cons]
    obtain ⟨h1, h2⟩ := foldl_stop_unchanged u
      (reduceEvent u (a.foldl (reduceEvent u) ReducerState.init) (.messageDelta (some d))) b hb
    rw [h1, h2]
    exact ⟨rfl, rfl⟩
  · intro a d b hsplit hd hb
    show (reduceLoop u ReducerState.init decoded).usage.OutputTokens = _
    rw [reduceLoop_eq_foldl, hsplit, List.foldl_append, List.foldl_cons,
      foldl_usage_unchanged u _ b hb]
    simp [reduceEvent, hd]
  · intro a m b hsplit hb
    show (reduceLoop u ReducerState.init decoded).usage = _
    rw [reduceLoop_eq_foldl, hsplit, List.foldl_append, List.foldl_cons,
      foldl_usage_unchanged u _ b hb]
    rfl
  · intro h
    show (reduceLoop u ReducerState.init decoded).usage = _
    rw [reduceLoop_eq_foldl, foldl_usage_unchanged u _ _ h]
    rfl
  · intro st d hd
    simp [reduceEvent, hd]

/-- C27 as amended at a stream with a `message_start`, a `message_delta` with
`output_tokens` 7 and a last `message_delta` with `output_tokens` 0: the stop reason and
the null stop sequence are those of the last `message_delta`, the `output_tokens` is 7. -/
theorem C27_message_delta_handling_witness :
    ∃ resp, ParseClaudeStreamToResponse (fun _ => none) (twoMessageDeltas.map some) = .ok resp ∧
      resp.StopReason = some "end_turn" ∧ resp.StopSequence = none ∧
      resp.Usage.OutputTokens = 7 ∧ resp.Usage.InputTokens = 3 :=
  match C27_message_delta_handling (fun _ => none) (twoMessageDeltas.map some) with
  | ⟨resp, h, _, hstop, htokens, _, _, _⟩ =>
    ⟨resp, h,
      (hstop (twoMessageDeltas.take 2)
        { StopReason := some "end_turn", StopSequence := none, OutputTokens := 0 } []
        rfl rfl).1,
      (hstop (twoMessageDeltas.take 2)
        { StopReason := some "end_turn", StopSequence := none, OutputTokens := 0 } []
        rfl rfl).2,
      htokens (twoMessageDeltas.take 1)
        { StopReason := some "tool_use", StopSequence := some "x", OutputTokens := 7 }
        (twoMessageDeltas.drop 2) rfl (by decide) rfl,
      by cases h; rfl⟩

/-- C27 as stated fails on a stream in which a `message_start` follows the `message_delta`:
the last `message_delta` with `output_tokens` greater than 0 has 5, and the response has the
`output_tokens` 0 that the `message_start` recorded after it. -/
theorem C27_counterexample_message_start_after_delta :
    messageStartAfterDelta.filter carriesOutputTokens =
      [ EventRecord.messageDelta
          (some { StopReason := some "end_turn", StopSequence := none, OutputTokens := 5 }) ] ∧
    ∃ resp, ParseClaudeStreamToResponse (fun _ => none) (messageStartAfterDelta.map some) =
        .ok resp ∧
      resp.Usage.OutputTokens = 0 ∧ resp.Usage.OutputTokens ≠ 5 :=
  ⟨by decide, _, rfl, rfl, by decide⟩

/-! ## The transcoder: the writes of tool-use blocks -/

theorem processToolCalls_append (last : Int) (a b : List OAIToolCall) :
    processToolCalls last (a ++ b) =
      ((processToolCalls (processToolCalls last a).1 b).1,
        (processToolCalls last a).2 ++ (processToolCalls (processToolCalls last a).1 b).2) := by
  induction a generalizing last with
  | nil => simp [processToolCalls]
  | cons tc tcs ih => simp [processToolCalls, ih, List.append_assoc]

theorem processChoice_toolUseWrites (st : TranscoderState) (c : OAIChoice) :
    (processChoice st c).2.1.filter isToolUseWrite =
        (processToolCalls st.lastToolIndex c.Delta.ToolCalls).2.filter isToolUseWrite ∧
      (processChoice st c).1.lastToolIndex =
        (processToolCalls st.lastToolIndex c.Delta.ToolCalls).1 := by
  have hnil : c.Delta.ToolCalls.length > 0 ∨ c.Delta.ToolCalls = [] := by
    cases c.Delta.ToolCalls with
    | nil => exact Or.inr rfl
    | cons a l => exact Or.inl (by simp)
  unfold processChoice
  rcases hnil with ht | ht
  · cases c.FinishReason <;> simp only [ht, decide_True, List.filter_append] <;>
      split_ifs <;> simp [isToolUseWrite, isToolUseStart, isInputJsonDelta]
  · cases c.FinishReason <;>
      simp only [ht, List.length_nil, gt_iff_lt, lt_self_iff_false, decide_False,
        List.filter_append, processToolCalls] <;>
      split_ifs <;> simp [isToolUseWrite, isToolUseStart, isInputJsonDelta]

theorem processChoices_toolUseWrites (st : TranscoderState) (cs : List OAIChoice) :
    (processChoices st cs).2.1.filter isToolUseWrite =
        (processToolCalls st.lastToolIndex
          (toolCallsOf (choicesUpToFinish cs))).2.filter isToolUseWrite ∧
      (processChoices st cs).1.lastToolIndex =
        (processToolCalls st.lastToolIndex (toolCallsOf (choicesUpToFinish cs))).1 := by
  induction cs generalizing st with
  | nil => exact ⟨rfl, rfl⟩
  | cons c cs ih =>
    obtain ⟨h1, h2⟩ := processChoice_toolUseWrites st c
    cases hc : c.FinishReason with
    | some g =>
      have hflag := (processChoice_of_some st c g hc).1
      have hup : choicesUpToFinish (c :: cs) = [c] := by simp [choicesUpToFinish, hc]
      have htc1 : toolCallsOf [c] = c.Delta.ToolCalls := by simp [toolCallsOf]
      simp only [processChoices, hflag, if_true, hup, htc1]
      exact ⟨h1, h2⟩
    | none =>
      have hflag := (processChoice_of_none st c hc).1
      have hup : choicesUpToFinish (c :: cs) = c :: choicesUpToFinish cs := by
        simp [choicesUpToFinish, hc]
      obtain ⟨i1, i2⟩ := ih (processChoice st c).1
      simp only [processChoices, hflag, Bool.false_eq_true, if_false, hup, toolCallsOf_cons,
        processToolCalls_append, List.filter_append, h1, i1, i2, h2]
      exact ⟨trivial, trivial⟩

theorem readLoop_toolUseWrites (st : TranscoderState) (lines : List UpLine) :
    (readLoop st lines).filter isToolUseWrite =
      (processToolCalls st.lastToolIndex (toolCallsRead lines)).2.filter isToolUseWrite := by
  have hend : ∀ s : TranscoderState, (endOfStream s).filter isToolUseWrite = [] := by
    intro s
    unfold endOfStream
    split_ifs <;> rfl
  induction lines generalizing st with
  | nil => simpa [readLoop, toolCallsRead, choicesRead, choicesUpToFinish, toolCallsOf,
      processToolCalls] using hend st
  | cons l rest ih =>
    cases l with
    | skip => exact ih st
    | done => simpa [readLoop, toolCallsRead, choicesRead, choicesUpToFinish, toolCallsOf,
        processToolCalls] using hend st
    | invalid err =>
      have := ih st
      simpa [readLoop, List.filter_cons, isToolUseWrite, isToolUseStart, isInputJsonDelta,
        toolCallsRead, choicesRead] using this
    | chunk c =>
      obtain ⟨h1, h2⟩ := processChoices_toolUseWrites st c.Choices
      simp only [toolCallsRead, choicesRead]
      cases hfin : firstFinishReason c.Choices with
      | some g =>
        have hflag := (processChoices_of_some st c.Choices g hfin).1
        simp only [readLoop, hflag, if_true]
        rw [choicesUpToFinish_append_of_some _ _ g hfin]
        exact h1
      | none =>
        have hflag := (processChoices_of_none st c.Choices hfin).1
        have hself := choicesUpToFinish_append_of_none c.Choices [] hfin
        simp only [List.append_nil, choicesUpToFinish] at hself
        rw [hself] at h1 h2
        have := ih (processChoices st c.Choices).1
        simp only [toolCallsRead] at this
        simp only [readLoop, hflag, Bool.false_eq_true, if_false, List.filter_append,
          choicesUpToFinish_append_of_none _ _ hfin, toolCallsOf_append,
          processToolCalls_append, h1, this, h2]

/-- C21 (as amended): when the tool-call entries that the transcoder processes, those of
the choices in front of `data: [DONE]` up to and including the first choice with a
`finish_reason`, are at least one and share one index `k` that is not negative, the output
has exactly one `content_block_start` of a tool-use block, with the index `k` and the id and
the function name of the first entry, and after it one `content_block_delta` with index `k`
and type `input_json_delta` per entry processed, in upstream order, each with the
`function.arguments` of its entry. -/
theorem C21_single_tool_call_opens_once (lines : List UpLine) (model : String) (k : Int)
    (tc0 : OAIToolCall) (tcs : List OAIToolCall)
    (htc : toolCallsRead lines = tc0 :: tcs)
    (hidx : ∀ tc ∈ toolCallsRead lines, tc.Index = k) (hk : 0 ≤ k) :
    (ConvertOAIStreamToClaudeStream lines model).filter isToolUseWrite =
      .event (.contentBlockStart k (.toolUse tc0.Id tc0.Function.Name)) ::
        (tc0 :: tcs).map (fun tc =>
          .event (.contentBlockDelta k (.inputJsonDelta tc.Function.Arguments k))) := by
  have hk1 : k ≠ -1 := by omega
  rw [htc] at hidx
  have hmap : (tc0 :: tcs).map deltaOf =
      (tc0 :: tcs).map (fun tc =>
        Written.event (.contentBlockDelta k (.inputJsonDelta tc.Function.Arguments k))) := by
    apply List.map_congr_left
    intro tc htc
    simp [deltaOf, hidx tc htc]
  have hfilter : ((tc0 :: tcs).map deltaOf).filter isToolUseWrite = (tc0 :: tcs).map deltaOf := by
    rw [List.filter_eq_self]
    intro w hw
    obtain ⟨tc, _, rfl⟩ := List.mem_map.mp hw
    rfl
  simp only [ConvertOAIStreamToClaudeStream, List.filter_append, readLoop_toolUseWrites, htc]
  have hinit : (initialEvents model).filter isToolUseWrite = [] := rfl
  rw [hinit, List.nil_append]
  show List.filter isToolUseWrite (processToolCalls (-1) (tc0 :: tcs)).2 = _
  rw [processToolCalls_first k tc0 tcs hidx hk1]
  have h3 : [ Written.event (.contentBlockStop (-1)),
              Written.event (.contentBlockStart k (.toolUse tc0.Id tc0.Function.Name)),
              deltaOf tc0 ] ++ tcs.map deltaOf =
      [ Written.event (.contentBlockStop (-1)),
        Written.event (.contentBlockStart k (.toolUse tc0.Id tc0.Function.Name)) ] ++
        (tc0 :: tcs).map deltaOf := by simp
  rw [h3, List.filter_append, hfilter, hmap]
  rfl

/-- C21 as amended at scenario S4 in short: four tool-call entries with index 0, the first
with the id `call_1` and the name `Bash`: one `content_block_start` and four
`input_json_delta` events in upstream order. -/
theorem C21_single_tool_call_opens_once_witness :
    toolCallsRead bashToolCallStream =
      toolCallEntry 0 "call_1" "Bash" "" ::
        [ toolCallEntry 0 "" "" "\x7b\"command\":",
          toolCallEntry 0 "" "" "\"ls",
          toolCallEntry 0 "" "" "\"\x7d" ] ∧
    (∀ tc ∈ toolCallsRead bashToolCallStream, tc.Index = 0) ∧
    (ConvertOAIStreamToClaudeStream bashToolCallStream "claude-3-sonnet-20240229").filter
        isToolUseWrite =
      [ .event (.contentBlockStart 0 (.toolUse "call_1" "Bash")),
        .event (.contentBlockDelta 0 (.inputJsonDelta "" 0)),
        .event (.contentBlockDelta 0 (.inputJsonDelta "\x7b\"command\":" 0)),
        .event (.contentBlockDelta 0 (.inputJsonDelta "\"ls" 0)),
        .event (.contentBlockDelta 0 (.inputJsonDelta "\"\x7d" 0)) ] :=
  ⟨by decide, by decide,
    C21_single_tool_call_opens_once bashToolCallStream "claude-3-sonnet-20240229" 0
      (toolCallEntry 0 "call_1" "Bash" "")
      [ toolCallEntry 0 "" "" "\x7b\"command\":",
        toolCallEntry 0 "" "" "\"ls",
        toolCallEntry 0 "" "" "\"\x7d" ]
      (by decide) (by decide) (by decide)⟩

/-- C21 as stated fails on an upstream with a tool-call entry after the choice with the
`finish_reason`: the two tool-call entries of the upstream share the index 0, and the output
has one `input_json_delta`, that of the first entry; the function returned before it read
the second. -/
theorem C21_counterexample_entry_after_finish :
    toolCallsOf (choicesRead toolCallAfterFinishStream) =
      [ toolCallEntry 0 "call_1" "calculator" "\x7b\"expression\":",
        toolCallEntry 0 "" "" " \"2+2\"\x7d" ] ∧
    (ConvertOAIStreamToClaudeStream toolCallAfterFinishStream
        "claude-3-sonnet-20240229").filter isToolUseWrite =
      [ .event (.contentBlockStart 0 (.toolUse "call_1" "calculator")),
        .event (.contentBlockDelta 0 (.inputJsonDelta "\x7b\"expression\":" 0)) ] := by
  decide

/-! ## The transcoder: text deltas -/

theorem filter_isTextDelta_processToolCalls (last : Int) (tcs : List OAIToolCall) :
    (processToolCalls last tcs).2.filter isTextDelta = [] := by
  induction tcs generalizing last with
  | nil => rfl
  | cons tc tcs ih =>
    simp only [processToolCalls, List.filter_append, ih, List.append_nil]
    unfold processToolCall
    split_ifs <;> simp [isTextDelta]

theorem hasToolCalls_eq_false (c : OAIChoice) (h : hasToolCalls c = false) :
    c.Delta.ToolCalls = [] := by
  cases hc : c.Delta.ToolCalls with
  | nil => rfl
  | cons a l => simp [hasToolCalls, hc] at h

theorem processChoice_closed (st : TranscoderState) (c : OAIChoice)
    (h : st.textBlockClosed = true) :
    (processChoice st c).2.1.filter isTextDelta = [] ∧
      (processChoice st c).1.textBlockClosed = true := by
  have ht := filter_isTextDelta_processToolCalls st.lastToolIndex c.Delta.ToolCalls
  unfold processChoice
  cases c.FinishReason <;> simp only [h, List.filter_append] <;>
    split_ifs <;> simp_all [isTextDelta]

theorem processChoice_toolCalls (st : TranscoderState) (c : OAIChoice)
    (hopen : st.textBlockClosed = false) (h : hasToolCalls c = true) :
    (∃ post, (processChoice st c).2.1 = .event (.contentBlockStop 0) :: post ∧
        post.filter isTextDelta = []) ∧
      (processChoice st c).1.textBlockClosed = true := by
  have ht := filter_isTextDelta_processToolCalls st.lastToolIndex c.Delta.ToolCalls
  have hlen : c.Delta.ToolCalls.length > 0 := by simpa [hasToolCalls] using h
  unfold processChoice
  cases c.FinishReason with
  | none =>
    simp only [hopen, hlen, decide_True, true_and, if_true, Bool.or_true, Bool.not_true,
      Bool.and_false, Bool.false_eq_true, if_false, List.append_nil, List.singleton_append]
    exact ⟨⟨_, rfl, ht⟩, trivial⟩
  | some f =>
    simp only [hopen, hlen, decide_True, true_and, if_true, Bool.or_true, Bool.not_true,
      Bool.and_false, Bool.false_eq_true, if_false, List.append_nil, List.singleton_append,
      List.cons_append, List.nil_append]
    refine ⟨⟨_, rfl, ?_⟩, trivial⟩
    simp only [List.filter_append, ht, List.nil_append]
    split_ifs <;> simp [isTextDelta]

theorem processChoice_text (st : TranscoderState) (c : OAIChoice)
    (hopen : st.textBlockClosed = false) (h : hasToolCalls c = false) :
    (c.FinishReason = none →
      (processChoice st c).2.1 = textDeltasOf [c] ∧
      (processChoice st c).1.textBlockClosed = false ∧
      (processChoice st c).1.lastToolIndex = st.lastToolIndex) ∧
    (∀ f, c.FinishReason = some f →
      (processChoice st c).2.1 = textDeltasOf [c] ++
        ((if st.lastToolIndex ≠ -1 then [.event (.contentBlockStop st.lastToolIndex)] else []) ++
          [ .event (.contentBlockStop 0),
            .event (.messageDelta (stopReasonOf f) none st.outputTokens),
            .event .messageStop,
            .done ])) := by
  have hnil := hasToolCalls_eq_false c h
  constructor
  · intro hf
    unfold processChoice
    rw [hf]
    by_cases hx : c.Delta.Content = ""
    · simp [hnil, hopen, hx, textDeltasOf, hasContent, processToolCalls]
    · simp [hnil, hopen, hx, textDeltasOf, hasContent, textDeltaOf, processToolCalls]
  · intro f hf
    unfold processChoice
    rw [hf]
    by_cases hx : c.Delta.Content = ""
    · by_cases hl : st.lastToolIndex = -1 <;>
        simp [hnil, hopen, hx, hl, textDeltasOf, hasContent, processToolCalls]
    · by_cases hl : st.lastToolIndex = -1 <;>
        simp [hnil, hopen, hx, hl, textDeltasOf, hasContent, textDeltaOf, processToolCalls]

theorem textDeltasOf_cons (c : OAIChoice) (cs : List OAIChoice) :
    textDeltasOf (c :: cs) = textDeltasOf [c] ++ textDeltasOf cs := by
  by_cases h : hasContent c = true <;> simp [textDeltasOf, List.filter_cons, h]

theorem textDeltasOf_append (a b : List OAIChoice) :
    textDeltasOf (a ++ b) = textDeltasOf a ++ textDeltasOf b := by
  simp [textDeltasOf]

theorem filter_isTextDelta_textDeltasOf (cs : List OAIChoice) :
    (textDeltasOf cs).filter isTextDelta = textDeltasOf cs := by
  rw [List.filter_eq_self]
  intro w hw
  obtain ⟨c, _, rfl⟩ := List.mem_map.mp hw
  rfl

theorem choicesBeforeToolCall_append_of_none (cs ys : List OAIChoice)
    (h : cs.any hasToolCalls = false) :
    choicesBeforeToolCall (cs ++ ys) = cs ++ choicesBeforeToolCall ys := by
  induction cs with
  | nil => rfl
  | cons c cs ih =>
    simp only [List.any_cons, Bool.or_eq_false_iff] at h
    have := ih h.2
    simp only [choicesBeforeToolCall] at this ⊢
    simp [List.takeWhile_cons, h.1, this]

theorem choicesBeforeToolCall_append_of_some (cs ys : List OAIChoice)
    (h : cs.any hasToolCalls = true) :
    choicesBeforeToolCall (cs ++ ys) = choicesBeforeToolCall cs := by
  induction cs with
  | nil => simp at h
  | cons c cs ih =>
    by_cases hc : hasToolCalls c = true
    · simp [choicesBeforeToolCall, List.takeWhile_cons, hc]
    · have hc2 : hasToolCalls c = false := by simpa using hc
      have h2 : cs.any hasToolCalls = true := by simpa [List.any_cons, hc2] using h
      have := ih h2
      simp only [choicesBeforeToolCall] at this ⊢
      simp [List.takeWhile_cons, hc2, this]

theorem processChoices_closed (st : TranscoderState) (cs : List OAIChoice)
    (h : st.textBlockClosed = true) :
    (processChoices st cs).2.1.filter isTextDelta = [] ∧
      (processChoices st cs).1.textBlockClosed = true := by
  induction cs generalizing st with
  | nil => exact ⟨rfl, h⟩
  | cons c cs ih =>
    obtain ⟨h1, h2⟩ := processChoice_closed st c h
    obtain ⟨i1, i2⟩ := ih (processChoice st c).1 h2
    simp only [processChoices]
    split_ifs
    · exact ⟨h1, h2⟩
    · exact ⟨by simp [List.filter_append, h1, i1], i2⟩

theorem readLoop_closed (st : TranscoderState) (lines : List UpLine)
    (h : st.textBlockClosed = true) :
    (readLoop st lines).filter isTextDelta = [] := by
  have hend : ∀ s : TranscoderState, (endOfStream s).filter isTextDelta = [] := by
    intro s
    unfold endOfStream
    split_ifs <;> rfl
  induction lines generalizing st with
  | nil => exact hend st
  | cons l rest ih =>
    cases l with
    | skip => exact ih st h
    | done => exact hend st
    | invalid err => simpa [readLoop, List.filter_cons, isTextDelta] using ih st h
    | chunk c =>
      obtain ⟨h1, h2⟩ := processChoices_closed st c.Choices h
      simp only [readLoop]
      split_ifs
      · exact h1
      · simp [List.filter_append, h1, ih _ h2]

theorem choicesUpToFinish_of_none (cs : List OAIChoice) (h : firstFinishReason cs = none) :
    choicesUpToFinish cs = cs := by
  have := choicesUpToFinish_append_of_none cs [] h
  simpa [choicesUpToFinish] using this

theorem processChoices_text (st : TranscoderState) (cs : List OAIChoice)
    (hopen : st.textBlockClosed = false)
    (hno : (choicesUpToFinish cs).any hasToolCalls = false) :
    (firstFinishReason cs = none →
      (processChoices st cs).2.1 = textDeltasOf cs ∧
      (processChoices st cs).1.textBlockClosed = false ∧
      (processChoices st cs).1.lastToolIndex = st.lastToolIndex) ∧
    (∀ f, firstFinishReason cs = some f →
      (processChoices st cs).2.1 = textDeltasOf (choicesUpToFinish cs) ++
        ((if st.lastToolIndex ≠ -1 then [.event (.contentBlockStop st.lastToolIndex)] else []) ++
          [ .event (.contentBlockStop 0),
            .event (.messageDelta (stopReasonOf f) none st.outputTokens),
            .event .messageStop,
            .done ])) := by
  induction cs generalizing st with
  | nil =>
    refine ⟨fun _ => ⟨rfl, hopen, rfl⟩, fun f hf => ?_⟩
    simp [firstFinishReason] at hf
  | cons c cs ih =>
    cases hc : c.FinishReason with
    | some g =>
      have hup : choicesUpToFinish (c :: cs) = [c] := by simp [choicesUpToFinish, hc]
      rw [hup] at hno ⊢
      have hct : hasToolCalls c = false := by simpa using hno
      have hflag := (processChoice_of_some st c g hc).1
      refine ⟨fun hf => by simp [firstFinishReason, hc] at hf, fun f hf => ?_⟩
      have hg : g = f := by simpa [firstFinishReason, hc] using hf
      subst hg
      simp only [processChoices, hflag, if_true]
      exact (processChoice_text st c hopen hct).2 g hc
    | none =>
      have hup : choicesUpToFinish (c :: cs) = c :: choicesUpToFinish cs := by
        simp [choicesUpToFinish, hc]
      rw [hup] at hno ⊢
      simp only [List.any_cons, Bool.or_eq_false_iff] at hno
      have hflag := (processChoice_of_none st c hc).1
      obtain ⟨p1, p2, p3⟩ := (processChoice_text st c hopen hno.1).1 hc
      obtain ⟨i1, i2⟩ := ih (processChoice st c).1 p2 hno.2
      have htok := processChoice_outputTokens st c
      constructor
      · intro hf
        have hcs : firstFinishReason cs = none := by simpa [firstFinishReason, hc] using hf
        obtain ⟨j1, j2, j3⟩ := i1 hcs
        simp only [processChoices, hflag, Bool.false_eq_true, if_false, p1, j1]
        exact ⟨(textDeltasOf_cons c cs).symm, j2, by rw [j3, p3]⟩
      · intro f hf
        have hcs : firstFinishReason cs = some f := by simpa [firstFinishReason, hc] using hf
        have j := i2 f hcs
        simp only [processChoices, hflag, Bool.false_eq_true, if_false, p1, j, p3, htok]
        rw [textDeltasOf_cons c (choicesUpToFinish cs), List.append_assoc]

theorem processChoices_toolCalls (st : TranscoderState) (cs : List OAIChoice)
    (hopen : st.textBlockClosed = false)
    (hsome : (choicesUpToFinish cs).any hasToolCalls = true) :
    ∃ post, (processChoices st cs).2.1 =
        textDeltasOf (choicesBeforeToolCall (choicesUpToFinish cs)) ++
          .event (.contentBlockStop 0) :: post ∧
      post.filter isTextDelta = [] ∧
      (processChoices st cs).1.textBlockClosed = true := by
  induction cs generalizing st with
  | nil => simp [choicesUpToFinish] at hsome
  | cons c cs ih =>
    by_cases hct : hasToolCalls c = true
    · obtain ⟨⟨post, q1, q2⟩, q3⟩ := processChoice_toolCalls st c hopen hct
      have hbefore : ∀ l, choicesBeforeToolCall (c :: l) = [] := by
        intro l
        simp [choicesBeforeToolCall, List.takeWhile_cons, hct]
      cases hc : c.FinishReason with
      | some g =>
        have hup : choicesUpToFinish (c :: cs) = [c] := by simp [choicesUpToFinish, hc]
        have hflag := (processChoice_of_some st c g hc).1
        simp only [processChoices, hflag, if_true, hup, hbefore]
        exact ⟨post, by simpa [textDeltasOf] using q1, q2, q3⟩
      | none =>
        have hup : choicesUpToFinish (c :: cs) = c :: choicesUpToFinish cs := by
          simp [choicesUpToFinish, hc]
        have hflag := (processChoice_of_none st c hc).1
        obtain ⟨r1, r2⟩ := processChoices_closed (processChoice st c).1 cs q3
        simp only [processChoices, hflag, Bool.false_eq_true, if_false, hup, hbefore]
        refine ⟨post ++ (processChoices (processChoice st c).1 cs).2.1, ?_, ?_, r2⟩
        · simp [textDeltasOf, q1]
        · simp [List.filter_append, q2, r1]
    · have hct2 : hasToolCalls c = false := by simpa using hct
      cases hc : c.FinishReason with
      | some g =>
        have hup : choicesUpToFinish (c :: cs) = [c] := by simp [choicesUpToFinish, hc]
        rw [hup] at hsome
        simp [hct2] at hsome
      | none =>
        have hup : choicesUpToFinish (c :: cs) = c :: choicesUpToFinish cs := by
          simp [choicesUpToFinish, hc]
        rw [hup] at hsome ⊢
        have hsome2 : (choicesUpToFinish cs).any hasToolCalls = true := by
          simpa [List.any_cons, hct2] using hsome
        have hflag := (processChoice_of_none st c hc).1
        obtain ⟨p1, p2, _⟩ := (processChoice_text st c hopen hct2).1 hc
        obtain ⟨post, i1, i2, i3⟩ := ih (processChoice st c).1 p2 hsome2
        have hb : choicesBeforeToolCall (c :: choicesUpToFinish cs) =
            c :: choicesBeforeToolCall (choicesUpToFinish cs) := by
          simp [choicesBeforeToolCall, List.takeWhile_cons, hct2]
        simp only [processChoices, hflag, Bool.false_eq_true, if_false, p1, i1, hb]
        refine ⟨post, ?_, i2, i3⟩
        rw [textDeltasOf_cons c (choicesBeforeToolCall (choicesUpToFinish cs)),
          List.append_assoc]

theorem readLoop_toolCalls (st : TranscoderState) (lines : List UpLine)
    (hopen : st.textBlockClosed = false)
    (hsome : (choicesUpToFinish (choicesRead lines)).any hasToolCalls = true) :
    ∃ pre post, readLoop st lines = pre ++ .event (.contentBlockStop 0) :: post ∧
      (∀ w ∈ pre, isTextDelta w = true ∨ isErrorNotice w = true) ∧
      pre.filter isTextDelta =
        textDeltasOf (choicesBeforeToolCall (choicesUpToFinish (choicesRead lines))) ∧
      post.filter isTextDelta = [] := by
  induction lines generalizing st with
  | nil => simp [choicesRead, choicesUpToFinish] at hsome
  | cons l rest ih =>
    cases l with
    | skip => exact ih st hopen hsome
    | done => simp [choicesRead, choicesUpToFinish] at hsome
    | invalid err =>
      obtain ⟨pre, post, h1, h2, h3, h4⟩ := ih st hopen hsome
      refine ⟨.errorNotice err :: pre, post, by simp [readLoop, h1], ?_, ?_, h4⟩
      · intro w hw
        rcases List.mem_cons.mp hw with hw | hw
        · rw [hw]; exact Or.inr rfl
        · exact h2 w hw
      · simpa [List.filter_cons, isTextDelta, choicesRead] using h3
    | chunk c =>
      simp only [choicesRead] at hsome ⊢
      have hdeltas : ∀ cs : List OAIChoice, ∀ w ∈ textDeltasOf cs,
          isTextDelta w = true ∨ isErrorNotice w = true := by
        intro cs w hw
        obtain ⟨x, _, rfl⟩ := List.mem_map.mp hw
        exact Or.inl rfl
      cases hfin : firstFinishReason c.Choices with
      | some g =>
        have hflag := (processChoices_of_some st c.Choices g hfin).1
        rw [choicesUpToFinish_append_of_some _ _ g hfin] at hsome ⊢
        obtain ⟨post, q1, q2, _⟩ := processChoices_toolCalls st c.Choices hopen hsome
        simp only [readLoop, hflag, if_true]
        exact ⟨_, post, q1, hdeltas _, filter_isTextDelta_textDeltasOf _, q2⟩
      | none =>
        have hflag := (processChoices_of_none st c.Choices hfin).1
        rw [choicesUpToFinish_append_of_none _ _ hfin] at hsome ⊢
        simp only [readLoop, hflag, Bool.false_eq_true, if_false]
        by_cases hany : c.Choices.any hasToolCalls = true
        · have hany2 : (choicesUpToFinish c.Choices).any hasToolCalls = true := by
            rw [choicesUpToFinish_of_none _ hfin]; exact hany
          obtain ⟨post, q1, q2, q3⟩ := processChoices_toolCalls st c.Choices hopen hany2
          rw [choicesUpToFinish_of_none _ hfin] at q1
          rw [choicesBeforeToolCall_append_of_some _ _ hany]
          refine ⟨_, post ++ readLoop (processChoices st c.Choices).1 rest, ?_, hdeltas _,
            filter_isTextDelta_textDeltasOf _, ?_⟩
          · rw [q1]; simp
          · simp [List.filter_append, q2, readLoop_closed _ rest q3]
        · have hany2 : c.Choices.any hasToolCalls = false := by simpa using hany
          have hno : (choicesUpToFinish c.Choices).any hasToolCalls = false := by
            rw [choicesUpToFinish_of_none _ hfin]; exact hany2
          obtain ⟨p1, p2, _⟩ := (processChoices_text st c.Choices hopen hno).1 hfin
          have hrest : (choicesUpToFinish (choicesRead rest)).any hasToolCalls = true := by
            simpa [List.any_append, hany2] using hsome
          obtain ⟨pre, post, h1, h2, h3, h4⟩ := ih (processChoices st c.Choices).1 p2 hrest
          rw [choicesBeforeToolCall_append_of_none _ _ hany2, p1, h1]
          refine ⟨textDeltasOf c.Choices ++ pre, post, by simp, ?_, ?_, h4⟩
          · intro w hw
            rcases List.mem_append.mp hw with hw | hw
            · exact hdeltas _ w hw
            · exact h2 w hw
          · rw [List.filter_append, filter_isTextDelta_textDeltasOf, h3, textDeltasOf_append]

theorem readLoop_text (st : TranscoderState) (lines : List UpLine)
    (hopen : st.textBlockClosed = false) (hlast : st.lastToolIndex = -1)
    (htok : st.outputTokens = 0)
    (hno : (choicesUpToFinish (choicesRead lines)).any hasToolCalls = false) :
    ∃ pre, readLoop st lines =
        pre ++ [ .event (.contentBlockStop 0),
                 .event (.messageDelta
                   (match firstFinishReason (choicesRead lines) with
                    | some f => stopReasonOf f
                    | none => "end_turn") none 0),
                 .event .messageStop,
                 .done ] ∧
      (∀ w ∈ pre, isTextDelta w = true ∨ isErrorNotice w = true) ∧
      pre.filter isTextDelta = textDeltasOf (choicesUpToFinish (choicesRead lines)) := by
  have hend : ∀ s : TranscoderState, s.textBlockClosed = false → s.outputTokens = 0 →
      endOfStream s = [ .event (.contentBlockStop 0), .event (.messageDelta "end_turn" none 0),
                        .event .messageStop, .done ] := by
    intro s h1 h2
    simp [endOfStream, h1, h2]
  induction lines generalizing st with
  | nil =>
    exact ⟨[], by simpa [readLoop, choicesRead, firstFinishReason] using hend st hopen htok,
      by simp, rfl⟩
  | cons l rest ih =>
    cases l with
    | skip => exact ih st hopen hlast htok hno
    | done =>
      exact ⟨[], by simpa [readLoop, choicesRead, firstFinishReason] using hend st hopen htok,
        by simp, rfl⟩
    | invalid err =>
      obtain ⟨pre, h1, h2, h3⟩ := ih st hopen hlast htok hno
      refine ⟨.errorNotice err :: pre, by simp [readLoop, h1, choicesRead], ?_, ?_⟩
      · intro w hw
        rcases List.mem_cons.mp hw with hw | hw
        · rw [hw]; exact Or.inr rfl
        · exact h2 w hw
      · simpa [List.filter_cons, isTextDelta, choicesRead] using h3
    | chunk c =>
      simp only [choicesRead] at hno ⊢
      have hdeltas : ∀ cs : List OAIChoice, ∀ w ∈ textDeltasOf cs,
          isTextDelta w = true ∨ isErrorNotice w = true := by
        intro cs w hw
        obtain ⟨x, _, rfl⟩ := List.mem_map.mp hw
        exact Or.inl rfl
      cases hfin : firstFinishReason c.Choices with
      | some g =>
        have hflag := (processChoices_of_some st c.Choices g hfin).1
        rw [choicesUpToFinish_append_of_some _ _ g hfin] at hno ⊢
        have q := (processChoices_text st c.Choices hopen hno).2 g hfin
        simp only [readLoop, hflag, if_true, firstFinishReason_append, hfin]
        refine ⟨textDeltasOf (choicesUpToFinish c.Choices), ?_, hdeltas _,
          filter_isTextDelta_textDeltasOf _⟩
        rw [q, hlast, htok]
        simp
      | none =>
        have hflag := (processChoices_of_none st c.Choices hfin).1
        obtain ⟨_, _, htok2⟩ := processChoices_of_none st c.Choices hfin
        rw [choicesUpToFinish_append_of_none _ _ hfin] at hno ⊢
        have hno1 : c.Choices.any hasToolCalls = false := by
          simp only [List.any_append, Bool.or_eq_false_iff] at hno
          exact hno.1
        have hno2 : (choicesUpToFinish (choicesRead rest)).any hasToolCalls = false := by
          simp only [List.any_append, Bool.or_eq_false_iff] at hno
          exact hno.2
        have hno3 : (choicesUpToFinish c.Choices).any hasToolCalls = false := by
          rw [choicesUpToFinish_of_none _ hfin]; exact hno1
        obtain ⟨p1, p2, p3⟩ := (processChoices_text st c.Choices hopen hno3).1 hfin
        obtain ⟨pre, h1, h2, h3⟩ := ih (processChoices st c.Choices).1 p2 (by rw [p3, hlast])
          (by rw [htok2, htok]) hno2
        simp only [readLoop, hflag, Bool.false_eq_true, if_false, firstFinishReason_append, hfin,
          p1, h1]
        refine ⟨textDeltasOf c.Choices ++ pre, by simp, ?_, ?_⟩
        · intro w hw
          rcases List.mem_append.mp hw with hw | hw
          · exact hdeltas _ w hw
          · exact h2 w hw
        · rw [List.filter_append, filter_isTextDelta_textDeltasOf, h3, textDeltasOf_append]

theorem any_hasToolCalls_of_toolCallsOf (cs : List OAIChoice) (h : toolCallsOf cs = []) :
    cs.any hasToolCalls = false := by
  induction cs with
  | nil => rfl
  | cons c cs ih =>
    rw [toolCallsOf_cons, List.append_eq_nil] at h
    simp [List.any_cons, hasToolCalls, h.1, ih h.2]

/-- C22: when a choice with a non-empty `delta.tool_calls` is processed, the output has a
`content_block_stop` for index 0 with no `content_block_start` of a tool-use block and no
other stop for index 0 before it, and no `text_delta` event after it.  The `text_delta`
events before it are those of the choices in front of the first choice with tool calls:
the content of that choice and of every later choice is dropped. -/
theorem C22_tool_call_closes_text_block (lines : List UpLine) (model : String)
    (h : (choicesUpToFinish (choicesRead lines)).any hasToolCalls = true) :
    ∃ pre post, ConvertOAIStreamToClaudeStream lines model =
        pre ++ .event (.contentBlockStop 0) :: post ∧
      (∀ w ∈ pre, isToolUseStart w = false ∧ isBlockStopAt 0 w = false) ∧
      pre.filter isTextDelta =
        textDeltasOf (choicesBeforeToolCall (choicesUpToFinish (choicesRead lines))) ∧
      (∀ w ∈ post, isTextDelta w = false) := by
  obtain ⟨pre, post, h1, h2, h3, h4⟩ := readLoop_toolCalls TranscoderState.init lines rfl h
  refine ⟨initialEvents model ++ pre, post, ?_, ?_, ?_, ?_⟩
  · rw [ConvertOAIStreamToClaudeStream, h1, List.append_assoc]
  · intro w hw
    rcases List.mem_append.mp hw with hw | hw
    · simp only [initialEvents, List.mem_cons, List.mem_singleton, List.not_mem_nil,
        or_false] at hw
      rcases hw with hw | hw | hw <;> rw [hw] <;> exact ⟨rfl, rfl⟩
    · rcases h2 w hw with ht | he
      · cases w with
        | event e =>
          cases e with
          | contentBlockDelta i d => exact ⟨rfl, rfl⟩
          | _ => simp [isTextDelta] at ht
        | _ => simp [isTextDelta] at ht
      · cases w with
        | errorNotice err => exact ⟨rfl, rfl⟩
        | _ => simp [isErrorNotice] at he
  · rw [List.filter_append, h3]
    rfl
  · intro w hw
    cases hw2 : isTextDelta w with
    | false => rfl
    | true =>
      have : w ∈ post.filter isTextDelta := List.mem_filter.mpr ⟨hw, hw2⟩
      rw [h4] at this
      exact absurd this (List.not_mem_nil _)

/-- C22 at an upstream with the text `Let me check.`, then a chunk with a tool call and the
content `dropped`, then a chunk with the content `dropped too`: the only `text_delta` is
that of the first chunk, and the stop for index 0 comes before the start of the tool-use
block. -/
theorem C22_tool_call_closes_text_block_witness :
    (choicesUpToFinish (choicesRead textThenToolCallStream)).any hasToolCalls = true ∧
    ConvertOAIStreamToClaudeStream textThenToolCallStream "claude-3-sonnet-20240229" =
      initialEvents "claude-3-sonnet-20240229" ++
        [ .event (.contentBlockDelta 0 (.textDelta "Let me check.")),
          .event (.contentBlockStop 0),
          .event (.contentBlockStop (-1)),
          .event (.contentBlockStart 1 (.toolUse "call_1" "calculator")),
          .event (.contentBlockDelta 1 (.inputJsonDelta "\x7b\x7d" 1)),
          .event (.contentBlockStop 1),
          .event (.messageDelta "tool_use" none 0),
          .event .messageStop,
          .done ] ∧
    ∃ pre post, ConvertOAIStreamToClaudeStream textThenToolCallStream
          "claude-3-sonnet-20240229" =
        pre ++ .event (.contentBlockStop 0) :: post ∧
      (∀ w ∈ pre, isToolUseStart w = false ∧ isBlockStopAt 0 w = false) ∧
      pre.filter isTextDelta =
        textDeltasOf (choicesBeforeToolCall
          (choicesUpToFinish (choicesRead textThenToolCallStream))) ∧
      (∀ w ∈ post, isTextDelta w = false) :=
  ⟨by decide, by decide,
    C22_tool_call_closes_text_block textThenToolCallStream "claude-3-sonnet-20240229"
      (by decide)⟩

/-- C23: for an upstream without tool calls, the `text_delta` events of the output are, in
upstream order, one `content_block_delta` with index 0 and the content as text for each
choice with a non-empty `delta.content` among the choices processed, up to and including
the first with a `finish_reason`; a choice with an empty content gives none.  They all come
before the closing sequence, which is `content_block_stop` for index 0, `message_delta`,
`message_stop` and `data: [DONE]`; so a choice with a content and a `finish_reason` gives its
`text_delta` before the closing sequence. -/
theorem C23_text_deltas (lines : List UpLine) (model : String)
    (h : toolCallsRead lines = []) :
    (ConvertOAIStreamToClaudeStream lines model).filter isTextDelta =
      ((choicesUpToFinish (choicesRead lines)).filter
          (fun c => decide (c.Delta.Content ≠ ""))).map
        (fun c => .event (.contentBlockDelta 0 (.textDelta c.Delta.Content))) ∧
    ∃ pre, ConvertOAIStreamToClaudeStream lines model =
        pre ++ [ .event (.contentBlockStop 0),
                 .event (.messageDelta
                   (match firstFinishReason (choicesRead lines) with
                    | some f => stopReasonOf f
                    | none => "end_turn") none 0),
                 .event .messageStop,
                 .done ] ∧
      pre.filter isTextDelta = (ConvertOAIStreamToClaudeStream lines model).filter isTextDelta := by
  have hno := any_hasToolCalls_of_toolCallsOf _ h
  obtain ⟨pre, h1, _, h3⟩ := readLoop_text TranscoderState.init lines rfl rfl rfl hno
  have hall : (ConvertOAIStreamToClaudeStream lines model).filter isTextDelta =
      textDeltasOf (choicesUpToFinish (choicesRead lines)) := by
    rw [ConvertOAIStreamToClaudeStream, h1]
    simp only [List.filter_append, h3]
    simp [initialEvents, List.filter_cons, isTextDelta]
  refine ⟨hall, initialEvents model ++ pre, ?_, ?_⟩
  · rw [ConvertOAIStreamToClaudeStream, h1, List.append_assoc]
  · rw [hall, List.filter_append, h3]
    rfl

/-- C23 at the upstream of `TestConvertOAIStreamToClaudeStream_TextOnly`: the `text_delta`
events are `Hello, ` and `world!`, the second from the choice that carries the
`finish_reason`. -/
theorem C23_text_deltas_witness :
    toolCallsRead helloWorldStream = [] ∧
    (ConvertOAIStreamToClaudeStream helloWorldStream "claude-3-sonnet-20240229").filter
        isTextDelta =
      [ .event (.contentBlockDelta 0 (.textDelta "Hello, ")),
        .event (.contentBlockDelta 0 (.textDelta "world!")) ] :=
  ⟨by decide,
    (C23_text_deltas helloWorldStream "claude-3-sonnet-20240229" (by decide)).1.trans
      (by decide)⟩

/-! ## The transcoder: lines that carry nothing, and the value returned -/

theorem readLoopReturn_of_none (st : TranscoderState) (lines : List UpLine) :
    readLoopReturn st lines none = (readLoop st lines, none) := by
  induction lines generalizing st with
  | nil => rfl
  | cons l rest ih =>
    cases l with
    | skip => exact ih st
    | done => rfl
    | invalid err => simp [readLoopReturn, readLoop, ih]
    | chunk c =>
      simp only [readLoopReturn, readLoop, ih]
      split_ifs <;> rfl

theorem readLoopReturn_returned (st : TranscoderState) (lines : List UpLine)
    (e : Option String) (err : String) :
    (readLoopReturn st lines e).2 = some err ↔
      e = some err ∧ firstFinishReason (choicesRead lines) = none ∧ UpLine.done ∉ lines := by
  induction lines generalizing st with
  | nil =>
    cases e with
    | none => simp [readLoopReturn]
    | some x => simp [readLoopReturn, choicesRead, firstFinishReason]
  | cons l rest ih =>
    cases l with
    | skip =>
      have := ih st
      simpa [readLoopReturn, choicesRead] using this
    | done => simp [readLoopReturn]
    | invalid x =>
      have := ih st
      simpa [readLoopReturn, choicesRead] using this
    | chunk c =>
      simp only [readLoopReturn, choicesRead, firstFinishReason_append]
      cases hfin : firstFinishReason c.Choices with
      | some g =>
        have hflag := (processChoices_of_some st c.Choices g hfin).1
        simp [hflag]
      | none =>
        have hflag := (processChoices_of_none st c.Choices hfin).1
        have := ih (processChoices st c.Choices).1
        simpa [hflag] using this

theorem processChoice_of_nothing (st : TranscoderState) (c : OAIChoice)
    (h : (!hasContent c && !hasToolCalls c && c.FinishReason.isNone) = true) :
    processChoice st c = (st, [], false) := by
  simp only [Bool.and_eq_true, Bool.not_eq_true', Option.isNone_iff_eq_none] at h
  obtain ⟨⟨h1, h2⟩, h3⟩ := h
  have hx : c.Delta.Content = "" := by simpa [hasContent] using h1
  have ht := hasToolCalls_eq_false c h2
  unfold processChoice
  rw [h3]
  cases st
  simp [hx, ht, processToolCalls]

theorem processChoices_of_nothing (st : TranscoderState) (cs : List OAIChoice)
    (h : cs.all (fun ch => !hasContent ch && !hasToolCalls ch && ch.FinishReason.isNone) =
      true) :
    processChoices st cs = (st, [], false) := by
  induction cs generalizing st with
  | nil => rfl
  | cons c cs ih =>
    simp only [List.all_cons, Bool.and_eq_true] at h
    have h1 := processChoice_of_nothing st c (by simpa using h.1)
    have h2 := ih st (by simpa using h.2)
    simp [processChoices, h1, h2]

theorem readLoopReturn_remove (st : TranscoderState) (before after : List UpLine)
    (l : UpLine) (e : Option String) (h : carriesNothing l = true) :
    (readLoopReturn st (before ++ l :: after) e).2 = (readLoopReturn st (before ++ after) e).2 ∧
      (readLoopReturn st (before ++ l :: after) e).1.filter (fun w => !isErrorNotice w) =
        (readLoopReturn st (before ++ after) e).1.filter (fun w => !isErrorNotice w) ∧
      ((∀ err, l ≠ .invalid err) →
        readLoopReturn st (before ++ l :: after) e = readLoopReturn st (before ++ after) e) := by
  induction before generalizing st with
  | nil =>
    cases l with
    | skip => exact ⟨rfl, rfl, fun _ => rfl⟩
    | done => simp [carriesNothing] at h
    | invalid err =>
      refine ⟨rfl, ?_, fun hne => absurd rfl (hne err)⟩
      simp [readLoopReturn, List.filter_cons, isErrorNotice]
    | chunk c =>
      have hc := processChoices_of_nothing st c.Choices (by simpa [carriesNothing] using h)
      have : readLoopReturn st ([] ++ UpLine.chunk c :: after) e =
          readLoopReturn st ([] ++ after) e := by
        simp [readLoopReturn, hc]
      exact ⟨by rw [this], by rw [this], fun _ => this⟩
  | cons b before ih =>
    cases b with
    | skip => exact ih st
    | done => exact ⟨rfl, rfl, fun _ => rfl⟩
    | invalid err =>
      obtain ⟨i1, i2, i3⟩ := ih st
      refine ⟨?_, ?_, fun hne => ?_⟩
      · simpa [readLoopReturn] using i1
      · simpa [readLoopReturn, List.filter_cons, isErrorNotice] using i2
      · simp only [List.cons_append, readLoopReturn, List.append_eq]
        rw [i3 hne]
    | chunk c =>
      obtain ⟨i1, i2, i3⟩ := ih (processChoices st c.Choices).1
      simp only [List.cons_append, readLoopReturn, List.append_eq]
      by_cases hflag : (processChoices st c.Choices).2.2 = true
      · simp only [hflag, if_true]
        exact ⟨trivial, trivial, fun _ => trivial⟩
      · simp only [hflag, Bool.false_eq_true, if_false, List.filter_append]
        refine ⟨i1, by rw [i2], fun hne => by rw [i3 hne]⟩

/-- C24: taking out of the upstream, at any place, a line that carries nothing (a blank
line or a line without the `data: ` marker, a line whose payload does not decode, a chunk
without choices or with only choices that have no content, no tool calls and no
`finish_reason`) changes neither what the transcoder writes, an error notice aside, nor the
value it returns, whatever the writer and the reader do; unless the line is one whose
payload does not decode, the output is the same write for write. -/
theorem C24_empty_frames_skipped (before after : List UpLine) (l : UpLine) (model : String)
    (h : carriesNothing l = true) :
    (ConvertOAIStreamToClaudeStream (before ++ l :: after) model).filter
        (fun w => !isErrorNotice w) =
      (ConvertOAIStreamToClaudeStream (before ++ after) model).filter
        (fun w => !isErrorNotice w) ∧
    ((∀ err, l ≠ .invalid err) →
      ConvertOAIStreamToClaudeStream (before ++ l :: after) model =
        ConvertOAIStreamToClaudeStream (before ++ after) model) ∧
    (∀ (writeError : Nat → Option String) (readError : Option String),
      (ConvertOAIStreamToClaudeStreamRun writeError (before ++ l :: after) readError
          model).returned =
        (ConvertOAIStreamToClaudeStreamRun writeError (before ++ after) readError
          model).returned) := by
  obtain ⟨_, h2, h3⟩ := readLoopReturn_remove TranscoderState.init before after l none h
  simp only [readLoopReturn_of_none] at h2 h3
  refine ⟨?_, fun hne => ?_, fun writeError readError => ?_⟩
  · simp only [ConvertOAIStreamToClaudeStream, List.filter_append, h2]
  · have := h3 hne
    simp only [Prod.mk.injEq, and_true] at this
    simp only [ConvertOAIStreamToClaudeStream, this]
  · exact (readLoopReturn_remove TranscoderState.init before after l readError h).1

/-- C24 at the upstream of `TestConvertOAIStreamToClaudeStream_TextOnly` with a chunk whose
only choice has an empty delta put in front of the last chunk: the output is that of the
upstream without it. -/
theorem C24_empty_frames_skipped_witness :
    carriesNothing (chunkLine "" [] none) = true ∧
    ConvertOAIStreamToClaudeStream
        ([.skip, chunkLine "Hello, " [] none] ++
          chunkLine "" [] none :: [chunkLine "world!" [] (some "stop"), .done])
        "claude-3-sonnet-20240229" =
      ConvertOAIStreamToClaudeStream helloWorldStream "claude-3-sonnet-20240229" ∧
    (ConvertOAIStreamToClaudeStream helloWorldWithEmptyFrames
        "claude-3-sonnet-20240229").filter (fun w => !isErrorNotice w) =
      ConvertOAIStreamToClaudeStream helloWorldStream "claude-3-sonnet-20240229" :=
  ⟨by decide,
    (C24_empty_frames_skipped [.skip, chunkLine "Hello, " [] none]
      [chunkLine "world!" [] (some "stop"), .done] (chunkLine "" [] none)
      "claude-3-sonnet-20240229" (by decide)).2.1
      (by intro err; simp [chunkLine]),
    by decide⟩

/-! ## The reducer: the input as the decoder receives it -/

theorem splitLinesFrom_append_newline (current a b : List Char) :
    splitLinesFrom current (a ++ '\n' :: b) =
      splitLinesFrom current a ++ splitLinesFrom [] b := by
  induction a generalizing current with
  | nil => simp [splitLinesFrom]
  | cons c cs ih =>
    by_cases hc : c = '\n'
    · simp [splitLinesFrom, hc, ih]
    · simp [splitLinesFrom, hc, ih]

theorem strippedRead_append (a b : String)
    (h : a = "" ∨ ∃ front : List Char, a.data = front ++ ['\n']) :
    strippedRead (a ++ b) = strippedRead a ++ strippedRead b := by
  rcases h with h | ⟨front, h⟩
  · subst h
    have h0 : strippedRead "" = "" := by decide
    simp [h0]
  · have hsplit : splitLinesFrom [] (a ++ b).data =
        splitLinesFrom [] front ++ splitLinesFrom [] b.data := by
      rw [String.data_append, h, List.append_assoc, List.singleton_append,
        splitLinesFrom_append_newline]
    have hsplit2 : splitLinesFrom [] a.data = splitLinesFrom [] front ++ [[]] := by
      have := splitLinesFrom_append_newline [] front []
      rw [h]
      simpa [splitLinesFrom] using this
    have hempty : strippedLine (String.mk []) = "" := by decide
    simp only [strippedRead, hsplit, hsplit2, List.map_append, concatAll_append, List.map_cons,
      List.map_nil, hempty]
    simp [concatAll, String.append_assoc]

theorem eventStreamStripper_whole_lines (reads : List String)
    (h : ∀ r ∈ reads, r = "" ∨ ∃ front : List Char, r.data = front ++ ['\n']) :
    eventStreamStripper reads = strippedInput (concatAll reads) := by
  induction reads with
  | nil => decide
  | cons r rs ih =>
    have hr := h r (List.mem_cons_self _ _)
    have hrs := ih (fun x hx => h x (List.mem_cons_of_mem _ hx))
    simp only [eventStreamStripper, strippedInput] at hrs ⊢
    rw [List.map_cons, concatAll_cons, concatAll_cons, hrs, strippedRead_append r _ hr]

/-- C29 (defect in the code): the decoder is to receive the non-blank lines of the input,
trimmed and without a leading `data: `, however the reader splits the input into reads.
`eventStreamStripper.Read` splits and trims every read on its own, so white space next to
the place where a line is cut in two is lost: the line with the text `Hello, world!`, read
in two reads of which the first ends after `Hello, `, reaches the decoder with the text
`Hello,world!`.  An input that comes in one read is delivered as claimed. -/
theorem C29_line_split_across_reads_altered :
    concatAll helloWorldDeltaReads = helloWorldDeltaLine ∧
    strippedInput helloWorldDeltaLine =
      "\x7b\"data\":\x7b\"delta\":\x7b\"text\":\"Hello, world!\",\"type\":\"text_delta\"\x7d," ++
      "\"index\":0,\"type\":\"content_block_delta\"\x7d,\"event\":\"content_block_delta\"\x7d" ∧
    eventStreamStripper helloWorldDeltaReads =
      "\x7b\"data\":\x7b\"delta\":\x7b\"text\":\"Hello,world!\",\"type\":\"text_delta\"\x7d," ++
      "\"index\":0,\"type\":\"content_block_delta\"\x7d,\"event\":\"content_block_delta\"\x7d" ∧
    eventStreamStripper helloWorldDeltaReads ≠ strippedInput (concatAll helloWorldDeltaReads) ∧
    (∀ input : String, eventStreamStripper [input] = strippedInput input) := by
  refine ⟨by decide, by decide, by decide, by decide, fun input => ?_⟩
  simp [eventStreamStripper, strippedInput, concatAll]

/-! ## Tool choice: the values that are not a recognised mapping -/

/-- C35, counterexample: the plain string `none` is no mapping; `ConvertToolChoiceClaudeToOAI`
returns it as it is (conversion.go 16-19) and not the string `auto`. -/
theorem C35_counterexample_plain_string :
    ConvertToolChoiceClaudeToOAI (.str "none") = .str "none" ∧
    ConvertToolChoiceClaudeToOAI (.str "none") ≠ .str "auto" := by
  constructor
  · rfl
  · simp [ConvertToolChoiceClaudeToOAI]

/-- C35 (as amended): for every mapping that is none of the three recognised mappings (its
`type` is neither `auto` nor `any`, and it is not of type `tool` with a string `name`)
`ConvertToolChoiceClaudeToOAI` returns the string `auto`; a non-nil input that is not a
mapping at all is returned unchanged. -/
theorem C35_tool_choice_other_values :
    (∀ tc : List (String × GoAny),
      GoAny.lookup tc "type" ≠ .str "auto" → GoAny.lookup tc "type" ≠ .str "any" →
      (GoAny.lookup tc "type" ≠ .str "tool" ∨
        ∀ name : String, GoAny.lookup tc "name" ≠ .str name) →
      ConvertToolChoiceClaudeToOAI (.map tc) = .str "auto") ∧
    (∀ v : GoAny, v ≠ .nil → (∀ tc, v ≠ .map tc) → ConvertToolChoiceClaudeToOAI v = v) := by
  constructor
  · intro tc h1 h2 h3
    simp only [ConvertToolChoiceClaudeToOAI]
    cases ht : GoAny.lookup tc "type" with
    | str s =>
      rw [ht] at h1 h2 h3
      have h1 : s ≠ "auto" := fun e => h1 (by rw [e])
      have h2 : s ≠ "any" := fun e => h2 (by rw [e])
      by_cases h4 : s = "tool"
      · subst h4
        have h3 : ∀ name : String, GoAny.lookup tc "name" ≠ .str name := by
          rcases h3 with h3 | h3
          · exact absurd rfl h3
          · exact h3
        cases hn : GoAny.lookup tc "name" with
        | str n => exact absurd hn (h3 n)
        | _ => simp [GoAny.asString]
      · simp [GoAny.asString, h1, h2, h4]
    | _ => simp [GoAny.asString]
  · intro v hnil hmap
    cases v with
    | nil => exact absurd rfl hnil
    | map tc => exact absurd rfl (hmap tc)
    | _ => rfl

/-- C35 (as amended) at a mapping of an unknown type, a mapping of type `tool` without a
name, a mapping without a type, the plain string `none` and a number. -/
theorem C35_tool_choice_other_values_witness :
    ConvertToolChoiceClaudeToOAI (.map [("type", .str "unknown")]) = .str "auto" ∧
    ConvertToolChoiceClaudeToOAI (.map [("type", .str "tool")]) = .str "auto" ∧
    ConvertToolChoiceClaudeToOAI (.map []) = .str "auto" ∧
    ConvertToolChoiceClaudeToOAI (.str "none") = .str "none" ∧
    ConvertToolChoiceClaudeToOAI (.num 3) = .num 3 :=
  ⟨C35_tool_choice_other_values.1 _ (by simp [GoAny.lookup]) (by simp [GoAny.lookup])
     (Or.inl (by simp [GoAny.lookup])),
   C35_tool_choice_other_values.1 _ (by simp [GoAny.lookup]) (by simp [GoAny.lookup])
     (Or.inr (by simp [GoAny.lookup])),
   C35_tool_choice_other_values.1 _ (by simp [GoAny.lookup]) (by simp [GoAny.lookup])
     (Or.inl (by simp [GoAny.lookup])),
   C35_tool_choice_other_values.2 _ (by simp) (by simp),
   C35_tool_choice_other_values.2 _ (by simp) (by simp)⟩

/-! ## The request rewriter: the fields that are not read -/

/-- C34: two requests that agree on model, max_tokens, messages, stop_sequences,
temperature, top_p, top_k, tools and tool_choice get equal results from
`ConvertClaudeToOAI`, whatever their system, stream, metadata, thinking and original_model
fields are; the result is a request each of whose messages is the output message of a
message of the request, so none is derived from the system field. -/
theorem C34_system_not_forwarded (marshal : GoAny → String) (a b : ClaudeMessagesRequest)
    (hModel : a.Model = b.Model) (hMaxTokens : a.MaxTokens = b.MaxTokens)
    (hMessages : a.Messages = b.Messages) (hStop : a.StopSequences = b.StopSequences)
    (hTemperature : a.Temperature = b.Temperature) (hTopP : a.TopP = b.TopP)
    (hTopK : a.TopK = b.TopK) (hTools : a.Tools = b.Tools)
    (hToolChoice : a.ToolChoice = b.ToolChoice) :
    ConvertClaudeToOAI marshal a = ConvertClaudeToOAI marshal b ∧
    ∃ out, ConvertClaudeToOAI marshal a = .ok out ∧
      (∀ m ∈ out.Messages, ∃ cm ∈ a.Messages, m = messageOf marshal cm) ∧
      out.Messages.length ≤ a.Messages.length := by
  refine ⟨?_, _, rfl, ?_, ?_⟩
  · simp only [ConvertClaudeToOAI, hModel, hMaxTokens, hMessages, hStop, hTemperature, hTopP,
      hTopK, hTools, hToolChoice]
  · intro m hm
    change m ∈ convertMessages marshal a.Messages at hm
    rw [convertMessages_eq_filter_map, List.mem_map] at hm
    obtain ⟨cm, hcm, rfl⟩ := hm
    exact ⟨cm, (List.mem_filter.mp hcm).1, rfl⟩
  · show (convertMessages marshal a.Messages).length ≤ _
    rw [convertMessages_eq_filter_map, List.length_map]
    exact List.length_filter_le _ _

/-- C34 at the request of `TestConvertClaudeToOAIAndBack` with and without a system prompt,
`stream`, metadata, thinking and original model: the results are equal and hold the one
message of the request. -/
theorem C34_system_not_forwarded_witness :
    systemPromptRequest.System = .str "You are a pirate." ∧
    helloClaudeRequest.System = .nil ∧
    ConvertClaudeToOAI (fun _ => "null") systemPromptRequest =
      ConvertClaudeToOAI (fun _ => "null") helloClaudeRequest ∧
    ∃ out, ConvertClaudeToOAI (fun _ => "null") systemPromptRequest = .ok out ∧
      out.Messages.length ≤ 1 :=
  ⟨rfl, rfl,
   (C34_system_not_forwarded (fun _ => "null") systemPromptRequest helloClaudeRequest
     rfl rfl rfl rfl rfl rfl rfl rfl rfl).1,
   match C34_system_not_forwarded (fun _ => "null") systemPromptRequest helloClaudeRequest
     rfl rfl rfl rfl rfl rfl rfl rfl rfl with
   | ⟨_, out, h, _, hlen⟩ => ⟨out, h, hlen⟩⟩

/-! ## Round trip of the tool definitions -/

theorem convertToolsBack_foldl (tools : List ClaudeTool) (init : List ClaudeTool) :
    (tools.map functionToolOf).foldl (fun claudeTools t =>
      match (GoAny.lookup t.Function "name").asString with
      | none => claudeTools
      | some fn =>
        let desc : String := ((GoAny.lookup t.Function "description").asString).getD ""
        let params : List (String × GoAny) :=
          ((GoAny.lookup t.Function "parameters").asMap).getD []
        claudeTools ++ [{ Name := fn, Description := some desc, InputSchema := params }]) init =
      init ++ tools.map toolWithEmptyDescription := by
  induction tools generalizing init with
  | nil => simp
  | cons t ts ih =>
    rw [List.map_cons, List.foldl_cons, ih]
    simp [functionToolOf, toolWithEmptyDescription, GoAny.lookup, GoAny.asString, GoAny.asMap]

theorem convertToolsBack_convertTools (tools : List ClaudeTool) :
    convertToolsBack (convertTools tools) = tools.map toolWithEmptyDescription := by
  rw [convertTools_eq_map]
  exact (convertToolsBack_foldl tools []).trans (List.nil_append _)

/-- C36: for a request with a tools list, `ConvertOAIToClaude` after `ConvertClaudeToOAI`
succeeds and returns a tools list of the same length in which the i-th tool has the name
and the input schema of the i-th tool of the request and a description that is the empty
string, whether the tool of the request has a description or not. -/
theorem C36_tool_round_trip (marshal : GoAny → String) (req : ClaudeMessagesRequest)
    (tools : List ClaudeTool) (hreq : req.Tools = some tools) :
    ∃ oai back backTools, ConvertClaudeToOAI marshal req = .ok oai ∧
      ConvertOAIToClaude oai = .ok back ∧
      back.Tools = some backTools ∧
      backTools.length = tools.length ∧
      (∀ (i : Nat) (t : ClaudeTool), tools[i]? = some t →
        backTools[i]? = some ({ Name := t.Name, Description := some "",
                                InputSchema := t.InputSchema } : ClaudeTool)) ∧
      backTools = tools.map toolWithEmptyDescription := by
  refine ⟨_, _, tools.map toolWithEmptyDescription, rfl, rfl, ?_, ?_, ?_, rfl⟩
  · show (req.Tools.map convertTools).map convertToolsBack = _
    rw [hreq]
    exact congrArg some (convertToolsBack_convertTools tools)
  · exact List.length_map _ _
  · intro i t h
    rw [List.getElem?_map, h]
    rfl

/-- C36 at a request with two tools, the first with a description and the second
without. -/
theorem C36_tool_round_trip_witness :
    ∃ oai back, ConvertClaudeToOAI (fun _ => "null") twoToolsRequest = .ok oai ∧
      ConvertOAIToClaude oai = .ok back ∧
      back.Tools =
        some [{ Name := "calculator", Description := some "",
                InputSchema := [("type", .str "object")] },
              { Name := "Bash", Description := some "",
                InputSchema := [("type", .str "object"),
                                ("required", .list [.str "command"])] }] :=
  match C36_tool_round_trip (fun _ => "null") twoToolsRequest _ rfl with
  | ⟨oai, back, _, h1, h2, h3, _, _, h6⟩ => ⟨oai, back, h1, h2, by rw [h3, h6]; rfl⟩

/-! ## The reducer: a `tool_use` start without an id or a name -/

theorem reduceEvent_start_without_identity (u : String → Option (List (String × GoAny)))
    (st : ReducerState) (id name : String) (h : id = "" ∨ name = "") :
    reduceEvent u st (toolUseStartRecord id name) = clearedCurrent st := by
  have hn : ¬ (id ≠ "" ∧ name ≠ "") := by
    rintro ⟨h1, h2⟩
    rcases h with h | h
    · exact h1 h
    · exact h2 h
  simp [reduceEvent, toolUseStartRecord, clearedCurrent, hn]

theorem foldl_inputJsonDelta_without_block (u : String → Option (List (String × GoAny)))
    (st : ReducerState) (fragments : List String) (h : st.currentToolUseBlock = none) :
    (fragments.map inputJsonDeltaRecord).foldl (reduceEvent u) st = st := by
  induction fragments with
  | nil => rfl
  | cons f fs ih =>
    have hstep : reduceEvent u st (inputJsonDeltaRecord f) = st := by
      simp [reduceEvent, inputJsonDeltaRecord, h]
    rw [List.map_cons, List.foldl_cons, hstep, ih]

theorem foldl_toolUseRecords_without_identity (u : String → Option (List (String × GoAny)))
    (st : ReducerState) (id name : String) (fragments : List String)
    (h : id = "" ∨ name = "") :
    (toolUseRecords id name fragments).foldl (reduceEvent u) st = clearedCurrent st := by
  have hrec : toolUseRecords id name fragments =
      [toolUseStartRecord id name] ++ fragments.map inputJsonDeltaRecord ++
        [EventRecord.contentBlockStop] := rfl
  simp only [hrec, List.foldl_append, List.foldl_cons, List.foldl_nil]
  rw [reduceEvent_start_without_identity u st id name h,
    foldl_inputJsonDelta_without_block u (clearedCurrent st) fragments rfl]
  rfl

/-- C32: a `tool_use` `content_block_start` whose id or name is empty creates no tool block
in `ParseClaudeStreamToResponse`.  In every state of the reducer it only clears the current
text block, the current tool block and the input builder; the `input_json_delta` fragments
that follow it leave the state as it is; its `content_block_stop` leaves the state as it
is, so the tool-use blocks and the text blocks of the response are those from before the
start.  For every stream, the records after such a block are read in the state from before
the block with the three pointers cleared, and a stream that ends with such a block has the
content of the stream without it. -/
theorem C32_tool_use_start_without_identity (u : String → Option (List (String × GoAny)))
    (id name : String) (fragments : List String) (h : id = "" ∨ name = "") :
    (∀ st : ReducerState,
      reduceEvent u st (toolUseStartRecord id name) = clearedCurrent st ∧
      (fragments.map inputJsonDeltaRecord).foldl (reduceEvent u) (clearedCurrent st) =
        clearedCurrent st ∧
      reduceEvent u (clearedCurrent st) EventRecord.contentBlockStop = clearedCurrent st ∧
      (clearedCurrent st).toolUseBlocks = st.toolUseBlocks ∧
      (clearedCurrent st).contentBlocks = st.contentBlocks ∧
      filteredContentBlocks (clearedCurrent st) = filteredContentBlocks st) ∧
    (∀ (pre : List EventRecord) (post : List (Option EventRecord)),
      reduceLoop u ReducerState.init
          (pre.map some ++ (toolUseRecords id name fragments).map some ++ post) =
        reduceLoop u (clearedCurrent (reduceLoop u ReducerState.init (pre.map some))) post) ∧
    (∀ pre : List EventRecord, ∃ resp before,
      ParseClaudeStreamToResponse u
          (pre.map some ++ (toolUseRecords id name fragments).map some) = .ok resp ∧
      ParseClaudeStreamToResponse u (pre.map some) = .ok before ∧
      resp.Content = before.Content) := by
  have hloop : ∀ (pre : List EventRecord) (post : List (Option EventRecord)),
      reduceLoop u ReducerState.init
          (pre.map some ++ (toolUseRecords id name fragments).map some ++ post) =
        reduceLoop u (clearedCurrent (reduceLoop u ReducerState.init (pre.map some))) post := by
    intro pre post
    rw [List.append_assoc, reduceLoop_map_some_append, reduceLoop_map_some_append,
      foldl_toolUseRecords_without_identity u _ id name fragments h]
    have hpre := reduceLoop_map_some_append u ReducerState.init pre []
    rw [List.append_nil] at hpre
    rw [hpre]
    rfl
  refine ⟨fun st => ⟨reduceEvent_start_without_identity u st id name h,
    foldl_inputJsonDelta_without_block u (clearedCurrent st) fragments rfl,
    rfl, rfl, rfl, rfl⟩, hloop, ?_⟩
  intro pre
  refine ⟨_, _, rfl, rfl, ?_⟩
  show filteredContentBlocks _ = filteredContentBlocks _
  have h2 := hloop pre []
  rw [List.append_nil] at h2
  rw [h2]
  rfl

/-- C32 at a stream with an open text block followed by a streamed tool-use block that has
a name and no id: the response holds the text block and no tool-use block. -/
theorem C32_tool_use_start_without_identity_witness :
    (("" : String) = "" ∨ "Bash" = "") ∧
    ∃ resp before,
      ParseClaudeStreamToResponse unmarshalCommandLs
          (openTextBlockRecords.map some ++
            (toolUseRecords "" "Bash" ["\x7b\"command\":", "\"ls\"\x7d"]).map some) =
        .ok resp ∧
      ParseClaudeStreamToResponse unmarshalCommandLs (openTextBlockRecords.map some) =
        .ok before ∧
      resp.Content = before.Content :=
  ⟨Or.inl rfl,
   (C32_tool_use_start_without_identity unmarshalCommandLs "" "Bash"
     ["\x7b\"command\":", "\"ls\"\x7d"] (Or.inl rfl)).2.2 openTextBlockRecords⟩

/-! ## The pipeline: tool calls with several indices -/

theorem pipeStep_stopped (dn : String → Option EventRecord)
    (u : String → Option (List (String × GoAny))) (R : ReducerState) (ws : List Written) :
    ws.foldl (pipeStep dn u) (R, true) = (R, true) := by
  induction ws with
  | nil => rfl
  | cons w ws ih => simpa [List.foldl_cons, pipeStep] using ih

theorem reduceLoop_eq_pipeStep (dn : String → Option EventRecord)
    (u : String → Option (List (String × GoAny))) (R : ReducerState) (ws : List Written) :
    reduceLoop u R (ws.map (decodeWritten dn)) = (ws.foldl (pipeStep dn u) (R, false)).1 := by
  induction ws generalizing R with
  | nil => rfl
  | cons w ws ih =>
    rw [List.map_cons, List.foldl_cons]
    cases h : decodeWritten dn w with
    | none => simp [reduceLoop, pipeStep, h, pipeStep_stopped]
    | some r => simpa [reduceLoop, pipeStep, h] using ih (reduceEvent u R r)

theorem pipeStep_event (dn : String → Option EventRecord)
    (u : String → Option (List (String × GoAny))) (R : ReducerState) (e : StreamEvent) :
    pipeStep dn u (R, false) (.event e) = (reduceEvent u R (recordOf e), false) := by
  simp [pipeStep, decodeWritten]

theorem runAfter_nonneg (run : List OAIToolCall) (tc : OAIToolCall)
    (hrun : ∀ x ∈ run, 0 ≤ x.Index) (htc : 0 ≤ tc.Index) :
    ∀ x ∈ runAfter run tc, 0 ≤ x.Index := by
  intro x hx
  cases run with
  | nil =>
    simp only [runAfter, List.mem_singleton] at hx
    rw [hx]; exact htc
  | cons first rest =>
    simp only [runAfter] at hx
    split_ifs at hx
    · rcases List.mem_append.mp hx with hx | hx
      · exact hrun x hx
      · rw [List.mem_singleton.mp hx]; exact htc
    · rw [List.mem_singleton.mp hx]; exact htc

theorem foldl_runAfter_nonneg (tcs run : List OAIToolCall)
    (hrun : ∀ x ∈ run, 0 ≤ x.Index) (htcs : ∀ x ∈ tcs, 0 ≤ x.Index) :
    ∀ x ∈ tcs.foldl runAfter run, 0 ≤ x.Index := by
  induction tcs generalizing run with
  | nil => exact hrun
  | cons tc tcs ih =>
    exact ih (runAfter run tc)
      (runAfter_nonneg run tc hrun (htcs tc (List.mem_cons_self _ _)))
      (fun x hx => htcs x (List.mem_cons_of_mem _ hx))

theorem processToolCall_lastIndexOf (run : List OAIToolCall) (tc : OAIToolCall)
    (htc : 0 ≤ tc.Index) :
    (processToolCall (lastIndexOf run) tc).1 = lastIndexOf (runAfter run tc) := by
  cases run with
  | nil =>
    have h1 : (-1 : Int) ≠ tc.Index := by omega
    simp [processToolCall, lastIndexOf, runAfter, h1]
  | cons first rest =>
    by_cases h : first.Index = tc.Index
    · simp [processToolCall, lastIndexOf, runAfter, h]
    · simp [processToolCall, lastIndexOf, runAfter, h]

theorem pipeStep_processToolCall (dn : String → Option EventRecord)
    (u : String → Option (List (String × GoAny))) (run : List OAIToolCall) (tc : OAIToolCall)
    (hrun : ∀ x ∈ run, 0 ≤ x.Index) (htc : 0 ≤ tc.Index) (s : ReducerState × Bool)
    (hb : s.1.toolUseBlocks = [])
    (hc : s.2 = false → s.1.currentToolUseBlock = openedBlock run ∧
      s.1.currentToolInputBuilder = openedBuilder run) :
    (processToolCall (lastIndexOf run) tc).1 = lastIndexOf (runAfter run tc) ∧
    ((processToolCall (lastIndexOf run) tc).2.foldl (pipeStep dn u) s).2 = s.2 ∧
    ((processToolCall (lastIndexOf run) tc).2.foldl (pipeStep dn u) s).1.toolUseBlocks = [] ∧
    (s.2 = false →
      ((processToolCall (lastIndexOf run) tc).2.foldl (pipeStep dn u) s).1.currentToolUseBlock =
        openedBlock (runAfter run tc) ∧
      ((processToolCall (lastIndexOf run) tc).2.foldl
        (pipeStep dn u) s).1.currentToolInputBuilder = openedBuilder (runAfter run tc)) := by
  refine ⟨processToolCall_lastIndexOf run tc htc, ?_⟩
  obtain ⟨R, b⟩ := s
  cases b with
  | true =>
    rw [pipeStep_stopped]
    exact ⟨rfl, hb, fun h => absurd h (by simp)⟩
  | false =>
    obtain ⟨hcur, hbld⟩ := hc rfl
    simp only at hb hcur hbld
    cases run with
    | nil =>
      have h1 : (-1 : Int) ≠ tc.Index := by omega
      simp only [openedBlock, openedBuilder] at hcur hbld
      by_cases hid : hasIdentity tc = true
      · have hid2 : tc.Id ≠ "" ∧ tc.Function.Name ≠ "" := by simpa [hasIdentity] using hid
        simp [processToolCall, lastIndexOf, runAfter, h1, pipeStep_event, recordOf,
          reduceEvent, hcur, hb, hid, hid2, openedBlock, openedBuilder, argumentsOf, concatAll]
      · have hid2 : ¬ (tc.Id ≠ "" ∧ tc.Function.Name ≠ "") := by simpa [hasIdentity] using hid
        simp [processToolCall, lastIndexOf, runAfter, h1, pipeStep_event, recordOf,
          reduceEvent, hcur, hb, hid, hid2, openedBlock, openedBuilder]
    | cons first rest =>
      simp only [openedBlock, openedBuilder] at hcur hbld
      by_cases h : first.Index = tc.Index
      · by_cases hid : hasIdentity first = true
        · simp only [hid, if_true] at hcur hbld
          simp [processToolCall, lastIndexOf, runAfter, h, pipeStep_event, recordOf,
            reduceEvent, hcur, hb, hbld, hid, openedBlock, openedBuilder, argumentsOf_append,
            argumentsOf_cons]
          simp [argumentsOf, concatAll, String.append_assoc]
        · simp only [hid, if_false] at hcur hbld
          simp [processToolCall, lastIndexOf, runAfter, h, pipeStep_event, recordOf,
            reduceEvent, hcur, hb, hbld, hid, openedBlock, openedBuilder]
      · have h2 : first.Index ≠ -1 := by
          have := hrun first (List.mem_cons_self _ _)
          omega
        by_cases hid : hasIdentity tc = true
        · have hid2 : tc.Id ≠ "" ∧ tc.Function.Name ≠ "" := by simpa [hasIdentity] using hid
          simp [processToolCall, lastIndexOf, runAfter, h, h2, pipeStep_event, recordOf,
            reduceEvent, hb, hid, hid2, openedBlock, openedBuilder, argumentsOf, concatAll]
        · have hid2 : ¬ (tc.Id ≠ "" ∧ tc.Function.Name ≠ "") := by
            simpa [hasIdentity] using hid
          simp [processToolCall, lastIndexOf, runAfter, h, h2, pipeStep_event, recordOf,
            reduceEvent, hb, hid, hid2, openedBlock, openedBuilder]

theorem pipeStep_processToolCalls (dn : String → Option EventRecord)
    (u : String → Option (List (String × GoAny))) (tcs run : List OAIToolCall)
    (hrun : ∀ x ∈ run, 0 ≤ x.Index) (htcs : ∀ x ∈ tcs, 0 ≤ x.Index) (s : ReducerState × Bool)
    (hb : s.1.toolUseBlocks = [])
    (hc : s.2 = false → s.1.currentToolUseBlock = openedBlock run ∧
      s.1.currentToolInputBuilder = openedBuilder run) :
    (processToolCalls (lastIndexOf run) tcs).1 = lastIndexOf (tcs.foldl runAfter run) ∧
    ((processToolCalls (lastIndexOf run) tcs).2.foldl (pipeStep dn u) s).2 = s.2 ∧
    ((processToolCalls (lastIndexOf run) tcs).2.foldl (pipeStep dn u) s).1.toolUseBlocks = [] ∧
    (s.2 = false →
      ((processToolCalls (lastIndexOf run) tcs).2.foldl (pipeStep dn u) s).1.currentToolUseBlock =
        openedBlock (tcs.foldl runAfter run) ∧
      ((processToolCalls (lastIndexOf run) tcs).2.foldl
        (pipeStep dn u) s).1.currentToolInputBuilder =
          openedBuilder (tcs.foldl runAfter run)) := by
  induction tcs generalizing run s with
  | nil => exact ⟨rfl, rfl, hb, hc⟩
  | cons tc tcs ih =>
    obtain ⟨h1, h2, h3, h4⟩ := pipeStep_processToolCall dn u run tc hrun
      (htcs tc (List.mem_cons_self _ _)) s hb hc
    obtain ⟨i1, i2, i3, i4⟩ := ih (runAfter run tc)
      (runAfter_nonneg run tc hrun (htcs tc (List.mem_cons_self _ _)))
      (fun x hx => htcs x (List.mem_cons_of_mem _ hx))
      ((processToolCall (lastIndexOf run) tc).2.foldl (pipeStep dn u) s) h3
      (fun hs => h4 (h2 ▸ hs))
    simp only [processToolCalls, List.foldl_append, List.foldl_cons, h1]
    exact ⟨i1, i2.trans h2, i3, fun hs => i4 (h2.trans hs)⟩

theorem processChoice_some_eq (st : TranscoderState) (c : OAIChoice) (f : String)
    (hf : c.FinishReason = some f) :
    (processChoice st c).2.1 =
      (processChoice st { c with FinishReason := none }).2.1 ++
        closingOf (processChoice st { c with FinishReason := none }).1 f ∧
    (processChoice st c).2.2 = true := by
  unfold processChoice closingOf
  simp only [hf, List.append_assoc, and_true]

theorem pipeStep_processChoice_none (dn : String → Option EventRecord)
    (u : String → Option (List (String × GoAny))) (st : TranscoderState) (c : OAIChoice)
    (hf : c.FinishReason = none) (run : List OAIToolCall)
    (hrun : ∀ x ∈ run, 0 ≤ x.Index) (hidx : ∀ x ∈ c.Delta.ToolCalls, 0 ≤ x.Index)
    (hlast : st.lastToolIndex = lastIndexOf run)
    (hclosed : run ≠ [] → st.textBlockClosed = true)
    (s : ReducerState × Bool) (hb : s.1.toolUseBlocks = [])
    (hc : s.2 = false → s.1.currentToolUseBlock = openedBlock run ∧
      s.1.currentToolInputBuilder = openedBuilder run) :
    (processChoice st c).1.lastToolIndex =
      lastIndexOf (c.Delta.ToolCalls.foldl runAfter run) ∧
    (c.Delta.ToolCalls.foldl runAfter run ≠ [] → (processChoice st c).1.textBlockClosed = true) ∧
    ((processChoice st c).2.1.foldl (pipeStep dn u) s).2 = s.2 ∧
    ((processChoice st c).2.1.foldl (pipeStep dn u) s).1.toolUseBlocks = [] ∧
    (s.2 = false →
      ((processChoice st c).2.1.foldl (pipeStep dn u) s).1.currentToolUseBlock =
        openedBlock (c.Delta.ToolCalls.foldl runAfter run) ∧
      ((processChoice st c).2.1.foldl (pipeStep dn u) s).1.currentToolInputBuilder =
        openedBuilder (c.Delta.ToolCalls.foldl runAfter run)) := by
  obtain ⟨R, b⟩ := s
  cases htcs : c.Delta.ToolCalls with
  | nil =>
    unfold processChoice
    simp only [hf, htcs, List.length_nil, gt_iff_lt, lt_self_iff_false, decide_False,
      Bool.false_eq_true, false_and, if_false, Bool.or_false, List.nil_append, List.foldl_nil]
    cases b with
    | true =>
      rw [pipeStep_stopped]
      refine ⟨?_, ?_, rfl, hb, fun h => absurd h (by simp)⟩
      · split_ifs <;> exact hlast
      · intro hne
        split_ifs <;> exact hclosed hne
    | false =>
      obtain ⟨hcur, hbld⟩ := hc rfl
      simp only at hb hcur hbld
      refine ⟨?_, ?_, ?_⟩
      · split_ifs <;> exact hlast
      · intro hne
        split_ifs <;> exact hclosed hne
      · split_ifs
        · simp only [List.foldl_cons, List.foldl_nil, pipeStep_event, recordOf, reduceEvent]
          cases R.currentTextBlock <;> exact ⟨trivial, hb, fun _ => ⟨hcur, hbld⟩⟩
        · exact ⟨rfl, hb, fun _ => ⟨hcur, hbld⟩⟩
  | cons tc tcs =>
    rw [← htcs]
    have hlen : decide (c.Delta.ToolCalls.length > 0) = true := by simp [htcs]
    have hpc : (processChoice st c).2.1 =
          (if st.textBlockClosed = false then [Written.event (.contentBlockStop 0)] else []) ++
            (processToolCalls st.lastToolIndex c.Delta.ToolCalls).2 ∧
        (processChoice st c).1.lastToolIndex =
          (processToolCalls st.lastToolIndex c.Delta.ToolCalls).1 ∧
        (processChoice st c).1.textBlockClosed = true := by
      unfold processChoice
      simp [hf, hlen]
    obtain ⟨hw, hl, hcl⟩ := hpc
    rw [hw, hl, List.foldl_append, hlast]
    have hs1 : ((if st.textBlockClosed = false then [Written.event (.contentBlockStop 0)]
          else []).foldl (pipeStep dn u) (R, b)).2 = b ∧
        ((if st.textBlockClosed = false then [Written.event (.contentBlockStop 0)]
          else []).foldl (pipeStep dn u) (R, b)).1.toolUseBlocks = [] ∧
        (b = false →
          ((if st.textBlockClosed = false then [Written.event (.contentBlockStop 0)]
            else []).foldl (pipeStep dn u) (R, b)).1.currentToolUseBlock = openedBlock run ∧
          ((if st.textBlockClosed = false then [Written.event (.contentBlockStop 0)]
            else []).foldl (pipeStep dn u) (R, b)).1.currentToolInputBuilder =
              openedBuilder run) := by
      split_ifs with hopen
      · cases b with
        | true =>
          rw [pipeStep_stopped]
          exact ⟨rfl, hb, fun h => absurd h (by simp)⟩
        | false =>
          obtain ⟨hcur, hbld⟩ := hc rfl
          have hnil : run = [] := by
            by_contra hne
            rw [hclosed hne] at hopen
            exact absurd hopen (by simp)
          subst hnil
          simp only [openedBlock, openedBuilder] at hcur hbld
          simp only at hcur hbld hb
          simp [pipeStep_event, recordOf, reduceEvent, hcur, hb, hbld, openedBlock,
            openedBuilder]
      · exact ⟨rfl, hb, hc⟩
    obtain ⟨j1, j2, j3⟩ := hs1
    obtain ⟨i1, i2, i3, i4⟩ := pipeStep_processToolCalls dn u c.Delta.ToolCalls run hrun hidx
      _ j2 (fun hs => j3 (j1 ▸ hs))
    exact ⟨i1, fun _ => hcl, i2.trans j1, i3, fun hs => i4 (j1.trans hs)⟩

theorem pipeStep_closingOf (dn : String → Option EventRecord)
    (u : String → Option (List (String × GoAny))) (st : TranscoderState) (f : String)
    (run : List OAIToolCall) (hrun : ∀ x ∈ run, 0 ≤ x.Index)
    (hlast : st.lastToolIndex = lastIndexOf run)
    (hclosed : run ≠ [] → st.textBlockClosed = true)
    (s : ReducerState × Bool) (hb : s.1.toolUseBlocks = [])
    (hc : s.2 = false → s.1.currentToolUseBlock = openedBlock run ∧
      s.1.currentToolInputBuilder = openedBuilder run) :
    ((closingOf st f).foldl (pipeStep dn u) s).1.toolUseBlocks =
      if s.2 then [] else survivingBlocks u run := by
  obtain ⟨R, b⟩ := s
  cases b with
  | true =>
    rw [pipeStep_stopped]
    simpa using hb
  | false =>
    obtain ⟨hcur, hbld⟩ := hc rfl
    simp only at hb hcur hbld
    cases run with
    | nil =>
      simp only [openedBlock, openedBuilder] at hcur hbld
      simp only [lastIndexOf] at hlast
      by_cases hopen : st.textBlockClosed = false
      · simp [closingOf, hlast, hopen, pipeStep_event, recordOf, reduceEvent, hcur, hb,
          pipeStep, decodeWritten, survivingBlocks]
      · simp [closingOf, hlast, hopen, pipeStep_event, recordOf, reduceEvent, hb,
          pipeStep, decodeWritten, survivingBlocks]
    | cons first rest =>
      have h2 : first.Index ≠ -1 := by
        have := hrun first (List.mem_cons_self _ _)
        omega
      have hcl : st.textBlockClosed = true := hclosed (by simp)
      simp only [lastIndexOf] at hlast
      simp only [openedBlock, openedBuilder] at hcur hbld
      by_cases hid : hasIdentity first = true
      · simp only [hid, if_true] at hcur hbld
        simp [closingOf, hlast, h2, hcl, pipeStep_event, recordOf, reduceEvent, hcur, hb, hbld,
          pipeStep, decodeWritten, survivingBlocks, hid]
      · simp only [hid, if_false] at hcur hbld
        simp [closingOf, hlast, h2, hcl, pipeStep_event, recordOf, reduceEvent, hcur, hb,
          pipeStep, decodeWritten, survivingBlocks, hid]

theorem pipeStep_processChoice_some (dn : String → Option EventRecord)
    (u : String → Option (List (String × GoAny))) (st : TranscoderState) (c : OAIChoice)
    (f : String) (hf : c.FinishReason = some f) (run : List OAIToolCall)
    (hrun : ∀ x ∈ run, 0 ≤ x.Index) (hidx : ∀ x ∈ c.Delta.ToolCalls, 0 ≤ x.Index)
    (hlast : st.lastToolIndex = lastIndexOf run)
    (hclosed : run ≠ [] → st.textBlockClosed = true)
    (s : ReducerState × Bool) (hb : s.1.toolUseBlocks = [])
    (hc : s.2 = false → s.1.currentToolUseBlock = openedBlock run ∧
      s.1.currentToolInputBuilder = openedBuilder run) :
    ((processChoice st c).2.1.foldl (pipeStep dn u) s).1.toolUseBlocks =
      if s.2 then [] else survivingBlocks u (c.Delta.ToolCalls.foldl runAfter run) := by
  obtain ⟨i1, i2, i3, i4, i5⟩ := pipeStep_processChoice_none dn u st
    { c with FinishReason := none } rfl run hrun hidx hlast hclosed s hb hc
  rw [(processChoice_some_eq st c f hf).1, List.foldl_append]
  have h := pipeStep_closingOf dn u (processChoice st { c with FinishReason := none }).1 f
    (c.Delta.ToolCalls.foldl runAfter run)
    (foldl_runAfter_nonneg _ run hrun hidx) i1 i2 _ i4 (fun hs => i5 (i3 ▸ hs))
  rw [h, i3]

theorem pipeStep_processChoices (dn : String → Option EventRecord)
    (u : String → Option (List (String × GoAny))) (cs : List OAIChoice)
    (st : TranscoderState) (run : List OAIToolCall)
    (hrun : ∀ x ∈ run, 0 ≤ x.Index)
    (hidx : ∀ x ∈ toolCallsOf (choicesUpToFinish cs), 0 ≤ x.Index)
    (hlast : st.lastToolIndex = lastIndexOf run)
    (hclosed : run ≠ [] → st.textBlockClosed = true)
    (s : ReducerState × Bool) (hb : s.1.toolUseBlocks = [])
    (hc : s.2 = false → s.1.currentToolUseBlock = openedBlock run ∧
      s.1.currentToolInputBuilder = openedBuilder run) :
    (firstFinishReason cs = none →
      (processChoices st cs).2.2 = false ∧
      (processChoices st cs).1.lastToolIndex =
        lastIndexOf ((toolCallsOf (choicesUpToFinish cs)).foldl runAfter run) ∧
      ((toolCallsOf (choicesUpToFinish cs)).foldl runAfter run ≠ [] →
        (processChoices st cs).1.textBlockClosed = true) ∧
      ((processChoices st cs).2.1.foldl (pipeStep dn u) s).2 = s.2 ∧
      ((processChoices st cs).2.1.foldl (pipeStep dn u) s).1.toolUseBlocks = [] ∧
      (s.2 = false →
        ((processChoices st cs).2.1.foldl (pipeStep dn u) s).1.currentToolUseBlock =
          openedBlock ((toolCallsOf (choicesUpToFinish cs)).foldl runAfter run) ∧
        ((processChoices st cs).2.1.foldl (pipeStep dn u) s).1.currentToolInputBuilder =
          openedBuilder ((toolCallsOf (choicesUpToFinish cs)).foldl runAfter run))) ∧
    (∀ f, firstFinishReason cs = some f →
      (processChoices st cs).2.2 = true ∧
      ((processChoices st cs).2.1.foldl (pipeStep dn u) s).1.toolUseBlocks =
        if s.2 then [] else
          survivingBlocks u ((toolCallsOf (choicesUpToFinish cs)).foldl runAfter run)) := by
  induction cs generalizing st run s with
  | nil =>
    refine ⟨fun _ => ⟨rfl, hlast, hclosed, rfl, hb, hc⟩, fun f h => ?_⟩
    simp [firstFinishReason] at h
  | cons c cs ih =>
    cases hf : c.FinishReason with
    | some g =>
      have hup : choicesUpToFinish (c :: cs) = [c] := by simp [choicesUpToFinish, hf]
      have htc : toolCallsOf [c] = c.Delta.ToolCalls := by simp [toolCallsOf]
      rw [hup, htc] at hidx ⊢
      have hret : (processChoice st c).2.2 = true := (processChoice_some_eq st c g hf).2
      refine ⟨fun h => ?_, fun f _ => ?_⟩
      · simp [firstFinishReason, hf] at h
      · simp only [processChoices, hret, if_true]
        exact ⟨trivial, pipeStep_processChoice_some dn u st c g hf run hrun hidx hlast hclosed
          s hb hc⟩
    | none =>
      have hup : choicesUpToFinish (c :: cs) = c :: choicesUpToFinish cs := by
        simp [choicesUpToFinish, hf]
      rw [hup, toolCallsOf_cons] at hidx ⊢
      have hidx1 : ∀ x ∈ c.Delta.ToolCalls, 0 ≤ x.Index :=
        fun x hx => hidx x (List.mem_append_left _ hx)
      have hidx2 : ∀ x ∈ toolCallsOf (choicesUpToFinish cs), 0 ≤ x.Index :=
        fun x hx => hidx x (List.mem_append_right _ hx)
      obtain ⟨i1, i2, i3, i4, i5⟩ := pipeStep_processChoice_none dn u st c hf run hrun hidx1
        hlast hclosed s hb hc
      have hret : (processChoice st c).2.2 = false := (processChoice_of_none st c hf).1
      have hfin : firstFinishReason (c :: cs) = firstFinishReason cs := by
        simp [firstFinishReason, hf]
      obtain ⟨j1, j2⟩ := ih (processChoice st c).1 (c.Delta.ToolCalls.foldl runAfter run)
        (foldl_runAfter_nonneg _ run hrun hidx1) hidx2 i1 i2
        ((processChoice st c).2.1.foldl (pipeStep dn u) s) i4 (fun hs => i5 (i3 ▸ hs))
      simp only [processChoices, hret, Bool.false_eq_true, if_false, List.foldl_append, hfin]
      refine ⟨fun h => ?_, fun f h => ?_⟩
      · obtain ⟨k1, k2, k3, k4, k5, k6⟩ := j1 h
        exact ⟨k1, k2, k3, k4.trans i3, k5, fun hs => k6 (i3.trans hs)⟩
      · obtain ⟨k1, k2⟩ := j2 f h
        exact ⟨k1, by rw [k2, i3]⟩

theorem pipeStep_endOfStream (dn : String → Option EventRecord)
    (u : String → Option (List (String × GoAny))) (st : TranscoderState)
    (run : List OAIToolCall) (hclosed : run ≠ [] → st.textBlockClosed = true)
    (s : ReducerState × Bool) (hb : s.1.toolUseBlocks = [])
    (hc : s.2 = false → s.1.currentToolUseBlock = openedBlock run ∧
      s.1.currentToolInputBuilder = openedBuilder run) :
    ((endOfStream st).foldl (pipeStep dn u) s).1.toolUseBlocks = [] := by
  obtain ⟨R, b⟩ := s
  cases b with
  | true =>
    rw [pipeStep_stopped]
    exact hb
  | false =>
    unfold endOfStream
    split_ifs with hopen
    · have hnil : run = [] := by
        by_contra hne
        rw [hclosed hne] at hopen
        exact absurd hopen (by simp)
      subst hnil
      obtain ⟨hcur, _⟩ := hc rfl
      simp only [openedBlock] at hcur
      simp only at hcur hb
      simp [pipeStep_event, recordOf, reduceEvent, hcur, hb, pipeStep, decodeWritten]
    · exact hb

theorem pipeStep_readLoop (dn : String → Option EventRecord)
    (u : String → Option (List (String × GoAny))) (lines : List UpLine)
    (st : TranscoderState) (run : List OAIToolCall)
    (hrun : ∀ x ∈ run, 0 ≤ x.Index)
    (hidx : ∀ x ∈ toolCallsRead lines, 0 ≤ x.Index)
    (hdn : ∀ err, UpLine.invalid err ∈ lines →
      dn (errorNoticeText err) = none ∨ ∃ ev, dn (errorNoticeText err) = some (.other ev))
    (hlast : st.lastToolIndex = lastIndexOf run)
    (hclosed : run ≠ [] → st.textBlockClosed = true)
    (s : ReducerState × Bool) (hb : s.1.toolUseBlocks = [])
    (hc : s.2 = false → s.1.currentToolUseBlock = openedBlock run ∧
      s.1.currentToolInputBuilder = openedBuilder run) :
    (firstFinishReason (choicesRead lines) = none →
      ((readLoop st lines).foldl (pipeStep dn u) s).1.toolUseBlocks = []) ∧
    (∀ f, firstFinishReason (choicesRead lines) = some f →
      (((readLoop st lines).foldl (pipeStep dn u) s).1.toolUseBlocks = [] ∨
        ((readLoop st lines).foldl (pipeStep dn u) s).1.toolUseBlocks =
          survivingBlocks u ((toolCallsRead lines).foldl runAfter run)) ∧
      (s.2 = false →
        (∀ err, UpLine.invalid err ∈ lines →
          ∃ ev, dn (errorNoticeText err) = some (.other ev)) →
        ((readLoop st lines).foldl (pipeStep dn u) s).1.toolUseBlocks =
          survivingBlocks u ((toolCallsRead lines).foldl runAfter run))) := by
  induction lines generalizing st run s with
  | nil =>
    refine ⟨fun _ => pipeStep_endOfStream dn u st run hclosed s hb hc, fun f h => ?_⟩
    simp [choicesRead, firstFinishReason] at h
  | cons l rest ih =>
    have hdn2 : ∀ err, UpLine.invalid err ∈ rest →
        dn (errorNoticeText err) = none ∨ ∃ ev, dn (errorNoticeText err) = some (.other ev) :=
      fun err h => hdn err (List.mem_cons_of_mem _ h)
    cases l with
    | skip =>
      obtain ⟨i1, i2⟩ := ih st run hrun hidx hdn2 hlast hclosed s hb hc
      exact ⟨i1, fun f h => ⟨(i2 f h).1, fun hs hall =>
        (i2 f h).2 hs (fun err he => hall err (List.mem_cons_of_mem _ he))⟩⟩
    | done =>
      refine ⟨fun _ => pipeStep_endOfStream dn u st run hclosed s hb hc, fun f h => ?_⟩
      simp [choicesRead, firstFinishReason] at h
    | invalid err =>
      have hs1 : (pipeStep dn u s (.errorNotice err)).1.toolUseBlocks = [] ∧
          ((pipeStep dn u s (.errorNotice err)).2 = false →
            s.2 = false ∧
            (pipeStep dn u s (.errorNotice err)).1.currentToolUseBlock =
              s.1.currentToolUseBlock ∧
            (pipeStep dn u s (.errorNotice err)).1.currentToolInputBuilder =
              s.1.currentToolInputBuilder) ∧
          (s.2 = false → (∃ ev, dn (errorNoticeText err) = some (.other ev)) →
            (pipeStep dn u s (.errorNotice err)).2 = false) := by
        obtain ⟨R, b⟩ := s
        cases b with
        | true =>
          simp only at hb
          simp [pipeStep, hb]
        | false =>
          rcases hdn err (List.mem_cons_self _ _) with h | ⟨ev, h⟩
          · simp only at hb
            simp [pipeStep, decodeWritten, h, hb]
          · simp only at hb
            simp [pipeStep, decodeWritten, h, hb, reduceEvent]
      obtain ⟨j1, j2, j3⟩ := hs1
      obtain ⟨i1, i2⟩ := ih st run hrun hidx hdn2 hlast hclosed
        (pipeStep dn u s (.errorNotice err)) j1
        (fun hs => by
          obtain ⟨k1, k2, k3⟩ := j2 hs
          rw [k2, k3]
          exact hc k1)
      refine ⟨i1, fun f h => ⟨(i2 f h).1, fun hs hall => ?_⟩⟩
      exact (i2 f h).2 (j3 hs (hall err (List.mem_cons_self _ _)))
        (fun e he => hall e (List.mem_cons_of_mem _ he))
    | chunk c =>
      cases hfc : firstFinishReason c.Choices with
      | some g =>
        have hup : toolCallsRead (.chunk c :: rest) =
            toolCallsOf (choicesUpToFinish c.Choices) := by
          simp only [toolCallsRead, choicesRead]
          rw [choicesUpToFinish_append_of_some _ _ g hfc]
        have hfin : firstFinishReason (choicesRead (.chunk c :: rest)) = some g := by
          simp only [choicesRead]
          rw [firstFinishReason_append, hfc]
        rw [hup] at hidx ⊢
        obtain ⟨_, j2⟩ := pipeStep_processChoices dn u c.Choices st run hrun hidx hlast
          hclosed s hb hc
        obtain ⟨k1, k2⟩ := j2 g hfc
        have hrl : readLoop st (.chunk c :: rest) = (processChoices st c.Choices).2.1 := by
          simp [readLoop, k1]
        rw [hrl, hfin, k2]
        refine ⟨fun h => absurd h (by simp), fun f _ => ⟨?_, fun hs _ => ?_⟩⟩
        · by_cases hs : s.2 = true
          · exact Or.inl (by simp [hs])
          · exact Or.inr (by simp [hs])
        · simp [hs]
      | none =>
        have hup : toolCallsRead (.chunk c :: rest) =
            toolCallsOf (choicesUpToFinish c.Choices) ++ toolCallsRead rest := by
          simp only [toolCallsRead, choicesRead]
          rw [choicesUpToFinish_append_of_none _ _ hfc, toolCallsOf_append,
            choicesUpToFinish_of_none _ hfc]
        have hfin : firstFinishReason (choicesRead (.chunk c :: rest)) =
            firstFinishReason (choicesRead rest) := by
          simp only [choicesRead]
          rw [firstFinishReason_append, hfc]
        rw [hup] at hidx ⊢
        have hidx1 : ∀ x ∈ toolCallsOf (choicesUpToFinish c.Choices), 0 ≤ x.Index :=
          fun x hx => hidx x (List.mem_append_left _ hx)
        have hidx2 : ∀ x ∈ toolCallsRead rest, 0 ≤ x.Index :=
          fun x hx => hidx x (List.mem_append_right _ hx)
        obtain ⟨j1, _⟩ := pipeStep_processChoices dn u c.Choices st run hrun hidx1 hlast
          hclosed s hb hc
        obtain ⟨k1, k2, k3, k4, k5, k6⟩ := j1 hfc
        have hrl : readLoop st (.chunk c :: rest) =
            (processChoices st c.Choices).2.1 ++ readLoop (processChoices st c.Choices).1 rest := by
          simp [readLoop, k1]
        obtain ⟨i1, i2⟩ := ih (processChoices st c.Choices).1
          ((toolCallsOf (choicesUpToFinish c.Choices)).foldl runAfter run)
          (foldl_runAfter_nonneg _ run hrun hidx1) hidx2 hdn2 k2 k3
          ((processChoices st c.Choices).2.1.foldl (pipeStep dn u) s) k5
          (fun hs => k6 (k4 ▸ hs))
        rw [hrl, hfin, List.foldl_append, List.foldl_append]
        exact ⟨i1, fun f h => ⟨(i2 f h).1, fun hs hall =>
          (i2 f h).2 (k4.trans hs) (fun e he => hall e (List.mem_cons_of_mem _ he))⟩⟩

theorem survivingBlocks_length (u : String → Option (List (String × GoAny)))
    (run : List OAIToolCall) : (survivingBlocks u run).length ≤ 1 := by
  cases run with
  | nil => simp [survivingBlocks]
  | cons first rest =>
    simp only [survivingBlocks]
    split_ifs <;> simp

theorem filter_isToolUseStart_processToolCall (run : List OAIToolCall) (tc : OAIToolCall)
    (hrun : ∀ x ∈ run, 0 ≤ x.Index) (htc : 0 ≤ tc.Index) (prev : List Written)
    (hprev : prev.getLast? = run.head?.map toolUseStartOf) :
    (prev ++ (processToolCall (lastIndexOf run) tc).2.filter isToolUseStart).getLast? =
      (runAfter run tc).head?.map toolUseStartOf := by
  cases run with
  | nil =>
    have h1 : (-1 : Int) ≠ tc.Index := by omega
    simp [processToolCall, lastIndexOf, runAfter, h1, isToolUseStart, toolUseStartOf,
      List.filter_cons]
  | cons first rest =>
    by_cases h : first.Index = tc.Index
    · simpa [processToolCall, lastIndexOf, runAfter, h, isToolUseStart, List.filter_cons]
        using hprev
    · have h2 : first.Index ≠ -1 := by
        have := hrun first (List.mem_cons_self _ _)
        omega
      simp [processToolCall, lastIndexOf, runAfter, h, h2, isToolUseStart, toolUseStartOf,
        List.filter_cons]

theorem filter_isToolUseStart_processToolCalls (tcs run : List OAIToolCall)
    (hrun : ∀ x ∈ run, 0 ≤ x.Index) (htcs : ∀ x ∈ tcs, 0 ≤ x.Index) (prev : List Written)
    (hprev : prev.getLast? = run.head?.map toolUseStartOf) :
    (prev ++ (processToolCalls (lastIndexOf run) tcs).2.filter isToolUseStart).getLast? =
      (tcs.foldl runAfter run).head?.map toolUseStartOf := by
  induction tcs generalizing run prev with
  | nil => simpa [processToolCalls] using hprev
  | cons tc tcs ih =>
    have htc := htcs tc (List.mem_cons_self _ _)
    have h1 := processToolCall_lastIndexOf run tc htc
    have h2 := filter_isToolUseStart_processToolCall run tc hrun htc prev hprev
    have h3 := ih (runAfter run tc) (runAfter_nonneg run tc hrun htc)
      (fun x hx => htcs x (List.mem_cons_of_mem _ hx)) _ h2
    simp only [processToolCalls, List.filter_append, List.foldl_cons, h1, ← List.append_assoc]
    exact h3

theorem filter_isToolUseStart_output (lines : List UpLine) (m : String) :
    (ConvertOAIStreamToClaudeStream lines m).filter isToolUseStart =
      (processToolCalls (-1) (toolCallsRead lines)).2.filter isToolUseStart := by
  have hsub : ∀ l : List Written,
      (l.filter isToolUseWrite).filter isToolUseStart = l.filter isToolUseStart := by
    intro l
    rw [List.filter_filter]
    congr 1
    funext w
    simp only [isToolUseWrite]
    cases isToolUseStart w <;> simp
  have h := congrArg (List.filter isToolUseStart)
    (readLoop_toolUseWrites TranscoderState.init lines)
  rw [hsub, hsub] at h
  simp only [ConvertOAIStreamToClaudeStream, List.filter_append]
  rw [h]
  rfl

/-- C31, counterexample: two tool calls with the distinct indices 0 and 1, each opened by an
entry with its id and name, whose fragments alternate, and then a `finish_reason`.  The
block opened last is opened by an entry without id and name, so the response holds no
tool-use block at all. -/
theorem C31_counterexample_interleaved_tool_calls :
    (toolCallsRead interleavedToolCallStream).map (fun tc => tc.Index) = [0, 1, 0, 1] ∧
    firstFinishReason (choicesRead interleavedToolCallStream) = some "tool_calls" ∧
    ∃ resp, streamToResponse (fun _ => none) unmarshalCommandLs interleavedToolCallStream
        "claude-3-sonnet-20240229" = .ok resp ∧
      toolUseBlocksOf resp.Content = [] :=
  ⟨by decide, by decide, _, rfl, rfl⟩

/-! ## The pipeline: the envelope of the response -/

theorem messageDelta_mem_processChoices (st : TranscoderState) (cs : List OAIChoice)
    (r : String) (s : Option String) (t : Int)
    (h : Written.event (.messageDelta r s t) ∈ (processChoices st cs).2.1) :
    t = st.outputTokens := by
  have hf : Written.event (.messageDelta r s t) ∈
      (processChoices st cs).2.1.filter isMessageDelta :=
    List.mem_filter.mpr ⟨h, rfl⟩
  cases hc : firstFinishReason cs with
  | none =>
    rw [(processChoices_of_none st cs hc).2.1] at hf
    exact absurd hf (List.not_mem_nil _)
  | some f =>
    rw [(processChoices_of_some st cs f hc).2, List.mem_singleton] at hf
    injection hf with hf
    injection hf with _ _ h3

theorem messageDelta_mem_readLoop (st : TranscoderState) (lines : List UpLine)
    (r : String) (s : Option String) (t : Int)
    (h : Written.event (.messageDelta r s t) ∈ readLoop st lines) :
    t = st.outputTokens := by
  have hend : ∀ st : TranscoderState,
      Written.event (.messageDelta r s t) ∈ endOfStream st → t = st.outputTokens := by
    intro st h
    unfold endOfStream at h
    split_ifs at h
    · simp only [List.mem_cons, List.mem_singleton, List.not_mem_nil, or_false] at h
      rcases h with h | h | h | h
      · cases h
      · injection h with h
        injection h with _ _ h3
      · cases h
      · cases h
    · simp at h
  induction lines generalizing st with
  | nil => exact hend st h
  | cons l rest ih =>
    cases l with
    | skip => exact ih st h
    | done => exact hend st h
    | invalid err =>
      simp only [readLoop, List.mem_cons] at h
      rcases h with h | h
      · cases h
      · exact ih st h
    | chunk c =>
      simp only [readLoop] at h
      split_ifs at h with hr
      · exact messageDelta_mem_processChoices st c.Choices r s t h
      · rcases List.mem_append.mp h with h | h
        · exact messageDelta_mem_processChoices st c.Choices r s t h
        · have hnone : firstFinishReason c.Choices = none := by
            cases hc : firstFinishReason c.Choices with
            | none => rfl
            | some f => exact absurd (processChoices_of_some st c.Choices f hc).1 hr
          rw [ih _ h, (processChoices_of_none st c.Choices hnone).2.2]

theorem errorNotice_mem_readLoop (st : TranscoderState) (lines : List UpLine) (err : String)
    (h : Written.errorNotice err ∈ readLoop st lines) : UpLine.invalid err ∈ lines := by
  have hpc : ∀ (st : TranscoderState) (cs : List OAIChoice),
      Written.errorNotice err ∉ (processChoices st cs).2.1 := by
    intro st cs hmem
    have := processChoices_all (fun w => !isErrorNotice w) (fun _ => rfl) (fun _ => rfl)
      (fun _ _ => rfl) (fun _ _ _ => rfl) rfl rfl st cs _ hmem
    simp [isErrorNotice] at this
  have hend : ∀ st : TranscoderState, Written.errorNotice err ∉ endOfStream st := by
    intro st h
    unfold endOfStream at h
    split_ifs at h <;> simp at h
  induction lines generalizing st with
  | nil => exact absurd h (hend st)
  | cons l rest ih =>
    cases l with
    | skip => exact List.mem_cons_of_mem _ (ih st h)
    | done => exact absurd h (hend st)
    | invalid e =>
      simp only [readLoop, List.mem_cons] at h
      rcases h with h | h
      · injection h with h
        rw [h]
        exact List.mem_cons_self _ _
      · exact List.mem_cons_of_mem _ (ih st h)
    | chunk c =>
      simp only [readLoop] at h
      split_ifs at h
      · exact absurd h (hpc st c.Choices)
      · rcases List.mem_append.mp h with h | h
        · exact absurd h (hpc st c.Choices)
        · exact List.mem_cons_of_mem _ (ih _ h)

theorem messageStart_not_mem_readLoop (st : TranscoderState) (lines : List UpLine)
    (b : MessageStartBody) : Written.event (.messageStart b) ∉ readLoop st lines := by
  intro h
  have := readLoop_all (fun w => !isMessageStart w) (fun _ => rfl) (fun _ => rfl)
    (fun _ _ => rfl) (fun _ _ _ => rfl) rfl rfl (fun _ => rfl) st lines _ h
  simp [isMessageStart] at this

theorem mem_of_mem_recordsRead (decoded : List (Option EventRecord)) (r : EventRecord)
    (h : r ∈ recordsRead decoded) : some r ∈ decoded := by
  induction decoded with
  | nil => simp [recordsRead] at h
  | cons x xs ih =>
    cases x with
    | none => simp [recordsRead] at h
    | some y =>
      simp only [recordsRead, List.mem_cons] at h
      rcases h with h | h
      · rw [h]
        exact List.mem_cons_self _ _
      · exact List.mem_cons_of_mem _ (ih h)

theorem readLoop_records_neutral (dn : String → Option EventRecord) (st : TranscoderState)
    (lines : List UpLine) (hst : st.outputTokens = 0)
    (hdn : ∀ err, UpLine.invalid err ∈ lines →
      dn (errorNoticeText err) = none ∨ ∃ ev, dn (errorNoticeText err) = some (.other ev)) :
    (recordsRead ((readLoop st lines).map (decodeWritten dn))).all
      (fun e => !carriesOutputTokens e && !isMessageStartRecord e) = true := by
  rw [List.all_eq_true]
  intro r hr
  obtain ⟨w, hw, hwr⟩ := List.mem_map.mp (mem_of_mem_recordsRead _ r hr)
  cases w with
  | done => simp [decodeWritten] at hwr
  | errorNotice err =>
    simp only [decodeWritten] at hwr
    rcases hdn err (errorNotice_mem_readLoop st lines err hw) with h | ⟨ev, h⟩
    · rw [h] at hwr
      cases hwr
    · rw [h] at hwr
      injection hwr with hwr
      rw [← hwr]
      rfl
  | event e =>
    simp only [decodeWritten, Option.some.injEq] at hwr
    rw [← hwr]
    cases e with
    | messageStart b => exact absurd hw (messageStart_not_mem_readLoop st lines b)
    | contentBlockStart i b => cases b <;> rfl
    | ping => rfl
    | contentBlockDelta i d => cases d <;> rfl
    | contentBlockStop i => rfl
    | messageDelta sr ss t =>
      have ht : t = 0 := (messageDelta_mem_readLoop st lines sr ss t hw).trans hst
      subst ht
      rfl
    | messageStop => rfl

theorem reduceEvent_envelope_unchanged (u : String → Option (List (String × GoAny)))
    (st : ReducerState) (e : EventRecord) (h : isMessageStartRecord e = false) :
    (reduceEvent u st e).id = st.id ∧ (reduceEvent u st e).model = st.model := by
  cases e with
  | messageStart msg =>
    cases msg with
    | none => exact ⟨rfl, rfl⟩
    | some msg => simp [isMessageStartRecord] at h
  | contentBlockStart cb =>
    cases cb with
    | none => exact ⟨rfl, rfl⟩
    | some cb =>
      simp only [reduceEvent]
      split_ifs <;> exact ⟨rfl, rfl⟩
  | contentBlockDelta d =>
    cases d with
    | none => exact ⟨rfl, rfl⟩
    | some d =>
      simp only [reduceEvent]
      split_ifs
      · cases st.currentTextBlock <;> exact ⟨rfl, rfl⟩
      · cases st.currentToolUseBlock <;> exact ⟨rfl, rfl⟩
      · exact ⟨rfl, rfl⟩
  | contentBlockStop =>
    simp only [reduceEvent]
    cases st.currentToolUseBlock <;> exact ⟨rfl, rfl⟩
  | messageDelta d =>
    cases d with
    | none => exact ⟨rfl, rfl⟩
    | some d => exact ⟨rfl, rfl⟩
  | messageStop => exact ⟨rfl, rfl⟩
  | other ev => exact ⟨rfl, rfl⟩

theorem foldl_envelope_unchanged (u : String → Option (List (String × GoAny)))
    (st : ReducerState) (es : List EventRecord)
    (h : es.all (fun e => !carriesOutputTokens e && !isMessageStartRecord e) = true) :
    (es.foldl (reduceEvent u) st).id = st.id ∧ (es.foldl (reduceEvent u) st).model = st.model ∧
      (es.foldl (reduceEvent u) st).usage = st.usage := by
  refine ⟨?_, ?_, foldl_usage_unchanged u st es h⟩
  · induction es generalizing st with
    | nil => rfl
    | cons e es ih =>
      simp only [List.all_cons, Bool.and_eq_true] at h
      rw [List.foldl_cons, ih (reduceEvent u st e) h.2,
        (reduceEvent_envelope_unchanged u st e (by simpa using h.1.2)).1]
  · induction es generalizing st with
    | nil => rfl
    | cons e es ih =>
      simp only [List.all_cons, Bool.and_eq_true] at h
      rw [List.foldl_cons, ih (reduceEvent u st e) h.2,
        (reduceEvent_envelope_unchanged u st e (by simpa using h.1.2)).2]

theorem reduceLoop_initialEvents (dn : String → Option EventRecord)
    (u : String → Option (List (String × GoAny))) (m : String) (ws : List Written) :
    reduceLoop u ReducerState.init ((initialEvents m ++ ws).map (decodeWritten dn)) =
      reduceLoop u (textOnlyState m "" (some 0) none) (ws.map (decodeWritten dn)) := by
  rfl

theorem streamToResponse_envelope (dn : String → Option EventRecord)
    (u : String → Option (List (String × GoAny))) (lines : List UpLine) (m : String)
    (hdn : ∀ err, UpLine.invalid err ∈ lines →
      dn (errorNoticeText err) = none ∨ ∃ ev, dn (errorNoticeText err) = some (.other ev)) :
    ∃ resp, streamToResponse dn u lines m = .ok resp ∧
      resp.ID = "msg_000000000000000000000000" ∧
      resp.Model = m ∧
      resp.Role = "assistant" ∧
      resp.Type_ = "message" ∧
      resp.Usage = { InputTokens := 0, OutputTokens := 0,
                     CacheCreationInputTokens := 0, CacheReadInputTokens := 0 } := by
  have hloop := reduceLoop_initialEvents dn u m (readLoop TranscoderState.init lines)
  rw [reduceLoop_eq_foldl u (textOnlyState m "" (some 0) none)] at hloop
  obtain ⟨h1, h2, h3⟩ := foldl_envelope_unchanged u (textOnlyState m "" (some 0) none) _
    (readLoop_records_neutral dn TranscoderState.init lines rfl hdn)
  refine ⟨_, rfl, ?_, ?_, rfl, rfl, ?_⟩
  · show (reduceLoop u ReducerState.init
      ((initialEvents m ++ readLoop TranscoderState.init lines).map (decodeWritten dn))).id = _
    rw [hloop, h1]
    show sprintfMsgID 0 = _
    decide
  · show (reduceLoop u ReducerState.init
      ((initialEvents m ++ readLoop TranscoderState.init lines).map (decodeWritten dn))).model = _
    rw [hloop, h2]
    rfl
  · show (reduceLoop u ReducerState.init
      ((initialEvents m ++ readLoop TranscoderState.init lines).map (decodeWritten dn))).usage = _
    rw [hloop, h3]
    rfl

theorem writerCalls_of_no_error (l : List Written) (i : Nat) :
    (writerCalls (fun _ => none) false i l).map Prod.fst = l := by
  induction l generalizing i with
  | nil => rfl
  | cons w ws ih =>
    cases w <;> simp [writerCalls, ih]

theorem writerCalls_of_none (writeError : Nat → Option String)
    (h : ∀ i, writeError i = none) (l : List Written) (i : Nat) :
    (writerCalls writeError false i l).map Prod.fst = l := by
  have hw : writeError = fun _ => none := funext h
  rw [hw]
  exact writerCalls_of_no_error l i

theorem writerCalls_sublist (writeError : Nat → Option String) (l : List Written)
    (failed : Bool) (i : Nat) :
    List.Sublist ((writerCalls writeError failed i l).map Prod.fst) l := by
  induction l generalizing failed i with
  | nil => simp [writerCalls]
  | cons w ws ih =>
    cases w with
    | event e =>
      cases failed with
      | true =>
        simp only [writerCalls, if_true]
        exact List.Sublist.cons _ (ih true i)
      | false =>
        simp only [writerCalls, Bool.false_eq_true, if_false, List.map_cons]
        exact List.Sublist.cons₂ _ (ih _ _)
    | errorNotice err =>
      simp only [writerCalls, List.map_cons]
      exact List.Sublist.cons₂ _ (ih _ _)
    | done =>
      simp only [writerCalls, List.map_cons]
      exact List.Sublist.cons₂ _ (ih _ _)

theorem writerCalls_not_encoded (writeError : Nat → Option String) (l : List Written)
    (failed : Bool) (i : Nat) :
    ((writerCalls writeError failed i l).map Prod.fst).filter (fun w => !isEncoded w) =
      l.filter (fun w => !isEncoded w) := by
  induction l generalizing failed i with
  | nil => simp [writerCalls]
  | cons w ws ih =>
    cases w with
    | event e =>
      cases failed with
      | true => simpa [writerCalls, isEncoded] using ih true i
      | false => simpa [writerCalls, isEncoded] using ih _ _
    | errorNotice err => simpa [writerCalls, isEncoded] using ih _ _
    | done => simpa [writerCalls, isEncoded] using ih _ _

theorem writerCalls_failed (writeError : Nat → Option String) (l : List Written) (i : Nat) :
    ∀ p ∈ writerCalls writeError true i l, isEncoded p.1 = false := by
  induction l generalizing i with
  | nil => simp [writerCalls]
  | cons w ws ih =>
    intro p hp
    cases w with
    | event e =>
      simp only [writerCalls, if_true] at hp
      exact ih i p hp
    | errorNotice err =>
      simp only [writerCalls, List.mem_cons] at hp
      rcases hp with hp | hp
      · rw [hp]; rfl
      · exact ih _ p hp
    | done =>
      simp only [writerCalls, List.mem_cons] at hp
      rcases hp with hp | hp
      · rw [hp]; rfl
      · exact ih _ p hp

theorem writerCalls_after_failed_event (writeError : Nat → Option String) (l : List Written)
    (failed : Bool) (i : Nat) (pre post : List (Written × Option String))
    (e : StreamEvent) (err : String)
    (h : writerCalls writeError failed i l = pre ++ (Written.event e, some err) :: post) :
    ∀ p ∈ post, isEncoded p.1 = false := by
  induction l generalizing failed i pre with
  | nil => simp [writerCalls] at h
  | cons w ws ih =>
    have hrest : ∀ (w0 : Written) (r : Option String) (f : Bool) (j : Nat),
        (w0, r) :: writerCalls writeError f j ws = pre ++ (Written.event e, some err) :: post →
        (w0 = Written.event e ∧ r = some err ∧ pre = [] ∧
            post = writerCalls writeError f j ws) ∨
          ∃ pre2, writerCalls writeError f j ws =
            pre2 ++ (Written.event e, some err) :: post := by
      intro w0 r f j h
      cases pre with
      | nil =>
        simp only [List.nil_append, List.cons.injEq, Prod.mk.injEq] at h
        exact Or.inl ⟨h.1.1, h.1.2, rfl, h.2.symm⟩
      | cons x xs =>
        simp only [List.cons_append, List.cons.injEq] at h
        exact Or.inr ⟨xs, h.2⟩
    cases w with
    | event e0 =>
      cases failed with
      | true =>
        simp only [writerCalls, if_true] at h
        exact ih true i pre h
      | false =>
        simp only [writerCalls, Bool.false_eq_true, if_false] at h
        rcases hrest _ _ _ _ h with ⟨_, h2, _, h4⟩ | ⟨pre2, h2⟩
        · rw [h2] at h4
          rw [h4]
          exact writerCalls_failed writeError ws (i + 1)
        · exact ih _ _ pre2 h2
    | errorNotice e0 =>
      simp only [writerCalls] at h
      rcases hrest _ _ _ _ h with ⟨h1, _, _, _⟩ | ⟨pre2, h2⟩
      · cases h1
      · exact ih _ _ pre2 h2
    | done =>
      simp only [writerCalls] at h
      rcases hrest _ _ _ _ h with ⟨h1, _, _, _⟩ | ⟨pre2, h2⟩
      · cases h1
      · exact ih _ _ pre2 h2

/-- C30 (as amended): `ConvertOAIStreamToClaudeStream` returns an error exactly when
reading the upstream fails with an error other than end of input before a choice with a
`finish_reason` or the line `data: [DONE]` is read, and the error returned is that read
error.  The result of a write is never looked at: whatever the writer returns, the function
returns the same value and makes the same calls of `Encode`, `Fprintf` and `Fprint` as with
a writer that never fails.  Of these, every error notice and the terminal marker reach the
writer; the events reach it in their order up to the first event whose write fails, after
which the encoder hands it no further event.  When no write fails the writer receives the
whole output, and when reading does not fail the function returns no error. -/
theorem C30_transcoder_error_semantics (writeError : Nat → Option String)
    (lines : List UpLine) (readError : Option String) (model : String) :
    (∀ err, (ConvertOAIStreamToClaudeStreamRun writeError lines readError model).returned =
        some err ↔
      readError = some err ∧ firstFinishReason (choicesRead lines) = none ∧
        UpLine.done ∉ lines) ∧
    (ConvertOAIStreamToClaudeStreamRun writeError lines readError model).returned =
      (ConvertOAIStreamToClaudeStreamRun (fun _ => none) lines readError model).returned ∧
    (ConvertOAIStreamToClaudeStreamRun writeError lines readError model).writes =
      writerCalls writeError false 0
        ((ConvertOAIStreamToClaudeStreamRun (fun _ => none) lines readError
          model).writes.map Prod.fst) ∧
    ((ConvertOAIStreamToClaudeStreamRun writeError lines readError model).writes.map
        Prod.fst).filter (fun w => !isEncoded w) =
      ((ConvertOAIStreamToClaudeStreamRun (fun _ => none) lines readError
        model).writes.map Prod.fst).filter (fun w => !isEncoded w) ∧
    List.Sublist
      ((ConvertOAIStreamToClaudeStreamRun writeError lines readError model).writes.map
        Prod.fst)
      ((ConvertOAIStreamToClaudeStreamRun (fun _ => none) lines readError
        model).writes.map Prod.fst) ∧
    (∀ (pre post : List (Written × Option String)) (e : StreamEvent) (err : String),
      (ConvertOAIStreamToClaudeStreamRun writeError lines readError model).writes =
        pre ++ (Written.event e, some err) :: post →
      ∀ p ∈ post, isEncoded p.1 = false) ∧
    ((∀ i, writeError i = none) →
      (ConvertOAIStreamToClaudeStreamRun writeError lines readError model).writes.map
          Prod.fst =
        (ConvertOAIStreamToClaudeStreamRun (fun _ => none) lines readError
          model).writes.map Prod.fst) ∧
    (readError = none →
      (ConvertOAIStreamToClaudeStreamRun writeError lines readError model).returned = none ∧
      (ConvertOAIStreamToClaudeStreamRun (fun _ => none) lines readError
          model).writes.map Prod.fst =
        ConvertOAIStreamToClaudeStream lines model) := by
  have h0 : (ConvertOAIStreamToClaudeStreamRun (fun _ => none) lines readError
      model).writes.map Prod.fst =
      initialEvents model ++ (readLoopReturn TranscoderState.init lines readError).1 :=
    writerCalls_of_no_error _ 0
  refine ⟨fun err => readLoopReturn_returned _ lines readError err, rfl, ?_, ?_, ?_, ?_, ?_,
    fun h => ?_⟩
  · rw [h0]
    rfl
  · rw [h0]
    exact writerCalls_not_encoded writeError _ false 0
  · rw [h0]
    exact writerCalls_sublist writeError _ false 0
  · intro pre post e err h
    exact writerCalls_after_failed_event writeError _ false 0 pre post e err h
  · intro h
    rw [h0]
    exact writerCalls_of_none writeError h _ 0
  · subst h
    refine ⟨?_, ?_⟩
    · show (readLoopReturn TranscoderState.init lines none).2 = none
      rw [readLoopReturn_of_none]
    · rw [h0, readLoopReturn_of_none]
      rfl

/-- C30 as amended at an upstream whose reading fails after the first chunk, with a writer
that never fails: the function returns the read error; and at the upstream of
`TestConvertOAIStreamToClaudeStream_TextOnly` read to its end: it returns no error and the
writer receives the whole output. -/
theorem C30_transcoder_error_semantics_witness :
    (ConvertOAIStreamToClaudeStreamRun (fun _ => none) [chunkLine "Hi" [] none]
        (some "read tcp: connection reset by peer") "claude-3-sonnet-20240229").returned =
      some "read tcp: connection reset by peer" ∧
    (ConvertOAIStreamToClaudeStreamRun (fun _ => none) helloWorldStream none
        "claude-3-sonnet-20240229").returned = none ∧
    (ConvertOAIStreamToClaudeStreamRun (fun _ => none) helloWorldStream none
        "claude-3-sonnet-20240229").writes.map Prod.fst =
      ConvertOAIStreamToClaudeStream helloWorldStream "claude-3-sonnet-20240229" :=
  ⟨((C30_transcoder_error_semantics (fun _ => none) [chunkLine "Hi" [] none]
      (some "read tcp: connection reset by peer") "claude-3-sonnet-20240229").1
      "read tcp: connection reset by peer").mpr
      ⟨rfl, by decide, by decide⟩,
    ((C30_transcoder_error_semantics (fun _ => none) helloWorldStream none
      "claude-3-sonnet-20240229").2.2.2.2.2.2.2 rfl).1,
    ((C30_transcoder_error_semantics (fun _ => none) helloWorldStream none
      "claude-3-sonnet-20240229").2.2.2.2.2.2.2 rfl).2⟩

/-- C30 as stated fails in both directions.  With a writer that fails at every call, on the
upstream of `TestConvertOAIStreamToClaudeStream_TextOnly`, the function does not return at
the failed write of `message_start` and returns `nil` in the end: it reads the whole
upstream, the encoder hands no further event to the writer, and the terminal marker, which
the function writes at the `finish_reason`, is handed to the writer after the failed write.
With a writer that never fails and an upstream whose reading fails after the first chunk,
the function returns the read error. -/
theorem C30_counterexample_write_errors_ignored :
    ConvertOAIStreamToClaudeStreamRun (fun _ => some "write: broken pipe") helloWorldStream
        none "claude-3-sonnet-20240229" =
      { writes :=
          ((initialEvents "claude-3-sonnet-20240229").take 1 ++ [Written.done]).map
            (fun w => (w, some "write: broken pipe")),
        returned := none } ∧
    ((initialEvents "claude-3-sonnet-20240229").take 1).map isMessageStart = [true] ∧
    (ConvertOAIStreamToClaudeStream helloWorldStream "claude-3-sonnet-20240229").length = 9 ∧
    ConvertOAIStreamToClaudeStreamRun (fun _ => none) [chunkLine "Hi" [] none]
        (some "read tcp: connection reset by peer") "claude-3-sonnet-20240229" =
      { writes :=
          (initialEvents "claude-3-sonnet-20240229" ++
            [Written.event (.contentBlockDelta 0 (.textDelta "Hi"))]).map
              (fun w => (w, none)),
        returned := some "read tcp: connection reset by peer" } := by
  decide

/-! ## The pipeline: tool-use blocks however the output is cut into reads -/

theorem readStep_stopped (u : String → Option (List (String × GoAny))) (R : ReducerState)
    (ds : List (Option EventRecord)) :
    ds.foldl (readStep u) (R, true) = (R, true) := by
  induction ds with
  | nil => rfl
  | cons d ds ih => simpa [List.foldl_cons, readStep] using ih

theorem reduceLoop_eq_readStep (u : String → Option (List (String × GoAny)))
    (R : ReducerState) (ds : List (Option EventRecord)) :
    reduceLoop u R ds = (ds.foldl (readStep u) (R, false)).1 := by
  induction ds generalizing R with
  | nil => rfl
  | cons d ds ih =>
    cases d with
    | none => simp [reduceLoop, readStep, readStep_stopped]
    | some r => simpa [reduceLoop, readStep] using ih (reduceEvent u R r)

theorem stopStep_mono (a : Bool × Nat) (w : Written) : a.2 ≤ (stopStep a w).2 := by
  cases w with
  | event e =>
    cases e with
    | contentBlockStart i b => cases b <;> simp [stopStep]
    | contentBlockStop i =>
      simp only [stopStep]
      split_ifs <;> omega
    | _ => simp [stopStep]
  | _ => simp [stopStep]

theorem foldl_stopStep_mono (ws : List Written) (a : Bool × Nat) :
    a.2 ≤ (ws.foldl stopStep a).2 := by
  induction ws generalizing a with
  | nil => exact Nat.le_refl _
  | cons w ws ih => exact Nat.le_trans (stopStep_mono a w) (ih _)

theorem readStep_stopStep (u : String → Option (List (String × GoAny)))
    (w : Written) (d : Option EventRecord) (hd : deliveredAs w d = true)
    (s : ReducerState × Bool) (a : Bool × Nat)
    (hlen : s.1.toolUseBlocks.length ≤ a.2)
    (hcur : s.2 = false → a.1 = false → s.1.currentToolUseBlock = none) :
    (readStep u s d).1.toolUseBlocks.length ≤ (stopStep a w).2 ∧
    ((readStep u s d).2 = false → (stopStep a w).1 = false →
      (readStep u s d).1.currentToolUseBlock = none) := by
  obtain ⟨R, b⟩ := s
  cases b with
  | true =>
    simp only [readStep, if_true]
    exact ⟨Nat.le_trans hlen (stopStep_mono a w), fun h => absurd h (by simp)⟩
  | false =>
    have hcur2 : a.1 = false → R.currentToolUseBlock = none := hcur rfl
    simp only at hlen
    cases w with
    | done =>
      cases d with
      | none => simpa [readStep, stopStep] using hlen
      | some r => simp [deliveredAs] at hd
    | errorNotice err =>
      cases d with
      | none => simpa [readStep, stopStep] using hlen
      | some r =>
        cases r with
        | other ev => exact ⟨by simpa [readStep, stopStep, reduceEvent] using hlen,
            fun _ h => by simpa [readStep, reduceEvent] using hcur2 h⟩
        | _ => simp [deliveredAs] at hd
    | event e =>
      cases d with
      | none =>
        exact ⟨by simpa [readStep] using Nat.le_trans hlen (stopStep_mono a _),
          fun h => absurd h (by simp [readStep])⟩
      | some r =>
        simp only [deliveredAs] at hd
        cases e with
        | messageStart m =>
          cases r with
          | messageStart x =>
            cases x with
            | none => simp [recordOf, sameShape] at hd
            | some x => exact ⟨by simpa [readStep, stopStep, reduceEvent] using hlen,
                fun _ h => by simpa [readStep, reduceEvent] using hcur2 h⟩
          | _ => simp [recordOf, sameShape] at hd
        | ping =>
          cases r with
          | other ev => exact ⟨by simpa [readStep, stopStep, reduceEvent] using hlen,
              fun _ h => by simpa [readStep, reduceEvent] using hcur2 h⟩
          | _ => simp [recordOf, sameShape] at hd
        | messageStop =>
          cases r with
          | messageStop => exact ⟨by simpa [readStep, stopStep, reduceEvent] using hlen,
              fun _ h => by simpa [readStep, reduceEvent] using hcur2 h⟩
          | _ => simp [recordOf, sameShape] at hd
        | messageDelta sr ss t =>
          cases r with
          | messageDelta x =>
            cases x with
            | none => simp [recordOf, sameShape] at hd
            | some x => exact ⟨by simpa [readStep, stopStep, reduceEvent] using hlen,
                fun _ h => by simpa [readStep, reduceEvent] using hcur2 h⟩
          | _ => simp [recordOf, sameShape] at hd
        | contentBlockStop i =>
          cases r with
          | contentBlockStop =>
            simp only [readStep, stopStep, Bool.false_eq_true, if_false, reduceEvent]
            cases hc : R.currentToolUseBlock with
            | none =>
              refine ⟨?_, fun _ _ => rfl⟩
              simp only
              split_ifs <;> omega
            | some tub =>
              have ha : a.1 = true := by
                by_contra h
                have := hcur2 (by simpa using h)
                rw [hc] at this
                cases this
              refine ⟨?_, fun _ _ => rfl⟩
              simp only [ha, if_true, List.length_append, List.length_cons, List.length_nil]
              omega
          | _ => simp [recordOf, sameShape] at hd
        | contentBlockDelta i dl =>
          cases r with
          | contentBlockDelta x =>
            cases x with
            | none => cases dl <;> simp [recordOf, sameShape] at hd
            | some x =>
              have hkeep : (reduceEvent u R (.contentBlockDelta (some x))).toolUseBlocks =
                    R.toolUseBlocks ∧
                  (reduceEvent u R (.contentBlockDelta (some x))).currentToolUseBlock =
                    R.currentToolUseBlock := by
                simp only [reduceEvent]
                split_ifs
                · cases R.currentTextBlock <;> exact ⟨rfl, rfl⟩
                · cases h : R.currentToolUseBlock <;> exact ⟨rfl, by simp [h]⟩
                · exact ⟨rfl, rfl⟩
              have hstep : stopStep a (.event (.contentBlockDelta i dl)) = a := by
                cases dl <;> rfl
              simp only [readStep, Bool.false_eq_true, if_false, hstep, hkeep.1, hkeep.2]
              exact ⟨hlen, fun _ h => hcur2 h⟩
          | _ => cases dl <;> simp [recordOf, sameShape] at hd
        | contentBlockStart i bs =>
          cases r with
          | contentBlockStart x =>
            cases x with
            | none => cases bs <;> simp [recordOf, sameShape] at hd
            | some x =>
              cases bs with
              | text t =>
                have hx : x.Type_ = "text" := by simpa [recordOf, sameShape] using hd
                simp [readStep, stopStep, reduceEvent, hx, hlen]
              | toolUse id name =>
                have hx : x.Type_ = "tool_use" := by simpa [recordOf, sameShape] using hd
                refine ⟨?_, fun _ h => absurd h (by simp [stopStep])⟩
                simp only [readStep, stopStep, Bool.false_eq_true, if_false, reduceEvent, hx]
                simp only [show ¬ ("tool_use" = "text") by decide, if_false, if_true]
                split_ifs <;> exact hlen
          | _ => cases bs <;> simp [recordOf, sameShape] at hd

theorem foldl_readStep_stopStep (u : String → Option (List (String × GoAny)))
    (ws : List Written) (ds : List (Option EventRecord))
    (h : List.Forall₂ (fun w d => deliveredAs w d = true) ws ds)
    (s : ReducerState × Bool) (a : Bool × Nat)
    (hlen : s.1.toolUseBlocks.length ≤ a.2)
    (hcur : s.2 = false → a.1 = false → s.1.currentToolUseBlock = none) :
    (ds.foldl (readStep u) s).1.toolUseBlocks.length ≤ (ws.foldl stopStep a).2 := by
  induction h generalizing s a with
  | nil => exact hlen
  | cons hd _ ih =>
    obtain ⟨h1, h2⟩ := readStep_stopStep u _ _ hd s a hlen hcur
    exact ih _ _ h1 h2

theorem stopStep_processToolCall (last : Int) (tc : OAIToolCall) (htc : 0 ≤ tc.Index)
    (a : Bool × Nat) (h0 : a.2 = 0) (hopen : last = -1 → a.1 = false) :
    ((processToolCall last tc).2.foldl stopStep a).2 = 0 ∧
    (processToolCall last tc).1 ≠ -1 := by
  obtain ⟨x, n⟩ := a
  simp only at h0 hopen
  subst h0
  by_cases h : last = tc.Index
  · subst h
    have h2 : tc.Index ≠ -1 := by omega
    simp [processToolCall, stopStep, h2]
  · by_cases h1 : last = -1
    · have hx := hopen h1
      subst hx
      subst h1
      have h2 : tc.Index ≠ -1 := by omega
      simp [processToolCall, stopStep, h, h2]
    · have h2 : tc.Index ≠ -1 := by omega
      simp [processToolCall, stopStep, h, h1, h2]

theorem stopStep_processToolCalls (tcs : List OAIToolCall) (last : Int)
    (htcs : ∀ x ∈ tcs, 0 ≤ x.Index)
    (a : Bool × Nat) (h0 : a.2 = 0) (hopen : last = -1 → a.1 = false) :
    ((processToolCalls last tcs).2.foldl stopStep a).2 = 0 ∧
    ((processToolCalls last tcs).1 = -1 →
      ((processToolCalls last tcs).2.foldl stopStep a).1 = false) ∧
    (last ≠ -1 → (processToolCalls last tcs).1 ≠ -1) := by
  induction tcs generalizing last a with
  | nil => exact ⟨h0, hopen, fun h => h⟩
  | cons tc tcs ih =>
    obtain ⟨h1, h2⟩ := stopStep_processToolCall last tc
      (htcs tc (List.mem_cons_self _ _)) a h0 hopen
    obtain ⟨i1, i2, i3⟩ := ih (processToolCall last tc).1
      (fun x hx => htcs x (List.mem_cons_of_mem _ hx))
      ((processToolCall last tc).2.foldl stopStep a) h1 (fun h => absurd h h2)
    simp only [processToolCalls, List.foldl_append]
    exact ⟨i1, i2, fun _ => i3 h2⟩

theorem stopStep_processChoice_none (st : TranscoderState) (c : OAIChoice)
    (hf : c.FinishReason = none) (hidx : ∀ x ∈ c.Delta.ToolCalls, 0 ≤ x.Index)
    (hclosed : st.lastToolIndex ≠ -1 → st.textBlockClosed = true)
    (a : Bool × Nat) (h0 : a.2 = 0) (hopen : st.lastToolIndex = -1 → a.1 = false) :
    ((processChoice st c).2.1.foldl stopStep a).2 = 0 ∧
    ((processChoice st c).1.lastToolIndex = -1 →
      ((processChoice st c).2.1.foldl stopStep a).1 = false) ∧
    ((processChoice st c).1.lastToolIndex ≠ -1 →
      (processChoice st c).1.textBlockClosed = true) := by
  cases htcs : c.Delta.ToolCalls with
  | nil =>
    have hpc : (processChoice st c).1.lastToolIndex = st.lastToolIndex ∧
        (processChoice st c).1.textBlockClosed = st.textBlockClosed ∧
        ((processChoice st c).2.1 = [] ∨
          (processChoice st c).2.1 = [textDeltaOf c]) := by
      unfold processChoice
      simp only [hf, htcs, List.length_nil, gt_iff_lt, lt_self_iff_false, decide_False,
        Bool.false_eq_true, false_and, if_false, Bool.or_false, List.nil_append]
      split_ifs <;> simp [textDeltaOf]
    obtain ⟨p1, p2, p3⟩ := hpc
    rw [p1, p2]
    rcases p3 with p3 | p3
    · rw [p3]
      exact ⟨h0, hopen, hclosed⟩
    · rw [p3]
      exact ⟨h0, hopen, hclosed⟩
  | cons tc tcs =>
    have hlen : decide (c.Delta.ToolCalls.length > 0) = true := by simp [htcs]
    have hpc : (processChoice st c).2.1 =
          (if st.textBlockClosed = false then [Written.event (.contentBlockStop 0)] else []) ++
            (processToolCalls st.lastToolIndex c.Delta.ToolCalls).2 ∧
        (processChoice st c).1.lastToolIndex =
          (processToolCalls st.lastToolIndex c.Delta.ToolCalls).1 ∧
        (processChoice st c).1.textBlockClosed = true := by
      unfold processChoice
      simp [hf, hlen]
    obtain ⟨hw, hl, hcl⟩ := hpc
    rw [hw, hl, List.foldl_append]
    have hs1 : ((if st.textBlockClosed = false then [Written.event (.contentBlockStop 0)]
          else []).foldl stopStep a).2 = 0 ∧
        (st.lastToolIndex = -1 →
          ((if st.textBlockClosed = false then [Written.event (.contentBlockStop 0)]
            else []).foldl stopStep a).1 = false) := by
      split_ifs with hopen2
      · have hl1 : st.lastToolIndex = -1 := by
          by_contra hne
          rw [hclosed hne] at hopen2
          exact absurd hopen2 (by simp)
        have ha := hopen hl1
        obtain ⟨x, n⟩ := a
        simp only at ha h0
        subst ha
        subst h0
        simp [stopStep]
      · exact ⟨h0, hopen⟩
    obtain ⟨j1, j2⟩ := hs1
    obtain ⟨i1, i2, _⟩ := stopStep_processToolCalls c.Delta.ToolCalls st.lastToolIndex hidx
      _ j1 j2
    exact ⟨i1, i2, fun _ => hcl⟩

theorem stopStep_closingOf (st : TranscoderState) (f : String)
    (hclosed : st.lastToolIndex ≠ -1 → st.textBlockClosed = true)
    (a : Bool × Nat) (h0 : a.2 = 0) (hopen : st.lastToolIndex = -1 → a.1 = false) :
    ((closingOf st f).foldl stopStep a).2 ≤ 1 := by
  obtain ⟨x, n⟩ := a
  simp only at h0 hopen
  subst h0
  by_cases hl : st.lastToolIndex = -1
  · have hx := hopen hl
    subst hx
    by_cases hc : st.textBlockClosed = false
    · simp [closingOf, hl, hc, stopStep]
    · simp [closingOf, hl, hc, stopStep]
  · have hc := hclosed hl
    cases x <;> simp [closingOf, hl, hc, stopStep]

theorem stopStep_processChoice_some (st : TranscoderState) (c : OAIChoice) (f : String)
    (hf : c.FinishReason = some f) (hidx : ∀ x ∈ c.Delta.ToolCalls, 0 ≤ x.Index)
    (hclosed : st.lastToolIndex ≠ -1 → st.textBlockClosed = true)
    (a : Bool × Nat) (h0 : a.2 = 0) (hopen : st.lastToolIndex = -1 → a.1 = false) :
    ((processChoice st c).2.1.foldl stopStep a).2 ≤ 1 := by
  obtain ⟨i1, i2, i3⟩ := stopStep_processChoice_none st { c with FinishReason := none } rfl
    hidx hclosed a h0 hopen
  rw [(processChoice_some_eq st c f hf).1, List.foldl_append]
  exact stopStep_closingOf _ f i3 _ i1 i2

theorem stopStep_processChoices (cs : List OAIChoice) (st : TranscoderState)
    (hidx : ∀ x ∈ toolCallsOf (choicesUpToFinish cs), 0 ≤ x.Index)
    (hclosed : st.lastToolIndex ≠ -1 → st.textBlockClosed = true)
    (a : Bool × Nat) (h0 : a.2 = 0) (hopen : st.lastToolIndex = -1 → a.1 = false) :
    (firstFinishReason cs = none →
      (processChoices st cs).2.2 = false ∧
      ((processChoices st cs).2.1.foldl stopStep a).2 = 0 ∧
      ((processChoices st cs).1.lastToolIndex = -1 →
        ((processChoices st cs).2.1.foldl stopStep a).1 = false) ∧
      ((processChoices st cs).1.lastToolIndex ≠ -1 →
        (processChoices st cs).1.textBlockClosed = true)) ∧
    (∀ f, firstFinishReason cs = some f →
      (processChoices st cs).2.2 = true ∧
      ((processChoices st cs).2.1.foldl stopStep a).2 ≤ 1) := by
  induction cs generalizing st a with
  | nil =>
    refine ⟨fun _ => ⟨rfl, h0, hopen, hclosed⟩, fun f h => ?_⟩
    simp [firstFinishReason] at h
  | cons c cs ih =>
    cases hf : c.FinishReason with
    | some g =>
      have hup : choicesUpToFinish (c :: cs) = [c] := by simp [choicesUpToFinish, hf]
      have htc : toolCallsOf [c] = c.Delta.ToolCalls := by simp [toolCallsOf]
      rw [hup, htc] at hidx
      have hret : (processChoice st c).2.2 = true := (processChoice_some_eq st c g hf).2
      refine ⟨fun h => ?_, fun f _ => ?_⟩
      · simp [firstFinishReason, hf] at h
      · simp only [processChoices, hret, if_true]
        exact ⟨trivial, stopStep_processChoice_some st c g hf hidx hclosed a h0 hopen⟩
    | none =>
      have hup : choicesUpToFinish (c :: cs) = c :: choicesUpToFinish cs := by
        simp [choicesUpToFinish, hf]
      rw [hup, toolCallsOf_cons] at hidx
      have hidx1 : ∀ x ∈ c.Delta.ToolCalls, 0 ≤ x.Index :=
        fun x hx => hidx x (List.mem_append_left _ hx)
      have hidx2 : ∀ x ∈ toolCallsOf (choicesUpToFinish cs), 0 ≤ x.Index :=
        fun x hx => hidx x (List.mem_append_right _ hx)
      obtain ⟨i1, i2, i3⟩ := stopStep_processChoice_none st c hf hidx1 hclosed a h0 hopen
      have hret : (processChoice st c).2.2 = false := (processChoice_of_none st c hf).1
      have hfin : firstFinishReason (c :: cs) = firstFinishReason cs := by
        simp [firstFinishReason, hf]
      obtain ⟨j1, j2⟩ := ih (processChoice st c).1 hidx2 i3
        ((processChoice st c).2.1.foldl stopStep a) i1 i2
      simp only [processChoices, hret, Bool.false_eq_true, if_false, List.foldl_append, hfin]
      exact ⟨j1, j2⟩

theorem stopStep_endOfStream (st : TranscoderState)
    (hclosed : st.lastToolIndex ≠ -1 → st.textBlockClosed = true)
    (a : Bool × Nat) (h0 : a.2 = 0) (hopen : st.lastToolIndex = -1 → a.1 = false) :
    ((endOfStream st).foldl stopStep a).2 = 0 := by
  unfold endOfStream
  split_ifs with hc
  · have hl : st.lastToolIndex = -1 := by
      by_contra hne
      rw [hclosed hne] at hc
      exact absurd hc (by simp)
    have ha := hopen hl
    obtain ⟨x, n⟩ := a
    simp only at ha h0
    subst ha
    subst h0
    simp [stopStep]
  · exact h0

theorem stopStep_readLoop (lines : List UpLine) (st : TranscoderState)
    (hidx : ∀ x ∈ toolCallsRead lines, 0 ≤ x.Index)
    (hclosed : st.lastToolIndex ≠ -1 → st.textBlockClosed = true)
    (a : Bool × Nat) (h0 : a.2 = 0) (hopen : st.lastToolIndex = -1 → a.1 = false) :
    ((readLoop st lines).foldl stopStep a).2 ≤ 1 ∧
    (firstFinishReason (choicesRead lines) = none →
      ((readLoop st lines).foldl stopStep a).2 = 0) := by
  induction lines generalizing st a with
  | nil =>
    have h := stopStep_endOfStream st hclosed a h0 hopen
    exact ⟨by simp only [readLoop]; omega, fun _ => h⟩
  | cons l rest ih =>
    cases l with
    | skip => exact ih st hidx hclosed a h0 hopen
    | done =>
      have h := stopStep_endOfStream st hclosed a h0 hopen
      exact ⟨by simp only [readLoop]; omega, fun _ => h⟩
    | invalid err =>
      have h := ih st hidx hclosed (stopStep a (.errorNotice err)) h0 hopen
      exact h
    | chunk c =>
      cases hfc : firstFinishReason c.Choices with
      | some g =>
        have hup : toolCallsRead (.chunk c :: rest) =
            toolCallsOf (choicesUpToFinish c.Choices) := by
          simp only [toolCallsRead, choicesRead]
          rw [choicesUpToFinish_append_of_some _ _ g hfc]
        have hfin : firstFinishReason (choicesRead (.chunk c :: rest)) = some g := by
          simp only [choicesRead]
          rw [firstFinishReason_append, hfc]
        rw [hup] at hidx
        obtain ⟨_, j2⟩ := stopStep_processChoices c.Choices st hidx hclosed a h0 hopen
        obtain ⟨k1, k2⟩ := j2 g hfc
        have hrl : readLoop st (.chunk c :: rest) = (processChoices st c.Choices).2.1 := by
          simp [readLoop, k1]
        rw [hrl, hfin]
        exact ⟨k2, fun h => absurd h (by simp)⟩
      | none =>
        have hup : toolCallsRead (.chunk c :: rest) =
            toolCallsOf (choicesUpToFinish c.Choices) ++ toolCallsRead rest := by
          simp only [toolCallsRead, choicesRead]
          rw [choicesUpToFinish_append_of_none _ _ hfc, toolCallsOf_append,
            choicesUpToFinish_of_none _ hfc]
        have hfin : firstFinishReason (choicesRead (.chunk c :: rest)) =
            firstFinishReason (choicesRead rest) := by
          simp only [choicesRead]
          rw [firstFinishReason_append, hfc]
        rw [hup] at hidx
        have hidx1 : ∀ x ∈ toolCallsOf (choicesUpToFinish c.Choices), 0 ≤ x.Index :=
          fun x hx => hidx x (List.mem_append_left _ hx)
        have hidx2 : ∀ x ∈ toolCallsRead rest, 0 ≤ x.Index :=
          fun x hx => hidx x (List.mem_append_right _ hx)
        obtain ⟨j1, _⟩ := stopStep_processChoices c.Choices st hidx1 hclosed a h0 hopen
        obtain ⟨k1, k2, k3, k4⟩ := j1 hfc
        have hrl : readLoop st (.chunk c :: rest) =
            (processChoices st c.Choices).2.1 ++ readLoop (processChoices st c.Choices).1 rest := by
          simp [readLoop, k1]
        rw [hrl, hfin, List.foldl_append]
        exact ih (processChoices st c.Choices).1 hidx2 k4 _ k2 k3

theorem stopStep_output (lines : List UpLine) (m : String)
    (hidx : ∀ x ∈ toolCallsRead lines, 0 ≤ x.Index) :
    ((ConvertOAIStreamToClaudeStream lines m).foldl stopStep (false, 0)).2 ≤ 1 ∧
    (firstFinishReason (choicesRead lines) = none →
      ((ConvertOAIStreamToClaudeStream lines m).foldl stopStep (false, 0)).2 = 0) := by
  have h := stopStep_readLoop lines TranscoderState.init hidx (fun h => absurd rfl h)
    (false, 0) rfl (fun _ => rfl)
  simpa [ConvertOAIStreamToClaudeStream, List.foldl_append, initialEvents, stopStep] using h

theorem toolUseBlocks_of_delivered (u : String → Option (List (String × GoAny)))
    (lines : List UpLine) (m : String)
    (hidx : ∀ x ∈ toolCallsRead lines, 0 ≤ x.Index)
    (decoded : List (Option EventRecord))
    (h : List.Forall₂ (fun w d => deliveredAs w d = true)
      (ConvertOAIStreamToClaudeStream lines m) decoded) :
    (reduceLoop u ReducerState.init decoded).toolUseBlocks.length ≤ 1 ∧
    (firstFinishReason (choicesRead lines) = none →
      (reduceLoop u ReducerState.init decoded).toolUseBlocks = []) := by
  have hb := foldl_readStep_stopStep u _ _ h (ReducerState.init, false) (false, 0)
    (Nat.le_refl _) (fun _ _ => rfl)
  rw [← reduceLoop_eq_readStep] at hb
  obtain ⟨h1, h2⟩ := stopStep_output lines m hidx
  refine ⟨Nat.le_trans hb h1, fun hf => ?_⟩
  rw [h2 hf] at hb
  exact List.length_eq_zero.mp (Nat.le_zero.mp hb)

/-! ## The pipeline: a line cut by a read of 4096 bytes -/

theorem splitLinesFrom_of_no_newline (current l : List Char) (h : '\n' ∉ l) :
    splitLinesFrom current l = [current.reverse ++ l] := by
  induction l generalizing current with
  | nil => simp [splitLinesFrom]
  | cons c cs ih =>
    have hc : c ≠ '\n' := fun e => h (by simp [e])
    have hcs : '\n' ∉ cs := fun e => h (List.mem_cons_of_mem _ e)
    simp [splitLinesFrom, hc, ih _ hcs]

theorem TrimSpace_of_clean (l : List Char)
    (hhead : ∃ c t, l = c :: t ∧ isSpace c = false)
    (hlast : ∃ t d, l = t ++ [d] ∧ isSpace d = false) :
    TrimSpace (String.mk l) = String.mk l := by
  obtain ⟨c, t, h1, hc⟩ := hhead
  obtain ⟨t2, d, h2, hd⟩ := hlast
  have hdrop : l.dropWhile isSpace = l := by
    rw [h1, List.dropWhile_cons_of_neg (by simp [hc])]
  have hrdrop : l.rdropWhile isSpace = l := by
    rw [h2, List.rdropWhile_concat_neg _ _ _ (by simp [hd])]
  simp only [TrimSpace, hdrop, hrdrop]

theorem TrimSpace_of_clean_blank (l : List Char)
    (hhead : ∃ c t, l = c :: t ∧ isSpace c = false)
    (hlast : ∃ t d, l = t ++ [d] ∧ isSpace d = false) :
    TrimSpace (String.mk (l ++ [' '])) = String.mk l := by
  obtain ⟨c, t, h1, hc⟩ := hhead
  obtain ⟨t2, d, h2, hd⟩ := hlast
  have hdrop : (l ++ [' ']).dropWhile isSpace = l ++ [' '] := by
    rw [h1, List.cons_append, List.dropWhile_cons_of_neg (by simp [hc])]
  have hrdrop : (l ++ [' ']).rdropWhile isSpace = l := by
    rw [List.rdropWhile_concat_pos _ _ _ (by decide), h2,
      List.rdropWhile_concat_neg _ _ _ (by simp [hd])]
  simp only [TrimSpace, hdrop, hrdrop]

theorem strippedLine_of_trimmed (line : String) (l : List Char)
    (htrim : TrimSpace line = String.mk l)
    (hhead : ∃ c t, l = c :: t ∧ c ≠ 'd') :
    strippedLine line = String.mk l := by
  obtain ⟨c, t, h1, hc⟩ := hhead
  have hne : String.mk l ≠ "" := by
    rw [h1]
    intro h
    have := congrArg String.data h
    simp at this
  have hpre : "data: ".data.isPrefixOf l = false := by
    rw [h1]
    have hd : "data: ".data = 'd' :: "ata: ".data := rfl
    rw [hd]
    simp [List.isPrefixOf, Ne.symm hc]
  simp only [strippedLine, htrim]
  rw [if_neg hne]
  simp [hpre]

theorem strippedRead_of_no_newline (l : List Char) (h : '\n' ∉ l) :
    strippedRead (String.mk l) = strippedLine (String.mk l) := by
  simp [strippedRead, splitLinesFrom_of_no_newline [] l h, concatAll]

theorem strippedRead_line (t r : List Char) (h : '\n' ∉ t) :
    strippedRead (String.mk (t ++ '\n' :: r)) =
      strippedLine (String.mk t) ++ strippedRead (String.mk r) := by
  simp [strippedRead, splitLinesFrom_append_newline, splitLinesFrom_of_no_newline [] t h,
    concatAll]

theorem eventStreamStripper_cut_after_blank (p t r : List Char)
    (hp_head : ∃ c l, p = c :: l ∧ isSpace c = false ∧ c ≠ 'd')
    (hp_last : ∃ l d, p = l ++ [d] ∧ isSpace d = false)
    (hp_nl : '\n' ∉ p)
    (ht_head : ∃ c l, t = c :: l ∧ isSpace c = false ∧ c ≠ 'd')
    (ht_last : ∃ l d, t = l ++ [d] ∧ isSpace d = false)
    (ht_nl : '\n' ∉ t) :
    eventStreamStripper [String.mk (p ++ [' ']), String.mk (t ++ '\n' :: r)] =
      String.mk (p ++ t) ++ strippedRead (String.mk r) ∧
    strippedInput (String.mk (p ++ t ++ '\n' :: r)) =
      String.mk (p ++ t) ++ strippedRead (String.mk r) ∧
    strippedInput (String.mk (p ++ ' ' :: t ++ '\n' :: r)) =
      String.mk (p ++ ' ' :: t) ++ strippedRead (String.mk r) := by
  obtain ⟨c, l, h1, hc, hcd⟩ := hp_head
  obtain ⟨l2, d, h2, hd⟩ := hp_last
  obtain ⟨c3, l3, h3, hc3, hcd3⟩ := ht_head
  obtain ⟨l4, d4, h4, hd4⟩ := ht_last
  have hp : strippedLine (String.mk (p ++ [' '])) = String.mk p :=
    strippedLine_of_trimmed _ p
      (TrimSpace_of_clean_blank p ⟨c, l, h1, hc⟩ ⟨l2, d, h2, hd⟩) ⟨c, l, h1, hcd⟩
  have ht : strippedLine (String.mk t) = String.mk t :=
    strippedLine_of_trimmed _ t
      (TrimSpace_of_clean t ⟨c3, l3, h3, hc3⟩ ⟨l4, d4, h4, hd4⟩) ⟨c3, l3, h3, hcd3⟩
  have hpt : strippedLine (String.mk (p ++ t)) = String.mk (p ++ t) :=
    strippedLine_of_trimmed _ (p ++ t)
      (TrimSpace_of_clean (p ++ t) ⟨c, l ++ t, by rw [h1]; rfl, hc⟩
        ⟨p ++ l4, d4, by rw [h4, List.append_assoc], hd4⟩)
      ⟨c, l ++ t, by rw [h1]; rfl, hcd⟩
  have hpbt : strippedLine (String.mk (p ++ ' ' :: t)) = String.mk (p ++ ' ' :: t) :=
    strippedLine_of_trimmed _ (p ++ ' ' :: t)
      (TrimSpace_of_clean (p ++ ' ' :: t) ⟨c, l ++ ' ' :: t, by rw [h1]; rfl, hc⟩
        ⟨p ++ ' ' :: l4, d4, by rw [h4]; simp, hd4⟩)
      ⟨c, l ++ ' ' :: t, by rw [h1]; rfl, hcd⟩
  have hnl1 : '\n' ∉ p ++ [' '] := by
    intro h
    rcases List.mem_append.mp h with h | h
    · exact hp_nl h
    · simp at h
  have hnl2 : '\n' ∉ p ++ t := by
    intro h
    rcases List.mem_append.mp h with h | h
    · exact hp_nl h
    · exact ht_nl h
  have hnl3 : '\n' ∉ p ++ ' ' :: t := by
    intro h
    rcases List.mem_append.mp h with h | h
    · exact hp_nl h
    · rcases List.mem_cons.mp h with h | h
      · exact absurd h (by decide)
      · exact ht_nl h
  refine ⟨?_, ?_, ?_⟩
  · have e1 : String.mk (p ++ t) = String.mk p ++ String.mk t := rfl
    simp only [eventStreamStripper, List.map_cons, List.map_nil, concatAll_cons]
    rw [strippedRead_of_no_newline _ hnl1, hp, strippedRead_line t r ht_nl, ht, e1]
    simp [concatAll, String.append_assoc]
  · have e : p ++ t ++ '\n' :: r = (p ++ t) ++ '\n' :: r := rfl
    rw [strippedInput, e, strippedRead_line _ r hnl2, hpt]
  · have e : p ++ ' ' :: t ++ '\n' :: r = (p ++ ' ' :: t) ++ '\n' :: r := by simp
    rw [strippedInput, e, strippedRead_line _ r hnl3, hpbt]

theorem chunksOf_two (size fuel : Nat) (a b : List Char) (hsize : 0 < size)
    (ha : a.length = size) (hb : b ≠ []) (hb2 : b.length ≤ size) :
    chunksOf size (fuel + 2) (a ++ b) = [a, b] := by
  subst ha
  have hane : a ≠ [] := by
    intro h
    rw [h] at hsize
    simp at hsize
  obtain ⟨x, xs, hx⟩ := List.exists_cons_of_ne_nil hane
  obtain ⟨y, ys, hy⟩ := List.exists_cons_of_ne_nil hb
  have h1 : chunksOf a.length (fuel + 2) (a ++ b) =
      (a ++ b).take a.length :: chunksOf a.length (fuel + 1) ((a ++ b).drop a.length) := by
    rw [hx]
    rfl
  have h2 : chunksOf a.length (fuel + 1) b =
      b.take a.length :: chunksOf a.length fuel (b.drop a.length) := by
    rw [hy]
    rfl
  have h3 : b.drop a.length = [] := List.drop_eq_nil_of_le hb2
  have h4 : chunksOf a.length fuel [] = [] := by
    cases fuel <;> rfl
  rw [h1, List.take_left, List.drop_left, h2, h3, h4, List.take_of_length_le hb2]

set_option maxRecDepth 100000 in
theorem emptyUpstreamOutput_cut (as front : List Char) (hlen : as.length = 4017)
    (hlast : as = front ++ ['a']) (hnl : '\n' ∉ as) :
    bufferReads (emptyUpstreamOutput (String.mk as ++ " b")) =
      [ messageStartHead ++ String.mk as ++ " ",
        "b" ++ messageStartTail ++ "\n" ++ emptyUpstreamRest ] ∧
    eventStreamStripper (bufferReads (emptyUpstreamOutput (String.mk as ++ " b"))) =
      strippedInput (emptyUpstreamOutput (String.mk as ++ "b")) ∧
    eventStreamStripper (bufferReads (emptyUpstreamOutput (String.mk as ++ " b"))) ≠
      strippedInput (emptyUpstreamOutput (String.mk as ++ " b")) := by
  have hH : messageStartHead.data = '\x7b' :: messageStartHead.data.tail := by decide
  have hHlen : messageStartHead.data.length = 78 := by decide
  have hHnl : '\n' ∉ messageStartHead.data := by decide
  have hT : messageStartTail.data = messageStartTail.data.dropLast ++ ['\x7d'] := by decide
  have hTnl : '\n' ∉ messageStartTail.data := by decide
  have hTlen : messageStartTail.data.length = 232 := by decide
  have hRlen : emptyUpstreamRest.data.length = 452 := by decide
  have hin : emptyUpstreamOutput (String.mk as ++ " b") =
      String.mk ((messageStartHead.data ++ as ++ [' ']) ++
        (('b' :: messageStartTail.data) ++ '\n' :: emptyUpstreamRest.data)) := by
    apply String.ext
    have e1 : (" b" : String).data = [' ', 'b'] := rfl
    have e2 : ("\n" : String).data = ['\n'] := rfl
    simp only [emptyUpstreamOutput, messageStartLine, String.data_append, e1, e2]
    simp only [List.append_assoc, List.cons_append, List.nil_append, List.singleton_append]
  have hout : emptyUpstreamOutput (String.mk as ++ "b") =
      String.mk ((messageStartHead.data ++ as) ++ ('b' :: messageStartTail.data) ++
        '\n' :: emptyUpstreamRest.data) := by
    apply String.ext
    have e1 : ("b" : String).data = ['b'] := rfl
    have e2 : ("\n" : String).data = ['\n'] := rfl
    simp only [emptyUpstreamOutput, messageStartLine, String.data_append, e1, e2]
    simp only [List.append_assoc, List.cons_append, List.nil_append, List.singleton_append]
  have hin2 : emptyUpstreamOutput (String.mk as ++ " b") =
      String.mk ((messageStartHead.data ++ as) ++ ' ' :: ('b' :: messageStartTail.data) ++
        '\n' :: emptyUpstreamRest.data) := by
    rw [hin]
    simp only [List.append_assoc, List.cons_append, List.nil_append, List.singleton_append]
  have hreads : bufferReads (emptyUpstreamOutput (String.mk as ++ " b")) =
      [ String.mk (messageStartHead.data ++ as ++ [' ']),
        String.mk (('b' :: messageStartTail.data) ++ '\n' :: emptyUpstreamRest.data) ] := by
    have hl : (emptyUpstreamOutput (String.mk as ++ " b")).length = 4782 := by
      rw [hin]
      simp only [String.length, List.length_append, List.length_cons, List.length_nil, hHlen,
        hlen, hTlen, hRlen]
    rw [bufferReads, hl, hin]
    rw [chunksOf_two 4096 4780 _ _ (by decide)
      (by simp only [List.length_append, List.length_cons, List.length_nil, hHlen, hlen])
      (by simp)
      (by simp only [List.length_append, List.length_cons, hTlen, hRlen]; decide)]
    rfl
  obtain ⟨k1, k2, k3⟩ := eventStreamStripper_cut_after_blank (messageStartHead.data ++ as)
    ('b' :: messageStartTail.data) emptyUpstreamRest.data
    ⟨'\x7b', messageStartHead.data.tail ++ as, by rw [hH]; rfl, by decide, by decide⟩
    ⟨messageStartHead.data ++ front, 'a', by rw [hlast, List.append_assoc], by decide⟩
    (by
      intro h
      rcases List.mem_append.mp h with h | h
      · exact hHnl h
      · exact hnl h)
    ⟨'b', messageStartTail.data, rfl, by decide, by decide⟩
    ⟨'b' :: messageStartTail.data.dropLast, '\x7d', by rw [hT]; simp, by decide⟩
    (by
      intro h
      rcases List.mem_cons.mp h with h | h
      · exact absurd h (by decide)
      · exact hTnl h)
  refine ⟨?_, ?_, ?_⟩
  · have e1 : (" " : String).data = [' '] := rfl
    have e2 : ("\n" : String).data = ['\n'] := rfl
    have e3 : ("b" : String).data = ['b'] := rfl
    have a1 : String.mk (messageStartHead.data ++ as ++ [' ']) =
        messageStartHead ++ String.mk as ++ " " := by
      apply String.ext
      simp only [String.data_append, e1]
    have a2 : String.mk (('b' :: messageStartTail.data) ++ '\n' :: emptyUpstreamRest.data) =
        "b" ++ messageStartTail ++ "\n" ++ emptyUpstreamRest := by
      apply String.ext
      simp only [String.data_append, e2, e3, List.append_assoc, List.cons_append,
        List.nil_append, List.singleton_append]
    rw [hreads, a1, a2]
  · rw [hreads, k1, hout, k2]
  · rw [hreads, k1, hin2, k3]
    intro h
    have h2 := congrArg String.length h
    rw [String.length_append, String.length_append] at h2
    simp only [String.length, List.length_append, List.length_cons] at h2
    omega

theorem sameShape_recordOf (e : StreamEvent) : sameShape (recordOf e) (recordOf e) = true := by
  cases e with
  | contentBlockStart i b => cases b <;> simp [recordOf, sameShape]
  | contentBlockDelta i d => cases d <;> simp [recordOf, sameShape]
  | _ => simp [recordOf, sameShape]

theorem forall₂_deliveredAs_decodeWritten (dn : String → Option EventRecord)
    (ws : List Written)
    (hdn : ∀ err, Written.errorNotice err ∈ ws →
      dn (errorNoticeText err) = none ∨ ∃ ev, dn (errorNoticeText err) = some (.other ev)) :
    List.Forall₂ (fun w d => deliveredAs w d = true) ws (ws.map (decodeWritten dn)) := by
  induction ws with
  | nil => exact List.Forall₂.nil
  | cons w ws ih =>
    refine List.Forall₂.cons ?_ (ih (fun err h => hdn err (List.mem_cons_of_mem _ h)))
    cases w with
    | event e => simpa [decodeWritten, deliveredAs] using sameShape_recordOf e
    | done => simp [decodeWritten, deliveredAs]
    | errorNotice err =>
      rcases hdn err (List.mem_cons_self _ _) with h | ⟨ev, h⟩
      · simp [decodeWritten, deliveredAs, h]
      · simp [decodeWritten, deliveredAs, h]

/-- C31 (as amended): for every upstream whose tool-call indices are all non-negative, the
response that `ParseClaudeStreamToResponse` builds from the output of
`ConvertOAIStreamToClaudeStream` holds at most one tool-use block, and none when the
upstream ends without a `finish_reason`, however the reads of `eventStreamStripper` cut the
output and whatever becomes of the error notices.  When a `finish_reason` is read, every
write reaches the decoder as it was written and the error notice of every malformed line
decodes, the tool-use blocks of the response are those of the block opened last, that is of
the entries from the last change of index on: one block with the id and the name of the
entry that opened it and the input assembled from the fragments of these entries when that
entry has an id and a name, and no block otherwise.  The last `content_block_start` of a
tool-use block that the transcoder writes is the one of that entry. -/
theorem C31_tool_calls_through_pipeline (u : String → Option (List (String × GoAny)))
    (lines : List UpLine) (m : String)
    (hidx : ∀ tc ∈ toolCallsRead lines, 0 ≤ tc.Index) :
    (∀ decoded : List (Option EventRecord),
      List.Forall₂ (fun w d => deliveredAs w d = true)
        (ConvertOAIStreamToClaudeStream lines m) decoded →
      ∃ resp, ParseClaudeStreamToResponse u decoded = .ok resp ∧
        (toolUseBlocksOf resp.Content).length ≤ 1 ∧
        (firstFinishReason (choicesRead lines) = none →
          toolUseBlocksOf resp.Content = [])) ∧
    (∀ (dn : String → Option EventRecord) (f : String),
      firstFinishReason (choicesRead lines) = some f →
      (∀ err, UpLine.invalid err ∈ lines →
        ∃ ev, dn (errorNoticeText err) = some (.other ev)) →
      ∃ resp, ParseClaudeStreamToResponse u
          ((ConvertOAIStreamToClaudeStream lines m).map (decodeWritten dn)) = .ok resp ∧
        toolUseBlocksOf resp.Content = survivingBlocks u (lastRun (toolCallsRead lines))) ∧
    ((ConvertOAIStreamToClaudeStream lines m).filter isToolUseStart).getLast? =
      (lastRun (toolCallsRead lines)).head?.map toolUseStartOf := by
  refine ⟨fun decoded h => ?_, fun dn f hf hall => ?_, ?_⟩
  · obtain ⟨h1, h2⟩ := toolUseBlocks_of_delivered u lines m hidx decoded h
    refine ⟨_, rfl, ?_, fun hf => ?_⟩
    · show (toolUseBlocksOf (filteredContentBlocks _)).length ≤ 1
      rw [toolUseBlocksOf_filteredContentBlocks]
      exact h1
    · show toolUseBlocksOf (filteredContentBlocks _) = []
      rw [toolUseBlocksOf_filteredContentBlocks]
      exact h2 hf
  · have hloop : reduceLoop u ReducerState.init
        ((ConvertOAIStreamToClaudeStream lines m).map (decodeWritten dn)) =
        ((readLoop TranscoderState.init lines).foldl (pipeStep dn u)
          (textOnlyState m "" (some 0) none, false)).1 := by
      rw [← reduceLoop_eq_pipeStep]
      rfl
    obtain ⟨_, i2⟩ := pipeStep_readLoop dn u lines TranscoderState.init []
      (fun x hx => absurd hx (List.not_mem_nil _)) hidx
      (fun err he => Or.inr (hall err he)) rfl (fun h => absurd rfl h)
      (textOnlyState m "" (some 0) none, false) rfl (fun _ => ⟨rfl, rfl⟩)
    refine ⟨_, rfl, ?_⟩
    show toolUseBlocksOf (filteredContentBlocks _) = _
    rw [toolUseBlocksOf_filteredContentBlocks, hloop]
    exact (i2 f hf).2 rfl hall
  · rw [filter_isToolUseStart_output]
    have h := filter_isToolUseStart_processToolCalls (toolCallsRead lines) []
      (fun x hx => absurd hx (List.not_mem_nil _)) hidx [] rfl
    simpa [lastIndexOf, lastRun] using h

/-- C31 (as amended) at an upstream with two tool calls one after the other, a malformed
line whose error notice decodes, and `finish_reason` `"tool_calls"`, when every write
reaches the decoder as it was written: the response holds the second block only, with the
input assembled from its two fragments. -/
theorem C31_tool_calls_through_pipeline_witness :
    (∀ tc ∈ toolCallsRead twoBashToolCallsStream, 0 ≤ tc.Index) ∧
    firstFinishReason (choicesRead twoBashToolCallsStream) = some "tool_calls" ∧
    ∃ resp, ParseClaudeStreamToResponse unmarshalCommandLs
        ((ConvertOAIStreamToClaudeStream twoBashToolCallsStream
          "claude-3-sonnet-20240229").map (decodeWritten (fun _ => some (.other "")))) =
          .ok resp ∧
      toolUseBlocksOf resp.Content =
        [{ Type_ := "tool_use", ID := "call_2", Name := "Bash",
           Input := [("command", .str "ls")] }] :=
  ⟨by decide, by decide,
   match (C31_tool_calls_through_pipeline unmarshalCommandLs twoBashToolCallsStream
     "claude-3-sonnet-20240229" (by decide)).2.1 (fun _ => some (.other "")) "tool_calls"
     (by decide) (fun _ _ => ⟨"", rfl⟩) with
   | ⟨resp, h, hlast⟩ => ⟨resp, h, hlast.trans rfl⟩⟩

/-- C33 (defect in the code): the response is to carry the model name `m` for every model
name.  The reducer reads the output through `eventStreamStripper`, which takes the buffer in
reads of 4096 bytes and trims each one as if it held whole lines.  For the model name of
4017 times `a`, a blank and `b`, the `message_start` line has 78 bytes in front of the
model name, so the first read ends with the blank of the model name, which is trimmed away:
for an upstream without lines the decoder receives, byte for byte, what it receives for the
model name without the blank, and not what the lines of the output hold. -/
theorem C33_model_name_altered_in_delivery :
    ConvertOAIStreamToClaudeStream [] longModelName =
      initialEvents longModelName ++
        [ .event (.contentBlockStop 0), .event (.messageDelta "end_turn" none 0),
          .event .messageStop, .done ] ∧
    bufferReads (emptyUpstreamOutput longModelName) =
      [ messageStartHead ++ String.mk (List.replicate 4017 'a') ++ " ",
        "b" ++ messageStartTail ++ "\n" ++ emptyUpstreamRest ] ∧
    (messageStartHead ++ String.mk (List.replicate 4017 'a') ++ " ").length = 4096 ∧
    eventStreamStripper (bufferReads (emptyUpstreamOutput longModelName)) =
      strippedInput (emptyUpstreamOutput longModelNameWithoutBlank) ∧
    eventStreamStripper (bufferReads (emptyUpstreamOutput longModelName)) ≠
      strippedInput (emptyUpstreamOutput longModelName) ∧
    longModelNameWithoutBlank ≠ longModelName := by
  have hlast : List.replicate 4017 'a' = List.replicate 4016 'a' ++ ['a'] :=
    List.replicate_succ' 4016 'a'
  have hnl : '\n' ∉ List.replicate 4017 'a' :=
    fun h => absurd (List.eq_of_mem_replicate h) (by decide)
  obtain ⟨h1, h2, h3⟩ := emptyUpstreamOutput_cut (List.replicate 4017 'a')
    (List.replicate 4016 'a') (List.length_replicate _ _) hlast hnl
  refine ⟨rfl, h1, ?_, h2, h3, ?_⟩
  · have hH : messageStartHead.length = 78 := by decide
    have e3 : (" " : String).length = 1 := rfl
    have em : (String.mk (List.replicate 4017 'a')).length =
        (List.replicate 4017 'a').length := rfl
    rw [String.length_append, String.length_append, em, List.length_replicate, hH, e3]
  · intro h
    have e1 : ("b" : String).length = 1 := rfl
    have e2 : (" b" : String).length = 2 := rfl
    have em : (String.mk (List.replicate 4017 'a')).length =
        (List.replicate 4017 'a').length := rfl
    have h2 := congrArg String.length h
    rw [longModelName, longModelNameWithoutBlank, String.length_append, String.length_append,
      em, List.length_replicate, e1, e2] at h2
    omega

end ClaudeProxy
